import Mathlib

/-!
# LibGGPK3 (Go port): record parsing, record cache, tree resolution, file data

A shallow embedding of `pkg/ggpk/records.go` and `pkg/ggpk/ggpk.go`.

* Go `string` is a list of characters, `[]byte` a list of `UInt8`.
* `int32`, `int64` are `Int`, `uint32` is `Nat`; every place where Go arithmetic
  wraps carries an explicit wrap (`wrapInt32`, `wrapInt64`, `% 2 ^ 32`).
* Go pointers to records are indices into per-type object stores kept next to
  the handle (`ggpkRecords`, `freeRecords`, `fileRecords`, `dirRecords`); a
  record that a failed parse would leave as garbage is never stored.
* A Go call returns a value, returns an error, or does not return at all
  (runtime panic, unbounded recursion): `Res.ok`, `Res.err`, `Res.crash`.
* The byte source is an in-memory file with a position; it records every seek
  and every read issued against it.
* The text decoders and the LZ4 block decompressor are external libraries and
  enter as function values.
-/

namespace GGPK

/-! ## Go values -/

/-- Go `string`. -/
abbrev GoString := List Char

/-- The error returns of the package, by the site that creates them. -/
inductive GoError
  | openFailed
  | seekFailed
  | readFailed
  | unexpectedTag
  | decodeFailed
  | unknownTag
  | unknownTagSeekFailed
  | invalidOffset
  | wrongRecordType
  | nilFileRecord
  | negativeDataLength
  | nilDirectory
  | childNotFound
  | notADirectory
  deriving DecidableEq, Repr

/-- Outcome of a Go call: a value, an error value, or no return at all
(runtime panic such as a nil dereference or a slice bound violation, or
recursion that never ends). -/
inductive Res (α : Type)
  | ok (a : α)
  | err (e : GoError)
  | crash
  deriving DecidableEq, Repr

/-- Little-endian value of a byte sequence. -/
def leBytes : List UInt8 → Nat
  | [] => 0
  | b :: bs => b.toNat + 256 * leBytes bs

/-- Conversion to `int32` (two's complement wrap). -/
def wrapInt32 (i : Int) : Int := (i + 2 ^ 31) % 2 ^ 32 - 2 ^ 31

/-- Conversion to `int64` (two's complement wrap). -/
def wrapInt64 (i : Int) : Int := (i + 2 ^ 63) % 2 ^ 64 - 2 ^ 63

/-- Conversion to `uint32`. -/
def wrapUint32 (n : Nat) : Nat := n % 2 ^ 32

/-! ## records.go -/

def RecordHeaderSize : Int := 8
def HashSize : Nat := 32

def GGPKRecordTag : Nat := 0x4B504747
def FreeRecordTag : Nat := 0x45455246
def FileRecordTag : Nat := 0x454C4946
def PDirRecordTag : Nat := 0x52494450

structure BaseRecord where
  Offset : Int
  Length : Int
  Tag : Nat
  deriving DecidableEq, Repr

structure GGPKRecord extends BaseRecord where
  Version : Nat
  RootDirectoryOffset : Int
  FirstFreeOffset : Int
  deriving DecidableEq, Repr

structure FreeRecord extends BaseRecord where
  NextFreeOffset : Int
  deriving DecidableEq, Repr

structure DirectoryEntry where
  NameHash : Nat
  Offset : Int
  deriving DecidableEq, Repr

/-- A `TreeNode` interface value: the nil interface, a `*FileRecord`, or a
`*DirectoryRecord` (which may be the nil pointer, as `TreeNode(gf.Root)` of a
handle without a root). -/
inductive TreeNode
  | nil
  | file (p : Nat)
  | dir (p : Option Nat)
  deriving DecidableEq, Repr

/-- The record `FileRecord`; `parent` is the field of the embedded `BaseTreeNode`. -/
structure FileRecord extends BaseRecord where
  parent : Option Nat
  NameLength : Nat
  Hash : List UInt8
  Name : GoString
  DataOffset : Int
  DataLength : Int
  deriving DecidableEq, Repr

/-- The record `DirectoryRecord`; `Children` is `none` for the nil slice. -/
structure DirectoryRecord extends BaseRecord where
  parent : Option Nat
  NameLength : Nat
  EntryCount : Nat
  Hash : List UInt8
  Name : GoString
  Entries : List DirectoryEntry
  Children : Option (List TreeNode)
  childRecordsDirty : Bool
  deriving DecidableEq, Repr

/-- An `interface{}` value stored in the record cache: dynamic type and pointer. -/
inductive RecordRef
  | ggpk (p : Nat)
  | free (p : Nat)
  | file (p : Nat)
  | dir (p : Nat)
  deriving DecidableEq, Repr

/-! ## The byte source (`*os.File`) -/

inductive FileOp
  | seek (offset : Int)
  | seekCurrent
  | read (n : Nat)
  deriving DecidableEq, Repr

structure OSFile where
  data : List UInt8
  pos : Nat
  ops : List FileOp
  deriving DecidableEq, Repr

/-- The call `f.Seek(offset, io.SeekStart)`: fails for a negative offset. -/
def OSFile.Seek (f : OSFile) (offset : Int) : Bool × OSFile :=
  if offset < 0 then (false, { f with ops := f.ops ++ [FileOp.seek offset] })
  else (true, { f with pos := offset.toNat, ops := f.ops ++ [FileOp.seek offset] })

/-- The call `io.ReadFull(f, buf)` with `len(buf) = n`: the bytes obtained (all `n`
on success, fewer on a short read) and the file afterwards. An empty buffer
issues no read. -/
def OSFile.ReadFull (f : OSFile) (n : Nat) : List UInt8 × OSFile :=
  if n = 0 then ([], f)
  else
    let got := (f.data.drop f.pos).take n
    (got, { f with pos := f.pos + got.length, ops := f.ops ++ [FileOp.read n] })

/-! ## ggpk.go: the handle -/

/-- A `transform.Transformer` used through `transform.Bytes`: `none` is a decode error. -/
abbrev Decoder := List UInt8 → Option GoString

/-- The function `lz4.UncompressBlock(src, dst)` with `len(dst) = dstLen`: `none` is an
error, `some out` the bytes written to the front of `dst` (`n = out.length`). -/
abbrev UncompressBlockFn := List UInt8 → Nat → Option (List UInt8)

/-- The struct `GGPKFile` together with the records it points to.
`stringReadBuf` is the backing array of the slice (its length is `cap`). -/
structure GGPKFile where
  File : Option OSFile
  Header : GGPKRecord
  Root : Option Nat
  recordCache : Int → Option RecordRef
  stringReadBuf : List UInt8
  utf16LEDecoder : Option Decoder
  utf32LEDecoder : Option Decoder
  ggpkRecords : List GGPKRecord
  freeRecords : List FreeRecord
  fileRecords : List FileRecord
  dirRecords : List DirectoryRecord

/-- A method of `*GGPKFile`: from a state to an outcome and the state afterwards. -/
def M (α : Type) := GGPKFile → Res α × GGPKFile

def M.pure {α : Type} (a : α) : M α := fun gf => (Res.ok a, gf)

def M.bind {α β : Type} (m : M α) (f : α → M β) : M β := fun gf =>
  match m gf with
  | (Res.ok a, gf1) => f a gf1
  | (Res.err e, gf1) => (Res.err e, gf1)
  | (Res.crash, gf1) => (Res.crash, gf1)

instance : Monad M where
  pure := M.pure
  bind := M.bind

/-- Return the error `e`. -/
def fail {α : Type} (e : GoError) : M α := fun gf => (Res.err e, gf)

/-- A runtime panic. -/
def crash {α : Type} : M α := fun gf => (Res.crash, gf)

def getState : M GGPKFile := fun gf => (Res.ok gf, gf)

/-- The call `gf.File.Seek(offset, io.SeekStart)`; on a nil file it returns `os.ErrInvalid`. -/
def seekStart (offset : Int) (e : GoError) : M Unit := fun gf =>
  match gf.File with
  | none => (Res.err e, gf)
  | some f =>
    match f.Seek offset with
    | (true, f1) => (Res.ok (), { gf with File := some f1 })
    | (false, f1) => (Res.err e, { gf with File := some f1 })

/-- The call `io.ReadFull(gf.File, buf)` for a fresh buffer of `n` bytes. -/
def readFull (n : Nat) : M (List UInt8) := fun gf =>
  if n = 0 then (Res.ok [], gf)
  else
    match gf.File with
    | none => (Res.err GoError.readFailed, gf)
    | some f =>
      match f.ReadFull n with
      | (got, f1) =>
        if got.length = n then (Res.ok got, { gf with File := some f1 })
        else (Res.err GoError.readFailed, { gf with File := some f1 })

/-- The call `binary.Read(gf.File, GGPKEndian, &x)` for `x : uint32`. -/
def readUint32 : M Nat := do
  let bs ← readFull 4
  return leBytes bs

/-- The call `binary.Read(gf.File, GGPKEndian, &x)` for `x : int32`. -/
def readInt32 : M Int := do
  let bs ← readFull 4
  return wrapInt32 (leBytes bs)

/-- The call `binary.Read(gf.File, GGPKEndian, &x)` for `x : int64`. -/
def readInt64 : M Int := do
  let bs ← readFull 8
  return wrapInt64 (leBytes bs)

/-- The statement `rec := &T{...}`: store a record and return its pointer. -/
def allocGGPK (r : GGPKRecord) : M Nat := fun gf =>
  (Res.ok gf.ggpkRecords.length, { gf with ggpkRecords := gf.ggpkRecords ++ [r] })

def allocFree (r : FreeRecord) : M Nat := fun gf =>
  (Res.ok gf.freeRecords.length, { gf with freeRecords := gf.freeRecords ++ [r] })

def allocFile (r : FileRecord) : M Nat := fun gf =>
  (Res.ok gf.fileRecords.length, { gf with fileRecords := gf.fileRecords ++ [r] })

def allocDir (r : DirectoryRecord) : M Nat := fun gf =>
  (Res.ok gf.dirRecords.length, { gf with dirRecords := gf.dirRecords ++ [r] })

/-- The method `readRecordHeaderAndSeek`: seek to `offset`, read `length` and `tag`. -/
def readRecordHeaderAndSeek (offset : Int) : M (Int × Nat) := do
  seekStart offset GoError.seekFailed
  let length ← readInt32
  let tag ← readUint32
  return (length, tag)

/-- The method `parseGGPKRecordBody`. -/
def parseGGPKRecordBody (offset : Int) : M Nat := do
  let (recordLength, tag) ← readRecordHeaderAndSeek offset
  if tag ≠ GGPKRecordTag then
    fail GoError.unexpectedTag
  else
    let version ← readUint32
    let rootDirectoryOffset ← readInt64
    let firstFreeOffset ← readInt64
    allocGGPK
      { Offset := offset, Length := recordLength, Tag := tag, Version := version,
        RootDirectoryOffset := rootDirectoryOffset, FirstFreeOffset := firstFreeOffset }

/-- Lines shared by `readUTF16String` and `readUTF32String`: size `gf.stringReadBuf`
to `numBytes` (a fresh zeroed array when the capacity is too small, a reslice
otherwise) and `io.ReadFull` into it. A short read overwrites the front of the
buffer with the bytes obtained. -/
def fillStringReadBuf (numBytes : Nat) : M Unit := fun gf =>
  let buf := if gf.stringReadBuf.length < numBytes then List.replicate numBytes 0
    else gf.stringReadBuf
  if numBytes = 0 then (Res.ok (), { gf with stringReadBuf := buf })
  else
    match gf.File with
    | none => (Res.err GoError.readFailed, { gf with stringReadBuf := buf })
    | some f =>
      match f.ReadFull numBytes with
      | (got, f1) =>
        if got.length = numBytes then
          (Res.ok (), { gf with File := some f1, stringReadBuf := got ++ buf.drop got.length })
        else
          (Res.err GoError.readFailed,
            { gf with File := some f1, stringReadBuf := got ++ buf.drop got.length })

/-- The expression `gf.stringReadBuf[:high]`: a panic when `high` exceeds the capacity. -/
def sliceStringReadBuf (high : Nat) : M (List UInt8) := fun gf =>
  if high ≤ gf.stringReadBuf.length then (Res.ok (gf.stringReadBuf.take high), gf)
  else (Res.crash, gf)

/-- The call `transform.Bytes(decoder, bytes)`; a nil transformer panics. -/
def transformBytes (decoder : Option Decoder) (bytes : List UInt8) : M GoString :=
  match decoder with
  | none => crash
  | some d =>
    match d bytes with
    | none => fail GoError.decodeFailed
    | some s => pure s

/-- The method `readUTF16String`. -/
def readUTF16String (nameLengthChars : Nat) : M GoString :=
  if nameLengthChars = 0 then pure []
  else do
    let numBytes := wrapUint32 (nameLengthChars * 2)
    fillStringReadBuf numBytes
    let actualStringBytes ← sliceStringReadBuf (wrapUint32 ((nameLengthChars - 1) * 2))
    let gf ← getState
    transformBytes gf.utf16LEDecoder actualStringBytes

/-- The method `readUTF32String`. -/
def readUTF32String (nameLengthChars : Nat) : M GoString :=
  if nameLengthChars = 0 then pure []
  else do
    let numBytes := wrapUint32 (nameLengthChars * 4)
    fillStringReadBuf numBytes
    let actualStringBytes ← sliceStringReadBuf (wrapUint32 ((nameLengthChars - 1) * 4))
    let gf ← getState
    transformBytes gf.utf32LEDecoder actualStringBytes

/-- The version switch on `gf.Header.Version` around the two string readers. -/
def readName (nameLength : Nat) : M GoString := do
  let gf ← getState
  if gf.Header.Version = 4 then readUTF32String nameLength
  else readUTF16String nameLength

/-- The method `parseFileRecordBody`. -/
def parseFileRecordBody (_offset : Int) (baseRecord : BaseRecord) : M Nat := do
  let nameLength ← readUint32
  let hash ← readFull HashSize
  let nameString ← readName nameLength
  let gf ← getState
  let nameBytesLength :=
    if gf.Header.Version = 4 then wrapUint32 (nameLength * 4) else wrapUint32 (nameLength * 2)
  let headerSizeWithoutData :=
    wrapInt32 (RecordHeaderSize + 4 + HashSize + wrapInt32 nameBytesLength)
  let dataLength := wrapInt32 (baseRecord.Length - headerSizeWithoutData)
  let dataOffset := wrapInt64 (baseRecord.Offset + headerSizeWithoutData)
  let expectedEndOffset := wrapInt64 (baseRecord.Offset + baseRecord.Length)
  seekStart expectedEndOffset GoError.seekFailed
  allocFile
    { toBaseRecord := baseRecord, parent := none, NameLength := nameLength, Hash := hash,
      Name := nameString, DataOffset := dataOffset, DataLength := dataLength }

/-- The entry loop of `parseDirectoryRecordBody`: `count` pairs `(NameHash, Offset)`. -/
def readEntries : Nat → M (List DirectoryEntry)
  | 0 => pure []
  | count + 1 => do
    let nameHash ← readUint32
    let offset ← readInt64
    let rest ← readEntries count
    return { NameHash := nameHash, Offset := offset } :: rest

/-- The method `parseDirectoryRecordBody`. -/
def parseDirectoryRecordBody (_offset : Int) (baseRecord : BaseRecord)
    (assignedNameIfRoot : GoString) : M Nat := do
  let nameLength ← readUint32
  let entryCount ← readUint32
  let hash ← readFull HashSize
  let name ←
    (if assignedNameIfRoot ≠ [] ∧ nameLength = 0 then pure assignedNameIfRoot
      else readName nameLength)
  let entries ← readEntries entryCount
  allocDir
    { toBaseRecord := baseRecord, parent := none, NameLength := nameLength,
      EntryCount := entryCount, Hash := hash, Name := name, Entries := entries,
      Children := some (List.replicate entryCount TreeNode.nil), childRecordsDirty := true }

/-- The method `currentOffset`: `gf.File.Seek(0, io.SeekCurrent)`. -/
def currentOffset : M Int := fun gf =>
  match gf.File with
  | none => (Res.err GoError.seekFailed, gf)
  | some f =>
    (Res.ok (f.pos : Int), { gf with File := some { f with ops := f.ops ++ [FileOp.seekCurrent] } })

/-- The method `parseFreeRecordBody`. -/
def parseFreeRecordBody (_offset : Int) (baseRecord : BaseRecord) : M Nat := do
  let nextFreeOffset ← readInt64
  let expectedEndOffset := wrapInt64 (baseRecord.Offset + baseRecord.Length)
  let currentPos ← currentOffset
  (if currentPos ≠ expectedEndOffset then seekStart expectedEndOffset GoError.seekFailed
    else pure ())
  allocFree { toBaseRecord := baseRecord, NextFreeOffset := nextFreeOffset }

/-- The statement `gf.recordCache[offset] = parsedRecord`. -/
def cacheStore (offset : Int) (r : RecordRef) : M Unit := fun gf =>
  (Res.ok (), { gf with recordCache := fun k => if k = offset then some r else gf.recordCache k })

/-- The `switch tag` of `ReadRecordAt`. -/
def parseByTag (offset : Int) (length : Int) (tag : Nat) : M RecordRef :=
  let baseRec : BaseRecord := { Offset := offset, Length := length, Tag := tag }
  if tag = GGPKRecordTag then do
    let p ← parseGGPKRecordBody offset
    pure (RecordRef.ggpk p)
  else if tag = PDirRecordTag then do
    let p ← parseDirectoryRecordBody offset baseRec []
    pure (RecordRef.dir p)
  else if tag = FileRecordTag then do
    let p ← parseFileRecordBody offset baseRec
    pure (RecordRef.file p)
  else if tag = FreeRecordTag then do
    let p ← parseFreeRecordBody offset baseRec
    pure (RecordRef.free p)
  else do
    seekStart (wrapInt64 (offset + length)) GoError.unknownTagSeekFailed
    fail GoError.unknownTag

/-- The method `ReadRecordAt`. -/
def ReadRecordAt (offset : Int) : M RecordRef := fun gf =>
  match gf.recordCache offset with
  | some cachedRecord => (Res.ok cachedRecord, gf)
  | none =>
    (do
      let (length, tag) ← readRecordHeaderAndSeek offset
      let parsedRecord ← parseByTag offset length tag
      cacheStore offset parsedRecord
      pure parsedRecord) gf

/-- Dereference a `*DirectoryRecord`. -/
def getDir (p : Nat) : M DirectoryRecord := fun gf =>
  match gf.dirRecords[p]? with
  | none => (Res.crash, gf)
  | some d => (Res.ok d, gf)

/-- Assign to fields of the directory record behind `p`. -/
def modifyDir (p : Nat) (f : DirectoryRecord → DirectoryRecord) : M Unit := fun gf =>
  match gf.dirRecords[p]? with
  | none => (Res.crash, gf)
  | some d => (Res.ok (), { gf with dirRecords := gf.dirRecords.set p (f d) })

/-- Dereference a `*FileRecord`. -/
def getFile (p : Nat) : M FileRecord := fun gf =>
  match gf.fileRecords[p]? with
  | none => (Res.crash, gf)
  | some r => (Res.ok r, gf)

/-- Assign to fields of the file record behind `p`. -/
def modifyFile (p : Nat) (f : FileRecord → FileRecord) : M Unit := fun gf =>
  match gf.fileRecords[p]? with
  | none => (Res.crash, gf)
  | some r => (Res.ok (), { gf with fileRecords := gf.fileRecords.set p (f r) })

/-- The method `ReadDirectoryRecordAt`. -/
def ReadDirectoryRecordAt (offset : Int) (parent : Option Nat) (assignedName : GoString) :
    M Nat :=
  if offset = 0 then fail GoError.invalidOffset
  else do
    let record ← ReadRecordAt offset
    match record with
    | RecordRef.dir dirRecord =>
      modifyDir dirRecord fun d =>
        { d with
          Name := if assignedName ≠ [] ∧ d.Name = [] then assignedName else d.Name,
          parent := parent }
      pure dirRecord
    | _ => fail GoError.wrongRecordType

/-- The method `ReadFileRecordAt`. -/
def ReadFileRecordAt (offset : Int) (parent : Option Nat) : M Nat :=
  if offset = 0 then fail GoError.invalidOffset
  else do
    let record ← ReadRecordAt offset
    match record with
    | RecordRef.file fileRecord =>
      modifyFile fileRecord fun r => { r with parent := parent }
      pure fileRecord
    | _ => fail GoError.wrongRecordType

/-- A seek whose result is discarded. -/
def seekStartIgnored (offset : Int) : M Unit := fun gf =>
  match gf.File with
  | none => (Res.ok (), gf)
  | some f => (Res.ok (), { gf with File := some (f.Seek offset).2 })

/-- The statement `dr.Children[i] = childNode`. -/
def setChild (dr : Nat) (i : Nat) (childNode : TreeNode) : M Unit := fun gf =>
  match gf.dirRecords[dr]? with
  | none => (Res.crash, gf)
  | some d =>
    match d.Children with
    | none => (Res.crash, gf)
    | some cs =>
      if i < cs.length then
        (Res.ok (),
          { gf with dirRecords := gf.dirRecords.set dr { d with Children := some (cs.set i childNode) } })
      else (Res.crash, gf)

/-- One iteration body of the loop of `GetChildren`: the child node for `entry`. -/
def resolveEntry (dr : Nat) (entry : DirectoryEntry) : M TreeNode := do
  let (_, tag) ← readRecordHeaderAndSeek entry.Offset
  if tag = PDirRecordTag then do
    let p ← ReadDirectoryRecordAt entry.Offset (some dr) []
    pure (TreeNode.dir (some p))
  else if tag = FileRecordTag then do
    let p ← ReadFileRecordAt entry.Offset (some dr)
    pure (TreeNode.file p)
  else do
    seekStartIgnored (wrapInt64 (entry.Offset + RecordHeaderSize))
    fail GoError.unexpectedTag

/-- The loop `for i, entry := range dr.Entries` of `GetChildren`, from index `i`. -/
def resolveEntries (dr : Nat) : Nat → List DirectoryEntry → M Unit
  | _, [] => pure ()
  | i, entry :: rest => do
    let childNode ← resolveEntry dr entry
    setChild dr i childNode
    resolveEntries dr (i + 1) rest

/-- The method `GetChildren` of a non-nil `*DirectoryRecord`. -/
def GetChildren (dr : Nat) : M (List TreeNode) := do
  let d ← getDir dr
  if d.childRecordsDirty = false ∧ d.Children ≠ none ∧
      (d.Children.getD []).length = d.EntryCount then
    pure (d.Children.getD [])
  else do
    modifyDir dr fun r => { r with Children := some (List.replicate r.EntryCount TreeNode.nil) }
    resolveEntries dr 0 d.Entries
    modifyDir dr fun r => { r with childRecordsDirty := false }
    let d1 ← getDir dr
    pure (d1.Children.getD [])

/-- The recursion of `(*DirectoryRecord).GetPath` along the parent pointers, at most
`fuel` calls deep; `none` when the calls do not end within `fuel`. -/
def DirectoryRecord.GetPathFuel (dirs : List DirectoryRecord) : Nat → Nat → Option GoString
  | 0, _ => none
  | fuel + 1, dr =>
    match dirs[dr]? with
    | none => none
    | some d =>
      if d.Name = [] ∧ d.parent = none then some []
      else
        match d.parent with
        | none => some d.Name
        | some q =>
          match DirectoryRecord.GetPathFuel dirs fuel q with
          | none => none
          | some parentPath =>
            if parentPath = [] then some d.Name else some (parentPath ++ '/' :: d.Name)

/-- The method `(*DirectoryRecord).GetPath`. A chain of parent pointers that
ends visits each directory record at most once, so recursion deeper than the
number of directory records never ends (the goroutine stack overflows): `crash`. -/
def DirectoryRecord.GetPath (dr : Option Nat) : M GoString := fun gf =>
  match dr with
  | none => (Res.crash, gf)
  | some p =>
    match DirectoryRecord.GetPathFuel gf.dirRecords (gf.dirRecords.length + 1) p with
    | none => (Res.crash, gf)
    | some s => (Res.ok s, gf)

/-- The method `(*FileRecord).GetPath`. -/
def FileRecord.GetPath (fr : Nat) : M GoString := do
  let r ← getFile fr
  match r.parent with
  | none => pure r.Name
  | some q =>
    let pd ← getDir q
    if pd.Name = [] ∧ pd.parent = none then pure r.Name
    else do
      let parentPath ← DirectoryRecord.GetPath (some q)
      pure (parentPath ++ '/' :: r.Name)

/-- The interface call `node.GetName()`. -/
def TreeNode.GetName : TreeNode → M GoString
  | TreeNode.nil => crash
  | TreeNode.file p => do
    let r ← getFile p
    pure r.Name
  | TreeNode.dir none => crash
  | TreeNode.dir (some p) => do
    let d ← getDir p
    pure d.Name

/-- The interface call `node.GetPath()`. -/
def TreeNode.GetPath : TreeNode → M GoString
  | TreeNode.nil => crash
  | TreeNode.file p => FileRecord.GetPath p
  | TreeNode.dir dr => DirectoryRecord.GetPath dr

/-- The interface call `node.GetParent()`. -/
def TreeNode.GetParent : TreeNode → M (Option Nat)
  | TreeNode.nil => crash
  | TreeNode.file p => do
    let r ← getFile p
    pure r.parent
  | TreeNode.dir none => crash
  | TreeNode.dir (some p) => do
    let d ← getDir p
    pure d.parent

/-- The pattern `if err != nil { return nil, fmt.Errorf(..., args, err) }`: on an error
of `m`, evaluate the arguments of the message, then return the wrapped error. -/
def wrapErr {α β : Type} (m : M α) (args : M β) : M α := fun gf =>
  match m gf with
  | (Res.err e, gf1) =>
    match args gf1 with
    | (Res.ok _, gf2) => (Res.err e, gf2)
    | (Res.err e1, gf2) => (Res.err e1, gf2)
    | (Res.crash, gf2) => (Res.crash, gf2)
  | r => r

/-- The scan `for _, child := range children` of `FindChildByName`. -/
def scanChildren (name : GoString) : List TreeNode → M (Option TreeNode)
  | [] => pure none
  | child :: rest =>
    if child = TreeNode.nil then scanChildren name rest
    else do
      let childName ← child.GetName
      if childName = name then pure (some child)
      else scanChildren name rest

/-- The method `FindChildByName`. -/
def FindChildByName (dr : Option Nat) (name : GoString) : M TreeNode :=
  match dr with
  | none => fail GoError.nilDirectory
  | some p => do
    let children ← wrapErr (GetChildren p) (DirectoryRecord.GetPath (some p))
    let found ← scanChildren name children
    match found with
    | some child => pure child
    | none => do
      let _ ← DirectoryRecord.GetPath (some p)
      fail GoError.childNotFound

/-- The call `strings.Trim(s, "/")`. -/
def stringsTrim (s : GoString) : GoString :=
  ((s.dropWhile (· = '/')).reverse.dropWhile (· = '/')).reverse

/-- The call `strings.Split(s, "/")`. -/
def stringsSplit : GoString → List GoString
  | [] => [[]]
  | c :: rest =>
    if c = '/' then [] :: stringsSplit rest
    else
      match stringsSplit rest with
      | [] => [[c]]
      | seg :: segs => (c :: seg) :: segs

/-- The loop `for i, part := range parts` of `GetNodeByPath`. -/
def walkParts : TreeNode → List GoString → M TreeNode
  | currentNode, [] => pure currentNode
  | currentNode, part :: rest =>
    if part = [] then walkParts currentNode rest
    else
      match currentNode with
      | TreeNode.dir dirNode => do
        let childNode ←
          wrapErr (FindChildByName dirNode part) (DirectoryRecord.GetPath dirNode)
        walkParts childNode rest
      | _ => fail GoError.notADirectory

/-- The method `GetNodeByPath`. -/
def GetNodeByPath (path : GoString) : M TreeNode := do
  let gf ← getState
  if path = [] ∨ path = ['/'] then pure (TreeNode.dir gf.Root)
  else walkParts (TreeNode.dir gf.Root) (stringsSplit (stringsTrim path))

def reasonableMaxSize : Nat := 500 * 1024 * 1024

/-- Lines 463 to 501 of `ReadFileData`: what is returned for the bytes `rawData` read
from the data range of a record with `DataLength = dataLength`. -/
def fileDataResult (UncompressBlock : UncompressBlockFn) (dataLength : Int)
    (rawData : List UInt8) : List UInt8 :=
  if dataLength ≥ 4 then
    let uncompressedSize := leBytes (rawData.take 4)
    let compressedData := rawData.drop 4
    if uncompressedSize = wrapUint32 compressedData.length then compressedData
    else if uncompressedSize > 0 ∧ uncompressedSize ≤ reasonableMaxSize then
      match UncompressBlock compressedData uncompressedSize with
      | some out => if out.length = uncompressedSize then out else rawData
      | none => rawData
    else rawData
  else rawData

/-- The method `ReadFileData`; `fileRecord` is the record behind the pointer argument
(`none` for the nil pointer). -/
def ReadFileData (UncompressBlock : UncompressBlockFn) (fileRecord : Option FileRecord) :
    M (List UInt8) :=
  match fileRecord with
  | none => fail GoError.nilFileRecord
  | some fr =>
    if fr.DataLength = 0 then pure []
    else if fr.DataLength < 0 then fail GoError.negativeDataLength
    else do
      seekStart fr.DataOffset GoError.seekFailed
      let rawData ← readFull fr.DataLength.toNat
      pure (fileDataResult UncompressBlock fr.DataLength rawData)

/-- The handle `Open` starts from, once `os.Open` has returned the file. -/
def newGGPKFile (utf16LE utf32LE : Decoder) (data : List UInt8) : GGPKFile :=
  { File := some { data := data, pos := 0, ops := [] },
    Header :=
      { Offset := 0, Length := 0, Tag := 0, Version := 0, RootDirectoryOffset := 0,
        FirstFreeOffset := 0 },
    Root := none,
    recordCache := fun _ => none,
    stringReadBuf := List.replicate 1024 0,
    utf16LEDecoder := some utf16LE,
    utf32LEDecoder := some utf32LE,
    ggpkRecords := [], freeRecords := [], fileRecords := [], dirRecords := [] }

/-- The statement `ggpkFile.Header = *header`. -/
def setHeader (h : GGPKRecord) : M Unit := fun gf => (Res.ok (), { gf with Header := h })

/-- The statement `ggpkFile.Root = root`. -/
def setRoot (root : Nat) : M Unit := fun gf => (Res.ok (), { gf with Root := some root })

/-- The body of `Open` after the handle is built. -/
def openBody : M Unit := do
  let header ← parseGGPKRecordBody 0
  let gf ← getState
  match gf.ggpkRecords[header]? with
  | none => crash
  | some h =>
    setHeader h
    cacheStore 0 (RecordRef.ggpk header)
    if h.Tag ≠ GGPKRecordTag then fail GoError.unexpectedTag
    else do
      let root ← ReadDirectoryRecordAt h.RootDirectoryOffset none []
      setRoot root

/-- The function `Open`; `file` is the content of the file at the path, `none` when
`os.Open` fails. The decoders are the ones `Open` builds from the text library. -/
def Open (utf16LE utf32LE : Decoder) (file : Option (List UInt8)) : Res GGPKFile :=
  match file with
  | none => Res.err GoError.openFailed
  | some data =>
    match openBody (newGGPKFile utf16LE utf32LE data) with
    | (Res.ok _, gf) => Res.ok gf
    | (Res.err e, _) => Res.err e
    | (Res.crash, _) => Res.crash

/-! ## Reference instances of the external libraries

Used to evaluate the code on concrete archives. -/

/-- The rune with code `n`, or U+FFFD when `n` is no Unicode scalar value. -/
def runeOrError (n : Nat) : Char :=
  if n < 0xD800 ∨ (0xDFFF < n ∧ n < 0x110000) then Char.ofNat n else Char.ofNat 0xFFFD

/-- UTF-16LE decoding in the manner of the text library (`Transform` of its UTF-16
decoder, called at the end of input): a code unit in the surrogate range (0xD800 to
0xDFFF) that is followed by a unit in 0xDC00 to 0xDFFF is decoded together with it,
to the character of the pair when the first unit is a lead surrogate (0xD800 to
0xDBFF) and to U+FFFD otherwise; any other surrogate and a trailing odd byte decode
to U+FFFD; it reports no error. -/
def refUTF16LE : Decoder
  | [] => some []
  | [_] => some [Char.ofNat 0xFFFD]
  | [lo, hi] => some [runeOrError (lo.toNat + 256 * hi.toNat)]
  | [lo, hi, _] => some [runeOrError (lo.toNat + 256 * hi.toNat), Char.ofNat 0xFFFD]
  | lo :: hi :: lo2 :: hi2 :: rest =>
    if 0xD800 ≤ lo.toNat + 256 * hi.toNat ∧ lo.toNat + 256 * hi.toNat < 0xE000 ∧
        0xDC00 ≤ lo2.toNat + 256 * hi2.toNat ∧ lo2.toNat + 256 * hi2.toNat < 0xE000 then
      match refUTF16LE rest with
      | none => none
      | some s =>
        some ((if lo.toNat + 256 * hi.toNat < 0xDC00 then
            Char.ofNat (0x10000 + (lo.toNat + 256 * hi.toNat - 0xD800) * 0x400 +
              (lo2.toNat + 256 * hi2.toNat - 0xDC00))
          else Char.ofNat 0xFFFD) :: s)
    else
      match refUTF16LE (lo2 :: hi2 :: rest) with
      | none => none
      | some s => some (runeOrError (lo.toNat + 256 * hi.toNat) :: s)

/-- UTF-32LE decoding in the manner of the text library, four bytes per character: a
code that is no scalar value, and trailing bytes short of a character, decode to
U+FFFD; it reports no error. -/
def refUTF32LE : Decoder
  | b0 :: b1 :: b2 :: b3 :: rest =>
    match refUTF32LE rest with
    | none => none
    | some s => some (runeOrError (leBytes [b0, b1, b2, b3]) :: s)
  | [] => some []
  | _ => some [Char.ofNat 0xFFFD]

/-- Length field of an LZ4 sequence: bytes are added up until one is below 255. -/
def lz4Length : List UInt8 → Nat → Option (Nat × List UInt8)
  | [], _ => none
  | b :: rest, acc =>
    if b = 255 then lz4Length rest (acc + 255) else some (acc + b.toNat, rest)

/-- Copy `n` bytes from `offset` bytes back in the output (the ranges may overlap). -/
def lz4Match (offset : Nat) : Nat → List UInt8 → Option (List UInt8)
  | 0, out => some out
  | n + 1, out =>
    match out[out.length - offset]? with
    | none => none
    | some b => lz4Match offset n (out ++ [b])

/-- The sequences of an LZ4 block, at most `fuel` of them. -/
def lz4Sequences : Nat → List UInt8 → List UInt8 → Option (List UInt8)
  | 0, _, _ => none
  | _ + 1, [], out => some out
  | fuel + 1, token :: rest, out =>
    match (if token.toNat / 16 = 15 then lz4Length rest 15 else some (token.toNat / 16, rest)) with
    | none => none
    | some (litLen, rest1) =>
      if rest1.length < litLen then none
      else
        match rest1.drop litLen with
        | [] => some (out ++ rest1.take litLen)
        | [_] => none
        | lo :: hi :: rest2 =>
          if lo.toNat + 256 * hi.toNat = 0 then none
          else
            match (if token.toNat % 16 = 15 then lz4Length rest2 15
                else some (token.toNat % 16, rest2)) with
            | none => none
            | some (matchLen, rest3) =>
              match lz4Match (lo.toNat + 256 * hi.toNat) (matchLen + 4)
                  (out ++ rest1.take litLen) with
              | none => none
              | some out1 => lz4Sequences fuel rest3 out1

/-- An LZ4 block decoder: an error when the block is malformed or its output does
not fit `dstLen` bytes. -/
def refUncompressBlock : UncompressBlockFn := fun src dstLen =>
  match lz4Sequences (src.length + 1) src [] with
  | none => none
  | some out => if out.length ≤ dstLen then some out else none

/-! ## ggpk_test.go: the synthetic archives -/

/-- The call `binary.Write(&buf, GGPKEndian, uint32(n))`. -/
def putUint32 (n : Nat) : List UInt8 :=
  [UInt8.ofNat (n % 256), UInt8.ofNat (n / 256 % 256), UInt8.ofNat (n / 65536 % 256),
    UInt8.ofNat (n / 16777216 % 256)]

/-- The call `binary.Write(&buf, GGPKEndian, int32(i))`. -/
def putInt32 (i : Int) : List UInt8 := putUint32 (i % 2 ^ 32).toNat

/-- The call `binary.Write(&buf, GGPKEndian, int64(i))`. -/
def putInt64 (i : Int) : List UInt8 :=
  putUint32 ((i % 2 ^ 64).toNat % 2 ^ 32) ++ putUint32 ((i % 2 ^ 64).toNat / 2 ^ 32)

/-- UTF-16LE encoding of Basic Multilingual Plane text. -/
def putUTF16LE : GoString → List UInt8
  | [] => []
  | c :: rest => UInt8.ofNat (c.toNat % 256) :: UInt8.ofNat (c.toNat / 256 % 256) :: putUTF16LE rest

/-- Bytes of an ASCII string. -/
def asciiBytes (s : GoString) : List UInt8 := s.map fun c => UInt8.ofNat c.toNat

/-- The helper `createFileRecordBytes` for a UTF-16 archive version. -/
def createFileRecordBytes (name : GoString) (fileData : List UInt8) : List UInt8 :=
  let recordBody :=
    putUint32 (name.length + 1) ++ (List.range 32).map UInt8.ofNat ++ putUTF16LE name ++ [0, 0]
  putInt32 (8 + recordBody.length + fileData.length) ++ putUint32 FileRecordTag ++ recordBody ++
    fileData

/-- A directory record as `buildTestGGPK` writes it (UTF-16 name with its terminator,
dummy hash), for a given name and entries; the root of `buildTestGGPK` has the
empty name. -/
def createDirRecordBytes (name : GoString) (entries : List DirectoryEntry) : List UInt8 :=
  let body :=
    putUint32 (name.length + 1) ++ putUint32 entries.length ++ (0xAA :: List.replicate 31 0) ++
      putUTF16LE name ++ [0, 0] ++
      entries.flatMap fun e => putUint32 e.NameHash ++ putInt64 e.Offset
  putInt32 (8 + body.length) ++ putUint32 PDirRecordTag ++ body

/-- The header record written by `buildTestGGPK`. -/
def createHeaderBytes (rootDirOffset : Int) : List UInt8 :=
  putInt32 28 ++ putUint32 GGPKRecordTag ++ putUint32 3 ++ putInt64 rootDirOffset ++ putInt64 0

def file2Payload : List UInt8 :=
  asciiBytes ("Some Long Compressed Data String, Repeated For Effect. " ++
    "Some Long Compressed Data String, Repeated For Effect.").toList

/-- An LZ4 block for `file2Payload`: 55 literals, a match of 49 bytes at distance 55,
5 closing literals. -/
def file2Block : List UInt8 :=
  [0xFF, 40] ++ file2Payload.take 55 ++ [55, 0, 30] ++ [0x50] ++ file2Payload.drop 104

/-- The archive of `buildTestGGPK(t, true)`: header, root directory with two
entries, `file1.txt` holding "Hello GGPK", `file2_lz4.dat` holding a
size-prefixed LZ4 block. -/
def buildTestGGPK : List UInt8 :=
  let file1 := createFileRecordBytes "file1.txt".toList (asciiBytes "Hello GGPK".toList)
  let file2 := createFileRecordBytes "file2_lz4.dat".toList
    (putUint32 file2Payload.length ++ file2Block)
  createHeaderBytes 28 ++
    createDirRecordBytes []
      [{ NameHash := 0x1111, Offset := 102 }, { NameHash := 0x2222, Offset := 102 + file1.length }] ++
    file1 ++ file2

/-! ## Accessors and concrete inputs used in the statements -/

/-- The base fields of the record behind a cache value, `none` for a dangling pointer. -/
def GGPKFile.baseOf (gf : GGPKFile) : RecordRef → Option BaseRecord
  | RecordRef.ggpk p => (gf.ggpkRecords[p]?).map (·.toBaseRecord)
  | RecordRef.free p => (gf.freeRecords[p]?).map (·.toBaseRecord)
  | RecordRef.file p => (gf.fileRecords[p]?).map (·.toBaseRecord)
  | RecordRef.dir p => (gf.dirRecords[p]?).map (·.toBaseRecord)

/-- The handle `&GGPKFile{File: f}` of the unit tests: only the byte source is set. -/
def bareHandle (file : Option OSFile) : GGPKFile :=
  { File := file,
    Header :=
      { Offset := 0, Length := 0, Tag := 0, Version := 0, RootDirectoryOffset := 0,
        FirstFreeOffset := 0 },
    Root := none,
    recordCache := fun _ => none,
    stringReadBuf := [],
    utf16LEDecoder := none,
    utf32LEDecoder := none,
    ggpkRecords := [], freeRecords := [], fileRecords := [], dirRecords := [] }

/-- The record `&FileRecord{Name: name, DataOffset: dataOffset, DataLength: dataLength}`. -/
def fileRecordLit (name : GoString) (dataOffset dataLength : Int) : FileRecord :=
  { Offset := 0, Length := 0, Tag := 0, parent := none, NameLength := 0, Hash := List.replicate 32 0,
    Name := name, DataOffset := dataOffset, DataLength := dataLength }

/-- The file content of `TestReadFileData_UncompressedWithLZ4Prefix`. -/
def prefixedUncompressed : List UInt8 :=
  putUint32 36 ++ asciiBytes "this data is not actually compressed".toList

/-- A file holding the size-prefixed LZ4 block of `file2Payload`. -/
def prefixedCompressed : List UInt8 := putUint32 109 ++ file2Block

/-- An archive whose root directory record stores the name "r" and has no entries. -/
def namedRootArchive : List UInt8 :=
  createHeaderBytes 28 ++ createDirRecordBytes ['r'] []

/-- The handle `Open` leaves for `namedRootArchive`. -/
def namedRootHandle : GGPKFile :=
  (openBody (newGGPKFile refUTF16LE refUTF32LE namedRootArchive)).2

/-- An archive whose root directory has one entry, pointing at the root directory
record itself. -/
def selfEntryArchive : List UInt8 :=
  createHeaderBytes 28 ++ createDirRecordBytes [] [{ NameHash := 0, Offset := 28 }]

/-- The handle `Open` leaves for `selfEntryArchive`. -/
def selfEntryHandle : GGPKFile :=
  (openBody (newGGPKFile refUTF16LE refUTF32LE selfEntryArchive)).2

/-- The handle `Open` leaves for the archive of `buildTestGGPK`. -/
def testHandle : GGPKFile := (openBody (newGGPKFile refUTF16LE refUTF32LE buildTestGGPK)).2

/-! ## Predicates on the resolved tree used in the statements -/

/-- The tag of the record header stored at `offset` of the byte source. -/
def tagAt (data : List UInt8) (offset : Int) : Nat :=
  leBytes ((data.drop (offset.toNat + 4)).take 4)

/-- In state `g`, `node` is the child that the entry `e` of directory `dr` denotes:
the record cached at `e.Offset`, as a Directory node when the tag stored there is
PDIR and as a File node when it is FILE, with `dr` as its parent. -/
def ChildOf (dr : Nat) (data : List UInt8) (e : DirectoryEntry) (node : TreeNode)
    (g : GGPKFile) : Prop :=
  (tagAt data e.Offset = PDirRecordTag ∧ ∃ p r, node = TreeNode.dir (some p) ∧
      g.recordCache e.Offset = some (RecordRef.dir p) ∧ g.dirRecords[p]? = some r ∧
      r.parent = some dr) ∨
  (tagAt data e.Offset = FileRecordTag ∧ ∃ p r, node = TreeNode.file p ∧
      g.recordCache e.Offset = some (RecordRef.file p) ∧ g.fileRecords[p]? = some r ∧
      r.parent = some dr)

/-- Directory `dr` is in the children-resolved state with children `cs`: the test at
the head of `GetChildren` holds. -/
def Resolved (dr : Nat) (cs : List TreeNode) (gf : GGPKFile) : Prop :=
  ∃ d, gf.dirRecords[dr]? = some d ∧ d.childRecordsDirty = false ∧ d.Children = some cs ∧
    cs.length = d.EntryCount

/-! ## Relations between the states before and after a step -/

/-- What a file record may undergo while directory `dr` resolves its children: its
parent, and nothing else, may be set to `dr`. -/
def FileKept (dr : Nat) (r r1 : FileRecord) : Prop :=
  r1 = { r with parent := r1.parent } ∧ (r1.parent = r.parent ∨ r1.parent = some dr)

/-- What the directory record behind `p` may undergo while directory `dr` resolves
its children: its parent may be set to `dr`; the entries of the children list of
the directory `w` (if any) may be assigned. -/
def DirKept (dr : Nat) (w : Option Nat) (p : Nat) (r r1 : DirectoryRecord) : Prop :=
  r1 = { r with parent := r1.parent, Children := r1.Children } ∧
  (r1.parent = r.parent ∨ r1.parent = some dr) ∧
  (some p ≠ w → r1.Children = r.Children) ∧
  r1.Children.map List.length = r.Children.map List.length

/-- The states before and after a step of the loop of `GetChildren` on `dr`; `w` is
the directory whose children list the step may assign to (`none` for the part of
an iteration that reads the child record, `some dr` for the assignment). -/
structure Resolving (dr : Nat) (w : Option Nat) (gf g1 : GGPKFile) : Prop where
  isSome : g1.File.isSome = gf.File.isSome
  data : g1.File.map (·.data) = gf.File.map (·.data)
  Header : g1.Header = gf.Header
  Root : g1.Root = gf.Root
  utf16LEDecoder : g1.utf16LEDecoder = gf.utf16LEDecoder
  utf32LEDecoder : g1.utf32LEDecoder = gf.utf32LEDecoder
  recordCache : ∀ (o : Int) (r : RecordRef), gf.recordCache o = some r → g1.recordCache o = some r
  ggpkRecords : ∃ l, g1.ggpkRecords = gf.ggpkRecords ++ l
  freeRecords : ∃ l, g1.freeRecords = gf.freeRecords ++ l
  fileRecords : ∀ (p : Nat) (r : FileRecord), gf.fileRecords[p]? = some r →
    ∃ r1, g1.fileRecords[p]? = some r1 ∧ FileKept dr r r1
  dirRecords : ∀ (p : Nat) (r : DirectoryRecord), gf.dirRecords[p]? = some r →
    ∃ r1, g1.dirRecords[p]? = some r1 ∧ DirKept dr w p r r1

/-- Every directory in the children-resolved state stays in it, with the same children. -/
def KeepsResolved (gf g1 : GGPKFile) : Prop :=
  ∀ (p : Nat) (cs : List TreeNode), Resolved p cs gf → Resolved p cs g1

/-- As `KeepsResolved`, for the directories other than `q`. -/
def KeepsResolvedBut (q : Nat) (gf g1 : GGPKFile) : Prop :=
  ∀ (p : Nat) (cs : List TreeNode), p ≠ q → Resolved p cs gf → Resolved p cs g1

/-! ## Further concrete archives -/

/-- An archive in which two directories list the same file: the root (at 28) holds the
directories "a" (at 102) and "b" (at 166), and each of them has one entry, the
file "f" at 230. -/
def sharedChildArchive : List UInt8 :=
  createHeaderBytes 28 ++
    createDirRecordBytes [] [{ NameHash := 1, Offset := 102 }, { NameHash := 2, Offset := 166 }] ++
    createDirRecordBytes ['a'] [{ NameHash := 3, Offset := 230 }] ++
    createDirRecordBytes ['b'] [{ NameHash := 4, Offset := 230 }] ++
    createFileRecordBytes ['f'] (asciiBytes "data".toList)

/-- The handle `Open` leaves for `sharedChildArchive`. -/
def sharedChildHandle : GGPKFile :=
  (openBody (newGGPKFile refUTF16LE refUTF32LE sharedChildArchive)).2

/-- The handle after looking up "a/f" and then "b/f" in `sharedChildArchive`. -/
def sharedChildVisited : GGPKFile :=
  (GetNodeByPath "b/f".toList (GetNodeByPath "a/f".toList sharedChildHandle).2).2

/-- An archive whose root directory lists a file (at 102) and then the header record
(at 0), whose tag is `GGPK`. -/
def badEntryArchive : List UInt8 :=
  createHeaderBytes 28 ++
    createDirRecordBytes [] [{ NameHash := 1, Offset := 102 }, { NameHash := 2, Offset := 0 }] ++
    createFileRecordBytes ['f'] (asciiBytes "data".toList)

def badEntryHandle : GGPKFile :=
  (openBody (newGGPKFile refUTF16LE refUTF32LE badEntryArchive)).2

/-- A file record of 44 bytes whose name-length field holds 2^31. -/
def hugeNameFileBytes : List UInt8 :=
  putInt32 44 ++ putUint32 FileRecordTag ++ putUint32 0x80000000 ++ List.replicate 32 0

/-- A free record of 16 bytes. -/
def freeRecordBytes : List UInt8 := putInt32 16 ++ putUint32 FreeRecordTag ++ putInt64 0

/-- An archive whose root directory lists the file record `hugeNameFileBytes` (at 102)
and then a free record (at 146). -/
def freeEntryArchive : List UInt8 :=
  createHeaderBytes 28 ++
    createDirRecordBytes [] [{ NameHash := 1, Offset := 102 }, { NameHash := 2, Offset := 146 }] ++
    hugeNameFileBytes ++ freeRecordBytes

def freeEntryHandle : GGPKFile :=
  (openBody (newGGPKFile refUTF16LE refUTF32LE freeEntryArchive)).2

/-! ## Names -/

/-- No UTF-16 code unit of the little-endian text that lies in the surrogate range
(0xD800 to 0xDFFF) is followed by a unit in 0xDC00 to 0xDFFF: the decoder takes no
two code units together, every code unit is one character. -/
def noSurrogatePair : List UInt8 → Bool
  | lo :: hi :: lo2 :: hi2 :: rest =>
    !(decide (0xD800 ≤ lo.toNat + 256 * hi.toNat ∧ lo.toNat + 256 * hi.toNat < 0xE000 ∧
        0xDC00 ≤ lo2.toNat + 256 * hi2.toNat ∧ lo2.toNat + 256 * hi2.toNat < 0xE000)) &&
      noSurrogatePair (lo2 :: hi2 :: rest)
  | _ => true

/-- The string reader for the character width `w`. -/
def readStringOfWidth (w : Nat) (nameLengthChars : Nat) : M GoString :=
  if w = 4 then readUTF32String nameLengthChars else readUTF16String nameLengthChars

/-- The decoder field for the character width `w`. -/
def decoderOfWidth (w : Nat) (gf : GGPKFile) : Option Decoder :=
  if w = 4 then gf.utf32LEDecoder else gf.utf16LEDecoder

/-- A name of three UTF-16 code units: the surrogate pair of U+1F600 and the
terminator. -/
def surrogateNameBytes : List UInt8 := [0x3D, 0xD8, 0x00, 0xDE, 0, 0]

def surrogateHandle : GGPKFile := newGGPKFile refUTF16LE refUTF32LE surrogateNameBytes

/-- A name of three UTF-16 code units: two trail surrogates (0xDC00) and the
terminator. -/
def trailPairNameBytes : List UInt8 := [0x00, 0xDC, 0x00, 0xDC, 0, 0]

def trailPairHandle : GGPKFile := newGGPKFile refUTF16LE refUTF32LE trailPairNameBytes

/-- A handle on a byte source holding the UTF-16 name "ab" and its terminator. -/
def shortNameHandle : GGPKFile :=
  newGGPKFile refUTF16LE refUTF32LE (putUTF16LE ['a', 'b'] ++ [0, 0])

/-- The layout of a file record: header, name length, hash, name text, terminator,
data. -/
def fileRecordLayout (w : Nat) (nameLength : Nat) (hash text term data : List UInt8) :
    List UInt8 :=
  putInt32 (8 + 4 + 32 + nameLength * w + data.length) ++ putUint32 FileRecordTag ++
    putUint32 nameLength ++ hash ++ text ++ term ++ data

/-- A handle on a byte source holding one file record, as `TestParseFileRecordBody`
sets it up: name "testfile.txt", data "hello". -/
def fileRecordHandle : GGPKFile :=
  newGGPKFile refUTF16LE refUTF32LE
    (createFileRecordBytes "testfile.txt".toList (asciiBytes "hello".toList))

/-! ## Further handles -/

/-- A handle on a byte source that holds the 28 bytes of a header record only. -/
def headerOnlyHandle : GGPKFile := newGGPKFile refUTF16LE refUTF32LE (createHeaderBytes 28)

/-- A record of 16 bytes with the tag "XXXX", which is none of the four known tags. -/
def unknownTagBytes : List UInt8 :=
  putInt32 16 ++ [0x58, 0x58, 0x58, 0x58] ++ List.replicate 8 0

def unknownTagHandle : GGPKFile := newGGPKFile refUTF16LE refUTF32LE unknownTagBytes

/-- A file record of 46 bytes (empty name, no data) whose length field holds `len`. -/
def declaredLengthFile (len : Int) : List UInt8 :=
  putInt32 len ++ putUint32 FileRecordTag ++ putUint32 1 ++ List.replicate 32 0 ++ [0, 0]

def declaredLengthHandle (len : Int) : GGPKFile :=
  newGGPKFile refUTF16LE refUTF32LE (declaredLengthFile len)

/-! ## Paths -/

/-- The call `strings.Join(names, "/")`. -/
def joinSlash : List GoString → GoString
  | [] => []
  | [s] => s
  | s :: t :: rest => s ++ '/' :: joinSlash (t :: rest)

/-- `chain` lists a directory and its ancestors, innermost first: each directory has
the next one as parent, and the last one is a root (empty name, no parent). -/
def isAncestry (dirs : List DirectoryRecord) : List Nat → Bool
  | [] => false
  | [r] =>
    match dirs[r]? with
    | some d => decide (d.Name = [] ∧ d.parent = none)
    | none => false
  | p :: q :: rest =>
    (match dirs[p]? with
      | some d => decide (d.parent = some q)
      | none => false) && isAncestry dirs (q :: rest)

/-- The names of the directories of `chain` other than the root, outermost first. -/
def ancestryNames (dirs : List DirectoryRecord) : List Nat → List GoString
  | [] => []
  | [_] => []
  | p :: q :: rest => ancestryNames dirs (q :: rest) ++ [((dirs[p]?).map (·.Name)).getD []]

/-- An archive with the tree root -> "Metadata" -> "Items" -> "file.dat". -/
def nestedArchive : List UInt8 :=
  createHeaderBytes 28 ++
    createDirRecordBytes [] [{ NameHash := 1, Offset := 90 }] ++
    createDirRecordBytes "Metadata".toList [{ NameHash := 2, Offset := 168 }] ++
    createDirRecordBytes "Items".toList [{ NameHash := 3, Offset := 240 }] ++
    createFileRecordBytes "file.dat".toList (asciiBytes "data".toList)

def nestedHandle : GGPKFile :=
  (GetNodeByPath "Metadata/Items/file.dat".toList
    (openBody (newGGPKFile refUTF16LE refUTF32LE nestedArchive)).2).2

/-- An archive with the tree root -> "" -> "x": a directory with the empty name that
is not the root, holding the directory "x". -/
def emptyNameArchive : List UInt8 :=
  createHeaderBytes 28 ++
    createDirRecordBytes [] [{ NameHash := 1, Offset := 90 }] ++
    createDirRecordBytes [] [{ NameHash := 2, Offset := 152 }] ++
    createDirRecordBytes ['x'] []

def emptyNameHandle : GGPKFile :=
  (GetChildren 1 (GetChildren 0
    (openBody (newGGPKFile refUTF16LE refUTF32LE emptyNameArchive)).2).2).2

/-! ## Archives for `Open` -/

/-- An archive whose header points at the file record `hugeNameFileBytes` (name
length 2^31) as root. -/
def fileRootArchive : List UInt8 := createHeaderBytes 28 ++ hugeNameFileBytes

/-- An archive whose header points at a file record (at 28) as root. -/
def plainFileRootArchive : List UInt8 :=
  createHeaderBytes 28 ++ createFileRecordBytes ['f'] (asciiBytes "data".toList)

/-! ## Layouts -/

/-- The encoding of directory entries: for each one `uint32 name_hash` and `int64
child_offset`, little-endian. -/
def entriesLayout (entries : List DirectoryEntry) : List UInt8 :=
  entries.flatMap fun e => putUint32 e.NameHash ++ putInt64 e.Offset

/-- The layout of a directory record: header, name length, entry count, hash, name
bytes (the name text and its terminator), entries. -/
def dirRecordLayout (len : Int) (nameLength : Nat) (hash nameBytes : List UInt8)
    (entries : List DirectoryEntry) : List UInt8 :=
  putInt32 len ++ putUint32 PDirRecordTag ++ putUint32 nameLength ++ putUint32 entries.length ++
    hash ++ nameBytes ++ entriesLayout entries

/-- A handle on a byte source holding one directory record, in the manner of
`TestParseDirectoryRecordBody`: name "dir", two entries. -/
def dirRecordHandle : GGPKFile :=
  newGGPKFile refUTF16LE refUTF32LE
    (createDirRecordBytes ['d', 'i', 'r']
      [{ NameHash := 0xABCD, Offset := 0x3000 }, { NameHash := 0x1234, Offset := 0x4000 }])

/-- A header record whose length field says 100 while the record has 28 bytes. -/
def longHeaderHandle : GGPKFile :=
  newGGPKFile refUTF16LE refUTF32LE
    (putInt32 100 ++ putUint32 GGPKRecordTag ++ putUint32 3 ++ putInt64 28 ++ putInt64 0)

/-- A directory record without name and entries whose length field says 1000 while
the record has 48 bytes. -/
def longDirHandle : GGPKFile :=
  newGGPKFile refUTF16LE refUTF32LE (dirRecordLayout 1000 0 (List.replicate 32 0) [] [])

/-- A file record with the one-unit empty name whose length field holds `-2^31`. -/
def farRecord : List UInt8 :=
  putInt32 (-(2 ^ 31)) ++ putUint32 FileRecordTag ++ putUint32 1 ++ List.replicate 32 0 ++ [0, 0]

/-- A handle on a byte source that holds `farRecord` after the bytes `pre`. -/
def farHandle (pre : List UInt8) : GGPKFile :=
  newGGPKFile refUTF16LE refUTF32LE (pre ++ farRecord)

/-- A handle on a byte source that holds `farRecord` at offset `2^31`. -/
def farFileHandle : GGPKFile := farHandle (List.replicate (2 ^ 31) 0)

/-- An archive in which the `name_hash` field of the root's only directory entry
(bytes 78 to 81, holding `h`) lies inside the file record the entry points at
(offset 70), where the same bytes are the record's name length. -/
def overlapArchive (h : Nat) : List UInt8 :=
  createHeaderBytes 28 ++
    putInt32 62 ++ putUint32 PDirRecordTag ++ putUint32 1 ++ putUint32 1 ++
    (List.replicate 26 0 ++ putInt32 48 ++ [0x46, 0x49]) ++ [0x4C, 0x45] ++
    putUint32 h ++ putInt64 70 ++
    List.replicate 24 0 ++ putUTF16LE ['a', 'b'] ++ [0, 0]

/-- The handle `Open` leaves for `overlapArchive h`. -/
def overlapHandle (h : Nat) : GGPKFile :=
  (openBody (newGGPKFile refUTF16LE refUTF32LE (overlapArchive h))).2

/-- A directory record with the `NameHash` of every entry set to zero. -/
def eraseNameHash (d : DirectoryRecord) : DirectoryRecord :=
  { d with Entries := d.Entries.map fun e => { e with NameHash := 0 } }

/-- A handle with the `NameHash` of every entry of every directory record set to zero. -/
def GGPKFile.eraseNameHashes (gf : GGPKFile) : GGPKFile :=
  { gf with dirRecords := gf.dirRecords.map eraseNameHash }

/-- Two outcomes of the same kind whose values are related by `R`. -/
def RelRes {α : Type} (R : α → α → Prop) : Res α → Res α → Prop
  | Res.ok a, Res.ok b => R a b
  | Res.err e, Res.err e1 => e = e1
  | Res.crash, Res.crash => True
  | _, _ => False

/-- Handles that differ at most in the `NameHash` fields of their directory entries. -/
structure HashEq (g g1 : GGPKFile) : Prop where
  File : g.File = g1.File
  Header : g.Header = g1.Header
  Root : g.Root = g1.Root
  recordCache : g.recordCache = g1.recordCache
  stringReadBuf : g.stringReadBuf = g1.stringReadBuf
  utf16LEDecoder : g.utf16LEDecoder = g1.utf16LEDecoder
  utf32LEDecoder : g.utf32LEDecoder = g1.utf32LEDecoder
  ggpkRecords : g.ggpkRecords = g1.ggpkRecords
  freeRecords : g.freeRecords = g1.freeRecords
  fileRecords : g.fileRecords = g1.fileRecords
  dirRecords : g.dirRecords.map eraseNameHash = g1.dirRecords.map eraseNameHash

/-- The runs of `m` and `m1` from handles that differ at most in name hashes end with
outcomes related by `R`, in handles that differ at most in name hashes. -/
def Indep {α : Type} (R : α → α → Prop) (m m1 : M α) : Prop :=
  ∀ g g1, HashEq g g1 → RelRes R (m g).1 (m1 g1).1 ∧ HashEq (m g).2 (m1 g1).2

/-- The method `m` neither reads nor writes the directory records. -/
def Obliv {α : Type} (m : M α) : Prop :=
  ∀ g ds, m { g with dirRecords := ds } = ((m g).1, { (m g).2 with dirRecords := ds })

/-! ## Archives with a directory entry that points back -/

/-- An archive whose root (at 28) holds the directory "a" (at 90), whose one entry
points at the root record. -/
def backEntryArchive : List UInt8 :=
  createHeaderBytes 28 ++
    createDirRecordBytes [] [{ NameHash := 1, Offset := 90 }] ++
    createDirRecordBytes ['a'] [{ NameHash := 2, Offset := 28 }]

/-- The handle `Open` leaves for `backEntryArchive`. -/
def backEntryHandle : GGPKFile :=
  (openBody (newGGPKFile refUTF16LE refUTF32LE backEntryArchive)).2

/-- The handle after `GetNodeByPath("a")` and `GetChildren` on the node returned. -/
def backEntryVisited : GGPKFile :=
  (GetChildren 1 (GetNodeByPath ['a'] backEntryHandle).2).2

/-! ## Parent chains -/

/-- `chain` lists a directory and its ancestors, innermost first: each directory has
the next one as parent, and the last one has no parent (whatever its name). -/
def isParentChain (dirs : List DirectoryRecord) (chain : List Nat) : Bool :=
  isAncestry (dirs.map fun d => { d with Name := [] }) chain

/-- An archive with the tree root -> `name` -> { file "s", directory "s" }: the
directory `name` (at 90) holds a file named "s" and a directory named "s". -/
def siblingArchive (name : GoString) : List UInt8 :=
  createHeaderBytes 28 ++
    createDirRecordBytes [] [{ NameHash := 1, Offset := 90 }] ++
    createDirRecordBytes name
      [{ NameHash := 2, Offset := 164 + 2 * name.length },
        { NameHash := 3, Offset := 216 + 2 * name.length }] ++
    createFileRecordBytes ['s'] (asciiBytes "data".toList) ++
    createDirRecordBytes ['s'] []

/-- The handle after `Open` on `siblingArchive name`, `GetChildren` on the root and
`GetChildren` on its child. -/
def siblingHandle (name : GoString) : GGPKFile :=
  (GetChildren 1 (GetChildren 0
    (openBody (newGGPKFile refUTF16LE refUTF32LE (siblingArchive name))).2).2).2

/-! ## States that differ by input and output only -/

/-- Only the byte source's position and log and the string buffer may differ. -/
structure IOStep (gf gf1 : GGPKFile) : Prop where
  isSome : gf1.File.isSome = gf.File.isSome
  data : gf1.File.map (·.data) = gf.File.map (·.data)
  Header : gf1.Header = gf.Header
  Root : gf1.Root = gf.Root
  recordCache : gf1.recordCache = gf.recordCache
  utf16LEDecoder : gf1.utf16LEDecoder = gf.utf16LEDecoder
  utf32LEDecoder : gf1.utf32LEDecoder = gf.utf32LEDecoder
  ggpkRecords : gf1.ggpkRecords = gf.ggpkRecords
  freeRecords : gf1.freeRecords = gf.freeRecords
  fileRecords : gf1.fileRecords = gf.fileRecords
  dirRecords : gf1.dirRecords = gf.dirRecords

/-! ## Lookup and computed path -/

/-- A call of the lookup API on an open handle. -/
inductive ApiCall
  | children (dr : Nat)
  | lookup (path : GoString)

/-- The handle after a sequence of API calls, whatever each of them returned. -/
def runCalls : List ApiCall → GGPKFile → GGPKFile
  | [], gf => gf
  | ApiCall.children dr :: rest, gf => runCalls rest (GetChildren dr gf).2
  | ApiCall.lookup path :: rest, gf => runCalls rest (GetNodeByPath path gf).2

/-- The non-empty segments of a path between its `/` characters. -/
def pathSegments (path : GoString) : List GoString :=
  (stringsSplit path).filter fun s => decide (s ≠ [])

/-- The name of the root directory record of the handle. -/
def rootName (gf : GGPKFile) : Option GoString :=
  (gf.Root.bind fun r => gf.dirRecords[r]?).map (·.Name)

/-- The offset of the root directory record of the handle. -/
def rootOffset (gf : GGPKFile) : Option Int :=
  (gf.Root.bind fun r => gf.dirRecords[r]?).map (·.Offset)

/-- Among the directory records the handle has parsed, no offset is the target of
entries of two different directories, and no entry targets the offset of the root
record. -/
def UniqueTargets (gf : GGPKFile) : Prop :=
  (∀ x ∈ gf.dirRecords.enum, ∀ y ∈ gf.dirRecords.enum, ∀ e1 ∈ x.2.Entries, ∀ e2 ∈ y.2.Entries,
    e1.Offset = e2.Offset → x.1 = y.1) ∧
  (∀ x ∈ gf.dirRecords.enum, ∀ e ∈ x.2.Entries, rootOffset gf ≠ some e.Offset)

instance (gf : GGPKFile) : Decidable (UniqueTargets gf) := by
  unfold UniqueTargets
  infer_instance

/-- The records of `g` are still there in `g1`, with the same base fields, name and
entries, and the root is the same. -/
structure Stable (g g1 : GGPKFile) : Prop where
  Root : g1.Root = g.Root
  dirRecords : ∀ (p : Nat) (r : DirectoryRecord), g.dirRecords[p]? = some r →
    ∃ r1, g1.dirRecords[p]? = some r1 ∧ r1.toBaseRecord = r.toBaseRecord ∧ r1.Name = r.Name ∧
      r1.Entries = r.Entries

/-- The node `node` is the record cached at the target of an entry of the directory
record `d` (the one behind `q`), and has `q` as parent. -/
def LinkedChild (g : GGPKFile) (q : Nat) (d : DirectoryRecord) (node : TreeNode) : Prop :=
  ∃ e ∈ d.Entries,
    (∃ p r, node = TreeNode.dir (some p) ∧ g.recordCache e.Offset = some (RecordRef.dir p) ∧
      g.dirRecords[p]? = some r ∧ r.parent = some q) ∨
    (∃ p r, node = TreeNode.file p ∧ g.recordCache e.Offset = some (RecordRef.file p) ∧
      g.fileRecords[p]? = some r ∧ r.parent = some q)

/-- The links between cache, records and resolved children that the lookup relies
on: the root, once set, has the empty name and no parent; a cached directory or file record
carries the offset it is cached at; every directory record has as many entries as
its entry count; a directory whose dirty flag is cleared holds a children list of
that length, and each child is the record cached at the target of one of its
entries, with the directory as parent. -/
structure Linked (g : GGPKFile) : Prop where
  root : ∀ r : Nat, g.Root = some r →
    ∃ d, g.dirRecords[r]? = some d ∧ d.Name = [] ∧ d.parent = none
  cacheDir : ∀ (o : Int) (p : Nat), g.recordCache o = some (RecordRef.dir p) →
    ∃ r, g.dirRecords[p]? = some r ∧ r.Offset = o
  cacheFile : ∀ (o : Int) (p : Nat), g.recordCache o = some (RecordRef.file p) →
    ∃ r, g.fileRecords[p]? = some r ∧ r.Offset = o
  counts : ∀ (p : Nat) (d : DirectoryRecord), g.dirRecords[p]? = some d →
    d.Entries.length = d.EntryCount
  clean : ∀ (p : Nat) (d : DirectoryRecord), g.dirRecords[p]? = some d →
    d.childRecordsDirty = false → ∃ cs, d.Children = some cs ∧ cs.length = d.EntryCount
  kids : ∀ (q : Nat) (d : DirectoryRecord) (cs : List TreeNode), g.dirRecords[q]? = some d →
    d.childRecordsDirty = false → d.Children = some cs → ∀ node ∈ cs, LinkedChild g q d node

/-- `chain` lists a directory and its ancestors up to the root of the handle,
innermost first, each one a resolved child of the next. -/
def WellChain (g : GGPKFile) : List Nat → Prop
  | [] => False
  | [r] => g.Root = some r
  | x :: y :: rest =>
    (∃ cs, Resolved y cs g ∧ TreeNode.dir (some x) ∈ cs) ∧ WellChain g (y :: rest)

/-- The node `cur` was reached from the root through directories named `segs`, the
last name being its own. -/
def Located (g : GGPKFile) (cur : TreeNode) (segs : List GoString) : Prop :=
  (∃ q anc, cur = TreeNode.dir (some q) ∧ WellChain g (q :: anc) ∧
    ancestryNames g.dirRecords (q :: anc) = segs) ∨
  (∃ fr r q anc, cur = TreeNode.file fr ∧ g.fileRecords[fr]? = some r ∧ r.parent = some q ∧
    WellChain g (q :: anc) ∧ ancestryNames g.dirRecords (q :: anc) ++ [r.Name] = segs)

/-- On a successful run `Q` relates the state before, the result and the state after;
on any other run only the byte source's position and log and the string buffer
have changed. -/
def IOThen {α : Type} (m : M α) (Q : GGPKFile → α → GGPKFile → Prop) : Prop :=
  ∀ g, match m g with
    | (Res.ok a, g1) => Q g a g1
    | (_, g1) => IOStep g g1

/-- After input and output only, one record was stored: `ref` points at it, and a
directory or file record carries the offset `o`; a directory record is fresh (no
parent, dirty flag set, as many entries as its entry count). -/
def Added (o : Int) (g : GGPKFile) (ref : RecordRef) (g1 : GGPKFile) : Prop :=
  ∃ g0, IOStep g g0 ∧
    ((∃ r, ref = RecordRef.dir g0.dirRecords.length ∧
        g1 = { g0 with dirRecords := g0.dirRecords ++ [r] } ∧ r.Offset = o ∧ r.parent = none ∧
        r.childRecordsDirty = true ∧ r.Entries.length = r.EntryCount) ∨
      (∃ r, ref = RecordRef.file g0.fileRecords.length ∧
        g1 = { g0 with fileRecords := g0.fileRecords ++ [r] } ∧ r.Offset = o) ∨
      (∃ r, ref = RecordRef.ggpk g0.ggpkRecords.length ∧
        g1 = { g0 with ggpkRecords := g0.ggpkRecords ++ [r] }) ∨
      (∃ r, ref = RecordRef.free g0.freeRecords.length ∧
        g1 = { g0 with freeRecords := g0.freeRecords ++ [r] }))

/-- An archive with the tree of `nestedArchive`, for the lookup witnesses. -/
def nestedOpened : GGPKFile := (openBody (newGGPKFile refUTF16LE refUTF32LE nestedArchive)).2

/-- Directory `dr` holds the entries `E` and has its dirty flag set. -/
def Dirty (dr : Nat) (E : List DirectoryEntry) (g : GGPKFile) : Prop :=
  ∃ d, g.dirRecords[dr]? = some d ∧ d.childRecordsDirty = true ∧ d.Entries = E

/-- Every directory record has its dirty flag set. -/
def AllDirty (g : GGPKFile) : Prop :=
  ∀ (p : Nat) (d : DirectoryRecord), g.dirRecords[p]? = some d → d.childRecordsDirty = true

/-- Running `m` keeps `P`, whatever the outcome, when the targets in the state it
leaves are unique. -/
def Pres {α : Type} (P : GGPKFile → Prop) (m : M α) : Prop :=
  ∀ g, P g → UniqueTargets (m g).2 → P (m g).2

/-! ## Two archives that differ in name hashes -/

/-- The byte sequences `a` and `a1` hold the same `n` bytes from position `p` on. -/
def Agree (a a1 : List UInt8) (p n : Nat) : Prop :=
  (a.drop p).take n = (a1.drop p).take n

instance (a a1 : List UInt8) (p n : Nat) : Decidable (Agree a a1 p n) := by
  unfold Agree
  infer_instance

/-- The byte count `uint32(NameLength * w)` of the name of a record of `a` whose
name length field lies at position `p`, for the archive version `v`. -/
def nameBytes (a : List UInt8) (v : Nat) (p : Nat) : Nat :=
  wrapUint32 (leBytes ((a.drop p).take 4) * (if v = 4 then 4 else 2))

/-- The archives `a` and `a1` agree on the bytes of the record that `a` holds at
offset `o`, other than the name hash fields of directory entries: on the 8 bytes
of length and tag, and by the tag of the record on the rest of a header record
(28 bytes in all), on the next offset of a free record, on name length, hash and
name of a file record, and on name length, entry count, hash, name and the offset
field of every entry of a directory record. -/
def AgreeRecord (a a1 : List UInt8) (v : Nat) (o : Int) : Prop :=
  0 ≤ o →
    Agree a a1 o.toNat 8 ∧
    (tagAt a o = GGPKRecordTag → Agree a a1 o.toNat 28) ∧
    (tagAt a o = FreeRecordTag → Agree a a1 (o.toNat + 8) 8) ∧
    (tagAt a o = FileRecordTag →
      Agree a a1 (o.toNat + 8) (36 + nameBytes a v (o.toNat + 8))) ∧
    (tagAt a o = PDirRecordTag →
      Agree a a1 (o.toNat + 8) (40 + nameBytes a v (o.toNat + 8)) ∧
      ∀ k, k < leBytes ((a.drop (o.toNat + 12)).take 4) →
        Agree a a1 (o.toNat + 48 + nameBytes a v (o.toNat + 8) + 12 * k + 4) 8)

instance (a a1 : List UInt8) (v : Nat) (o : Int) : Decidable (AgreeRecord a a1 v o) := by
  unfold AgreeRecord
  infer_instance

/-- The handle `g` on the byte source `a1`: position and log of the byte source and
everything else are kept. -/
def swapData (a1 : List UInt8) (g : GGPKFile) : GGPKFile :=
  { g with File := g.File.map fun f => { f with data := a1 } }

/-- The run of `m` from `g` on the byte source `a1` has the outcome of the run from
`g`, and leaves the same handle on the byte source `a1`. -/
def SwapEq {α : Type} (a1 : List UInt8) (m : M α) (g : GGPKFile) : Prop :=
  m (swapData a1 g) = ((m g).1, swapData a1 (m g).2)

/-- The run of `m` from `g` on the byte source `a1` has the outcome of the run from
`g`, and leaves a handle that differs from the one on `a1` at most in name hashes. -/
def SwapRel {α : Type} (a1 : List UInt8) (m : M α) (g : GGPKFile) : Prop :=
  (m (swapData a1 g)).1 = (m g).1 ∧ HashEq (swapData a1 (m g).2) (m (swapData a1 g)).2

/-- The method `m` neither reads nor writes the byte source. -/
def FileFree {α : Type} (m : M α) : Prop :=
  ∀ g F, m { g with File := F } = ((m g).1, { (m g).2 with File := F })

/-- The handle `g1` reads the same bytes as `g` and has the same header. -/
def SameSource (g g1 : GGPKFile) : Prop :=
  g1.File.map (·.data) = g.File.map (·.data) ∧ g1.Header = g.Header

/-- The byte sources `a` and `a1` agree, except for name hashes, on the record at the
target of every entry of every directory record of `g`. -/
def AgreeEntries (a a1 : List UInt8) (v : Nat) (g : GGPKFile) : Prop :=
  ∀ (p : Nat) (d : DirectoryRecord), g.dirRecords[p]? = some d →
    ∀ e ∈ d.Entries, AgreeRecord a a1 v e.Offset

/-- The archive `nestedArchive` with other values in the name hash fields of its
three directory entries. -/
def rehashedNestedArchive : List UInt8 :=
  createHeaderBytes 28 ++
    createDirRecordBytes [] [{ NameHash := 0xCAFE0001, Offset := 90 }] ++
    createDirRecordBytes "Metadata".toList [{ NameHash := 0xCAFE0002, Offset := 168 }] ++
    createDirRecordBytes "Items".toList [{ NameHash := 0xCAFE0003, Offset := 240 }] ++
    createFileRecordBytes "file.dat".toList (asciiBytes "data".toList)

end GGPK

/-! # Theorems -/

namespace GGPK

/-! ## Running the monad -/

theorem bind_apply {α β : Type} (m : M α) (f : α → M β) (gf : GGPKFile) :
    (m >>= f) gf =
      match m gf with
      | (Res.ok a, gf1) => f a gf1
      | (Res.err e, gf1) => (Res.err e, gf1)
      | (Res.crash, gf1) => (Res.crash, gf1) := rfl

theorem pure_apply {α : Type} (a : α) (gf : GGPKFile) : (pure a : M α) gf = (Res.ok a, gf) := rfl

theorem bind_eq_ok {α β : Type} {m : M α} {f : α → M β} {gf gf2 : GGPKFile} {b : β} :
    (m >>= f) gf = (Res.ok b, gf2) ↔
      ∃ a gf1, m gf = (Res.ok a, gf1) ∧ f a gf1 = (Res.ok b, gf2) := by
  rw [bind_apply]
  rcases h : m gf with ⟨r, gf1⟩
  cases r with
  | ok a =>
    constructor
    · intro h1
      exact ⟨a, gf1, rfl, h1⟩
    · rintro ⟨a1, g1, h1, h2⟩
      cases h1
      exact h2
  | err e => simp
  | crash => simp

theorem bind_eq_err {α β : Type} {m : M α} {f : α → M β} {gf gf2 : GGPKFile} {e : GoError} :
    (m >>= f) gf = (Res.err e, gf2) ↔
      m gf = (Res.err e, gf2) ∨ ∃ a gf1, m gf = (Res.ok a, gf1) ∧ f a gf1 = (Res.err e, gf2) := by
  rw [bind_apply]
  rcases h : m gf with ⟨r, gf1⟩
  cases r with
  | ok a =>
    constructor
    · intro h1
      exact Or.inr ⟨a, gf1, rfl, h1⟩
    · rintro (h1 | ⟨a1, g1, h1, h2⟩)
      · cases h1
      · cases h1
        exact h2
  | err e1 => simp
  | crash => simp

/-- Every run of `m` relates the state before to the state after by `R`. -/
def Keeps {α : Type} (R : GGPKFile → GGPKFile → Prop) (m : M α) : Prop :=
  ∀ gf, R gf (m gf).2

theorem keeps_of_eq {α : Type} {R : GGPKFile → GGPKFile → Prop} {m : M α} (h : Keeps R m)
    {gf gf1 : GGPKFile} {r : Res α} (e : m gf = (r, gf1)) : R gf gf1 := by
  have := h gf
  rw [e] at this
  exact this

theorem keeps_bind {α β : Type} {R : GGPKFile → GGPKFile → Prop}
    (htrans : ∀ a b c, R a b → R b c → R a c) {m : M α} {f : α → M β}
    (hm : Keeps R m) (hf : ∀ a, Keeps R (f a)) : Keeps R (m >>= f) := by
  intro gf
  rw [bind_apply]
  have h1 := hm gf
  rcases h : m gf with ⟨r, gf1⟩
  rw [h] at h1
  cases r with
  | ok a => exact htrans _ _ _ h1 (hf a gf1)
  | err e => exact h1
  | crash => exact h1

theorem ioStep_refl (gf : GGPKFile) : IOStep gf gf := by
  constructor <;> rfl

theorem ioStep_trans (a b c : GGPKFile) (h1 : IOStep a b) (h2 : IOStep b c) : IOStep a c := by
  constructor
  · rw [h2.isSome, h1.isSome]
  · rw [h2.data, h1.data]
  · rw [h2.Header, h1.Header]
  · rw [h2.Root, h1.Root]
  · rw [h2.recordCache, h1.recordCache]
  · rw [h2.utf16LEDecoder, h1.utf16LEDecoder]
  · rw [h2.utf32LEDecoder, h1.utf32LEDecoder]
  · rw [h2.ggpkRecords, h1.ggpkRecords]
  · rw [h2.freeRecords, h1.freeRecords]
  · rw [h2.fileRecords, h1.fileRecords]
  · rw [h2.dirRecords, h1.dirRecords]

theorem io_pure {α : Type} (a : α) : Keeps IOStep (pure a : M α) := fun gf => ioStep_refl gf

theorem io_fail {α : Type} (e : GoError) : Keeps IOStep (fail e : M α) := fun gf => ioStep_refl gf

theorem io_crash {α : Type} : Keeps IOStep (crash : M α) := fun gf => ioStep_refl gf

theorem io_getState : Keeps IOStep getState := fun gf => ioStep_refl gf

theorem io_bind {α β : Type} {m : M α} {f : α → M β}
    (hm : Keeps IOStep m) (hf : ∀ a, Keeps IOStep (f a)) : Keeps IOStep (m >>= f) :=
  keeps_bind ioStep_trans hm hf

theorem io_seekStart (offset : Int) (e : GoError) : Keeps IOStep (seekStart offset e) := by
  intro gf
  unfold seekStart
  cases hf : gf.File with
  | none => exact ioStep_refl gf
  | some f =>
    simp only [OSFile.Seek]
    by_cases h : offset < 0 <;> simp only [h, if_true, if_false] <;> constructor <;> simp [hf]

theorem io_seekStartIgnored (offset : Int) : Keeps IOStep (seekStartIgnored offset) := by
  intro gf
  unfold seekStartIgnored
  cases hf : gf.File with
  | none => exact ioStep_refl gf
  | some f =>
    simp only [OSFile.Seek]
    by_cases h : offset < 0 <;> simp only [h, if_true, if_false] <;> constructor <;> simp [hf]

theorem io_readFull (n : Nat) : Keeps IOStep (readFull n) := by
  intro gf
  unfold readFull
  split
  · exact ioStep_refl gf
  · cases hf : gf.File with
    | none => exact ioStep_refl gf
    | some f =>
      simp only [OSFile.ReadFull]
      split <;> split <;> constructor <;> simp_all

theorem io_fillStringReadBuf (n : Nat) : Keeps IOStep (fillStringReadBuf n) := by
  intro gf
  unfold fillStringReadBuf
  simp only
  split
  · constructor <;> rfl
  · cases hf : gf.File with
    | none => constructor <;> simp [hf]
    | some f =>
      simp only [OSFile.ReadFull]
      split <;> split <;> constructor <;> simp_all

theorem io_sliceStringReadBuf (n : Nat) : Keeps IOStep (sliceStringReadBuf n) := by
  intro gf
  unfold sliceStringReadBuf
  split <;> exact ioStep_refl gf

theorem io_transformBytes (d : Option Decoder) (bs : List UInt8) :
    Keeps IOStep (transformBytes d bs) := by
  intro gf
  unfold transformBytes
  cases d with
  | none => exact ioStep_refl gf
  | some d =>
    simp only
    cases d bs <;> exact ioStep_refl gf

theorem io_currentOffset : Keeps IOStep currentOffset := by
  intro gf
  unfold currentOffset
  cases hf : gf.File with
  | none => exact ioStep_refl gf
  | some f => constructor <;> simp [hf]

theorem io_readUint32 : Keeps IOStep readUint32 :=
  io_bind (io_readFull 4) fun _ => io_pure _

theorem io_readInt32 : Keeps IOStep readInt32 :=
  io_bind (io_readFull 4) fun _ => io_pure _

theorem io_readInt64 : Keeps IOStep readInt64 :=
  io_bind (io_readFull 8) fun _ => io_pure _

theorem io_readRecordHeaderAndSeek (offset : Int) : Keeps IOStep (readRecordHeaderAndSeek offset) :=
  io_bind (io_seekStart _ _) fun _ => io_bind io_readInt32 fun _ => io_bind io_readUint32 fun _ =>
    io_pure _

theorem io_readUTF16String (n : Nat) : Keeps IOStep (readUTF16String n) := by
  unfold readUTF16String
  split
  · exact io_pure _
  · exact io_bind (io_fillStringReadBuf _) fun _ => io_bind (io_sliceStringReadBuf _) fun _ =>
      io_bind io_getState fun _ => io_transformBytes _ _

theorem io_readUTF32String (n : Nat) : Keeps IOStep (readUTF32String n) := by
  unfold readUTF32String
  split
  · exact io_pure _
  · exact io_bind (io_fillStringReadBuf _) fun _ => io_bind (io_sliceStringReadBuf _) fun _ =>
      io_bind io_getState fun _ => io_transformBytes _ _

theorem io_readName (n : Nat) : Keeps IOStep (readName n) := by
  unfold readName
  refine io_bind io_getState fun gf => ?_
  split
  · exact io_readUTF32String n
  · exact io_readUTF16String n

theorem io_readEntries (count : Nat) : Keeps IOStep (readEntries count) := by
  induction count with
  | zero => exact io_pure _
  | succ n ih =>
    exact io_bind io_readUint32 fun _ => io_bind io_readInt64 fun _ => io_bind ih fun _ =>
      io_pure _

/-- The part of the state that parsing may only extend: the stores gain records at
the end, everything but the byte source's position and the string buffer is kept. -/
structure Grow (gf gf1 : GGPKFile) : Prop where
  isSome : gf1.File.isSome = gf.File.isSome
  data : gf1.File.map (·.data) = gf.File.map (·.data)
  Header : gf1.Header = gf.Header
  Root : gf1.Root = gf.Root
  recordCache : gf1.recordCache = gf.recordCache
  utf16LEDecoder : gf1.utf16LEDecoder = gf.utf16LEDecoder
  utf32LEDecoder : gf1.utf32LEDecoder = gf.utf32LEDecoder
  ggpkRecords : ∃ l, gf1.ggpkRecords = gf.ggpkRecords ++ l
  freeRecords : ∃ l, gf1.freeRecords = gf.freeRecords ++ l
  fileRecords : ∃ l, gf1.fileRecords = gf.fileRecords ++ l
  dirRecords : ∃ l, gf1.dirRecords = gf.dirRecords ++ l

theorem ioStep_grow {gf gf1 : GGPKFile} (h : IOStep gf gf1) : Grow gf gf1 :=
  { isSome := h.isSome, data := h.data, Header := h.Header, Root := h.Root,
    recordCache := h.recordCache, utf16LEDecoder := h.utf16LEDecoder,
    utf32LEDecoder := h.utf32LEDecoder,
    ggpkRecords := ⟨[], by rw [h.ggpkRecords, List.append_nil]⟩,
    freeRecords := ⟨[], by rw [h.freeRecords, List.append_nil]⟩,
    fileRecords := ⟨[], by rw [h.fileRecords, List.append_nil]⟩,
    dirRecords := ⟨[], by rw [h.dirRecords, List.append_nil]⟩ }

theorem grow_refl (gf : GGPKFile) : Grow gf gf := ioStep_grow (ioStep_refl gf)

theorem grow_trans (a b c : GGPKFile) (h1 : Grow a b) (h2 : Grow b c) : Grow a c := by
  constructor
  · rw [h2.isSome, h1.isSome]
  · rw [h2.data, h1.data]
  · rw [h2.Header, h1.Header]
  · rw [h2.Root, h1.Root]
  · rw [h2.recordCache, h1.recordCache]
  · rw [h2.utf16LEDecoder, h1.utf16LEDecoder]
  · rw [h2.utf32LEDecoder, h1.utf32LEDecoder]
  · obtain ⟨l1, e1⟩ := h1.ggpkRecords
    obtain ⟨l2, e2⟩ := h2.ggpkRecords
    exact ⟨l1 ++ l2, by rw [e2, e1, List.append_assoc]⟩
  · obtain ⟨l1, e1⟩ := h1.freeRecords
    obtain ⟨l2, e2⟩ := h2.freeRecords
    exact ⟨l1 ++ l2, by rw [e2, e1, List.append_assoc]⟩
  · obtain ⟨l1, e1⟩ := h1.fileRecords
    obtain ⟨l2, e2⟩ := h2.fileRecords
    exact ⟨l1 ++ l2, by rw [e2, e1, List.append_assoc]⟩
  · obtain ⟨l1, e1⟩ := h1.dirRecords
    obtain ⟨l2, e2⟩ := h2.dirRecords
    exact ⟨l1 ++ l2, by rw [e2, e1, List.append_assoc]⟩

theorem grow_of_io {α : Type} {m : M α} (h : Keeps IOStep m) : Keeps Grow m :=
  fun gf => ioStep_grow (h gf)

theorem grow_bind {α β : Type} {m : M α} {f : α → M β}
    (hm : Keeps Grow m) (hf : ∀ a, Keeps Grow (f a)) : Keeps Grow (m >>= f) :=
  keeps_bind grow_trans hm hf

theorem grow_allocGGPK (r : GGPKRecord) : Keeps Grow (allocGGPK r) := by
  intro gf
  refine { (grow_refl gf) with ggpkRecords := ⟨[r], rfl⟩ }

theorem grow_allocFree (r : FreeRecord) : Keeps Grow (allocFree r) := by
  intro gf
  refine { (grow_refl gf) with freeRecords := ⟨[r], rfl⟩ }

theorem grow_allocFile (r : FileRecord) : Keeps Grow (allocFile r) := by
  intro gf
  refine { (grow_refl gf) with fileRecords := ⟨[r], rfl⟩ }

theorem grow_allocDir (r : DirectoryRecord) : Keeps Grow (allocDir r) := by
  intro gf
  refine { (grow_refl gf) with dirRecords := ⟨[r], rfl⟩ }

theorem grow_parseGGPKRecordBody (offset : Int) : Keeps Grow (parseGGPKRecordBody offset) := by
  unfold parseGGPKRecordBody
  refine grow_bind (grow_of_io (io_readRecordHeaderAndSeek offset)) fun x => ?_
  rcases x with ⟨recordLength, tag⟩
  simp only
  split
  · exact grow_of_io (io_fail _)
  · exact grow_bind (grow_of_io io_readUint32) fun _ => grow_bind (grow_of_io io_readInt64) fun _ =>
      grow_bind (grow_of_io io_readInt64) fun _ => grow_allocGGPK _

theorem grow_parseFileRecordBody (offset : Int) (b : BaseRecord) :
    Keeps Grow (parseFileRecordBody offset b) :=
  grow_bind (grow_of_io io_readUint32) fun _ => grow_bind (grow_of_io (io_readFull _)) fun _ =>
    grow_bind (grow_of_io (io_readName _)) fun _ => grow_bind (grow_of_io io_getState) fun _ =>
      grow_bind (grow_of_io (io_seekStart _ _)) fun _ => grow_allocFile _

theorem grow_parseDirectoryRecordBody (offset : Int) (b : BaseRecord) (s : GoString) :
    Keeps Grow (parseDirectoryRecordBody offset b s) := by
  unfold parseDirectoryRecordBody
  refine grow_bind (grow_of_io io_readUint32) fun nameLength =>
    grow_bind (grow_of_io io_readUint32) fun _ => grow_bind (grow_of_io (io_readFull _)) fun _ =>
      grow_bind ?_ fun _ => grow_bind (grow_of_io (io_readEntries _)) fun _ => grow_allocDir _
  split
  · exact grow_of_io (io_pure _)
  · exact grow_of_io (io_readName _)

theorem grow_parseFreeRecordBody (offset : Int) (b : BaseRecord) :
    Keeps Grow (parseFreeRecordBody offset b) := by
  unfold parseFreeRecordBody
  refine grow_bind (grow_of_io io_readInt64) fun _ => grow_bind (grow_of_io io_currentOffset)
    fun _ => grow_bind ?_ fun _ => grow_allocFree _
  split
  · exact grow_of_io (io_seekStart _ _)
  · exact grow_of_io (io_pure _)

theorem grow_parseByTag (offset length : Int) (tag : Nat) :
    Keeps Grow (parseByTag offset length tag) := by
  unfold parseByTag
  simp only
  split
  · exact grow_bind (grow_parseGGPKRecordBody _) fun _ => grow_of_io (io_pure _)
  · split
    · exact grow_bind (grow_parseDirectoryRecordBody _ _ _) fun _ => grow_of_io (io_pure _)
    · split
      · exact grow_bind (grow_parseFileRecordBody _ _) fun _ => grow_of_io (io_pure _)
      · split
        · exact grow_bind (grow_parseFreeRecordBody _ _) fun _ => grow_of_io (io_pure _)
        · exact grow_bind (grow_of_io (io_seekStart _ _)) fun _ => grow_of_io (io_fail _)

theorem seekStart_ok {offset : Int} {e : GoError} {gf gf1 : GGPKFile} {u : Unit}
    (h : seekStart offset e gf = (Res.ok u, gf1)) :
    ∃ f, gf.File = some f ∧ 0 ≤ offset ∧
      gf1.File = some { data := f.data, pos := offset.toNat, ops := f.ops ++ [FileOp.seek offset] } := by
  unfold seekStart at h
  cases hf : gf.File with
  | none => rw [hf] at h; cases h
  | some f =>
    rw [hf] at h
    simp only [OSFile.Seek] at h
    by_cases hneg : offset < 0
    · simp only [hneg, if_true] at h
      cases h
    · simp only [hneg, if_false] at h
      cases h
      exact ⟨f, rfl, not_lt.mp hneg, rfl⟩

theorem readFull_ok {n : Nat} {gf gf1 : GGPKFile} {bs : List UInt8} (hn : n ≠ 0)
    (h : readFull n gf = (Res.ok bs, gf1)) :
    ∃ f, gf.File = some f ∧ bs = (f.data.drop f.pos).take n ∧ bs.length = n ∧
      gf1.File = some { data := f.data, pos := f.pos + n, ops := f.ops ++ [FileOp.read n] } := by
  unfold readFull at h
  simp only [hn, if_false] at h
  cases hf : gf.File with
  | none => rw [hf] at h; cases h
  | some f =>
    rw [hf] at h
    simp only [OSFile.ReadFull, hn, if_false] at h
    by_cases hl : ((f.data.drop f.pos).take n).length = n
    · simp only [hl, if_true] at h
      cases h
      exact ⟨f, rfl, rfl, hl, rfl⟩
    · simp only [hl, if_false] at h
      cases h

/-- A successful header read returns the 8 bytes stored at `offset`, decoded. -/
theorem readRecordHeaderAndSeek_ok {offset : Int} {gf gf1 : GGPKFile} {length : Int} {tag : Nat}
    (h : readRecordHeaderAndSeek offset gf = (Res.ok (length, tag), gf1)) :
    ∃ f, gf.File = some f ∧ 0 ≤ offset ∧
      length = wrapInt32 (leBytes ((f.data.drop offset.toNat).take 4)) ∧
      tag = leBytes ((f.data.drop (offset.toNat + 4)).take 4) ∧
      ((f.data.drop offset.toNat).take 4).length = 4 ∧
      ((f.data.drop (offset.toNat + 4)).take 4).length = 4 ∧
      gf1.File.map (·.pos) = some (offset.toNat + 8) := by
  simp only [readRecordHeaderAndSeek, readInt32, readUint32, bind_eq_ok, pure_apply,
    Prod.mk.injEq, Res.ok.injEq] at h
  obtain ⟨u, g1, h1, l, g2, ⟨bs1, g1a, h2, hl, hg⟩, t, g3, ⟨bs2, g2a, h3, ht, hg3⟩, ⟨hlen, htag⟩,
    hgf⟩ := h
  subst hg hg3 hgf hl ht hlen htag
  obtain ⟨f, hf, hpos, hf1⟩ := seekStart_ok h1
  obtain ⟨f1, hf1a, rfl, hlen1, hf2⟩ := readFull_ok (by decide) h2
  obtain ⟨f2, hf2a, rfl, hlen2, hf3⟩ := readFull_ok (by decide) h3
  rw [hf1] at hf1a
  cases hf1a
  rw [hf2] at hf2a
  cases hf2a
  refine ⟨f, hf, hpos, rfl, rfl, hlen1, hlen2, ?_⟩
  rw [hf3]
  simp [Nat.add_assoc]

/-- Postcondition of the successful runs of `m`. -/
def Ensures {α : Type} (m : M α) (Q : GGPKFile → α → GGPKFile → Prop) : Prop :=
  ∀ gf a gf1, m gf = (Res.ok a, gf1) → Q gf a gf1

theorem ensures_bind_io {α β : Type} {m : M α} {f : α → M β}
    {Q : GGPKFile → β → GGPKFile → Prop}
    (hQ : ∀ g g1 b g2, IOStep g g1 → Q g1 b g2 → Q g b g2)
    (hm : Keeps IOStep m) (hf : ∀ a, Ensures (f a) Q) : Ensures (m >>= f) Q := by
  intro gf b gf2 h
  obtain ⟨a, gf1, h1, h2⟩ := bind_eq_ok.mp h
  exact hQ _ _ _ _ (keeps_of_eq hm h1) (hf a gf1 b gf2 h2)

/-- The record behind `p` was stored by this run, with base fields `b`. -/
def StoredFile (b : BaseRecord) (gf : GGPKFile) (p : Nat) (gf1 : GGPKFile) : Prop :=
  p = gf.fileRecords.length ∧ ∃ r, gf1.fileRecords = gf.fileRecords ++ [r] ∧ r.toBaseRecord = b

def StoredDir (b : BaseRecord) (gf : GGPKFile) (p : Nat) (gf1 : GGPKFile) : Prop :=
  p = gf.dirRecords.length ∧ ∃ r, gf1.dirRecords = gf.dirRecords ++ [r] ∧ r.toBaseRecord = b

def StoredFree (b : BaseRecord) (gf : GGPKFile) (p : Nat) (gf1 : GGPKFile) : Prop :=
  p = gf.freeRecords.length ∧ ∃ r, gf1.freeRecords = gf.freeRecords ++ [r] ∧ r.toBaseRecord = b

def StoredGGPK (b : BaseRecord) (gf : GGPKFile) (p : Nat) (gf1 : GGPKFile) : Prop :=
  p = gf.ggpkRecords.length ∧ ∃ r, gf1.ggpkRecords = gf.ggpkRecords ++ [r] ∧ r.toBaseRecord = b

theorem storedFile_io (b : BaseRecord) (g g1 : GGPKFile) (p : Nat) (g2 : GGPKFile)
    (h : IOStep g g1) (hq : StoredFile b g1 p g2) : StoredFile b g p g2 := by
  unfold StoredFile at *
  rw [← h.fileRecords]
  exact hq

theorem storedDir_io (b : BaseRecord) (g g1 : GGPKFile) (p : Nat) (g2 : GGPKFile)
    (h : IOStep g g1) (hq : StoredDir b g1 p g2) : StoredDir b g p g2 := by
  unfold StoredDir at *
  rw [← h.dirRecords]
  exact hq

theorem storedFree_io (b : BaseRecord) (g g1 : GGPKFile) (p : Nat) (g2 : GGPKFile)
    (h : IOStep g g1) (hq : StoredFree b g1 p g2) : StoredFree b g p g2 := by
  unfold StoredFree at *
  rw [← h.freeRecords]
  exact hq

theorem storedGGPK_io (b : BaseRecord) (g g1 : GGPKFile) (p : Nat) (g2 : GGPKFile)
    (h : IOStep g g1) (hq : StoredGGPK b g1 p g2) : StoredGGPK b g p g2 := by
  unfold StoredGGPK at *
  rw [← h.ggpkRecords]
  exact hq

theorem allocFile_stored (r : FileRecord) : Ensures (allocFile r) (StoredFile r.toBaseRecord) := by
  intro gf p gf1 h
  unfold allocFile at h
  cases h
  exact ⟨rfl, r, rfl, rfl⟩

theorem allocDir_stored (r : DirectoryRecord) : Ensures (allocDir r) (StoredDir r.toBaseRecord) := by
  intro gf p gf1 h
  unfold allocDir at h
  cases h
  exact ⟨rfl, r, rfl, rfl⟩

theorem allocFree_stored (r : FreeRecord) : Ensures (allocFree r) (StoredFree r.toBaseRecord) := by
  intro gf p gf1 h
  unfold allocFree at h
  cases h
  exact ⟨rfl, r, rfl, rfl⟩

theorem allocGGPK_stored (r : GGPKRecord) : Ensures (allocGGPK r) (StoredGGPK r.toBaseRecord) := by
  intro gf p gf1 h
  unfold allocGGPK at h
  cases h
  exact ⟨rfl, r, rfl, rfl⟩

theorem parseFileRecordBody_stored (offset : Int) (b : BaseRecord) :
    Ensures (parseFileRecordBody offset b) (StoredFile b) :=
  ensures_bind_io (storedFile_io b) io_readUint32 fun _ =>
    ensures_bind_io (storedFile_io b) (io_readFull _) fun _ =>
      ensures_bind_io (storedFile_io b) (io_readName _) fun _ =>
        ensures_bind_io (storedFile_io b) io_getState fun _ =>
          ensures_bind_io (storedFile_io b) (io_seekStart _ _) fun _ => allocFile_stored _

theorem parseDirectoryRecordBody_stored (offset : Int) (b : BaseRecord) (s : GoString) :
    Ensures (parseDirectoryRecordBody offset b s) (StoredDir b) := by
  unfold parseDirectoryRecordBody
  refine ensures_bind_io (storedDir_io b) io_readUint32 fun nameLength =>
    ensures_bind_io (storedDir_io b) io_readUint32 fun _ =>
      ensures_bind_io (storedDir_io b) (io_readFull _) fun _ =>
        ensures_bind_io (storedDir_io b) ?_ fun _ =>
          ensures_bind_io (storedDir_io b) (io_readEntries _) fun _ => allocDir_stored _
  split
  · exact io_pure _
  · exact io_readName _

theorem parseFreeRecordBody_stored (offset : Int) (b : BaseRecord) :
    Ensures (parseFreeRecordBody offset b) (StoredFree b) := by
  unfold parseFreeRecordBody
  refine ensures_bind_io (storedFree_io b) io_readInt64 fun _ =>
    ensures_bind_io (storedFree_io b) io_currentOffset fun _ =>
      ensures_bind_io (storedFree_io b) ?_ fun _ => allocFree_stored _
  split
  · exact io_seekStart _ _
  · exact io_pure _

/-- A successful `parseGGPKRecordBody` stores a record whose base fields are the
offset and the header it read at that offset, and the tag it read is the GGPK tag. -/
theorem parseGGPKRecordBody_stored (offset : Int) :
    Ensures (parseGGPKRecordBody offset) fun gf p gf1 =>
      ∃ f, gf.File = some f ∧
        leBytes ((f.data.drop (offset.toNat + 4)).take 4) = GGPKRecordTag ∧
        StoredGGPK
          { Offset := offset,
            Length := wrapInt32 (leBytes ((f.data.drop offset.toNat).take 4)),
            Tag := leBytes ((f.data.drop (offset.toNat + 4)).take 4) } gf p gf1 := by
  intro gf p gf1 h
  unfold parseGGPKRecordBody at h
  obtain ⟨⟨l, t⟩, g1, h1, h2⟩ := bind_eq_ok.mp h
  obtain ⟨f, hf, _, hl, ht, _, _, _⟩ := readRecordHeaderAndSeek_ok h1
  have hio := keeps_of_eq (io_readRecordHeaderAndSeek offset) h1
  simp only at h2
  by_cases htag : t = GGPKRecordTag
  · simp only [htag, ne_eq, not_true_eq_false, if_false] at h2
    refine ⟨f, hf, by rw [← ht, htag], ?_⟩
    refine storedGGPK_io _ _ _ _ _ hio ?_
    have key : Ensures
        (do
          let version ← readUint32
          let rootDirectoryOffset ← readInt64
          let firstFreeOffset ← readInt64
          allocGGPK
            { Offset := offset, Length := l, Tag := GGPKRecordTag, Version := version,
              RootDirectoryOffset := rootDirectoryOffset, FirstFreeOffset := firstFreeOffset })
        (StoredGGPK { Offset := offset, Length := l, Tag := GGPKRecordTag }) :=
      ensures_bind_io (storedGGPK_io _) io_readUint32 fun _ =>
        ensures_bind_io (storedGGPK_io _) io_readInt64 fun _ =>
          ensures_bind_io (storedGGPK_io _) io_readInt64 fun _ => allocGGPK_stored _
    have := key _ _ _ h2
    rw [← hl, ← ht, htag]
    exact this
  · simp only [htag, ne_eq, not_false_eq_true, if_true] at h2
    cases h2

theorem getElem?_append_singleton {α : Type} (l : List α) (a : α) :
    (l ++ [a])[l.length]? = some a := by
  simp

/-- What a successful `switch tag` returns: the variant selected by the tag, freshly
stored, with base fields taken from the offset and the header at that offset. -/
theorem parseByTag_ok {offset length : Int} {tag : Nat} {g1 g2 : GGPKFile} {r : RecordRef}
    (h : parseByTag offset length tag g1 = (Res.ok r, g2)) :
    (tag = GGPKRecordTag ∧ ∃ p, r = RecordRef.ggpk p ∧ ∃ f, g1.File = some f ∧
        StoredGGPK
          { Offset := offset,
            Length := wrapInt32 (leBytes ((f.data.drop offset.toNat).take 4)),
            Tag := leBytes ((f.data.drop (offset.toNat + 4)).take 4) } g1 p g2) ∨
    (tag = PDirRecordTag ∧ ∃ p, r = RecordRef.dir p ∧
        StoredDir { Offset := offset, Length := length, Tag := tag } g1 p g2) ∨
    (tag = FileRecordTag ∧ ∃ p, r = RecordRef.file p ∧
        StoredFile { Offset := offset, Length := length, Tag := tag } g1 p g2) ∨
    (tag = FreeRecordTag ∧ ∃ p, r = RecordRef.free p ∧
        StoredFree { Offset := offset, Length := length, Tag := tag } g1 p g2) := by
  unfold parseByTag at h
  split at h
  next ht =>
    obtain ⟨p, g, hp, hr⟩ := bind_eq_ok.mp h
    cases hr
    obtain ⟨f, hf, _, hs⟩ := parseGGPKRecordBody_stored offset _ _ _ hp
    exact Or.inl ⟨ht, p, rfl, f, hf, hs⟩
  next =>
    split at h
    next ht =>
      obtain ⟨p, g, hp, hr⟩ := bind_eq_ok.mp h
      cases hr
      exact Or.inr (Or.inl ⟨ht, p, rfl, parseDirectoryRecordBody_stored _ _ _ _ _ _ hp⟩)
    next =>
      split at h
      next ht =>
        obtain ⟨p, g, hp, hr⟩ := bind_eq_ok.mp h
        cases hr
        exact Or.inr (Or.inr (Or.inl ⟨ht, p, rfl, parseFileRecordBody_stored _ _ _ _ _ hp⟩))
      next =>
        split at h
        next ht =>
          obtain ⟨p, g, hp, hr⟩ := bind_eq_ok.mp h
          cases hr
          exact Or.inr (Or.inr (Or.inr ⟨ht, p, rfl, parseFreeRecordBody_stored _ _ _ _ _ hp⟩))
        next =>
          obtain ⟨u, g, _, hr⟩ := bind_eq_ok.mp h
          cases hr

/-- The miss path of `ReadRecordAt`, step by step. -/
theorem ReadRecordAt_miss_ok {offset : Int} {gf gf2 : GGPKFile} {r : RecordRef}
    (hmiss : gf.recordCache offset = none)
    (h : ReadRecordAt offset gf = (Res.ok r, gf2)) :
    ∃ length tag g1 g2,
      readRecordHeaderAndSeek offset gf = (Res.ok (length, tag), g1) ∧
      parseByTag offset length tag g1 = (Res.ok r, g2) ∧
      gf2 = { g2 with recordCache := fun k => if k = offset then some r else g2.recordCache k } := by
  unfold ReadRecordAt at h
  rw [hmiss] at h
  simp only at h
  obtain ⟨⟨length, tag⟩, g1, h1, h2⟩ := bind_eq_ok.mp h
  obtain ⟨r1, g2, h3, h4⟩ := bind_eq_ok.mp h2
  obtain ⟨u, g3, h5, h6⟩ := bind_eq_ok.mp h4
  cases h6
  unfold cacheStore at h5
  cases h5
  exact ⟨length, tag, g1, g2, h1, h3, rfl⟩

/-! ## The record cache (`ReadRecordAt`) -/

/-- C1. A cache hit returns exactly the cached value and leaves the whole state
(byte source with its log of seeks and reads, cache, records) as it was; and after
any successful `ReadRecordAt offset`, a second `ReadRecordAt offset` returns the
identical value, again without touching the state. -/
theorem ReadRecordAt_cached (gf : GGPKFile) (offset : Int) (r : RecordRef) :
    (gf.recordCache offset = some r → ReadRecordAt offset gf = (Res.ok r, gf)) ∧
    ((ReadRecordAt offset gf).1 = Res.ok r →
      ReadRecordAt offset (ReadRecordAt offset gf).2 = (Res.ok r, (ReadRecordAt offset gf).2)) := by
  have hit : ∀ g : GGPKFile, g.recordCache offset = some r →
      ReadRecordAt offset g = (Res.ok r, g) := by
    intro g hg
    unfold ReadRecordAt
    rw [hg]
  refine ⟨hit gf, fun hok => hit _ ?_⟩
  rcases hrun : ReadRecordAt offset gf with ⟨res, gf2⟩
  rw [hrun] at hok
  simp only at hok
  subst hok
  cases hc : gf.recordCache offset with
  | some r1 =>
    have := hit gf
    unfold ReadRecordAt at hrun
    rw [hc] at hrun
    cases hrun
    exact hc
  | none =>
    obtain ⟨length, tag, g1, g2, _, _, rfl⟩ := ReadRecordAt_miss_ok hc hrun
    simp

theorem ReadRecordAt_cached_witness :
    (testHandle.recordCache 28 = some (RecordRef.dir 0) ∧
      ReadRecordAt 28 testHandle = (Res.ok (RecordRef.dir 0), testHandle)) ∧
    ((ReadRecordAt 102 testHandle).1 = Res.ok (RecordRef.file 0) ∧
      ReadRecordAt 102 (ReadRecordAt 102 testHandle).2 =
        (Res.ok (RecordRef.file 0), (ReadRecordAt 102 testHandle).2)) :=
  ⟨⟨by decide!, (ReadRecordAt_cached testHandle 28 (RecordRef.dir 0)).1 (by decide!)⟩,
    ⟨by decide!, (ReadRecordAt_cached testHandle 102 (RecordRef.file 0)).2 (by decide!)⟩⟩

/-- C2. A cache miss that succeeds returns the variant selected by the tag stored at
`offset`; the record behind the returned value carries `offset` and the length and
tag decoded from the 8 bytes at `offset`; the cache afterwards is the cache before
with the single entry `offset ↦ r` added. -/
theorem ReadRecordAt_miss (gf : GGPKFile) (offset : Int) (r : RecordRef)
    (hmiss : gf.recordCache offset = none)
    (hok : (ReadRecordAt offset gf).1 = Res.ok r) :
    ∃ f, gf.File = some f ∧ 0 ≤ offset ∧
      ((f.data.drop offset.toNat).take 8).length = 8 ∧
      (ReadRecordAt offset gf).2.baseOf r =
        some { Offset := offset,
               Length := wrapInt32 (leBytes ((f.data.drop offset.toNat).take 4)),
               Tag := leBytes ((f.data.drop (offset.toNat + 4)).take 4) } ∧
      ((leBytes ((f.data.drop (offset.toNat + 4)).take 4) = GGPKRecordTag ∧
          ∃ p, r = RecordRef.ggpk p) ∨
        (leBytes ((f.data.drop (offset.toNat + 4)).take 4) = PDirRecordTag ∧
          ∃ p, r = RecordRef.dir p) ∨
        (leBytes ((f.data.drop (offset.toNat + 4)).take 4) = FileRecordTag ∧
          ∃ p, r = RecordRef.file p) ∨
        (leBytes ((f.data.drop (offset.toNat + 4)).take 4) = FreeRecordTag ∧
          ∃ p, r = RecordRef.free p)) ∧
      (ReadRecordAt offset gf).2.recordCache =
        (fun k => if k = offset then some r else gf.recordCache k) := by
  rcases hrun : ReadRecordAt offset gf with ⟨res, gf2⟩
  rw [hrun] at hok
  simp only at hok
  subst hok
  obtain ⟨length, tag, g1, g2, h1, h2, rfl⟩ := ReadRecordAt_miss_ok hmiss hrun
  obtain ⟨f, hf, hpos, hl, ht, hlen1, hlen2, _⟩ := readRecordHeaderAndSeek_ok h1
  have hio := keeps_of_eq (io_readRecordHeaderAndSeek offset) h1
  have hgrow := keeps_of_eq (grow_parseByTag offset length tag) h2
  have hf1 : g1.File.map (·.data) = some f.data := by rw [hio.data, hf]; rfl
  have h8 : ((f.data.drop offset.toNat).take 8).length = 8 := by
    simp only [List.length_take, List.length_drop] at hlen1 hlen2 ⊢
    omega
  refine ⟨f, hf, hpos, h8, ?_, ?_, ?_⟩
  · rcases parseByTag_ok h2 with ⟨_, p, rfl, f1, hf1a, hp, rec, hrec, hb⟩ |
      ⟨_, p, rfl, hp, rec, hrec, hb⟩ | ⟨_, p, rfl, hp, rec, hrec, hb⟩ |
      ⟨_, p, rfl, hp, rec, hrec, hb⟩
    · rw [hf1a] at hf1
      simp only [Option.map_some', Option.some.injEq] at hf1
      simp only [GGPKFile.baseOf, hrec, hp, getElem?_append_singleton, Option.map_some', hb, hf1]
    · simp only [GGPKFile.baseOf, hrec, hp, getElem?_append_singleton, Option.map_some', hb, hl, ht]
    · simp only [GGPKFile.baseOf, hrec, hp, getElem?_append_singleton, Option.map_some', hb, hl, ht]
    · simp only [GGPKFile.baseOf, hrec, hp, getElem?_append_singleton, Option.map_some', hb, hl, ht]
  · rw [← ht]
    rcases parseByTag_ok h2 with ⟨ht1, p, rfl, _⟩ | ⟨ht1, p, rfl, _⟩ | ⟨ht1, p, rfl, _⟩ |
      ⟨ht1, p, rfl, _⟩
    · exact Or.inl ⟨ht1, p, rfl⟩
    · exact Or.inr (Or.inl ⟨ht1, p, rfl⟩)
    · exact Or.inr (Or.inr (Or.inl ⟨ht1, p, rfl⟩))
    · exact Or.inr (Or.inr (Or.inr ⟨ht1, p, rfl⟩))
  · simp only [hgrow.recordCache, hio.recordCache]

theorem ReadRecordAt_miss_witness :
    testHandle.recordCache 102 = none ∧
    (ReadRecordAt 102 testHandle).1 = Res.ok (RecordRef.file 0) ∧
    ∃ f, testHandle.File = some f ∧ (0 : Int) ≤ 102 ∧
      ((f.data.drop (102 : Int).toNat).take 8).length = 8 ∧
      (ReadRecordAt 102 testHandle).2.baseOf (RecordRef.file 0) =
        some { Offset := 102,
               Length := wrapInt32 (leBytes ((f.data.drop (102 : Int).toNat).take 4)),
               Tag := leBytes ((f.data.drop ((102 : Int).toNat + 4)).take 4) } ∧
      ((leBytes ((f.data.drop ((102 : Int).toNat + 4)).take 4) = GGPKRecordTag ∧
          ∃ p, RecordRef.file 0 = RecordRef.ggpk p) ∨
        (leBytes ((f.data.drop ((102 : Int).toNat + 4)).take 4) = PDirRecordTag ∧
          ∃ p, RecordRef.file 0 = RecordRef.dir p) ∨
        (leBytes ((f.data.drop ((102 : Int).toNat + 4)).take 4) = FileRecordTag ∧
          ∃ p, RecordRef.file 0 = RecordRef.file p) ∨
        (leBytes ((f.data.drop ((102 : Int).toNat + 4)).take 4) = FreeRecordTag ∧
          ∃ p, RecordRef.file 0 = RecordRef.free p)) ∧
      (ReadRecordAt 102 testHandle).2.recordCache =
        (fun k => if k = 102 then some (RecordRef.file 0) else testHandle.recordCache k) :=
  ⟨by decide!, by decide!,
    ReadRecordAt_miss testHandle 102 (RecordRef.file 0) (by decide!) (by decide!)⟩

/-- C3. When `ReadRecordAt` returns an error, the cache after the call is the cache
before the call and still has no entry for `offset`, so the next call on that
offset takes the parsing path again. -/
theorem ReadRecordAt_error_cache (gf : GGPKFile) (offset : Int) (e : GoError)
    (herr : (ReadRecordAt offset gf).1 = Res.err e) :
    (ReadRecordAt offset gf).2.recordCache = gf.recordCache ∧
    (ReadRecordAt offset gf).2.recordCache offset = none := by
  rcases hrun : ReadRecordAt offset gf with ⟨res, gf2⟩
  rw [hrun] at herr
  simp only at herr
  subst herr
  cases hc : gf.recordCache offset with
  | some r1 =>
    unfold ReadRecordAt at hrun
    rw [hc] at hrun
    cases hrun
  | none =>
    have key : gf2.recordCache = gf.recordCache := by
      unfold ReadRecordAt at hrun
      rw [hc] at hrun
      simp only at hrun
      rcases bind_eq_err.mp hrun with h1 | ⟨⟨length, tag⟩, g1, h1, h2⟩
      · exact (keeps_of_eq (io_readRecordHeaderAndSeek offset) h1).recordCache
      · have hio := keeps_of_eq (io_readRecordHeaderAndSeek offset) h1
        rcases bind_eq_err.mp h2 with h3 | ⟨r1, g2, h3, h4⟩
        · rw [(keeps_of_eq (grow_parseByTag offset length tag) h3).recordCache, hio.recordCache]
        · rcases bind_eq_err.mp h4 with h5 | ⟨u, g3, h5, h6⟩
          · unfold cacheStore at h5
            cases h5
          · cases h6
    exact ⟨key, by rw [key, hc]⟩

theorem ReadRecordAt_error_cache_witness :
    (ReadRecordAt 4 testHandle).1 = Res.err GoError.unknownTag ∧
    (ReadRecordAt 4 testHandle).2.recordCache = testHandle.recordCache ∧
    (ReadRecordAt 4 testHandle).2.recordCache 4 = none :=
  ⟨by decide!, ReadRecordAt_error_cache testHandle 4 GoError.unknownTag (by decide!)⟩

/-! ## File data (`ReadFileData`) -/

theorem seekStart_run {gf : GGPKFile} {f : OSFile} (offset : Int) (e : GoError)
    (hfile : gf.File = some f) (hoff : 0 ≤ offset) :
    seekStart offset e gf =
      (Res.ok (), { gf with File := some { data := f.data, pos := offset.toNat,
                                           ops := f.ops ++ [FileOp.seek offset] } }) := by
  unfold seekStart
  rw [hfile]
  simp only [OSFile.Seek, not_lt.mpr hoff, if_false]

theorem readFull_run {gf : GGPKFile} (f : OSFile) (n : Nat) (hfile : gf.File = some f)
    (hn : n ≠ 0) (hlen : ((f.data.drop f.pos).take n).length = n) :
    readFull n gf =
      (Res.ok ((f.data.drop f.pos).take n),
        { gf with File := some { data := f.data, pos := f.pos + n,
                                 ops := f.ops ++ [FileOp.read n] } }) := by
  unfold readFull
  simp only [hn, if_false, hfile, OSFile.ReadFull, hlen, if_true]

/-- With a positive data length, a seek target that is not negative and the whole
data range inside the file, `ReadFileData` issues one seek and one read and returns
`fileDataResult` of the bytes of the range. -/
theorem ReadFileData_run (UncompressBlock : UncompressBlockFn) {gf : GGPKFile} {f : OSFile}
    (fr : FileRecord) (hfile : gf.File = some f) (hpos : 0 < fr.DataLength)
    (hoff : 0 ≤ fr.DataOffset)
    (hlen : ((f.data.drop fr.DataOffset.toNat).take fr.DataLength.toNat).length =
      fr.DataLength.toNat) :
    ReadFileData UncompressBlock (some fr) gf =
      (Res.ok (fileDataResult UncompressBlock fr.DataLength
          ((f.data.drop fr.DataOffset.toNat).take fr.DataLength.toNat)),
        { gf with File := some { data := f.data, pos := fr.DataOffset.toNat + fr.DataLength.toNat,
                                 ops := f.ops ++ [FileOp.seek fr.DataOffset,
                                   FileOp.read fr.DataLength.toNat] } }) := by
  have h0 : ¬ fr.DataLength = 0 := by omega
  have h1 : ¬ fr.DataLength < 0 := by omega
  have hn : fr.DataLength.toNat ≠ 0 := by omega
  unfold ReadFileData
  simp only [h0, h1, if_false, bind_apply, seekStart_run fr.DataOffset GoError.seekFailed hfile hoff]
  rw [readFull_run ⟨f.data, fr.DataOffset.toNat, f.ops ++ [FileOp.seek fr.DataOffset]⟩
    fr.DataLength.toNat rfl hn hlen]
  simp [pure_apply]

theorem leBytes_lt (bs : List UInt8) : leBytes bs < 256 ^ bs.length := by
  induction bs with
  | nil => simp [leBytes]
  | cons b bs ih =>
    have hb : b.toNat < 256 := b.toNat_lt
    simp only [leBytes, List.length_cons, pow_succ]
    omega

/-- C4. Raw data of length `4 + K` whose first four bytes, read little-endian, equal `K`:
`ReadFileData` returns the `K` payload bytes with no error. The state afterwards
records one seek and one read, and neither the result nor the state depends on
the decompressor, which is not consulted. -/
theorem ReadFileData_literal (UncompressBlock : UncompressBlockFn) (gf : GGPKFile) (f : OSFile)
    (fr : FileRecord) (size payload : List UInt8)
    (hfile : gf.File = some f) (hoff : 0 ≤ fr.DataOffset)
    (hlen : fr.DataLength = 4 + payload.length)
    (hraw : (f.data.drop fr.DataOffset.toNat).take (4 + payload.length) = size ++ payload)
    (hsize : size.length = 4) (hdecl : leBytes size = payload.length) :
    ReadFileData UncompressBlock (some fr) gf =
      (Res.ok payload,
        { gf with File := some { data := f.data, pos := fr.DataOffset.toNat + (4 + payload.length),
                                 ops := f.ops ++ [FileOp.seek fr.DataOffset,
                                   FileOp.read (4 + payload.length)] } }) := by
  have hn : fr.DataLength.toNat = 4 + payload.length := by omega
  have hl : ((f.data.drop fr.DataOffset.toNat).take fr.DataLength.toNat).length =
      fr.DataLength.toNat := by
    rw [hn, hraw, List.length_append, hsize]
  rw [ReadFileData_run UncompressBlock fr hfile (by omega) hoff hl, hn, hraw]
  have hlt := leBytes_lt size
  rw [hsize, hdecl] at hlt
  have h4 : fr.DataLength ≥ 4 := by omega
  have ht : (size ++ payload).take 4 = size := by
    rw [← hsize, List.take_left]
  have hd : (size ++ payload).drop 4 = payload := by
    rw [← hsize, List.drop_left]
  have hw : wrapUint32 payload.length = payload.length := by
    unfold wrapUint32
    exact Nat.mod_eq_of_lt (by norm_num at hlt ⊢; exact hlt)
  simp only [fileDataResult, h4, if_true, ht, hd, hdecl, hw]

theorem ReadFileData_literal_witness :
    (bareHandle (some ⟨prefixedUncompressed, 0, []⟩)).File = some ⟨prefixedUncompressed, 0, []⟩ ∧
    (0 : Int) ≤ (fileRecordLit "prefixed_uncompressed.txt".toList 0 40).DataOffset ∧
    ReadFileData refUncompressBlock (some (fileRecordLit "prefixed_uncompressed.txt".toList 0 40))
        (bareHandle (some ⟨prefixedUncompressed, 0, []⟩)) =
      (Res.ok (asciiBytes "this data is not actually compressed".toList),
        { bareHandle (some ⟨prefixedUncompressed, 0, []⟩) with
          File := some { data := prefixedUncompressed,
                         pos := (0 : Int).toNat +
                           (4 + (asciiBytes "this data is not actually compressed".toList).length),
                         ops := [] ++ [FileOp.seek 0, FileOp.read
                           (4 + (asciiBytes "this data is not actually compressed".toList).length)] } }) :=
  ⟨rfl, by decide,
    ReadFileData_literal refUncompressBlock (bareHandle (some ⟨prefixedUncompressed, 0, []⟩))
      ⟨prefixedUncompressed, 0, []⟩ (fileRecordLit "prefixed_uncompressed.txt".toList 0 40)
      (putUint32 36) (asciiBytes "this data is not actually compressed".toList)
      rfl (by decide) (by decide!) (by decide!) (by decide!) (by decide!)⟩

/-- C5. Raw data of at least 4 bytes whose declared size `D` (first four bytes,
little-endian) differs from the payload length, is nonzero and does not exceed the
ceiling `500 * 1024 * 1024` (so in particular every `D` below it): when the
decompressor succeeds on the payload with a `D`-byte buffer and writes exactly `D`
bytes, `ReadFileData` returns those bytes and no error. With `payload` a compressed
form of `s`, `D = len(s)` and a decompressor that gives back `s`, the result is `s`. -/
theorem ReadFileData_decompressed (UncompressBlock : UncompressBlockFn) (gf : GGPKFile)
    (f : OSFile) (fr : FileRecord) (size payload out : List UInt8)
    (hfile : gf.File = some f) (hoff : 0 ≤ fr.DataOffset)
    (hlen : fr.DataLength = 4 + payload.length) (hrange : fr.DataLength < 2 ^ 31)
    (hraw : (f.data.drop fr.DataOffset.toNat).take (4 + payload.length) = size ++ payload)
    (hsize : size.length = 4)
    (hne : leBytes size ≠ payload.length) (hpos : 0 < leBytes size)
    (hmax : leBytes size ≤ reasonableMaxSize)
    (hdec : UncompressBlock payload (leBytes size) = some out)
    (hout : out.length = leBytes size) :
    (ReadFileData UncompressBlock (some fr) gf).1 = Res.ok out := by
  have hn : fr.DataLength.toNat = 4 + payload.length := by omega
  have hl : ((f.data.drop fr.DataOffset.toNat).take fr.DataLength.toNat).length =
      fr.DataLength.toNat := by
    rw [hn, hraw, List.length_append, hsize]
  rw [ReadFileData_run UncompressBlock fr hfile (by omega) hoff hl, hn, hraw]
  have h4 : fr.DataLength ≥ 4 := by omega
  have ht : (size ++ payload).take 4 = size := by
    rw [← hsize, List.take_left]
  have hd : (size ++ payload).drop 4 = payload := by
    rw [← hsize, List.drop_left]
  have hw : wrapUint32 payload.length = payload.length := by
    unfold wrapUint32
    exact Nat.mod_eq_of_lt (by omega)
  simp only [fileDataResult, h4, if_true, ht, hd, hw, hne, if_false, hpos, hmax, gt_iff_lt,
    and_self, hdec, hout]

theorem ReadFileData_decompressed_witness :
    (0 : Int) ≤ (fileRecordLit "file2_lz4.dat".toList 0 70).DataOffset ∧
    (fileRecordLit "file2_lz4.dat".toList 0 70).DataLength = 4 + file2Block.length ∧
    leBytes (putUint32 109) ≠ file2Block.length ∧
    refUncompressBlock file2Block (leBytes (putUint32 109)) = some file2Payload ∧
    (ReadFileData refUncompressBlock (some (fileRecordLit "file2_lz4.dat".toList 0 70))
        (bareHandle (some ⟨prefixedCompressed, 0, []⟩))).1 = Res.ok file2Payload :=
  ⟨by decide, by decide!, by decide!, by decide!,
    ReadFileData_decompressed refUncompressBlock (bareHandle (some ⟨prefixedCompressed, 0, []⟩))
      ⟨prefixedCompressed, 0, []⟩ (fileRecordLit "file2_lz4.dat".toList 0 70)
      (putUint32 109) file2Block file2Payload
      rfl (by decide) (by decide!) (by decide) (by decide!) (by decide!) (by decide!) (by decide!)
      (by decide!) (by decide!) (by decide!)⟩

/-- C6. With a positive data length (an `int32`), a seek that succeeds and a read that
delivers all `data_length` bytes, `ReadFileData` returns a value, never an error.
Outside the literal case and the successful decompression, that value is the raw
bytes as read: with fewer than 4 bytes, and, when the declared size differs from
the payload length, with a declared size of zero, a declared size above the
ceiling, a decompression error, or a decompressed length other than the declared
size. -/
theorem ReadFileData_never_fails (UncompressBlock : UncompressBlockFn) (gf : GGPKFile)
    (f : OSFile) (fr : FileRecord)
    (hfile : gf.File = some f) (hpos : 0 < fr.DataLength) (hrange : fr.DataLength < 2 ^ 31)
    (hoff : 0 ≤ fr.DataOffset)
    (hlen : ((f.data.drop fr.DataOffset.toNat).take fr.DataLength.toNat).length =
      fr.DataLength.toNat) :
    ∃ out, (ReadFileData UncompressBlock (some fr) gf).1 = Res.ok out ∧
      (((f.data.drop fr.DataOffset.toNat).take fr.DataLength.toNat).length < 4 →
        out = (f.data.drop fr.DataOffset.toNat).take fr.DataLength.toNat) ∧
      (4 ≤ ((f.data.drop fr.DataOffset.toNat).take fr.DataLength.toNat).length →
        leBytes (((f.data.drop fr.DataOffset.toNat).take fr.DataLength.toNat).take 4) ≠
          (((f.data.drop fr.DataOffset.toNat).take fr.DataLength.toNat).drop 4).length →
        (leBytes (((f.data.drop fr.DataOffset.toNat).take fr.DataLength.toNat).take 4) = 0 ∨
          reasonableMaxSize <
            leBytes (((f.data.drop fr.DataOffset.toNat).take fr.DataLength.toNat).take 4) ∨
          UncompressBlock (((f.data.drop fr.DataOffset.toNat).take fr.DataLength.toNat).drop 4)
            (leBytes (((f.data.drop fr.DataOffset.toNat).take fr.DataLength.toNat).take 4)) =
              none ∨
          ∃ o,
            UncompressBlock (((f.data.drop fr.DataOffset.toNat).take fr.DataLength.toNat).drop 4)
              (leBytes (((f.data.drop fr.DataOffset.toNat).take fr.DataLength.toNat).take 4)) =
                some o ∧
            o.length ≠
              leBytes (((f.data.drop fr.DataOffset.toNat).take fr.DataLength.toNat).take 4)) →
        out = (f.data.drop fr.DataOffset.toNat).take fr.DataLength.toNat) := by
  rw [ReadFileData_run UncompressBlock fr hfile hpos hoff hlen]
  refine ⟨_, rfl, ?_, ?_⟩
  · intro hshort
    have h4 : ¬ fr.DataLength ≥ 4 := by omega
    simp only [fileDataResult, h4, if_false]
  · generalize (f.data.drop fr.DataOffset.toNat).take fr.DataLength.toNat = raw at hlen ⊢
    intro hlong hne hcase
    have h4 : fr.DataLength ≥ 4 := by omega
    have hw : wrapUint32 (raw.drop 4).length = (raw.drop 4).length := by
      unfold wrapUint32
      refine Nat.mod_eq_of_lt ?_
      rw [List.length_drop]
      omega
    simp only [fileDataResult, h4, if_true, hw, hne, if_false]
    rcases hcase with h0 | hbig | hnone | ⟨o, hsome, hbad⟩
    · simp [h0]
    · have : ¬ leBytes (raw.take 4) ≤ reasonableMaxSize := by omega
      simp [this]
    · rw [hnone]
      simp
    · rw [hsome]
      simp [hbad]

theorem ReadFileData_never_fails_witness :
    (0 : Int) < (fileRecordLit "short.dat".toList 0 2).DataLength ∧
    (fileRecordLit "short.dat".toList 0 2).DataLength < 2 ^ 31 ∧
    (ReadFileData refUncompressBlock (some (fileRecordLit "short.dat".toList 0 2))
        (bareHandle (some ⟨[0x01, 0x02], 0, []⟩))).1 = Res.ok [0x01, 0x02] := by
  refine ⟨by decide, by decide, ?_⟩
  obtain ⟨out, hout, hshort, _⟩ :=
    ReadFileData_never_fails refUncompressBlock (bareHandle (some ⟨[0x01, 0x02], 0, []⟩))
      ⟨[0x01, 0x02], 0, []⟩ (fileRecordLit "short.dat".toList 0 2) rfl (by decide) (by decide)
      (by decide) (by decide)
  rw [hout, hshort (by decide)]
  decide

/-- C7. A negative data length: `ReadFileData` returns an error and the state after
the call is the state before it, so the byte source saw no seek and no read. -/
theorem ReadFileData_negative (UncompressBlock : UncompressBlockFn) (gf : GGPKFile)
    (fr : FileRecord) (hneg : fr.DataLength < 0) :
    ReadFileData UncompressBlock (some fr) gf = (Res.err GoError.negativeDataLength, gf) := by
  have h0 : ¬ fr.DataLength = 0 := by omega
  unfold ReadFileData
  simp only [h0, hneg, if_false, if_true]
  rfl

theorem ReadFileData_negative_witness :
    (fileRecordLit "neg.txt".toList 0 (-100)).DataLength < 0 ∧
    ReadFileData refUncompressBlock (some (fileRecordLit "neg.txt".toList 0 (-100)))
        (bareHandle none) = (Res.err GoError.negativeDataLength, bareHandle none) :=
  ⟨by decide, ReadFileData_negative refUncompressBlock (bareHandle none)
    (fileRecordLit "neg.txt".toList 0 (-100)) (by decide)⟩

/-- C8. A data length of zero: whatever the data offset and the handle (also one
without a byte source), `ReadFileData` returns the empty byte sequence, no error,
and leaves the state as it was. -/
theorem ReadFileData_empty (UncompressBlock : UncompressBlockFn) (gf : GGPKFile)
    (fr : FileRecord) (hzero : fr.DataLength = 0) :
    ReadFileData UncompressBlock (some fr) gf = (Res.ok [], gf) := by
  unfold ReadFileData
  simp only [hzero, if_true]
  rfl

theorem ReadFileData_empty_witness :
    (fileRecordLit [] 0 0).DataLength = 0 ∧
    ReadFileData refUncompressBlock (some (fileRecordLit [] 0 0)) (bareHandle none) =
      (Res.ok [], bareHandle none) :=
  ⟨by decide, ReadFileData_empty refUncompressBlock (bareHandle none) (fileRecordLit [] 0 0)
    (by decide)⟩

/-! ## `Open` and the root node -/

theorem Open_eq_ok {utf16LE utf32LE : Decoder} {data : List UInt8} {gf : GGPKFile}
    (h : Open utf16LE utf32LE (some data) = Res.ok gf) :
    openBody (newGGPKFile utf16LE utf32LE data) = (Res.ok (), gf) := by
  unfold Open at h
  simp only at h
  rcases hb : openBody (newGGPKFile utf16LE utf32LE data) with ⟨r, g⟩
  rw [hb] at h
  cases r with
  | ok u => simp only [Res.ok.injEq] at h; rw [h]
  | err e => cases h
  | crash => cases h

theorem sliceStringReadBuf_zero {gf gf1 : GGPKFile} {bs : List UInt8}
    (h : sliceStringReadBuf 0 gf = (Res.ok bs, gf1)) : bs = [] ∧ gf1 = gf := by
  unfold sliceStringReadBuf at h
  simp only [Nat.zero_le, if_true, List.take_zero] at h
  cases h
  exact ⟨rfl, rfl⟩

theorem transformBytes_ok {d : Option Decoder} {bs : List UInt8} {gf gf1 : GGPKFile}
    {s : GoString} (h : transformBytes d bs gf = (Res.ok s, gf1)) :
    ∃ dec, d = some dec ∧ dec bs = some s := by
  unfold transformBytes at h
  cases d with
  | none => cases h
  | some dec =>
    simp only at h
    cases hd : dec bs with
    | none => rw [hd] at h; cases h
    | some s1 =>
      rw [hd] at h
      cases h
      exact ⟨dec, rfl, hd⟩

/-- A name of length 0 reads as the empty string; so does a name of length 1 (the
terminator alone) when the decoders decode no bytes to the empty string. -/
theorem readName_short {n : Nat} {gf gf1 : GGPKFile} {s : GoString}
    (h : readName n gf = (Res.ok s, gf1)) (hn : n ≤ 1)
    (h16 : ∀ d, gf.utf16LEDecoder = some d → d [] = some [])
    (h32 : ∀ d, gf.utf32LEDecoder = some d → d [] = some []) : s = [] := by
  unfold readName at h
  obtain ⟨g0, g0a, hg, h1⟩ := bind_eq_ok.mp h
  cases hg
  rcases Nat.le_one_iff_eq_zero_or_eq_one.mp hn with rfl | rfl
  · split at h1 <;> · simp only [readUTF32String, readUTF16String, if_true] at h1; cases h1; rfl
  · split at h1
    · simp only [readUTF32String, one_ne_zero, if_false] at h1
      obtain ⟨u, ga, hfill, h2⟩ := bind_eq_ok.mp h1
      obtain ⟨bs, gb, hslice, h3⟩ := bind_eq_ok.mp h2
      obtain ⟨gc, gd, hget, h4⟩ := bind_eq_ok.mp h3
      cases hget
      have hz : wrapUint32 ((1 - 1) * 4) = 0 := by decide
      rw [hz] at hslice
      obtain ⟨rfl, rfl⟩ := sliceStringReadBuf_zero hslice
      obtain ⟨dec, hdec, hs⟩ := transformBytes_ok h4
      rw [(keeps_of_eq (io_fillStringReadBuf _) hfill).utf32LEDecoder] at hdec
      rw [h32 dec hdec] at hs
      cases hs
      rfl
    · simp only [readUTF16String, one_ne_zero, if_false] at h1
      obtain ⟨u, ga, hfill, h2⟩ := bind_eq_ok.mp h1
      obtain ⟨bs, gb, hslice, h3⟩ := bind_eq_ok.mp h2
      obtain ⟨gc, gd, hget, h4⟩ := bind_eq_ok.mp h3
      cases hget
      have hz : wrapUint32 ((1 - 1) * 2) = 0 := by decide
      rw [hz] at hslice
      obtain ⟨rfl, rfl⟩ := sliceStringReadBuf_zero hslice
      obtain ⟨dec, hdec, hs⟩ := transformBytes_ok h4
      rw [(keeps_of_eq (io_fillStringReadBuf _) hfill).utf16LEDecoder] at hdec
      rw [h16 dec hdec] at hs
      cases hs
      rfl

/-- The record a successful `parseDirectoryRecordBody` stores when no name is
assigned: it is new, has no parent, and its name is empty when the stored name
length is at most 1 and the decoders decode no bytes to the empty string. -/
theorem parseDirectoryRecordBody_fresh {offset : Int} {b : BaseRecord} {gf gf1 : GGPKFile}
    {p : Nat} (h : parseDirectoryRecordBody offset b [] gf = (Res.ok p, gf1)) :
    p = gf.dirRecords.length ∧ ∃ r, gf1.dirRecords = gf.dirRecords ++ [r] ∧ r.parent = none ∧
      (r.NameLength ≤ 1 → (∀ d, gf.utf16LEDecoder = some d → d [] = some []) →
        (∀ d, gf.utf32LEDecoder = some d → d [] = some []) → r.Name = []) := by
  unfold parseDirectoryRecordBody at h
  obtain ⟨nameLength, g1, h1, h⟩ := bind_eq_ok.mp h
  obtain ⟨entryCount, g2, h2, h⟩ := bind_eq_ok.mp h
  obtain ⟨hash, g3, h3, h⟩ := bind_eq_ok.mp h
  obtain ⟨name, g4, h4, h⟩ := bind_eq_ok.mp h
  obtain ⟨entries, g5, h5, h⟩ := bind_eq_ok.mp h
  have e1 := keeps_of_eq io_readUint32 h1
  have e2 := keeps_of_eq io_readUint32 h2
  have e3 := keeps_of_eq (io_readFull _) h3
  have e5 := keeps_of_eq (io_readEntries _) h5
  simp only [ne_eq, not_true_eq_false, false_and, if_false] at h4
  have e4 := keeps_of_eq (io_readName _) h4
  have e13 := ioStep_trans _ _ _ (ioStep_trans _ _ _ e1 e2) e3
  have e15 := ioStep_trans _ _ _ (ioStep_trans _ _ _ e13 e4) e5
  unfold allocDir at h
  cases h
  refine ⟨by rw [e15.dirRecords], _, by rw [e15.dirRecords], rfl, ?_⟩
  intro hn h16 h32
  refine readName_short h4 hn ?_ ?_
  · rw [e13.utf16LEDecoder]
    exact h16
  · rw [e13.utf32LEDecoder]
    exact h32

theorem parseByTag_dir {offset length : Int} {tag : Nat} {g1 g2 : GGPKFile} {p : Nat}
    (h : parseByTag offset length tag g1 = (Res.ok (RecordRef.dir p), g2)) :
    parseDirectoryRecordBody offset { Offset := offset, Length := length, Tag := tag } [] g1 =
      (Res.ok p, g2) := by
  unfold parseByTag at h
  split at h
  next =>
    obtain ⟨q, g, _, hr⟩ := bind_eq_ok.mp h
    cases hr
  next =>
    split at h
    next =>
      obtain ⟨q, g, hq, hr⟩ := bind_eq_ok.mp h
      cases hr
      exact hq
    next =>
      split at h
      next =>
        obtain ⟨q, g, _, hr⟩ := bind_eq_ok.mp h
        cases hr
      next =>
        split at h
        next =>
          obtain ⟨q, g, _, hr⟩ := bind_eq_ok.mp h
          cases hr
        next =>
          obtain ⟨u, g, _, hr⟩ := bind_eq_ok.mp h
          cases hr

theorem modifyDir_ok {p : Nat} {f : DirectoryRecord → DirectoryRecord} {gf gf1 : GGPKFile}
    {u : Unit} (h : modifyDir p f gf = (Res.ok u, gf1)) :
    ∃ d, gf.dirRecords[p]? = some d ∧
      gf1 = { gf with dirRecords := gf.dirRecords.set p (f d) } := by
  unfold modifyDir at h
  cases hd : gf.dirRecords[p]? with
  | none => rw [hd] at h; cases h
  | some d =>
    rw [hd] at h
    cases h
    exact ⟨d, rfl, rfl⟩

/-- A successful `ReadDirectoryRecordAt`: the record read is a directory record, and
the call assigns its parent (and its name, when one is assigned and it has none). -/
theorem ReadDirectoryRecordAt_ok {offset : Int} {parent : Option Nat} {assignedName : GoString}
    {gf gf2 : GGPKFile} {p : Nat}
    (h : ReadDirectoryRecordAt offset parent assignedName gf = (Res.ok p, gf2)) :
    offset ≠ 0 ∧ ∃ g1 d, ReadRecordAt offset gf = (Res.ok (RecordRef.dir p), g1) ∧
      g1.dirRecords[p]? = some d ∧
      gf2 = { g1 with dirRecords := (g1.dirRecords.set p
        { d with Name := if assignedName ≠ [] ∧ d.Name = [] then assignedName else d.Name,
                 parent := parent }) } := by
  unfold ReadDirectoryRecordAt at h
  split at h
  · cases h
  next hne =>
    refine ⟨hne, ?_⟩
    obtain ⟨record, g1, h1, h2⟩ := bind_eq_ok.mp h
    cases record with
    | dir q =>
      simp only at h2
      obtain ⟨u, g2, h3, h4⟩ := bind_eq_ok.mp h2
      cases h4
      obtain ⟨d, hd, rfl⟩ := modifyDir_ok h3
      exact ⟨g1, d, h1, hd, rfl⟩
    | ggpk q => cases h2
    | free q => cases h2
    | file q => cases h2

theorem Open_of_openBody {utf16LE utf32LE : Decoder} {data : List UInt8}
    (h : (openBody (newGGPKFile utf16LE utf32LE data)).1 = Res.ok ()) :
    Open utf16LE utf32LE (some data) =
      Res.ok (openBody (newGGPKFile utf16LE utf32LE data)).2 := by
  unfold Open
  simp only
  rcases hb : openBody (newGGPKFile utf16LE utf32LE data) with ⟨r, g⟩
  rw [hb] at h
  simp only at h
  subst h
  rfl

theorem DirectoryRecord_GetPath_root {gf : GGPKFile} {p : Nat} {d : DirectoryRecord}
    (hd : gf.dirRecords[p]? = some d) (hparent : d.parent = none) :
    DirectoryRecord.GetPath (some p) gf = (Res.ok d.Name, gf) := by
  unfold DirectoryRecord.GetPath
  simp only [DirectoryRecord.GetPathFuel, hd, hparent, and_true]
  by_cases hn : d.Name = []
  · simp [hn]
  · simp [hn]

/-- What `Open` leaves behind: the root pointer, the root record with no parent,
and its name as stored (empty when the stored name length is at most 1 and the
decoders decode no bytes to the empty string). -/
theorem Open_root_record {utf16LE utf32LE : Decoder} {data : List UInt8} {gf : GGPKFile}
    (hopen : Open utf16LE utf32LE (some data) = Res.ok gf) :
    ∃ p d, gf.Root = some p ∧ gf.dirRecords[p]? = some d ∧ d.parent = none ∧
      (d.NameLength ≤ 1 → utf16LE [] = some [] → utf32LE [] = some [] → d.Name = []) := by
  have h := Open_eq_ok hopen
  unfold openBody at h
  obtain ⟨header, g1, h1, h⟩ := bind_eq_ok.mp h
  obtain ⟨g0, g0a, hg, h⟩ := bind_eq_ok.mp h
  cases hg
  have grow1 := keeps_of_eq (grow_parseGGPKRecordBody 0) h1
  cases hh : g1.ggpkRecords[header]? with
  | none => rw [hh] at h; cases h
  | some hdr =>
    rw [hh] at h
    simp only at h
    obtain ⟨u1, ga, hset, h⟩ := bind_eq_ok.mp h
    obtain ⟨u2, gb, hstore, h⟩ := bind_eq_ok.mp h
    unfold setHeader at hset
    cases hset
    unfold cacheStore at hstore
    cases hstore
    split at h
    · cases h
    · obtain ⟨root, g3, hroot, h⟩ := bind_eq_ok.mp h
      unfold setRoot at h
      cases h
      obtain ⟨hne, g2, d0, hread, hd0, rfl⟩ := ReadDirectoryRecordAt_ok hroot
      have hmiss : (fun k => if k = 0 then some (RecordRef.ggpk header)
          else g1.recordCache k) hdr.RootDirectoryOffset = none := by
        simp only [hne, if_false, grow1.recordCache]
        rfl
      obtain ⟨length, tag, gc, gd, hhead, hparse, rfl⟩ := ReadRecordAt_miss_ok hmiss hread
      obtain ⟨hp, r, hr, hrp, hname⟩ := parseDirectoryRecordBody_fresh (parseByTag_dir hparse)
      have hio := keeps_of_eq (io_readRecordHeaderAndSeek hdr.RootDirectoryOffset) hhead
      simp only [hr, hp, getElem?_append_singleton, Option.some.injEq] at hd0
      subst hd0
      refine ⟨root,
        { r with Name := if ([] : GoString) ≠ [] ∧ r.Name = [] then [] else r.Name, parent := none },
        rfl, ?_, rfl, ?_⟩
      · simp only [hr, hp, List.set_append_right, le_refl, Nat.sub_self, List.set_cons_zero]
        simp
      · intro hn h16 h32
        simp only [ne_eq, not_true_eq_false, false_and, if_false]
        refine hname hn ?_ ?_
        · rw [hio.utf16LEDecoder]
          simp only [grow1.utf16LEDecoder, newGGPKFile, Option.some.injEq]
          rintro d rfl
          exact h16
        · rw [hio.utf32LEDecoder]
          simp only [grow1.utf32LEDecoder, newGGPKFile, Option.some.injEq]
          rintro d rfl
          exact h32

/-- C9, as the code has it. After a successful `Open`, `GetNodeByPath("")` and
`GetNodeByPath("/")` both return the root directory node, with no error and no
change of state; the root node has no parent and its computed path (`GetPath`)
is its name. The name is the one stored in the root record (`Open` assigns none):
it is empty, and with it the computed path, when the stored name length is 0, or is
1 (the terminator alone) and the decoders decode no bytes to the empty string. -/
theorem Open_root (utf16LE utf32LE : Decoder) (data : List UInt8) (gf : GGPKFile)
    (hopen : Open utf16LE utf32LE (some data) = Res.ok gf) :
    ∃ p d, gf.Root = some p ∧ gf.dirRecords[p]? = some d ∧
      GetNodeByPath [] gf = (Res.ok (TreeNode.dir (some p)), gf) ∧
      GetNodeByPath ['/'] gf = (Res.ok (TreeNode.dir (some p)), gf) ∧
      d.parent = none ∧
      TreeNode.GetParent (TreeNode.dir (some p)) gf = (Res.ok none, gf) ∧
      TreeNode.GetName (TreeNode.dir (some p)) gf = (Res.ok d.Name, gf) ∧
      TreeNode.GetPath (TreeNode.dir (some p)) gf = (Res.ok d.Name, gf) ∧
      (d.NameLength ≤ 1 → utf16LE [] = some [] → utf32LE [] = some [] → d.Name = []) := by
  obtain ⟨p, d, hroot, hd, hparent, hname⟩ := Open_root_record hopen
  refine ⟨p, d, hroot, hd, ?_, ?_, hparent, ?_, ?_, ?_, hname⟩
  · simp only [GetNodeByPath, bind_apply, getState, true_or, if_true, pure_apply, hroot]
  · simp only [GetNodeByPath, bind_apply, getState, or_true, if_true, pure_apply, hroot]
  · simp only [TreeNode.GetParent, bind_apply, getDir, hd, pure_apply, hparent]
  · simp only [TreeNode.GetName, bind_apply, getDir, hd, pure_apply]
  · exact DirectoryRecord_GetPath_root hd hparent

theorem Open_root_witness :
    Open refUTF16LE refUTF32LE (some buildTestGGPK) = Res.ok testHandle ∧
    GetNodeByPath [] testHandle = (Res.ok (TreeNode.dir (some 0)), testHandle) ∧
    GetNodeByPath ['/'] testHandle = (Res.ok (TreeNode.dir (some 0)), testHandle) ∧
    TreeNode.GetParent (TreeNode.dir (some 0)) testHandle = (Res.ok none, testHandle) ∧
    TreeNode.GetName (TreeNode.dir (some 0)) testHandle = (Res.ok [], testHandle) ∧
    TreeNode.GetPath (TreeNode.dir (some 0)) testHandle = (Res.ok [], testHandle) := by
  have hopen : Open refUTF16LE refUTF32LE (some buildTestGGPK) = Res.ok testHandle :=
    Open_of_openBody (by decide!)
  obtain ⟨p, d, hroot, hd, h1, h2, _, h3, h4, h5, hname⟩ :=
    Open_root refUTF16LE refUTF32LE buildTestGGPK testHandle hopen
  have hp : testHandle.Root = some 0 := by decide!
  rw [hp] at hroot
  cases hroot
  have hlen : (testHandle.dirRecords[0]?).map (·.NameLength) = some 1 := by decide!
  rw [hd] at hlen
  simp only [Option.map_some', Option.some.injEq] at hlen
  have hn : d.Name = [] := hname (by omega) rfl rfl
  rw [hn] at h4 h5
  exact ⟨hopen, h1, h2, h3, h4, h5⟩

/-- C9 as stated fails: `Open` succeeds on an archive whose root record stores the
name "r"; the root node returned for `""` then has the name "r" and the
computed path "r", not the empty string. -/
theorem Open_root_named_counterexample :
    Open refUTF16LE refUTF32LE (some namedRootArchive) = Res.ok namedRootHandle ∧
    (GetNodeByPath [] namedRootHandle).1 = Res.ok (TreeNode.dir (some 0)) ∧
    (TreeNode.GetName (TreeNode.dir (some 0)) namedRootHandle).1 = Res.ok ['r'] ∧
    (TreeNode.GetPath (TreeNode.dir (some 0)) namedRootHandle).1 = Res.ok ['r'] ∧
    (TreeNode.GetPath (TreeNode.dir (some 0)) namedRootHandle).1 ≠ Res.ok [] :=
  ⟨Open_of_openBody (by decide!), by decide!, by decide!, by decide!, by decide!⟩

/-! ## Path lookup (`FindChildByName`, `GetNodeByPath`) -/

theorem TreeNode_GetName_state (child : TreeNode) (gf : GGPKFile) :
    (child.GetName gf).2 = gf := by
  cases child with
  | nil => rfl
  | file p =>
    simp only [TreeNode.GetName, bind_apply, getFile]
    cases gf.fileRecords[p]? <;> rfl
  | dir q =>
    cases q with
    | none => rfl
    | some p =>
      simp only [TreeNode.GetName, bind_apply, getDir]
      cases gf.dirRecords[p]? <;> rfl

theorem DirectoryRecord_GetPath_state (dr : Option Nat) (gf : GGPKFile) :
    (DirectoryRecord.GetPath dr gf).2 = gf := by
  unfold DirectoryRecord.GetPath
  cases dr with
  | none => rfl
  | some p =>
    simp only
    cases DirectoryRecord.GetPathFuel gf.dirRecords (gf.dirRecords.length + 1) p <;> rfl

/-- The scan finds nothing when every child is the nil interface or has a name other
than the one asked for. -/
theorem scanChildren_none (name : GoString) (children : List TreeNode) (gf : GGPKFile)
    (h : ∀ child ∈ children, child = TreeNode.nil ∨
      ∃ n, (child.GetName gf).1 = Res.ok n ∧ n ≠ name) :
    scanChildren name children gf = (Res.ok none, gf) := by
  induction children with
  | nil => rfl
  | cons child rest ih =>
    have hrest := ih fun c hc => h c (List.mem_cons_of_mem _ hc)
    unfold scanChildren
    rcases h child (List.mem_cons_self _ _) with hnil | ⟨n, hn, hne⟩
    · simp only [hnil, if_true]
      exact hrest
    · have hc : child ≠ TreeNode.nil := by
        rintro rfl
        cases hn
      have hrun : child.GetName gf = (Res.ok n, gf) :=
        Prod.ext hn (TreeNode_GetName_state child gf)
      simp only [hc, if_false, bind_apply, hrun, hne]
      exact hrest

/-- When the children of `d` resolve and none of them has the name `part`,
`FindChildByName` returns the not-found error, provided `GetPath` of `d` returns
(it is called to build the error message). -/
theorem FindChildByName_missing (d : Nat) (part : GoString) (g1 : GGPKFile)
    (children : List TreeNode)
    (hkids : (GetChildren d g1).1 = Res.ok children)
    (hnone : ∀ child ∈ children, child = TreeNode.nil ∨
      ∃ n, (child.GetName (GetChildren d g1).2).1 = Res.ok n ∧ n ≠ part)
    (hterm : (DirectoryRecord.GetPath (some d) (GetChildren d g1).2).1 ≠ Res.crash) :
    FindChildByName (some d) part g1 = (Res.err GoError.childNotFound, (GetChildren d g1).2) := by
  rcases hrun : GetChildren d g1 with ⟨r, g2⟩
  rw [hrun] at hkids hnone hterm
  simp only at hkids hnone hterm
  subst hkids
  have hpath : ∃ s, DirectoryRecord.GetPath (some d) g2 = (Res.ok s, g2) := by
    have hst := DirectoryRecord_GetPath_state (some d) g2
    rcases hp : DirectoryRecord.GetPath (some d) g2 with ⟨r, g⟩
    rw [hp] at hst hterm
    simp only at hst hterm
    subst hst
    cases r with
    | ok s => exact ⟨s, rfl⟩
    | err e =>
      unfold DirectoryRecord.GetPath at hp
      simp only at hp
      split at hp <;> cases hp
    | crash => exact absurd rfl hterm
  obtain ⟨s, hs⟩ := hpath
  simp only [FindChildByName, bind_apply, wrapErr, hrun, scanChildren_none part children g2 hnone,
    hs, fail]

theorem walkParts_append (pre rest : List GoString) (cur : TreeNode) (gf : GGPKFile) :
    walkParts cur (pre ++ rest) gf =
      match walkParts cur pre gf with
      | (Res.ok node, g1) => walkParts node rest g1
      | (Res.err e, g1) => (Res.err e, g1)
      | (Res.crash, g1) => (Res.crash, g1) := by
  induction pre generalizing cur gf with
  | nil => rfl
  | cons part pre ih =>
    simp only [List.cons_append, walkParts]
    by_cases hp : part = []
    · simp only [hp, if_true]
      exact ih cur gf
    · simp only [hp, if_false]
      cases cur with
      | nil => rfl
      | file p => rfl
      | dir dirNode =>
        simp only [bind_apply]
        rcases wrapErr (FindChildByName dirNode part) (DirectoryRecord.GetPath dirNode) gf with
          ⟨r, g⟩
        cases r with
        | ok child => exact ih child g
        | err e => rfl
        | crash => rfl

/-- The lookup fails with the not-found error at the first segment that names no
resolved child of the directory reached, provided `GetPath` of that directory
returns. -/
theorem GetNodeByPath_missing_child (gf g1 : GGPKFile) (path : GoString)
    (pre rest : List GoString) (part : GoString) (d : Nat) (children : List TreeNode)
    (hpath : path ≠ [] ∧ path ≠ ['/'])
    (hsplit : stringsSplit (stringsTrim path) = pre ++ part :: rest)
    (hpart : part ≠ [])
    (hwalk : walkParts (TreeNode.dir gf.Root) pre gf = (Res.ok (TreeNode.dir (some d)), g1))
    (hkids : (GetChildren d g1).1 = Res.ok children)
    (hnone : ∀ child ∈ children, child = TreeNode.nil ∨
      ∃ n, (child.GetName (GetChildren d g1).2).1 = Res.ok n ∧ n ≠ part)
    (hterm : (DirectoryRecord.GetPath (some d) (GetChildren d g1).2).1 ≠ Res.crash) :
    GetNodeByPath path gf = (Res.err GoError.childNotFound, (GetChildren d g1).2) := by
  have hfind := FindChildByName_missing d part g1 children hkids hnone hterm
  have hst := DirectoryRecord_GetPath_state (some d) (GetChildren d g1).2
  rcases hp : DirectoryRecord.GetPath (some d) (GetChildren d g1).2 with ⟨r, g⟩
  rw [hp] at hst hterm
  simp only at hst hterm
  subst hst
  have hr : ∃ s, r = Res.ok s := by
    cases r with
    | ok s => exact ⟨s, rfl⟩
    | err e =>
      unfold DirectoryRecord.GetPath at hp
      simp only at hp
      split at hp <;> cases hp
    | crash => exact absurd rfl hterm
  obtain ⟨s, rfl⟩ := hr
  simp only [GetNodeByPath, bind_apply, getState, hpath.1, hpath.2, or_self, if_false, hsplit,
    walkParts_append, hwalk, walkParts, hpart, wrapErr, hfind, hp]

theorem GetNodeByPath_missing_child_witness :
    ("nonexistent.dat".toList ≠ [] ∧ "nonexistent.dat".toList ≠ ['/']) ∧
    (GetChildren 0 testHandle).1 = Res.ok [TreeNode.file 0, TreeNode.file 1] ∧
    (TreeNode.GetName (TreeNode.file 0) (GetChildren 0 testHandle).2).1 =
      Res.ok "file1.txt".toList ∧
    (TreeNode.GetName (TreeNode.file 1) (GetChildren 0 testHandle).2).1 =
      Res.ok "file2_lz4.dat".toList ∧
    GetNodeByPath "nonexistent.dat".toList testHandle =
      (Res.err GoError.childNotFound, (GetChildren 0 testHandle).2) := by
  have hroot : testHandle.Root = some 0 := by decide!
  have h0 : (TreeNode.GetName (TreeNode.file 0) (GetChildren 0 testHandle).2).1 =
      Res.ok "file1.txt".toList := by decide!
  have h1 : (TreeNode.GetName (TreeNode.file 1) (GetChildren 0 testHandle).2).1 =
      Res.ok "file2_lz4.dat".toList := by decide!
  have hkids : (GetChildren 0 testHandle).1 = Res.ok [TreeNode.file 0, TreeNode.file 1] := by
    decide!
  refine ⟨by decide, hkids, h0, h1, ?_⟩
  refine GetNodeByPath_missing_child testHandle testHandle "nonexistent.dat".toList [] []
    "nonexistent.dat".toList 0 [TreeNode.file 0, TreeNode.file 1] (by decide) (by decide!)
    (by decide) ?_ hkids ?_ (by decide!)
  · rw [hroot]
    rfl
  · intro child hc
    simp only [List.mem_cons, List.mem_singleton, List.not_mem_nil, or_false] at hc
    rcases hc with rfl | rfl
    · exact Or.inr ⟨_, h0, by decide⟩
    · exact Or.inr ⟨_, h1, by decide⟩

theorem GetPathFuel_self_parent (dirs : List DirectoryRecord) (p : Nat) (d : DirectoryRecord)
    (hd : dirs[p]? = some d) (hp : d.parent = some p) (fuel : Nat) :
    DirectoryRecord.GetPathFuel dirs fuel p = none := by
  induction fuel with
  | zero => rfl
  | succ n ih => simp [DirectoryRecord.GetPathFuel, hd, hp, ih]

/-- C10 at an archive whose root directory has one entry that points at the root
record itself. `Open` succeeds. Resolving the children of the root gives one child,
the root itself, whose name is empty: no resolved child is named "x". Resolving
has made the root its own parent, so `GetPath` of the root, which
`FindChildByName` calls to build its error message, recurses without end whatever
the depth allowed; `GetNodeByPath("x")` does not return an error, it never returns. -/
theorem GetNodeByPath_missing_child_crash :
    Open refUTF16LE refUTF32LE (some selfEntryArchive) = Res.ok selfEntryHandle ∧
    (GetChildren 0 selfEntryHandle).1 = Res.ok [TreeNode.dir (some 0)] ∧
    (TreeNode.GetName (TreeNode.dir (some 0)) (GetChildren 0 selfEntryHandle).2).1 = Res.ok [] ∧
    (∀ fuel, DirectoryRecord.GetPathFuel (GetChildren 0 selfEntryHandle).2.dirRecords fuel 0 =
      none) ∧
    (GetNodeByPath ['x'] selfEntryHandle).1 = Res.crash := by
  refine ⟨Open_of_openBody (by decide!), by decide!, by decide!, ?_, by decide!⟩
  have hd : ((GetChildren 0 selfEntryHandle).2.dirRecords[0]?).map (·.parent) =
      some (some 0) := by decide!
  cases hrec : (GetChildren 0 selfEntryHandle).2.dirRecords[0]? with
  | none =>
    rw [hrec] at hd
    cases hd
  | some d =>
    rw [hrec] at hd
    simp only [Option.map_some', Option.some.injEq] at hd
    exact GetPathFuel_self_parent _ 0 d hrec hd

/-! ## Walking a path: files in the middle, slashes at the ends -/

/-- C11. When the walk over the first segments of a path has reached a File node and
a further non-empty segment follows, `GetNodeByPath` returns the error "expected
a directory" (in the state the walk had reached): a File node can only come back
as the result of the last non-empty segment. -/
theorem GetNodeByPath_file_midpath (gf : GGPKFile) (path : GoString)
    (pre rest : List GoString) (part : GoString) (p : Nat)
    (hpath : path ≠ [] ∧ path ≠ ['/'])
    (hsplit : stringsSplit (stringsTrim path) = pre ++ part :: rest)
    (hpart : part ≠ [])
    (hwalk : (walkParts (TreeNode.dir gf.Root) pre gf).1 = Res.ok (TreeNode.file p)) :
    GetNodeByPath path gf =
      (Res.err GoError.notADirectory, (walkParts (TreeNode.dir gf.Root) pre gf).2) := by
  rcases hw : walkParts (TreeNode.dir gf.Root) pre gf with ⟨r, g1⟩
  rw [hw] at hwalk
  simp only at hwalk
  subst hwalk
  simp only [GetNodeByPath, bind_apply, getState, hpath.1, hpath.2, or_self, if_false, hsplit,
    walkParts_append, hw, walkParts, hpart, fail]

theorem GetNodeByPath_file_midpath_witness :
    ("file1.txt/x".toList ≠ [] ∧ "file1.txt/x".toList ≠ ['/']) ∧
    stringsSplit (stringsTrim "file1.txt/x".toList) = ["file1.txt".toList] ++ ['x'] :: [] ∧
    (walkParts (TreeNode.dir testHandle.Root) ["file1.txt".toList] testHandle).1 =
      Res.ok (TreeNode.file 0) ∧
    GetNodeByPath "file1.txt/x".toList testHandle =
      (Res.err GoError.notADirectory,
        (walkParts (TreeNode.dir testHandle.Root) ["file1.txt".toList] testHandle).2) :=
  ⟨by decide, by decide!, by decide!,
    GetNodeByPath_file_midpath testHandle "file1.txt/x".toList ["file1.txt".toList] [] ['x'] 0
      (by decide) (by decide!) (by decide) (by decide!)⟩

theorem dropWhile_slashes_append (n : Nat) (s : GoString) :
    (List.replicate n '/' ++ s).dropWhile (· = '/') = s.dropWhile (· = '/') := by
  induction n with
  | zero => rfl
  | succ k ih =>
    rw [List.replicate_succ, List.cons_append, List.dropWhile_cons_of_pos (by simp)]
    exact ih

theorem stringsTrim_slashes (n m : Nat) (s : GoString) :
    stringsTrim (List.replicate n '/' ++ s ++ List.replicate m '/') = stringsTrim s := by
  unfold stringsTrim
  rw [List.append_assoc, dropWhile_slashes_append, List.dropWhile_append]
  split
  next hempty =>
    have h1 : s.dropWhile (· = '/') = [] := List.isEmpty_iff.mp hempty
    have h2 : (List.replicate m '/').dropWhile (· = '/') = [] := by
      have := dropWhile_slashes_append m []
      rw [List.append_nil] at this
      rw [this]
      rfl
    rw [h1, h2]
  next =>
    rw [List.reverse_append, List.reverse_replicate, dropWhile_slashes_append]

/-- The special case for `""` and `"/"` agrees with the general walk: the trimmed path
is empty, its only part is empty and is skipped. -/
theorem GetNodeByPath_eq_walk (path : GoString) (gf : GGPKFile) :
    GetNodeByPath path gf =
      walkParts (TreeNode.dir gf.Root) (stringsSplit (stringsTrim path)) gf := by
  simp only [GetNodeByPath, bind_apply, getState]
  split
  next h =>
    rcases h with rfl | rfl <;> rfl
  next => rfl

/-- C13. Any number of `/` characters in front of a path and any number behind it
change nothing: `GetNodeByPath` has the same outcome (the same node, the same
error or the same failure to return) and leaves the same state. -/
theorem GetNodeByPath_slashes (gf : GGPKFile) (path : GoString) (n m : Nat) :
    GetNodeByPath (List.replicate n '/' ++ path ++ List.replicate m '/') gf =
      GetNodeByPath path gf := by
  rw [GetNodeByPath_eq_walk, GetNodeByPath_eq_walk, stringsTrim_slashes]

/-! ## `FindChildByName` -/

/-- The scan returns the first child that is not nil and has the name asked for. -/
theorem scanChildren_first (name : GoString) (pre post : List TreeNode) (c : TreeNode)
    (gf : GGPKFile)
    (hpre : ∀ child ∈ pre, child = TreeNode.nil ∨
      ∃ n, (child.GetName gf).1 = Res.ok n ∧ n ≠ name)
    (hc : (c.GetName gf).1 = Res.ok name) :
    scanChildren name (pre ++ c :: post) gf = (Res.ok (some c), gf) := by
  induction pre with
  | nil =>
    have hne : c ≠ TreeNode.nil := by
      rintro rfl
      cases hc
    have hrun : c.GetName gf = (Res.ok name, gf) := Prod.ext hc (TreeNode_GetName_state c gf)
    simp only [List.nil_append, scanChildren, hne, if_false, bind_apply, hrun, if_true, pure_apply]
  | cons child rest ih =>
    have hrest := ih fun x hx => hpre x (List.mem_cons_of_mem _ hx)
    simp only [List.cons_append, scanChildren]
    rcases hpre child (List.mem_cons_self _ _) with hnil | ⟨n, hn, hne⟩
    · simp only [hnil, if_true]
      exact hrest
    · have hchild : child ≠ TreeNode.nil := by
        rintro rfl
        cases hn
      have hrun : child.GetName gf = (Res.ok n, gf) :=
        Prod.ext hn (TreeNode_GetName_state child gf)
      simp only [hchild, if_false, bind_apply, hrun, hne]
      exact hrest

/-- When the children of `d` resolve and `c` is the first of them, in entry order,
whose name is exactly `name`, `FindChildByName` returns `c`. -/
theorem FindChildByName_first (d : Nat) (name : GoString) (g1 : GGPKFile)
    (pre post : List TreeNode) (c : TreeNode)
    (hkids : (GetChildren d g1).1 = Res.ok (pre ++ c :: post))
    (hpre : ∀ child ∈ pre, child = TreeNode.nil ∨
      ∃ n, (child.GetName (GetChildren d g1).2).1 = Res.ok n ∧ n ≠ name)
    (hc : (c.GetName (GetChildren d g1).2).1 = Res.ok name) :
    FindChildByName (some d) name g1 = (Res.ok c, (GetChildren d g1).2) := by
  rcases hrun : GetChildren d g1 with ⟨r, g2⟩
  rw [hrun] at hkids hpre hc
  simp only at hkids hpre hc
  subst hkids
  simp only [FindChildByName, bind_apply, wrapErr, hrun,
    scanChildren_first name pre post c g2 hpre hc, pure_apply]

theorem FindChildByName_first_witness :
    (GetChildren 0 testHandle).1 = Res.ok ([TreeNode.file 0] ++ TreeNode.file 1 :: []) ∧
    (TreeNode.GetName (TreeNode.file 0) (GetChildren 0 testHandle).2).1 =
      Res.ok "file1.txt".toList ∧
    (TreeNode.GetName (TreeNode.file 1) (GetChildren 0 testHandle).2).1 =
      Res.ok "file2_lz4.dat".toList ∧
    FindChildByName (some 0) "file2_lz4.dat".toList testHandle =
      (Res.ok (TreeNode.file 1), (GetChildren 0 testHandle).2) := by
  have h0 : (TreeNode.GetName (TreeNode.file 0) (GetChildren 0 testHandle).2).1 =
      Res.ok "file1.txt".toList := by decide!
  have h1 : (TreeNode.GetName (TreeNode.file 1) (GetChildren 0 testHandle).2).1 =
      Res.ok "file2_lz4.dat".toList := by decide!
  have hkids : (GetChildren 0 testHandle).1 =
      Res.ok ([TreeNode.file 0] ++ TreeNode.file 1 :: []) := by decide!
  refine ⟨hkids, h0, h1, FindChildByName_first 0 _ testHandle _ _ _ hkids ?_ h1⟩
  intro child hc
  simp only [List.mem_singleton] at hc
  subst hc
  exact Or.inr ⟨_, h0, by decide⟩

/-- C12 at the root of an archive whose root directory has one entry that points at
the root record itself. The children of the root resolve (one child, the root,
named ""), so no child is named "x"; yet `FindChildByName` does not return an
error: to build the message it calls `GetPath` of the root, which is now its own
parent, and that call never returns. -/
theorem FindChildByName_missing_crash :
    (GetChildren 0 selfEntryHandle).1 = Res.ok [TreeNode.dir (some 0)] ∧
    (TreeNode.GetName (TreeNode.dir (some 0)) (GetChildren 0 selfEntryHandle).2).1 = Res.ok [] ∧
    (DirectoryRecord.GetPath (some 0) (GetChildren 0 selfEntryHandle).2).1 = Res.crash ∧
    (FindChildByName (some 0) ['x'] selfEntryHandle).1 = Res.crash :=
  ⟨by decide!, by decide!, by decide!, by decide!⟩

/-! ## Resolving children: what the state may undergo -/

theorem fileKept_refl (dr : Nat) (r : FileRecord) : FileKept dr r r := ⟨rfl, Or.inl rfl⟩

theorem dirKept_refl (dr : Nat) (w : Option Nat) (p : Nat) (r : DirectoryRecord) : DirKept dr w p r r :=
  ⟨rfl, Or.inl rfl, fun _ => rfl, rfl⟩

theorem fileKept_trans {dr : Nat} {a b c : FileRecord} (h1 : FileKept dr a b)
    (h2 : FileKept dr b c) : FileKept dr a c := by
  obtain ⟨e1, p1⟩ := h1
  obtain ⟨e2, p2⟩ := h2
  refine ⟨?_, ?_⟩
  · rw [e2, e1]
  · rcases p2 with h | h
    · rw [h]
      exact p1
    · exact Or.inr h

theorem dirKept_trans {dr : Nat} {w : Option Nat} {p : Nat} {a b c : DirectoryRecord} (h1 : DirKept dr w p a b)
    (h2 : DirKept dr w p b c) : DirKept dr w p a c := by
  obtain ⟨e1, p1, c1, l1⟩ := h1
  obtain ⟨e2, p2, c2, l2⟩ := h2
  refine ⟨?_, ?_, ?_, ?_⟩
  · rw [e2, e1]
  · rcases p2 with h | h
    · rw [h]
      exact p1
    · exact Or.inr h
  · intro hne
    rw [c2 hne, c1 hne]
  · rw [l2, l1]

theorem resolving_refl (dr : Nat) (w : Option Nat) (gf : GGPKFile) : Resolving dr w gf gf :=
  { isSome := rfl, data := rfl, Header := rfl, Root := rfl, utf16LEDecoder := rfl,
    utf32LEDecoder := rfl, recordCache := fun _ _ h => h, ggpkRecords := ⟨[], by simp⟩,
    freeRecords := ⟨[], by simp⟩,
    fileRecords := fun _ r h => ⟨r, h, fileKept_refl dr r⟩,
    dirRecords := fun p r h => ⟨r, h, dirKept_refl dr w p r⟩ }

theorem resolving_trans (dr : Nat) (w : Option Nat) (a b c : GGPKFile) (h1 : Resolving dr w a b)
    (h2 : Resolving dr w b c) : Resolving dr w a c := by
  constructor
  · rw [h2.isSome, h1.isSome]
  · rw [h2.data, h1.data]
  · rw [h2.Header, h1.Header]
  · rw [h2.Root, h1.Root]
  · rw [h2.utf16LEDecoder, h1.utf16LEDecoder]
  · rw [h2.utf32LEDecoder, h1.utf32LEDecoder]
  · exact fun o r h => h2.recordCache o r (h1.recordCache o r h)
  · obtain ⟨l1, e1⟩ := h1.ggpkRecords
    obtain ⟨l2, e2⟩ := h2.ggpkRecords
    exact ⟨l1 ++ l2, by rw [e2, e1, List.append_assoc]⟩
  · obtain ⟨l1, e1⟩ := h1.freeRecords
    obtain ⟨l2, e2⟩ := h2.freeRecords
    exact ⟨l1 ++ l2, by rw [e2, e1, List.append_assoc]⟩
  · intro p r h
    obtain ⟨r1, hr1, k1⟩ := h1.fileRecords p r h
    obtain ⟨r2, hr2, k2⟩ := h2.fileRecords p r1 hr1
    exact ⟨r2, hr2, fileKept_trans k1 k2⟩
  · intro p r h
    obtain ⟨r1, hr1, k1⟩ := h1.dirRecords p r h
    obtain ⟨r2, hr2, k2⟩ := h2.dirRecords p r1 hr1
    exact ⟨r2, hr2, dirKept_trans k1 k2⟩

theorem getElem?_append_of_some {α : Type} {l : List α} {p : Nat} {a : α} (l1 : List α)
    (h : l[p]? = some a) : (l ++ l1)[p]? = some a := by
  have hlt : p < l.length := by
    by_contra hge
    rw [List.getElem?_eq_none (not_lt.mp hge)] at h
    cases h
  rw [List.getElem?_append_left hlt]
  exact h

theorem resolving_of_grow (dr : Nat) (w : Option Nat) {gf g1 : GGPKFile} (h : Grow gf g1) : Resolving dr w gf g1 := by
  obtain ⟨lf, ef⟩ := h.fileRecords
  obtain ⟨ld, ed⟩ := h.dirRecords
  exact
    { isSome := h.isSome, data := h.data, Header := h.Header, Root := h.Root,
      utf16LEDecoder := h.utf16LEDecoder, utf32LEDecoder := h.utf32LEDecoder,
      recordCache := fun o r hc => by rw [h.recordCache]; exact hc,
      ggpkRecords := h.ggpkRecords, freeRecords := h.freeRecords,
      fileRecords := fun p r hp =>
        ⟨r, by rw [ef]; exact getElem?_append_of_some lf hp, fileKept_refl dr r⟩,
      dirRecords := fun p r hp =>
        ⟨r, by rw [ed]; exact getElem?_append_of_some ld hp, dirKept_refl dr w p r⟩ }

theorem res_bind {α β : Type} {dr : Nat} {w : Option Nat} {m : M α} {f : α → M β}
    (hm : Keeps (Resolving dr w) m) (hf : ∀ a, Keeps (Resolving dr w) (f a)) :
    Keeps (Resolving dr w) (m >>= f) :=
  keeps_bind (resolving_trans dr w) hm hf

theorem res_of_io {α : Type} (dr : Nat) (w : Option Nat) {m : M α} (h : Keeps IOStep m) :
    Keeps (Resolving dr w) m :=
  fun gf => resolving_of_grow dr w (ioStep_grow (h gf))

theorem res_of_grow {α : Type} (dr : Nat) (w : Option Nat) {m : M α} (h : Keeps Grow m) :
    Keeps (Resolving dr w) m :=
  fun gf => resolving_of_grow dr w (h gf)

theorem res_ReadRecordAt (dr : Nat) (w : Option Nat) (offset : Int) : Keeps (Resolving dr w) (ReadRecordAt offset) := by
  intro gf
  unfold ReadRecordAt
  cases hc : gf.recordCache offset with
  | some r => exact resolving_refl dr w gf
  | none =>
    simp only
    rw [bind_apply]
    rcases h1 : readRecordHeaderAndSeek offset gf with ⟨r1, g1⟩
    have e1 := resolving_of_grow dr w (ioStep_grow (keeps_of_eq (io_readRecordHeaderAndSeek offset) h1))
    have c1 := (keeps_of_eq (io_readRecordHeaderAndSeek offset) h1).recordCache
    cases r1 with
    | ok x =>
      rcases x with ⟨length, tag⟩
      simp only
      rw [bind_apply]
      rcases h2 : parseByTag offset length tag g1 with ⟨r2, g2⟩
      have g12 := keeps_of_eq (grow_parseByTag offset length tag) h2
      have e2 := resolving_trans dr w _ _ _ e1 (resolving_of_grow dr w g12)
      cases r2 with
      | ok r =>
        simp only [bind_apply, cacheStore, pure_apply]
        refine resolving_trans dr w _ _ _ e2 ?_
        refine { (resolving_refl dr w g2) with recordCache := ?_ }
        intro o r0 h0
        have hne : o ≠ offset := by
          rintro rfl
          rw [g12.recordCache, c1, hc] at h0
          cases h0
        simp only [hne, if_false]
        exact h0
      | err e => exact e2
      | crash => exact e2
    | err e => exact e1
    | crash => exact e1

theorem res_modifyDir (dr : Nat) (w : Option Nat) (p : Nat) (f : DirectoryRecord → DirectoryRecord)
    (hf : ∀ r, DirKept dr w p r (f r)) : Keeps (Resolving dr w) (modifyDir p f) := by
  intro gf
  unfold modifyDir
  cases hd : gf.dirRecords[p]? with
  | none => exact resolving_refl dr w gf
  | some d =>
    simp only
    refine { (resolving_refl dr w gf) with dirRecords := ?_ }
    intro q r hq
    by_cases hqp : q = p
    · subst hqp
      rw [hd] at hq
      cases hq
      refine ⟨f d, ?_, hf d⟩
      have hlt : q < gf.dirRecords.length := by
        by_contra hge
        rw [List.getElem?_eq_none (not_lt.mp hge)] at hd
        cases hd
      simp [hlt]
    · refine ⟨r, ?_, dirKept_refl dr w q r⟩
      simp only [List.getElem?_set_ne (Ne.symm hqp)]
      exact hq

theorem res_modifyFile (dr : Nat) (w : Option Nat) (p : Nat) (f : FileRecord → FileRecord)
    (hf : ∀ r, FileKept dr r (f r)) : Keeps (Resolving dr w) (modifyFile p f) := by
  intro gf
  unfold modifyFile
  cases hd : gf.fileRecords[p]? with
  | none => exact resolving_refl dr w gf
  | some d =>
    simp only
    refine { (resolving_refl dr w gf) with fileRecords := ?_ }
    intro q r hq
    by_cases hqp : q = p
    · subst hqp
      rw [hd] at hq
      cases hq
      refine ⟨f d, ?_, hf d⟩
      have hlt : q < gf.fileRecords.length := by
        by_contra hge
        rw [List.getElem?_eq_none (not_lt.mp hge)] at hd
        cases hd
      simp [hlt]
    · refine ⟨r, ?_, fileKept_refl dr r⟩
      simp only [List.getElem?_set_ne (Ne.symm hqp)]
      exact hq

theorem res_ReadDirectoryRecordAt (dr : Nat) (w : Option Nat) (offset : Int) :
    Keeps (Resolving dr w) (ReadDirectoryRecordAt offset (some dr) []) := by
  unfold ReadDirectoryRecordAt
  split
  · exact res_of_io dr w (io_fail _)
  · refine res_bind (res_ReadRecordAt dr w offset) fun record => ?_
    cases record with
    | dir p =>
      refine res_bind (res_modifyDir dr w p _ fun r => ?_) fun _ => res_of_io dr w (io_pure _)
      exact ⟨by simp, Or.inr rfl, fun _ => rfl, rfl⟩
    | ggpk p => exact res_of_io dr w (io_fail _)
    | free p => exact res_of_io dr w (io_fail _)
    | file p => exact res_of_io dr w (io_fail _)

theorem res_ReadFileRecordAt (dr : Nat) (w : Option Nat) (offset : Int) :
    Keeps (Resolving dr w) (ReadFileRecordAt offset (some dr)) := by
  unfold ReadFileRecordAt
  split
  · exact res_of_io dr w (io_fail _)
  · refine res_bind (res_ReadRecordAt dr w offset) fun record => ?_
    cases record with
    | file p =>
      refine res_bind (res_modifyFile dr w p _ fun r => ?_) fun _ => res_of_io dr w (io_pure _)
      exact ⟨rfl, Or.inr rfl⟩
    | ggpk p => exact res_of_io dr w (io_fail _)
    | free p => exact res_of_io dr w (io_fail _)
    | dir p => exact res_of_io dr w (io_fail _)

theorem res_resolveEntry (dr : Nat) (w : Option Nat) (entry : DirectoryEntry) :
    Keeps (Resolving dr w) (resolveEntry dr entry) := by
  unfold resolveEntry
  refine res_bind (res_of_io dr w (io_readRecordHeaderAndSeek _)) fun x => ?_
  rcases x with ⟨length, tag⟩
  simp only
  split
  · exact res_bind (res_ReadDirectoryRecordAt dr w _) fun _ => res_of_io dr w (io_pure _)
  · split
    · exact res_bind (res_ReadFileRecordAt dr w _) fun _ => res_of_io dr w (io_pure _)
    · exact res_bind (res_of_io dr w (io_seekStartIgnored _)) fun _ => res_of_io dr w (io_fail _)

theorem res_setChild (dr i : Nat) (childNode : TreeNode) :
    Keeps (Resolving dr (some dr)) (setChild dr i childNode) := by
  intro gf
  unfold setChild
  cases hd : gf.dirRecords[dr]? with
  | none => exact resolving_refl dr (some dr) gf
  | some d =>
    simp only
    cases hc : d.Children with
    | none => exact resolving_refl dr (some dr) gf
    | some cs =>
      simp only
      split
      next hlt =>
        refine { (resolving_refl dr (some dr) gf) with dirRecords := ?_ }
        intro q r hq
        by_cases hqp : q = dr
        · subst hqp
          rw [hd] at hq
          cases hq
          have hlt2 : q < gf.dirRecords.length := by
            by_contra hge
            rw [List.getElem?_eq_none (not_lt.mp hge)] at hd
            cases hd
          refine ⟨{ d with Children := some (cs.set i childNode) }, by simp [hlt2], rfl,
            Or.inl rfl, fun h => absurd rfl h, ?_⟩
          simp [hc]
        · refine ⟨r, ?_, dirKept_refl dr (some dr) q r⟩
          simp only [List.getElem?_set_ne (Ne.symm hqp)]
          exact hq
      next => exact resolving_refl dr (some dr) gf

theorem res_resolveEntries (dr : Nat) (entries : List DirectoryEntry) (i : Nat) :
    Keeps (Resolving dr (some dr)) (resolveEntries dr i entries) := by
  induction entries generalizing i with
  | nil => exact res_of_io dr (some dr) (io_pure _)
  | cons entry rest ih =>
    exact res_bind (res_resolveEntry dr (some dr) entry) fun _ =>
      res_bind (res_setChild dr i _) fun _ => ih (i + 1)

/-! ## `GetChildren` -/

theorem ReadRecordAt_cache_after {offset : Int} {gf g1 : GGPKFile} {r : RecordRef}
    (h : ReadRecordAt offset gf = (Res.ok r, g1)) : g1.recordCache offset = some r := by
  cases hc : gf.recordCache offset with
  | some r1 =>
    unfold ReadRecordAt at h
    rw [hc] at h
    cases h
    exact hc
  | none =>
    obtain ⟨length, tag, ga, gb, _, _, rfl⟩ := ReadRecordAt_miss_ok hc h
    simp

theorem modifyFile_ok {p : Nat} {f : FileRecord → FileRecord} {gf gf1 : GGPKFile}
    {u : Unit} (h : modifyFile p f gf = (Res.ok u, gf1)) :
    ∃ d, gf.fileRecords[p]? = some d ∧
      gf1 = { gf with fileRecords := gf.fileRecords.set p (f d) } := by
  unfold modifyFile at h
  cases hd : gf.fileRecords[p]? with
  | none => rw [hd] at h; cases h
  | some d =>
    rw [hd] at h
    cases h
    exact ⟨d, rfl, rfl⟩

theorem ReadFileRecordAt_ok {offset : Int} {parent : Option Nat} {gf gf2 : GGPKFile} {p : Nat}
    (h : ReadFileRecordAt offset parent gf = (Res.ok p, gf2)) :
    offset ≠ 0 ∧ ∃ g1 d, ReadRecordAt offset gf = (Res.ok (RecordRef.file p), g1) ∧
      g1.fileRecords[p]? = some d ∧
      gf2 = { g1 with fileRecords := g1.fileRecords.set p { d with parent := parent } } := by
  unfold ReadFileRecordAt at h
  split at h
  · cases h
  next hne =>
    refine ⟨hne, ?_⟩
    obtain ⟨record, g1, h1, h2⟩ := bind_eq_ok.mp h
    cases record with
    | file q =>
      simp only at h2
      obtain ⟨u, g2, h3, h4⟩ := bind_eq_ok.mp h2
      cases h4
      obtain ⟨d, hd, rfl⟩ := modifyFile_ok h3
      exact ⟨g1, d, h1, hd, rfl⟩
    | ggpk q => cases h2
    | free q => cases h2
    | dir q => cases h2

theorem getElem?_set_same {α : Type} {l : List α} {p : Nat} {a b : α} (h : l[p]? = some a) :
    (l.set p b)[p]? = some b := by
  have hlt : p < l.length := by
    by_contra hge
    rw [List.getElem?_eq_none (not_lt.mp hge)] at h
    cases h
  simp [hlt]

/-- A successful iteration body returns the child the entry denotes. -/
theorem resolveEntry_child {dr : Nat} {entry : DirectoryEntry} {gf g1 : GGPKFile}
    {node : TreeNode} (h : resolveEntry dr entry gf = (Res.ok node, g1)) :
    ∃ f, gf.File = some f ∧ ChildOf dr f.data entry node g1 := by
  unfold resolveEntry at h
  obtain ⟨⟨length, tag⟩, ga, h1, h2⟩ := bind_eq_ok.mp h
  obtain ⟨f, hf, _, _, ht, _, _, _⟩ := readRecordHeaderAndSeek_ok h1
  refine ⟨f, hf, ?_⟩
  simp only at h2
  split at h2
  next htag =>
    obtain ⟨p, gb, h3, h4⟩ := bind_eq_ok.mp h2
    cases h4
    obtain ⟨_, gc, d, hread, hd, rfl⟩ := ReadDirectoryRecordAt_ok h3
    have hcache := ReadRecordAt_cache_after hread
    exact Or.inl ⟨by rw [← htag, ht]; rfl, p, _, rfl, hcache, getElem?_set_same hd, rfl⟩
  next =>
    split at h2
    next htag =>
      obtain ⟨p, gb, h3, h4⟩ := bind_eq_ok.mp h2
      cases h4
      obtain ⟨_, gc, d, hread, hd, rfl⟩ := ReadFileRecordAt_ok h3
      have hcache := ReadRecordAt_cache_after hread
      exact Or.inr ⟨by rw [← htag, ht]; rfl, p, _, rfl, hcache, getElem?_set_same hd, rfl⟩
    next =>
      obtain ⟨u, gb, _, h4⟩ := bind_eq_ok.mp h2
      cases h4

/-- A child stays the child of its entry through the later steps of the loop. -/
theorem childOf_resolving {dr : Nat} {data : List UInt8} {e : DirectoryEntry} {node : TreeNode}
    {g g1 : GGPKFile} (h : ChildOf dr data e node g) {w : Option Nat} (hstep : Resolving dr w g g1) :
    ChildOf dr data e node g1 := by
  rcases h with ⟨ht, p, r, hn, hc, hr, hp⟩ | ⟨ht, p, r, hn, hc, hr, hp⟩
  · obtain ⟨r1, hr1, _, hpar, _⟩ := hstep.dirRecords p r hr
    refine Or.inl ⟨ht, p, r1, hn, hstep.recordCache _ _ hc, hr1, ?_⟩
    rcases hpar with h1 | h1
    · rw [h1, hp]
    · exact h1
  · obtain ⟨r1, hr1, _, hpar⟩ := hstep.fileRecords p r hr
    refine Or.inr ⟨ht, p, r1, hn, hstep.recordCache _ _ hc, hr1, ?_⟩
    rcases hpar with h1 | h1
    · rw [h1, hp]
    · exact h1

theorem setChild_ok {dr i : Nat} {childNode : TreeNode} {gf g1 : GGPKFile} {u : Unit}
    (h : setChild dr i childNode gf = (Res.ok u, g1)) :
    ∃ d cs, gf.dirRecords[dr]? = some d ∧ d.Children = some cs ∧ i < cs.length ∧
      g1.dirRecords[dr]? = some { d with Children := some (cs.set i childNode) } := by
  unfold setChild at h
  cases hd : gf.dirRecords[dr]? with
  | none => rw [hd] at h; cases h
  | some d =>
    rw [hd] at h
    simp only at h
    cases hc : d.Children with
    | none => rw [hc] at h; cases h
    | some cs =>
      rw [hc] at h
      simp only at h
      split at h
      next hlt =>
        cases h
        exact ⟨d, cs, rfl, hc, hlt, getElem?_set_same hd⟩
      next => cases h

theorem file_data_of_resolving {dr : Nat} {w : Option Nat} {gf g1 : GGPKFile} {f f1 : OSFile}
    (h : Resolving dr w gf g1) (hf : gf.File = some f) (hf1 : g1.File = some f1) :
    f1.data = f.data := by
  have hdat := h.data
  rw [hf, hf1] at hdat
  simpa using hdat

/-- The loop of `GetChildren`, run to the end from index `i`: the children list of
`dr` keeps its length and its entries below `i`, and entry `i + k` holds the child
that the `k`-th remaining directory entry denotes. -/
theorem resolveEntries_ok (dr : Nat) (entries : List DirectoryEntry) :
    ∀ (i : Nat) (gf g1 : GGPKFile) (d : DirectoryRecord) (cs : List TreeNode),
      gf.dirRecords[dr]? = some d → d.Children = some cs →
      resolveEntries dr i entries gf = (Res.ok (), g1) →
      ∃ d1 cs1, g1.dirRecords[dr]? = some d1 ∧ d1.Children = some cs1 ∧
        d1.EntryCount = d.EntryCount ∧ d1.Entries = d.Entries ∧
        d1.childRecordsDirty = d.childRecordsDirty ∧
        cs1.length = cs.length ∧ (∀ j, j < i → cs1[j]? = cs[j]?) ∧
        ∀ k (hk : k < entries.length), ∃ f node, gf.File = some f ∧ cs1[i + k]? = some node ∧
          ChildOf dr f.data (entries.get ⟨k, hk⟩) node g1 := by
  induction entries with
  | nil =>
    intro i gf g1 d cs hd hc h
    cases h
    exact ⟨d, cs, hd, hc, rfl, rfl, rfl, rfl, fun _ _ => rfl,
      fun k hk => absurd hk (Nat.not_lt_zero k)⟩
  | cons entry rest ih =>
    intro i gf g1 d cs hd hc h
    unfold resolveEntries at h
    obtain ⟨node, ga, h1, h2⟩ := bind_eq_ok.mp h
    obtain ⟨u, gb, h3, h4⟩ := bind_eq_ok.mp h2
    obtain ⟨f, hf, hchild⟩ := resolveEntry_child h1
    have sa := keeps_of_eq (res_resolveEntry dr none entry) h1
    have sb := keeps_of_eq (res_setChild dr i node) h3
    have sc := keeps_of_eq (res_resolveEntries dr rest (i + 1)) h4
    obtain ⟨da, hda, heq, _, hsame, _⟩ := sa.dirRecords dr d hd
    have hsame := hsame (by simp)
    obtain ⟨da1, csa, hda1, hcsa, hi, hdb⟩ := setChild_ok h3
    rw [hda] at hda1
    cases hda1
    rw [hc, hcsa] at hsame
    cases hsame
    obtain ⟨d1, cs1, hd1, hcs1, hcount, hentries, hdirty, hlen1, hlow, hrest⟩ :=
      ih (i + 1) gb g1 _ (cs.set i node) hdb rfl h4
    refine ⟨d1, cs1, hd1, hcs1, ?_, ?_, ?_, ?_, ?_, ?_⟩
    · rw [hcount, heq]
    · rw [hentries, heq]
    · rw [hdirty, heq]
    · rw [hlen1, List.length_set]
    · intro j hj
      rw [hlow j (by omega), List.getElem?_set_ne (by omega)]
    · intro k hk
      cases k with
      | zero =>
        refine ⟨f, node, hf, ?_, childOf_resolving (childOf_resolving hchild sb) sc⟩
        rw [Nat.add_zero, hlow i (by omega)]
        exact getElem?_set_same (List.getElem?_eq_getElem hi)
      | succ k =>
        obtain ⟨fb, nd, hfb, hnd, hch⟩ := hrest k (Nat.lt_of_succ_lt_succ hk)
        have hdat : fb.data = f.data :=
          file_data_of_resolving (resolving_trans dr (some dr) _ _ _
            (keeps_of_eq (res_resolveEntry dr (some dr) entry) h1) sb) hf hfb
        rw [hdat] at hch
        refine ⟨f, nd, hf, ?_, hch⟩
        rw [← hnd]
        congr 1
        omega

theorem getDir_run {gf : GGPKFile} {p : Nat} {d : DirectoryRecord}
    (hd : gf.dirRecords[p]? = some d) : getDir p gf = (Res.ok d, gf) := by
  unfold getDir
  rw [hd]

theorem modifyDir_run {gf : GGPKFile} {p : Nat} {d : DirectoryRecord}
    (f : DirectoryRecord → DirectoryRecord) (hd : gf.dirRecords[p]? = some d) :
    modifyDir p f gf = (Res.ok (), { gf with dirRecords := gf.dirRecords.set p (f d) }) := by
  unfold modifyDir
  rw [hd]

/-- On a directory in the children-resolved state `GetChildren` returns the stored
children and leaves the state as it is. -/
theorem GetChildren_resolved (gf : GGPKFile) (dr : Nat) (cs : List TreeNode)
    (h : Resolved dr cs gf) : GetChildren dr gf = (Res.ok cs, gf) := by
  obtain ⟨d, hd, hdirty, hc, hlen⟩ := h
  unfold GetChildren
  rw [bind_apply, getDir_run hd]
  simp [hdirty, hc, hlen, pure_apply]

/-- The resolving path of `GetChildren`, step by step. -/
theorem GetChildren_unresolved_ok {gf g1 : GGPKFile} {dr : Nat} {d : DirectoryRecord}
    {cs : List TreeNode} (hd : gf.dirRecords[dr]? = some d)
    (hguard : ¬ (d.childRecordsDirty = false ∧ d.Children ≠ none ∧
      (d.Children.getD []).length = d.EntryCount))
    (h : GetChildren dr gf = (Res.ok cs, g1)) :
    ∃ gb d1,
      resolveEntries dr 0 d.Entries
          { gf with dirRecords := (gf.dirRecords.set dr
            { d with Children := some (List.replicate d.EntryCount TreeNode.nil) }) } =
        (Res.ok (), gb) ∧
      gb.dirRecords[dr]? = some d1 ∧
      g1 = { gb with dirRecords := gb.dirRecords.set dr { d1 with childRecordsDirty := false } } ∧
      cs = d1.Children.getD [] := by
  unfold GetChildren at h
  rw [bind_apply, getDir_run hd] at h
  simp only [hguard, if_false] at h
  rw [bind_apply, modifyDir_run _ hd] at h
  simp only at h
  obtain ⟨u, gb, h1, h2⟩ := bind_eq_ok.mp h
  obtain ⟨u1, gc, h3, h4⟩ := bind_eq_ok.mp h2
  obtain ⟨d1, hd1, rfl⟩ := modifyDir_ok h3
  have hd2 : (gb.dirRecords.set dr { d1 with childRecordsDirty := false })[dr]? =
      some { d1 with childRecordsDirty := false } := getElem?_set_same hd1
  rw [bind_apply, getDir_run hd2] at h4
  cases h4
  exact ⟨gb, d1, h1, hd1, rfl, rfl⟩

theorem childOf_set_dir {dr : Nat} {data : List UInt8} {e : DirectoryEntry} {node : TreeNode}
    {g : GGPKFile} {q : Nat} {r r1 : DirectoryRecord} (h : ChildOf dr data e node g)
    (hq : g.dirRecords[q]? = some r) (hp : r1.parent = r.parent) :
    ChildOf dr data e node { g with dirRecords := g.dirRecords.set q r1 } := by
  rcases h with ⟨ht, p, r0, hn, hc, hr, hpar⟩ | ⟨ht, p, r0, hn, hc, hr, hpar⟩
  · by_cases hpq : p = q
    · subst hpq
      rw [hq] at hr
      cases hr
      exact Or.inl ⟨ht, p, r1, hn, hc, getElem?_set_same hq, by rw [hp, hpar]⟩
    · refine Or.inl ⟨ht, p, r0, hn, hc, ?_, hpar⟩
      simp only [List.getElem?_set_ne (Ne.symm hpq)]
      exact hr
  · exact Or.inr ⟨ht, p, r0, hn, hc, hr, hpar⟩

/-- What a successful `GetChildren` returns: as many children as the entry count, and,
when the call resolved them, for each entry the node of the record at its offset. -/
theorem GetChildren_childOf (gf : GGPKFile) (dr : Nat) (d : DirectoryRecord)
    (cs : List TreeNode) (hd : gf.dirRecords[dr]? = some d)
    (hok : (GetChildren dr gf).1 = Res.ok cs) :
    cs.length = d.EntryCount ∧
    (d.childRecordsDirty = true →
      ∀ k (hk : k < d.Entries.length), ∃ f node, gf.File = some f ∧ cs[k]? = some node ∧
        ChildOf dr f.data (d.Entries.get ⟨k, hk⟩) node (GetChildren dr gf).2) := by
  rcases hrun : GetChildren dr gf with ⟨res, g1⟩
  rw [hrun] at hok
  simp only at hok
  subst hok
  by_cases hguard : d.childRecordsDirty = false ∧ d.Children ≠ none ∧
      (d.Children.getD []).length = d.EntryCount
  · obtain ⟨hdirty, hnone, hlen⟩ := hguard
    obtain ⟨cs0, hcs0⟩ := Option.ne_none_iff_exists'.mp hnone
    rw [hcs0] at hlen
    have hres := GetChildren_resolved gf dr cs0 ⟨d, hd, hdirty, hcs0, hlen⟩
    rw [hrun] at hres
    cases hres
    exact ⟨hlen, fun h => by rw [hdirty] at h; cases h⟩
  · obtain ⟨gb, d1, hloop, hd1, rfl, rfl⟩ := GetChildren_unresolved_ok hd hguard hrun
    obtain ⟨d2, cs1, hd2, hcs1, hcount, _, _, hlen, _, hkids⟩ :=
      resolveEntries_ok dr d.Entries 0 _ gb
        { d with Children := some (List.replicate d.EntryCount TreeNode.nil) }
        (List.replicate d.EntryCount TreeNode.nil) (getElem?_set_same hd) rfl hloop
    rw [hd1] at hd2
    cases hd2
    rw [hcs1]
    refine ⟨by simpa using hlen, fun _ k hk => ?_⟩
    obtain ⟨f, node, hf, hnode, hchild⟩ := hkids k hk
    refine ⟨f, node, hf, by simpa using hnode, childOf_set_dir hchild hd1 rfl⟩

/-- C15, as the code has it. A successful `GetChildren` on a directory with
`EntryCount = N` returns exactly `N` children. When the call resolves the children
(the directory is in the unresolved state: its dirty flag is set), the `k`-th
child is, for every entry `k`, the record cached at `Entries[k].Offset`, a
Directory node when the tag stored at that offset is PDIR and a File node when it
is FILE, and in the state after the call its parent is `dr`. -/
theorem GetChildren_children (gf : GGPKFile) (dr : Nat) (d : DirectoryRecord)
    (cs : List TreeNode) (hd : gf.dirRecords[dr]? = some d)
    (hok : (GetChildren dr gf).1 = Res.ok cs) :
    cs.length = d.EntryCount ∧
    (d.childRecordsDirty = true →
      ∀ k (hk : k < d.Entries.length), ∃ f node, gf.File = some f ∧ cs[k]? = some node ∧
        ChildOf dr f.data (d.Entries.get ⟨k, hk⟩) node (GetChildren dr gf).2) :=
  GetChildren_childOf gf dr d cs hd hok

theorem GetChildren_children_witness :
    ∃ d, testHandle.dirRecords[0]? = some d ∧ d.childRecordsDirty = true ∧
      (GetChildren 0 testHandle).1 = Res.ok [TreeNode.file 0, TreeNode.file 1] ∧
      [TreeNode.file 0, TreeNode.file 1].length = d.EntryCount ∧
      ∀ k (hk : k < d.Entries.length), ∃ f node, testHandle.File = some f ∧
        [TreeNode.file 0, TreeNode.file 1][k]? = some node ∧
        ChildOf 0 f.data (d.Entries.get ⟨k, hk⟩) node (GetChildren 0 testHandle).2 := by
  have hdirty : (testHandle.dirRecords[0]?).map (·.childRecordsDirty) = some true := by decide!
  have hok : (GetChildren 0 testHandle).1 = Res.ok [TreeNode.file 0, TreeNode.file 1] := by
    decide!
  cases hd : testHandle.dirRecords[0]? with
  | none =>
    rw [hd] at hdirty
    cases hdirty
  | some d =>
    rw [hd] at hdirty
    simp only [Option.map_some', Option.some.injEq] at hdirty
    have h := GetChildren_children testHandle 0 d _ hd hok
    exact ⟨d, rfl, hdirty, hok, h.1, h.2 hdirty⟩

/-- C15 as stated fails for the parent: in an archive where the directories "a" and
"b" both list the file "f", after the lookups "a/f" and "b/f" a further
`GetChildren` on "a" (directory record 1, one entry) succeeds and returns the file,
whose parent is "b" (directory record 2), not the directory the call was made on. -/
theorem GetChildren_shared_child_counterexample :
    Open refUTF16LE refUTF32LE (some sharedChildArchive) = Res.ok sharedChildHandle ∧
    (GetNodeByPath "a/f".toList sharedChildHandle).1 = Res.ok (TreeNode.file 0) ∧
    (GetNodeByPath "b/f".toList (GetNodeByPath "a/f".toList sharedChildHandle).2).1 =
      Res.ok (TreeNode.file 0) ∧
    (sharedChildVisited.dirRecords[1]?).map (fun d => (d.Name, d.EntryCount)) =
      some (['a'], 1) ∧
    (GetChildren 1 sharedChildVisited).1 = Res.ok [TreeNode.file 0] ∧
    ((GetChildren 1 sharedChildVisited).2.fileRecords[0]?).map (·.parent) = some (some 2) :=
  ⟨Open_of_openBody (by decide!), by decide!, by decide!, by decide!, by decide!, by decide!⟩

/-! ### Idempotence -/

theorem keepsResolved_refl (gf : GGPKFile) : KeepsResolved gf gf := fun _ _ h => h

theorem keepsResolved_trans (a b c : GGPKFile) (h1 : KeepsResolved a b)
    (h2 : KeepsResolved b c) : KeepsResolved a c := fun p cs h => h2 p cs (h1 p cs h)

theorem keepsResolvedBut_trans (q : Nat) (a b c : GGPKFile) (h1 : KeepsResolvedBut q a b)
    (h2 : KeepsResolvedBut q b c) : KeepsResolvedBut q a c :=
  fun p cs hp h => h2 p cs hp (h1 p cs hp h)

theorem keepsResolvedBut_of_resolving {q : Nat} {gf g1 : GGPKFile}
    (h : Resolving q (some q) gf g1) : KeepsResolvedBut q gf g1 := by
  intro p cs hp ⟨d, hd, hdirty, hc, hlen⟩
  obtain ⟨d1, hd1, heq, _, hsame, _⟩ := h.dirRecords p d hd
  have hsame := hsame (by simpa using hp)
  refine ⟨d1, hd1, ?_, by rw [hsame, hc], ?_⟩
  · rw [heq]
    exact hdirty
  · rw [heq]
    exact hlen

theorem keepsResolved_of_resolving {q : Nat} {gf g1 : GGPKFile}
    (h : Resolving q none gf g1) : KeepsResolved gf g1 := by
  intro p cs ⟨d, hd, hdirty, hc, hlen⟩
  obtain ⟨d1, hd1, heq, _, hsame, _⟩ := h.dirRecords p d hd
  have hsame := hsame (by simp)
  refine ⟨d1, hd1, ?_, by rw [hsame, hc], ?_⟩
  · rw [heq]
    exact hdirty
  · rw [heq]
    exact hlen

theorem keepsResolvedBut_set {q : Nat} (gf : GGPKFile) (r : DirectoryRecord) :
    KeepsResolvedBut q gf { gf with dirRecords := gf.dirRecords.set q r } := by
  intro p cs hp ⟨d, hd, hdirty, hc, hlen⟩
  refine ⟨d, ?_, hdirty, hc, hlen⟩
  simp only [List.getElem?_set_ne (Ne.symm hp)]
  exact hd

/-- The resolving path of `GetChildren`: what runs after the guard has failed and the
fresh children list has been stored. -/
theorem GetChildren_unresolved_run {gf : GGPKFile} {dr : Nat} {d : DirectoryRecord}
    (hd : gf.dirRecords[dr]? = some d)
    (hguard : ¬ (d.childRecordsDirty = false ∧ d.Children ≠ none ∧
      (d.Children.getD []).length = d.EntryCount)) :
    GetChildren dr gf =
      (do
        resolveEntries dr 0 d.Entries
        modifyDir dr fun r => { r with childRecordsDirty := false }
        let d1 ← getDir dr
        pure (d1.Children.getD []))
      { gf with dirRecords := (gf.dirRecords.set dr
          { d with Children := some (List.replicate d.EntryCount TreeNode.nil) }) } := by
  unfold GetChildren
  rw [bind_apply, getDir_run hd]
  simp only [hguard, if_false]
  rw [bind_apply, modifyDir_run _ hd]

/-- `GetChildren` on any directory leaves every resolved directory resolved, with the
same children, whatever its outcome. -/
theorem keepsResolved_GetChildren (q : Nat) : Keeps KeepsResolved (GetChildren q) := by
  intro gf
  cases hd : gf.dirRecords[q]? with
  | none =>
    have : GetChildren q gf = (Res.crash, gf) := by
      unfold GetChildren
      rw [bind_apply]
      unfold getDir
      rw [hd]
    rw [this]
    exact keepsResolved_refl gf
  | some d =>
    by_cases hguard : d.childRecordsDirty = false ∧ d.Children ≠ none ∧
        (d.Children.getD []).length = d.EntryCount
    · obtain ⟨hdirty, hnone, hlen⟩ := hguard
      obtain ⟨cs0, hcs0⟩ := Option.ne_none_iff_exists'.mp hnone
      rw [hcs0] at hlen
      rw [GetChildren_resolved gf q cs0 ⟨d, hd, hdirty, hcs0, hlen⟩]
      exact keepsResolved_refl gf
    · have key : Keeps (KeepsResolvedBut q)
          (do
            resolveEntries q 0 d.Entries
            modifyDir q fun r => { r with childRecordsDirty := false }
            let d1 ← getDir q
            pure (d1.Children.getD [])) := by
        refine keeps_bind (keepsResolvedBut_trans q)
          (fun g => keepsResolvedBut_of_resolving (res_resolveEntries q d.Entries 0 g))
          fun _ => keeps_bind (keepsResolvedBut_trans q) ?_ fun _ =>
            keeps_bind (keepsResolvedBut_trans q) ?_ fun _ => ?_
        · intro g
          unfold modifyDir
          cases g.dirRecords[q]? with
          | none => exact fun _ _ _ h => h
          | some r => exact keepsResolvedBut_set g _
        · intro g
          unfold getDir
          cases g.dirRecords[q]? <;> exact fun _ _ _ h => h
        · intro g
          exact fun _ _ _ h => h
      have hbut : KeepsResolvedBut q gf (GetChildren q gf).2 := by
        rw [GetChildren_unresolved_run hd hguard]
        exact keepsResolvedBut_trans q _ _ _ (keepsResolvedBut_set gf _) (key _)
      intro p cs hres
      by_cases hp : p = q
      · subst hp
        obtain ⟨d0, hd0, hdirty, hc, hlen⟩ := hres
        rw [hd] at hd0
        cases hd0
        exact absurd ⟨hdirty, by simp [hc], by simpa [hc] using hlen⟩ hguard
      · exact hbut p cs hp hres

theorem keepsResolved_of_state {α : Type} {m : M α} (h : ∀ gf, (m gf).2 = gf) :
    Keeps KeepsResolved m := by
  intro gf
  rw [h gf]
  exact keepsResolved_refl gf

theorem keepsResolved_wrapErr {α β : Type} {m : M α} {args : M β}
    (hm : Keeps KeepsResolved m) (ha : Keeps KeepsResolved args) :
    Keeps KeepsResolved (wrapErr m args) := by
  intro gf
  have h1 := hm gf
  unfold wrapErr
  rcases hrun : m gf with ⟨r, g1⟩
  rw [hrun] at h1
  cases r with
  | ok a => exact h1
  | crash => exact h1
  | err e =>
    have h2 := ha g1
    simp only
    rcases hargs : args g1 with ⟨r2, g2⟩
    rw [hargs] at h2
    cases r2 <;> exact keepsResolved_trans _ _ _ h1 h2

theorem scanChildren_state (name : GoString) (children : List TreeNode) (gf : GGPKFile) :
    (scanChildren name children gf).2 = gf := by
  induction children with
  | nil => rfl
  | cons child rest ih =>
    unfold scanChildren
    split
    · exact ih
    · rw [bind_apply]
      have hs := TreeNode_GetName_state child gf
      rcases hrun : child.GetName gf with ⟨r, g1⟩
      rw [hrun] at hs
      simp only at hs
      subst hs
      cases r with
      | ok n =>
        simp only
        split
        · rfl
        · exact ih
      | err e => rfl
      | crash => rfl

/-- `FindChildByName` leaves every resolved directory resolved, with the same children,
whatever its outcome. -/
theorem keepsResolved_FindChildByName (dr : Option Nat) (name : GoString) :
    Keeps KeepsResolved (FindChildByName dr name) := by
  cases dr with
  | none =>
    intro gf
    exact keepsResolved_refl gf
  | some p =>
    unfold FindChildByName
    refine keeps_bind keepsResolved_trans
      (keepsResolved_wrapErr (keepsResolved_GetChildren p)
        (keepsResolved_of_state (DirectoryRecord_GetPath_state _)))
      fun children => keeps_bind keepsResolved_trans
        (keepsResolved_of_state (scanChildren_state name children)) fun found => ?_
    cases found with
    | some child =>
      intro gf
      exact keepsResolved_refl gf
    | none =>
      refine keeps_bind keepsResolved_trans
        (keepsResolved_of_state (DirectoryRecord_GetPath_state _)) fun _ => ?_
      intro gf
      exact keepsResolved_refl gf

theorem keepsResolved_walkParts (parts : List GoString) :
    ∀ cur : TreeNode, Keeps KeepsResolved (walkParts cur parts) := by
  induction parts with
  | nil =>
    intro cur gf
    exact keepsResolved_refl gf
  | cons part rest ih =>
    intro cur
    unfold walkParts
    split
    · exact ih cur
    · cases cur with
      | nil =>
        intro gf
        exact keepsResolved_refl gf
      | file p =>
        intro gf
        exact keepsResolved_refl gf
      | dir dirNode =>
        exact keeps_bind keepsResolved_trans
          (keepsResolved_wrapErr (keepsResolved_FindChildByName dirNode part)
            (keepsResolved_of_state (DirectoryRecord_GetPath_state _)))
          fun child => ih child

/-- `GetNodeByPath` leaves every resolved directory resolved, with the same children,
whatever its outcome. -/
theorem keepsResolved_GetNodeByPath (path : GoString) :
    Keeps KeepsResolved (GetNodeByPath path) := by
  intro gf
  rw [GetNodeByPath_eq_walk]
  exact keepsResolved_walkParts _ _ gf

/-- A successful `GetChildren` leaves the directory in the children-resolved state,
holding the sequence it returned. -/
theorem GetChildren_ok_resolved {gf : GGPKFile} {dr : Nat} {cs : List TreeNode}
    (hok : (GetChildren dr gf).1 = Res.ok cs) : Resolved dr cs (GetChildren dr gf).2 := by
  rcases hrun : GetChildren dr gf with ⟨res, g1⟩
  rw [hrun] at hok
  simp only at hok
  subst hok
  cases hd : gf.dirRecords[dr]? with
  | none =>
    unfold GetChildren at hrun
    rw [bind_apply] at hrun
    unfold getDir at hrun
    rw [hd] at hrun
    cases hrun
  | some d =>
    by_cases hguard : d.childRecordsDirty = false ∧ d.Children ≠ none ∧
        (d.Children.getD []).length = d.EntryCount
    · obtain ⟨hdirty, hnone, hlen⟩ := hguard
      obtain ⟨cs0, hcs0⟩ := Option.ne_none_iff_exists'.mp hnone
      rw [hcs0] at hlen
      have hres := GetChildren_resolved gf dr cs0 ⟨d, hd, hdirty, hcs0, hlen⟩
      rw [hrun] at hres
      cases hres
      exact ⟨d, hd, hdirty, hcs0, hlen⟩
    · obtain ⟨gb, d1, hloop, hd1, rfl, rfl⟩ := GetChildren_unresolved_ok hd hguard hrun
      obtain ⟨d2, cs1, hd2, hcs1, hcount, _, _, hlen, _, _⟩ :=
        resolveEntries_ok dr d.Entries 0 _ gb
          { d with Children := some (List.replicate d.EntryCount TreeNode.nil) }
          (List.replicate d.EntryCount TreeNode.nil) (getElem?_set_same hd) rfl hloop
      rw [hd1] at hd2
      cases hd2
      refine ⟨{ d1 with childRecordsDirty := false }, getElem?_set_same hd1, rfl, ?_, ?_⟩
      · rw [hcs1]
        rfl
      · rw [hcs1]
        simpa [hcount] using hlen

/-- C16. After a successful `GetChildren` on a directory, the directory is in the
children-resolved state with the returned sequence; in every state where it is so,
`GetChildren` on it returns that sequence and leaves the whole state, the byte source
and the log of its reads and seeks included, unchanged; and no call of `GetChildren`
(on any directory), `FindChildByName` or `GetNodeByPath`, whatever its outcome, takes
the directory out of that state or changes the sequence. -/
theorem GetChildren_idempotent (gf : GGPKFile) (dr : Nat) (cs : List TreeNode)
    (hok : (GetChildren dr gf).1 = Res.ok cs) :
    Resolved dr cs (GetChildren dr gf).2 ∧
    ∀ g, Resolved dr cs g →
      GetChildren dr g = (Res.ok cs, g) ∧
      (∀ q, Resolved dr cs (GetChildren q g).2) ∧
      (∀ q name, Resolved dr cs (FindChildByName q name g).2) ∧
      (∀ path, Resolved dr cs (GetNodeByPath path g).2) :=
  ⟨GetChildren_ok_resolved hok, fun g hg =>
    ⟨GetChildren_resolved g dr cs hg,
      fun q => keepsResolved_GetChildren q g dr cs hg,
      fun q name => keepsResolved_FindChildByName q name g dr cs hg,
      fun path => keepsResolved_GetNodeByPath path g dr cs hg⟩⟩

theorem GetChildren_idempotent_witness :
    (GetChildren 0 testHandle).1 = Res.ok [TreeNode.file 0, TreeNode.file 1] ∧
    Resolved 0 [TreeNode.file 0, TreeNode.file 1] (GetChildren 0 testHandle).2 ∧
    ∀ g, Resolved 0 [TreeNode.file 0, TreeNode.file 1] g →
      GetChildren 0 g = (Res.ok [TreeNode.file 0, TreeNode.file 1], g) ∧
      (∀ q, Resolved 0 [TreeNode.file 0, TreeNode.file 1] (GetChildren q g).2) ∧
      (∀ q name, Resolved 0 [TreeNode.file 0, TreeNode.file 1] (FindChildByName q name g).2) ∧
      (∀ path, Resolved 0 [TreeNode.file 0, TreeNode.file 1] (GetNodeByPath path g).2) :=
  ⟨by decide!, GetChildren_idempotent testHandle 0 _ (by decide!)⟩

/-! ### Failure of `GetChildren` -/

/-- When the resolving path ends in an error, the error comes from the entry loop, and
the directory record differs from the one before the loop in its children list only. -/
theorem resolveTail_err {dr : Nat} {entries : List DirectoryEntry} {ga : GGPKFile}
    {da : DirectoryRecord} {e : GoError} (hda : ga.dirRecords[dr]? = some da)
    (herr : ((do
        resolveEntries dr 0 entries
        modifyDir dr fun r => { r with childRecordsDirty := false }
        let d1 ← getDir dr
        pure (d1.Children.getD []) : M (List TreeNode)) ga).1 = Res.err e) :
    ∃ d1, ((do
        resolveEntries dr 0 entries
        modifyDir dr fun r => { r with childRecordsDirty := false }
        let d1 ← getDir dr
        pure (d1.Children.getD []) : M (List TreeNode)) ga).2.dirRecords[dr]? = some d1 ∧
      DirKept dr (some dr) dr da d1 := by
  rcases hrun : resolveEntries dr 0 entries ga with ⟨r, gb⟩
  have hres := keeps_of_eq (res_resolveEntries dr entries 0) hrun
  rw [bind_apply, hrun] at herr ⊢
  obtain ⟨d1, hd1, hkept⟩ := hres.dirRecords dr da hda
  cases r with
  | ok u =>
    simp only at herr
    rw [bind_apply, modifyDir_run _ hd1] at herr
    simp only at herr
    rw [bind_apply, getDir_run (getElem?_set_same hd1)] at herr
    cases herr
  | err e1 => exact ⟨d1, hd1, hkept⟩
  | crash => cases herr

/-- With an entry whose record tag is neither `PDIR` nor `FILE`, `GetChildren` on a
directory in the children-unresolved state returns no children: its outcome is an
error or a failure to return. -/
theorem GetChildren_bad_tag (gf : GGPKFile) (dr : Nat) (d : DirectoryRecord) (f : OSFile)
    (k : Nat) (hk : k < d.Entries.length) (hd : gf.dirRecords[dr]? = some d)
    (hdirty : d.childRecordsDirty = true) (hf : gf.File = some f)
    (hpdir : tagAt f.data (d.Entries.get ⟨k, hk⟩).Offset ≠ PDirRecordTag)
    (hfile : tagAt f.data (d.Entries.get ⟨k, hk⟩).Offset ≠ FileRecordTag)
    (cs : List TreeNode) : (GetChildren dr gf).1 ≠ Res.ok cs := by
  intro hok
  obtain ⟨f1, node, hf1, _, hchild⟩ := (GetChildren_childOf gf dr d cs hd hok).2 hdirty k hk
  rw [hf] at hf1
  cases hf1
  rcases hchild with ⟨ht, _⟩ | ⟨ht, _⟩
  · exact hpdir ht
  · exact hfile ht

theorem GetChildren_bad_tag_witness :
    ∃ d f, badEntryHandle.dirRecords[0]? = some d ∧ badEntryHandle.File = some f ∧
      d.childRecordsDirty = true ∧
      ∃ hk : 1 < d.Entries.length,
        tagAt f.data (d.Entries.get ⟨1, hk⟩).Offset = GGPKRecordTag ∧
        ∀ cs, (GetChildren 0 badEntryHandle).1 ≠ Res.ok cs := by
  have hdirty : (badEntryHandle.dirRecords[0]?).map
      (fun d => (d.childRecordsDirty, d.Entries.map (·.Offset))) = some (true, [102, 0]) := by
    decide!
  have hdata : (badEntryHandle.File).map (·.data) = some badEntryArchive := by decide!
  cases hd : badEntryHandle.dirRecords[0]? with
  | none =>
    rw [hd] at hdirty
    cases hdirty
  | some d =>
    cases hf : badEntryHandle.File with
    | none =>
      rw [hf] at hdata
      cases hdata
    | some f =>
      rw [hd] at hdirty
      rw [hf] at hdata
      simp only [Option.map_some', Option.some.injEq, Prod.mk.injEq] at hdirty hdata
      obtain ⟨hdirty, hoffs⟩ := hdirty
      have hlen : d.Entries.length = 2 := by
        have := congrArg List.length hoffs
        simpa using this
      have hk : 1 < d.Entries.length := by omega
      have hoff : (d.Entries.get ⟨1, hk⟩).Offset = 0 := by
        have h1 : (d.Entries.map (·.Offset))[1]? = some 0 := by rw [hoffs]; rfl
        rw [List.getElem?_map] at h1
        rw [List.getElem?_eq_getElem hk] at h1
        simpa using h1
      have htag : tagAt f.data (d.Entries.get ⟨1, hk⟩).Offset = GGPKRecordTag := by
        rw [hoff, hdata]
        decide!
      refine ⟨d, f, rfl, rfl, hdirty, hk, htag, fun cs => ?_⟩
      exact GetChildren_bad_tag badEntryHandle 0 d f 1 hk hd hdirty hf
        (by rw [htag]; decide) (by rw [htag]; decide) cs

/-- C18 fails on this archive: the root directory lists a file record whose name-length
field holds 2^31 and then a free record. `Open` succeeds; `GetChildren` on the root
does not return an error: resolving the first entry ends in a runtime panic (the
slice expression of `readUTF16String`), before the entry with the `FREE` tag is
looked at. -/
theorem GetChildren_free_entry_crash :
    Open refUTF16LE refUTF32LE (some freeEntryArchive) = Res.ok freeEntryHandle ∧
    (freeEntryHandle.dirRecords[0]?).map (·.Entries) =
      some [{ NameHash := 1, Offset := 102 }, { NameHash := 2, Offset := 146 }] ∧
    tagAt freeEntryArchive 102 = FileRecordTag ∧
    tagAt freeEntryArchive 146 = FreeRecordTag ∧
    (readUTF16String (2 ^ 31) freeEntryHandle).1 = Res.crash ∧
    (GetChildren 0 freeEntryHandle).1 = Res.crash :=
  ⟨Open_of_openBody (by decide!), by decide!, by decide!, by decide!, by decide!, by decide!⟩

/-! ## Independence of the stored name hashes -/

theorem hashEq_iff (g g1 : GGPKFile) :
    HashEq g g1 ↔ g.eraseNameHashes = g1.eraseNameHashes := by
  constructor
  · intro h
    obtain ⟨h1, h2, h3, h4, h5, h6, h7, h8, h9, h10, h11⟩ := h
    cases g
    cases g1
    simp only [GGPKFile.eraseNameHashes] at *
    simp only [h1, h2, h3, h4, h5, h6, h7, h8, h9, h10, h11]
  · intro h
    cases g
    cases g1
    simp only [GGPKFile.eraseNameHashes, GGPKFile.mk.injEq] at h
    obtain ⟨h1, h2, h3, h4, h5, h6, h7, h8, h9, h10, h11⟩ := h
    exact ⟨h1, h2, h3, h4, h5, h6, h7, h8, h9, h10, h11⟩

theorem hashEq_refl (g : GGPKFile) : HashEq g g :=
  ⟨rfl, rfl, rfl, rfl, rfl, rfl, rfl, rfl, rfl, rfl, rfl⟩

theorem obliv_pure {α : Type} (a : α) : Obliv (pure a : M α) := fun _ _ => rfl

theorem obliv_fail {α : Type} (e : GoError) : Obliv (fail e : M α) := fun _ _ => rfl

theorem obliv_crash {α : Type} : Obliv (crash : M α) := fun _ _ => rfl

theorem obliv_bind {α β : Type} {m : M α} {k : α → M β} (hm : Obliv m)
    (hk : ∀ a, Obliv (k a)) : Obliv (m >>= k) := by
  intro g ds
  rw [bind_apply, bind_apply, hm g ds]
  rcases hmg : m g with ⟨r, g2⟩
  cases r with
  | ok a => exact hk a g2 ds
  | err e => rfl
  | crash => rfl

theorem obliv_seekStart (offset : Int) (e : GoError) : Obliv (seekStart offset e) := by
  intro g ds
  cases g with
  | mk File Header Root cache buf d16 d32 gr fr fl dr =>
    cases File with
    | none => rfl
    | some f =>
      simp only [seekStart, OSFile.Seek]
      split <;> rfl

theorem obliv_readFull (n : Nat) : Obliv (readFull n) := by
  intro g ds
  cases g with
  | mk File Header Root cache buf d16 d32 gr fr fl dr =>
    simp only [readFull]
    split
    · rfl
    · cases File with
      | none => rfl
      | some f =>
        simp only
        split <;> rfl

theorem obliv_readUint32 : Obliv readUint32 :=
  obliv_bind (obliv_readFull 4) fun _ => obliv_pure _

theorem obliv_readInt32 : Obliv readInt32 :=
  obliv_bind (obliv_readFull 4) fun _ => obliv_pure _

theorem obliv_readInt64 : Obliv readInt64 :=
  obliv_bind (obliv_readFull 8) fun _ => obliv_pure _

theorem obliv_allocGGPK (r : GGPKRecord) : Obliv (allocGGPK r) := fun _ _ => rfl

theorem obliv_allocFree (r : FreeRecord) : Obliv (allocFree r) := fun _ _ => rfl

theorem obliv_allocFile (r : FileRecord) : Obliv (allocFile r) := fun _ _ => rfl

theorem obliv_cacheStore (offset : Int) (r : RecordRef) : Obliv (cacheStore offset r) :=
  fun _ _ => rfl

theorem obliv_readRecordHeaderAndSeek (offset : Int) : Obliv (readRecordHeaderAndSeek offset) :=
  obliv_bind (obliv_seekStart _ _) fun _ => obliv_bind obliv_readInt32 fun _ =>
    obliv_bind obliv_readUint32 fun _ => obliv_pure _

theorem obliv_parseGGPKRecordBody (offset : Int) : Obliv (parseGGPKRecordBody offset) := by
  unfold parseGGPKRecordBody
  refine obliv_bind (obliv_readRecordHeaderAndSeek offset) fun hdr => ?_
  obtain ⟨len, tag⟩ := hdr
  simp only
  split
  · exact obliv_fail _
  · exact obliv_bind obliv_readUint32 fun _ => obliv_bind obliv_readInt64 fun _ =>
      obliv_bind obliv_readInt64 fun _ => obliv_allocGGPK _

theorem obliv_fillStringReadBuf (k : Nat) : Obliv (fillStringReadBuf k) := by
  intro g ds
  cases g with
  | mk File Header Root cache buf d16 d32 gr fr fl dr =>
    simp only [fillStringReadBuf]
    split
    · rfl
    · cases File with
      | none => rfl
      | some f =>
        simp only
        split <;> rfl

theorem obliv_sliceStringReadBuf (k : Nat) : Obliv (sliceStringReadBuf k) := by
  intro g ds
  cases g with
  | mk File Header Root cache buf d16 d32 gr fr fl dr =>
    simp only [sliceStringReadBuf]
    split <;> rfl

theorem obliv_transformBytes (d : Option Decoder) (bs : List UInt8) :
    Obliv (transformBytes d bs) := by
  unfold transformBytes
  cases d with
  | none => exact obliv_crash
  | some dec =>
    simp only
    cases dec bs with
    | none => exact obliv_fail _
    | some s => exact obliv_pure _

theorem obliv_currentOffset : Obliv currentOffset := by
  intro g ds
  cases g with
  | mk File Header Root cache buf d16 d32 gr fr fl dr =>
    cases File with
    | none => rfl
    | some f => rfl

theorem obliv_getFile (p : Nat) : Obliv (getFile p) := by
  intro g ds
  cases g with
  | mk File Header Root cache buf d16 d32 gr fr fl dr =>
    simp only [getFile]
    cases fl[p]? <;> rfl

theorem obliv_modifyFile (p : Nat) (f : FileRecord → FileRecord) : Obliv (modifyFile p f) := by
  intro g ds
  cases g with
  | mk File Header Root cache buf d16 d32 gr fr fl dr =>
    simp only [modifyFile]
    cases fl[p]? <;> rfl

theorem obliv_seekStartIgnored (offset : Int) : Obliv (seekStartIgnored offset) := by
  intro g ds
  cases g with
  | mk File Header Root cache buf d16 d32 gr fr fl dr =>
    cases File with
    | none => rfl
    | some f => rfl

theorem obliv_readEntries (count : Nat) : Obliv (readEntries count) := by
  induction count with
  | zero => exact obliv_pure _
  | succ n ih =>
    exact obliv_bind obliv_readUint32 fun _ => obliv_bind obliv_readInt64 fun _ =>
      obliv_bind ih fun _ => obliv_pure _

theorem obliv_parseFreeRecordBody (offset : Int) (base : BaseRecord) :
    Obliv (parseFreeRecordBody offset base) := by
  unfold parseFreeRecordBody
  refine obliv_bind obliv_readInt64 fun _ => obliv_bind obliv_currentOffset fun cur => ?_
  refine obliv_bind ?_ fun _ => obliv_allocFree _
  split
  · exact obliv_seekStart _ _
  · exact obliv_pure _

/-! ### The relation between two runs -/

theorem relRes_refl {α : Type} (r : Res α) : RelRes Eq r r := by
  cases r with
  | ok a => exact rfl
  | err e => exact rfl
  | crash => exact trivial

theorem relRes_eq {α : Type} {r r1 : Res α} (h : RelRes Eq r r1) : r = r1 := by
  cases r <;> cases r1 <;> simp only [RelRes] at h <;> first | rfl | (rw [h])

theorem obliv_dirRecords {α : Type} {m : M α} (hm : Obliv m) (g : GGPKFile) :
    (m g).2.dirRecords = g.dirRecords := by
  have h := hm g g.dirRecords
  have h2 : ({ g with dirRecords := g.dirRecords } : GGPKFile) = g := rfl
  rw [h2] at h
  have h3 := congrArg (fun x => x.2.dirRecords) h
  exact h3

theorem hashEq_with {g g1 : GGPKFile} (h : HashEq g g1) :
    g1 = { g with dirRecords := g1.dirRecords } := by
  obtain ⟨h1, h2, h3, h4, h5, h6, h7, h8, h9, h10, _⟩ := h
  cases g
  cases g1
  simp only at *
  simp only [h1, h2, h3, h4, h5, h6, h7, h8, h9, h10]

theorem obliv_indep {α : Type} {m : M α} (hm : Obliv m) : Indep Eq m m := by
  intro g g1 h
  have hg1 := hashEq_with h
  have hrun := hm g g1.dirRecords
  rw [← hg1] at hrun
  rw [hrun]
  refine ⟨relRes_refl _, ⟨rfl, rfl, rfl, rfl, rfl, rfl, rfl, rfl, rfl, rfl, ?_⟩⟩
  show (m g).2.dirRecords.map eraseNameHash = g1.dirRecords.map eraseNameHash
  rw [obliv_dirRecords hm g]
  exact h.dirRecords

theorem indep_bind {α β : Type} {R : α → α → Prop} {S : β → β → Prop} {m m1 : M α}
    {k k1 : α → M β} (hm : Indep R m m1) (hk : ∀ a a1, R a a1 → Indep S (k a) (k1 a1)) :
    Indep S (m >>= k) (m1 >>= k1) := by
  intro g g1 h
  obtain ⟨hr, hs⟩ := hm g g1 h
  rw [bind_apply, bind_apply]
  rcases hmg : m g with ⟨r, g2⟩
  rcases hmg1 : m1 g1 with ⟨r1, g3⟩
  rw [hmg, hmg1] at hr hs
  cases r <;> cases r1 <;> simp only [RelRes] at hr
  · exact hk _ _ hr g2 g3 hs
  · exact ⟨hr, hs⟩
  · exact ⟨trivial, hs⟩

theorem indep_pure {α : Type} {R : α → α → Prop} {a a1 : α} (h : R a a1) :
    Indep R (pure a : M α) (pure a1) := fun _ _ hg => ⟨h, hg⟩

theorem indep_fail {α : Type} {R : α → α → Prop} (e : GoError) :
    Indep R (fail e : M α) (fail e) := fun _ _ hg => ⟨rfl, hg⟩

theorem indep_crash {α : Type} {R : α → α → Prop} :
    Indep R (crash : M α) crash := fun _ _ hg => ⟨trivial, hg⟩

theorem indep_getState : Indep HashEq getState getState := fun _ _ hg => ⟨hg, hg⟩

/-- A bind whose first part returns equal values. -/
theorem indep_bind_eq {α β : Type} {S : β → β → Prop} {m : M α} {k k1 : α → M β}
    (hm : Indep Eq m m) (hk : ∀ a, Indep S (k a) (k1 a)) : Indep S (m >>= k) (m >>= k1) :=
  indep_bind hm fun a a1 h => by
    cases h
    exact hk a

theorem indep_readUTF16String (n : Nat) : Indep Eq (readUTF16String n) (readUTF16String n) := by
  unfold readUTF16String
  split
  · exact indep_pure rfl
  · refine indep_bind_eq (obliv_indep (obliv_fillStringReadBuf _)) fun _ => ?_
    refine indep_bind_eq (obliv_indep (obliv_sliceStringReadBuf _)) fun bs => ?_
    refine indep_bind indep_getState fun gf gf1 h => ?_
    rw [h.utf16LEDecoder]
    exact obliv_indep (obliv_transformBytes _ _)

theorem indep_readUTF32String (n : Nat) : Indep Eq (readUTF32String n) (readUTF32String n) := by
  unfold readUTF32String
  split
  · exact indep_pure rfl
  · refine indep_bind_eq (obliv_indep (obliv_fillStringReadBuf _)) fun _ => ?_
    refine indep_bind_eq (obliv_indep (obliv_sliceStringReadBuf _)) fun bs => ?_
    refine indep_bind indep_getState fun gf gf1 h => ?_
    rw [h.utf32LEDecoder]
    exact obliv_indep (obliv_transformBytes _ _)

theorem indep_readName (n : Nat) : Indep Eq (readName n) (readName n) := by
  unfold readName
  refine indep_bind indep_getState fun gf gf1 h => ?_
  rw [h.Header]
  split
  · exact indep_readUTF32String n
  · exact indep_readUTF16String n

theorem indep_parseFileRecordBody (offset : Int) (base : BaseRecord) :
    Indep Eq (parseFileRecordBody offset base) (parseFileRecordBody offset base) := by
  unfold parseFileRecordBody
  refine indep_bind_eq (obliv_indep obliv_readUint32) fun n => ?_
  refine indep_bind_eq (obliv_indep (obliv_readFull _)) fun hash => ?_
  refine indep_bind_eq (indep_readName n) fun name => ?_
  refine indep_bind indep_getState fun gf gf1 h => ?_
  simp only [h.Header]
  exact obliv_indep (obliv_bind (obliv_seekStart _ _) fun _ => obliv_allocFile _)

theorem indep_allocDir (r : DirectoryRecord) : Indep Eq (allocDir r) (allocDir r) := by
  intro g g1 h
  have hlen : g.dirRecords.length = g1.dirRecords.length := by
    have := congrArg List.length h.dirRecords
    simpa using this
  refine ⟨?_, ⟨h.File, h.Header, h.Root, h.recordCache, h.stringReadBuf, h.utf16LEDecoder,
    h.utf32LEDecoder, h.ggpkRecords, h.freeRecords, h.fileRecords, ?_⟩⟩
  · show g.dirRecords.length = g1.dirRecords.length
    exact hlen
  · show (g.dirRecords ++ [r]).map eraseNameHash = (g1.dirRecords ++ [r]).map eraseNameHash
    rw [List.map_append, List.map_append, h.dirRecords]

theorem indep_parseDirectoryRecordBody (offset : Int) (base : BaseRecord) (name : GoString) :
    Indep Eq (parseDirectoryRecordBody offset base name)
      (parseDirectoryRecordBody offset base name) := by
  unfold parseDirectoryRecordBody
  refine indep_bind_eq (obliv_indep obliv_readUint32) fun n => ?_
  refine indep_bind_eq (obliv_indep obliv_readUint32) fun c => ?_
  refine indep_bind_eq (obliv_indep (obliv_readFull _)) fun hash => ?_
  refine indep_bind_eq ?_ fun nm => ?_
  · split
    · exact indep_pure rfl
    · exact indep_readName n
  · exact indep_bind_eq (obliv_indep (obliv_readEntries c)) fun es => indep_allocDir _

theorem indep_parseByTag (offset length : Int) (tag : Nat) :
    Indep Eq (parseByTag offset length tag) (parseByTag offset length tag) := by
  unfold parseByTag
  simp only
  split
  · exact indep_bind_eq (obliv_indep (obliv_parseGGPKRecordBody _)) fun _ => indep_pure rfl
  · split
    · exact indep_bind_eq (indep_parseDirectoryRecordBody _ _ _) fun _ => indep_pure rfl
    · split
      · exact indep_bind_eq (indep_parseFileRecordBody _ _) fun _ => indep_pure rfl
      · split
        · exact indep_bind_eq (obliv_indep (obliv_parseFreeRecordBody _ _)) fun _ =>
            indep_pure rfl
        · exact indep_bind_eq (obliv_indep (obliv_seekStart _ _)) fun _ => indep_fail _

theorem indep_ReadRecordAt (offset : Int) : Indep Eq (ReadRecordAt offset) (ReadRecordAt offset) := by
  intro g g1 h
  unfold ReadRecordAt
  rw [← h.recordCache]
  cases g.recordCache offset with
  | some r => exact ⟨rfl, h⟩
  | none =>
    simp only
    refine indep_bind_eq (obliv_indep (obliv_readRecordHeaderAndSeek offset)) (fun hdr => ?_)
      g g1 h
    obtain ⟨len, tag⟩ := hdr
    simp only
    exact indep_bind_eq (indep_parseByTag offset len tag) fun r =>
      indep_bind_eq (obliv_indep (obliv_cacheStore offset r)) fun _ => indep_pure rfl

/-! ### The directory records -/

theorem eraseNameHash_fields {d d1 : DirectoryRecord}
    (h : eraseNameHash d = eraseNameHash d1) :
    d.toBaseRecord = d1.toBaseRecord ∧ d.parent = d1.parent ∧ d.NameLength = d1.NameLength ∧
      d.EntryCount = d1.EntryCount ∧ d.Hash = d1.Hash ∧ d.Name = d1.Name ∧
      d.Entries.map (fun e => ({ e with NameHash := 0 } : DirectoryEntry)) =
        d1.Entries.map (fun e => ({ e with NameHash := 0 } : DirectoryEntry)) ∧
      d.Children = d1.Children ∧ d.childRecordsDirty = d1.childRecordsDirty := by
  cases d
  cases d1
  simp only [eraseNameHash, DirectoryRecord.mk.injEq] at h
  exact h

theorem eraseNameHash_of_fields {d d1 : DirectoryRecord}
    (h : d.toBaseRecord = d1.toBaseRecord ∧ d.parent = d1.parent ∧
      d.NameLength = d1.NameLength ∧
      d.EntryCount = d1.EntryCount ∧ d.Hash = d1.Hash ∧ d.Name = d1.Name ∧
      d.Entries.map (fun e => ({ e with NameHash := 0 } : DirectoryEntry)) =
        d1.Entries.map (fun e => ({ e with NameHash := 0 } : DirectoryEntry)) ∧
      d.Children = d1.Children ∧ d.childRecordsDirty = d1.childRecordsDirty) :
    eraseNameHash d = eraseNameHash d1 := by
  cases d
  cases d1
  simp only [eraseNameHash, DirectoryRecord.mk.injEq]
  exact h

theorem hashEq_getElem? {g g1 : GGPKFile} (h : HashEq g g1) (p : Nat) :
    (g.dirRecords[p]?).map eraseNameHash = (g1.dirRecords[p]?).map eraseNameHash := by
  rw [← List.getElem?_map, ← List.getElem?_map, h.dirRecords]

theorem indep_getDir (p : Nat) :
    Indep (fun d d1 => eraseNameHash d = eraseNameHash d1) (getDir p) (getDir p) := by
  intro g g1 h
  have hp := hashEq_getElem? h p
  unfold getDir
  cases hd : g.dirRecords[p]? with
  | none =>
    cases hd1 : g1.dirRecords[p]? with
    | none => exact ⟨trivial, h⟩
    | some d1 =>
      rw [hd, hd1] at hp
      cases hp
  | some d =>
    cases hd1 : g1.dirRecords[p]? with
    | none =>
      rw [hd, hd1] at hp
      cases hp
    | some d1 =>
      rw [hd, hd1] at hp
      simp only [Option.map_some', Option.some.injEq] at hp
      exact ⟨hp, h⟩

theorem hashEq_set {g g1 : GGPKFile} (h : HashEq g g1) (p : Nat) (d d1 : DirectoryRecord)
    (hd : eraseNameHash d = eraseNameHash d1) :
    HashEq { g with dirRecords := g.dirRecords.set p d }
      { g1 with dirRecords := g1.dirRecords.set p d1 } := by
  refine ⟨h.File, h.Header, h.Root, h.recordCache, h.stringReadBuf, h.utf16LEDecoder,
    h.utf32LEDecoder, h.ggpkRecords, h.freeRecords, h.fileRecords, ?_⟩
  show (g.dirRecords.set p d).map eraseNameHash = (g1.dirRecords.set p d1).map eraseNameHash
  rw [List.map_set, List.map_set, h.dirRecords, hd]

theorem indep_modifyDir (p : Nat) (f f1 : DirectoryRecord → DirectoryRecord)
    (hf : ∀ d d1, eraseNameHash d = eraseNameHash d1 → eraseNameHash (f d) = eraseNameHash (f1 d1)) :
    Indep Eq (modifyDir p f) (modifyDir p f1) := by
  intro g g1 h
  obtain ⟨hr, _⟩ := indep_getDir p g g1 h
  unfold getDir at hr
  unfold modifyDir
  cases hd : g.dirRecords[p]? with
  | none =>
    cases hd1 : g1.dirRecords[p]? with
    | none => exact ⟨trivial, h⟩
    | some d1 =>
      rw [hd, hd1] at hr
      exact hr.elim
  | some d =>
    cases hd1 : g1.dirRecords[p]? with
    | none =>
      rw [hd, hd1] at hr
      exact hr.elim
    | some d1 =>
      rw [hd, hd1] at hr
      exact ⟨rfl, hashEq_set h p _ _ (hf d d1 hr)⟩

theorem indep_setChild (dr i : Nat) (c : TreeNode) :
    Indep Eq (setChild dr i c) (setChild dr i c) := by
  intro g g1 h
  obtain ⟨hr, _⟩ := indep_getDir dr g g1 h
  unfold getDir at hr
  unfold setChild
  cases hd : g.dirRecords[dr]? with
  | none =>
    cases hd1 : g1.dirRecords[dr]? with
    | none => exact ⟨trivial, h⟩
    | some d1 =>
      rw [hd, hd1] at hr
      exact hr.elim
  | some d =>
    cases hd1 : g1.dirRecords[dr]? with
    | none =>
      rw [hd, hd1] at hr
      exact hr.elim
    | some d1 =>
      rw [hd, hd1] at hr
      have hr2 : eraseNameHash d = eraseNameHash d1 := hr
      obtain ⟨h1, h2, h3, h4, h5, h6, h7, h8, h9⟩ := eraseNameHash_fields hr2
      simp only
      rw [← h8]
      cases hc : d.Children with
      | none => exact ⟨trivial, h⟩
      | some cs =>
        simp only
        split
        · refine ⟨rfl, hashEq_set h dr _ _ (eraseNameHash_of_fields ?_)⟩
          exact ⟨h1, h2, h3, h4, h5, h6, h7, rfl, h9⟩
        · exact ⟨trivial, h⟩

theorem indep_ReadDirectoryRecordAt (offset : Int) (parent : Option Nat) (name : GoString) :
    Indep Eq (ReadDirectoryRecordAt offset parent name)
      (ReadDirectoryRecordAt offset parent name) := by
  unfold ReadDirectoryRecordAt
  split
  · exact indep_fail _
  · refine indep_bind_eq (indep_ReadRecordAt offset) fun r => ?_
    cases r with
    | dir p =>
      simp only
      refine indep_bind_eq (indep_modifyDir p _ _ fun d d1 hd => ?_) fun _ => indep_pure rfl
      obtain ⟨h1, h2, h3, h4, h5, h6, h7, h8, h9⟩ := eraseNameHash_fields hd
      apply eraseNameHash_of_fields
      simp only [h6]
      exact ⟨h1, trivial, h3, h4, h5, trivial, h7, h8, h9⟩
    | ggpk p => exact indep_fail _
    | free p => exact indep_fail _
    | file p => exact indep_fail _

theorem indep_ReadFileRecordAt (offset : Int) (parent : Option Nat) :
    Indep Eq (ReadFileRecordAt offset parent) (ReadFileRecordAt offset parent) := by
  unfold ReadFileRecordAt
  split
  · exact indep_fail _
  · refine indep_bind_eq (indep_ReadRecordAt offset) fun r => ?_
    cases r with
    | file p =>
      exact indep_bind_eq (obliv_indep (obliv_modifyFile p _)) fun _ => indep_pure rfl
    | ggpk p => exact indep_fail _
    | free p => exact indep_fail _
    | dir p => exact indep_fail _

theorem indep_resolveEntry (dr : Nat) (e e1 : DirectoryEntry) (h : e.Offset = e1.Offset) :
    Indep Eq (resolveEntry dr e) (resolveEntry dr e1) := by
  unfold resolveEntry
  rw [h]
  refine indep_bind_eq (obliv_indep (obliv_readRecordHeaderAndSeek _)) fun hdr => ?_
  obtain ⟨len, tag⟩ := hdr
  simp only
  split
  · exact indep_bind_eq (indep_ReadDirectoryRecordAt _ _ _) fun _ => indep_pure rfl
  · split
    · exact indep_bind_eq (indep_ReadFileRecordAt _ _) fun _ => indep_pure rfl
    · exact indep_bind_eq (obliv_indep (obliv_seekStartIgnored _)) fun _ => indep_fail _

theorem indep_resolveEntries (dr : Nat) :
    ∀ (es es1 : List DirectoryEntry) (i : Nat),
      es.map (fun e => ({ e with NameHash := 0 } : DirectoryEntry)) =
        es1.map (fun e => ({ e with NameHash := 0 } : DirectoryEntry)) →
      Indep Eq (resolveEntries dr i es) (resolveEntries dr i es1) := by
  intro es
  induction es with
  | nil =>
    intro es1 i h
    cases es1 with
    | nil => exact indep_pure rfl
    | cons e1 r1 => simp at h
  | cons e r ih =>
    intro es1 i h
    cases es1 with
    | nil => simp at h
    | cons e1 r1 =>
      simp only [List.map_cons, List.cons.injEq, DirectoryEntry.mk.injEq, true_and] at h
      unfold resolveEntries
      exact indep_bind (indep_resolveEntry dr e e1 h.1) fun c c1 hc => by
        cases hc
        exact indep_bind_eq (indep_setChild dr i c) fun _ => ih r1 (i + 1) h.2

theorem indep_GetChildren (dr : Nat) : Indep Eq (GetChildren dr) (GetChildren dr) := by
  unfold GetChildren
  refine indep_bind (indep_getDir dr) fun d d1 hd => ?_
  obtain ⟨h1, h2, h3, h4, h5, h6, h7, h8, h9⟩ := eraseNameHash_fields hd
  rw [h9, h8, h4]
  split
  · exact indep_pure rfl
  · refine indep_bind_eq (indep_modifyDir dr _ _ fun a a1 ha => ?_) fun _ => ?_
    · obtain ⟨k1, k2, k3, k4, k5, k6, k7, k8, k9⟩ := eraseNameHash_fields ha
      apply eraseNameHash_of_fields
      simp only [k4]
      exact ⟨k1, k2, k3, trivial, k5, k6, k7, trivial, k9⟩
    · refine indep_bind (indep_resolveEntries dr d.Entries d1.Entries 0 h7) fun _ _ _ => ?_
      refine indep_bind_eq (indep_modifyDir dr _ _ fun a a1 ha => ?_) fun _ => ?_
      · obtain ⟨k1, k2, k3, k4, k5, k6, k7, k8, k9⟩ := eraseNameHash_fields ha
        apply eraseNameHash_of_fields
        exact ⟨k1, k2, k3, k4, k5, k6, k7, k8, rfl⟩
      · refine indep_bind (indep_getDir dr) fun a a1 ha => ?_
        obtain ⟨k1, k2, k3, k4, k5, k6, k7, k8, k9⟩ := eraseNameHash_fields ha
        rw [k8]
        exact indep_pure rfl

theorem GetPathFuel_erase (dirs : List DirectoryRecord) :
    ∀ (fuel p : Nat),
      DirectoryRecord.GetPathFuel (dirs.map eraseNameHash) fuel p =
        DirectoryRecord.GetPathFuel dirs fuel p := by
  intro fuel
  induction fuel with
  | zero =>
    intro p
    rfl
  | succ n ih =>
    intro p
    unfold DirectoryRecord.GetPathFuel
    rw [List.getElem?_map]
    cases dirs[p]? with
    | none => rfl
    | some d =>
      simp only [Option.map_some']
      show (if d.Name = [] ∧ d.parent = none then some [] else
        match d.parent with
        | none => some d.Name
        | some q =>
          match DirectoryRecord.GetPathFuel (dirs.map eraseNameHash) n q with
          | none => none
          | some parentPath =>
            if parentPath = [] then some d.Name else some (parentPath ++ '/' :: d.Name)) = _
      cases d.parent with
      | none => rfl
      | some q =>
        simp only
        rw [ih q]
        try rfl

theorem indep_DirectoryRecord_GetPath (dr : Option Nat) :
    Indep Eq (DirectoryRecord.GetPath dr) (DirectoryRecord.GetPath dr) := by
  intro g g1 h
  unfold DirectoryRecord.GetPath
  cases dr with
  | none => exact ⟨trivial, h⟩
  | some p =>
    have hlen : g.dirRecords.length = g1.dirRecords.length := by
      have := congrArg List.length h.dirRecords
      simpa using this
    have hfuel : DirectoryRecord.GetPathFuel g.dirRecords (g.dirRecords.length + 1) p =
        DirectoryRecord.GetPathFuel g1.dirRecords (g1.dirRecords.length + 1) p := by
      rw [← GetPathFuel_erase g.dirRecords, ← GetPathFuel_erase g1.dirRecords, h.dirRecords, hlen]
    simp only
    rw [hfuel]
    cases DirectoryRecord.GetPathFuel g1.dirRecords (g1.dirRecords.length + 1) p with
    | none => exact ⟨trivial, h⟩
    | some s => exact ⟨rfl, h⟩

theorem indep_GetName (c : TreeNode) : Indep Eq c.GetName c.GetName := by
  cases c with
  | nil => exact indep_crash
  | file p =>
    exact indep_bind_eq (obliv_indep (obliv_getFile p)) fun _ => indep_pure rfl
  | dir q =>
    cases q with
    | none => exact indep_crash
    | some p =>
      refine indep_bind (indep_getDir p) fun d d1 hd => ?_
      obtain ⟨h1, h2, h3, h4, h5, h6, h7, h8, h9⟩ := eraseNameHash_fields hd
      exact indep_pure h6

theorem indep_wrapErr {α β : Type} {R : α → α → Prop} {S : β → β → Prop} {m m1 : M α}
    {args args1 : M β} (hm : Indep R m m1) (ha : Indep S args args1) :
    Indep R (wrapErr m args) (wrapErr m1 args1) := by
  intro g g1 h
  obtain ⟨hr, hs⟩ := hm g g1 h
  unfold wrapErr
  rcases hmg : m g with ⟨r, g2⟩
  rcases hmg1 : m1 g1 with ⟨r1, g3⟩
  rw [hmg, hmg1] at hr hs
  cases r <;> cases r1 <;> simp only [RelRes] at hr
  · exact ⟨hr, hs⟩
  · obtain ⟨hr2, hs2⟩ := ha g2 g3 hs
    simp only
    rcases hag : args g2 with ⟨q, g4⟩
    rcases hag1 : args1 g3 with ⟨q1, g5⟩
    rw [hag, hag1] at hr2 hs2
    cases q <;> cases q1 <;> simp only [RelRes] at hr2
    · exact ⟨hr, hs2⟩
    · exact ⟨hr2, hs2⟩
    · exact ⟨trivial, hs2⟩
  · exact ⟨trivial, hs⟩

theorem indep_scanChildren (name : GoString) :
    ∀ cs : List TreeNode, Indep Eq (scanChildren name cs) (scanChildren name cs) := by
  intro cs
  induction cs with
  | nil => exact indep_pure rfl
  | cons c rest ih =>
    unfold scanChildren
    split
    · exact ih
    · refine indep_bind_eq (indep_GetName c) fun nm => ?_
      split
      · exact indep_pure rfl
      · exact ih

theorem indep_FindChildByName (dr : Option Nat) (name : GoString) :
    Indep Eq (FindChildByName dr name) (FindChildByName dr name) := by
  unfold FindChildByName
  cases dr with
  | none => exact indep_fail _
  | some p =>
    simp only
    refine indep_bind_eq
      (indep_wrapErr (indep_GetChildren p) (indep_DirectoryRecord_GetPath (some p))) fun cs => ?_
    refine indep_bind_eq (indep_scanChildren name cs) fun found => ?_
    cases found with
    | some c => exact indep_pure rfl
    | none =>
      exact indep_bind_eq (indep_DirectoryRecord_GetPath (some p)) fun _ => indep_fail _

theorem indep_walkParts :
    ∀ (parts : List GoString) (node : TreeNode),
      Indep Eq (walkParts node parts) (walkParts node parts) := by
  intro parts
  induction parts with
  | nil =>
    intro node
    exact indep_pure rfl
  | cons part rest ih =>
    intro node
    unfold walkParts
    split
    · exact ih node
    · cases node with
      | dir q =>
        exact indep_bind_eq
          (indep_wrapErr (indep_FindChildByName q part) (indep_DirectoryRecord_GetPath q))
          fun c => ih c
      | nil => exact indep_fail _
      | file p => exact indep_fail _

theorem indep_GetNodeByPath (path : GoString) :
    Indep Eq (GetNodeByPath path) (GetNodeByPath path) := by
  unfold GetNodeByPath
  refine indep_bind indep_getState fun gf gf1 h => ?_
  rw [h.Root]
  split
  · exact indep_pure rfl
  · exact indep_walkParts _ _
theorem eraseNameHash_idem (d : DirectoryRecord) :
    eraseNameHash (eraseNameHash d) = eraseNameHash d := by
  cases d
  simp only [eraseNameHash, List.map_map, DirectoryRecord.mk.injEq, true_and, and_true]
  rfl

theorem eraseNameHashes_idem (g : GGPKFile) :
    g.eraseNameHashes.eraseNameHashes = g.eraseNameHashes := by
  cases g
  simp only [GGPKFile.eraseNameHashes, List.map_map, GGPKFile.mk.injEq, true_and]
  apply List.map_congr_left
  intro d _
  exact eraseNameHash_idem d

/-- The lookup never reads a stored name hash: for two handles that
agree in everything except the `NameHash` values of the entries of their directory
records (they become equal when these values are set to zero), `GetNodeByPath`
returns the same outcome for every path, the same node or the same error, and
leaves handles that again agree in everything except those values; the same holds
for `FindChildByName` and `GetChildren`. -/
theorem GetNodeByPath_hash_independent (gf gf1 : GGPKFile)
    (h : gf.eraseNameHashes = gf1.eraseNameHashes) :
    (∀ path : GoString,
      (GetNodeByPath path gf).1 = (GetNodeByPath path gf1).1 ∧
      (GetNodeByPath path gf).2.eraseNameHashes = (GetNodeByPath path gf1).2.eraseNameHashes) ∧
    (∀ (dr : Option Nat) (name : GoString),
      (FindChildByName dr name gf).1 = (FindChildByName dr name gf1).1 ∧
      (FindChildByName dr name gf).2.eraseNameHashes =
        (FindChildByName dr name gf1).2.eraseNameHashes) ∧
    (∀ dr : Nat,
      (GetChildren dr gf).1 = (GetChildren dr gf1).1 ∧
      (GetChildren dr gf).2.eraseNameHashes = (GetChildren dr gf1).2.eraseNameHashes) := by
  have hg : HashEq gf gf1 := (hashEq_iff gf gf1).mpr h
  refine ⟨fun path => ?_, fun dr name => ?_, fun dr => ?_⟩
  · obtain ⟨h1, h2⟩ := indep_GetNodeByPath path gf gf1 hg
    exact ⟨relRes_eq h1, (hashEq_iff _ _).mp h2⟩
  · obtain ⟨h1, h2⟩ := indep_FindChildByName dr name gf gf1 hg
    exact ⟨relRes_eq h1, (hashEq_iff _ _).mp h2⟩
  · obtain ⟨h1, h2⟩ := indep_GetChildren dr gf gf1 hg
    exact ⟨relRes_eq h1, (hashEq_iff _ _).mp h2⟩

theorem GetNodeByPath_hash_independent_witness :
    (∀ path : GoString,
      (GetNodeByPath path testHandle).1 = (GetNodeByPath path testHandle.eraseNameHashes).1 ∧
      (GetNodeByPath path testHandle).2.eraseNameHashes =
        (GetNodeByPath path testHandle.eraseNameHashes).2.eraseNameHashes) ∧
    (∀ (dr : Option Nat) (name : GoString),
      (FindChildByName dr name testHandle).1 =
        (FindChildByName dr name testHandle.eraseNameHashes).1 ∧
      (FindChildByName dr name testHandle).2.eraseNameHashes =
        (FindChildByName dr name testHandle.eraseNameHashes).2.eraseNameHashes) ∧
    (∀ dr : Nat,
      (GetChildren dr testHandle).1 = (GetChildren dr testHandle.eraseNameHashes).1 ∧
      (GetChildren dr testHandle).2.eraseNameHashes =
        (GetChildren dr testHandle.eraseNameHashes).2.eraseNameHashes) :=
  GetNodeByPath_hash_independent testHandle testHandle.eraseNameHashes
    (eraseNameHashes_idem testHandle).symm

theorem fillStringReadBuf_run {gf : GGPKFile} {f : OSFile} (n : Nat) (hn : n ≠ 0)
    (hf : gf.File = some f) (havail : f.pos + n ≤ f.data.length) :
    ∃ buf, buf.length = n ∧ buf = (f.data.drop f.pos).take n ∧ ∃ tail,
      fillStringReadBuf n gf =
        (Res.ok (),
          { gf with
            File := some { f with pos := f.pos + n, ops := f.ops ++ [FileOp.read n] },
            stringReadBuf := buf ++ tail }) := by
  have hlen : ((f.data.drop f.pos).take n).length = n := by
    rw [List.length_take, List.length_drop]
    omega
  refine ⟨_, hlen, rfl,
    (if gf.stringReadBuf.length < n then List.replicate n 0 else gf.stringReadBuf).drop n, ?_⟩
  unfold fillStringReadBuf
  simp only [hn, if_false, hf, OSFile.ReadFull, hlen, if_true]

theorem readString_run {gf : GGPKFile} {f : OSFile} (w n : Nat) (hw : w = 2 ∨ w = 4)
    (hn : 1 ≤ n) (hsize : n * w < 2 ^ 32) (hf : gf.File = some f)
    (havail : f.pos + n * w ≤ f.data.length) :
    ∃ g1, g1.File = some { f with pos := f.pos + n * w, ops := f.ops ++ [FileOp.read (n * w)] } ∧
      readStringOfWidth w n gf =
        transformBytes (decoderOfWidth w gf) ((f.data.drop f.pos).take ((n - 1) * w)) g1 := by
  have hn0 : n ≠ 0 := by omega
  have hw0 : 0 < w := by rcases hw with rfl | rfl <;> decide
  have hnw : n * w ≠ 0 := Nat.mul_ne_zero hn0 (by omega)
  have hle : (n - 1) * w ≤ n * w := Nat.mul_le_mul_right w (Nat.sub_le n 1)
  have hwrap : wrapUint32 (n * w) = n * w := Nat.mod_eq_of_lt hsize
  have hwrap1 : wrapUint32 ((n - 1) * w) = (n - 1) * w :=
    Nat.mod_eq_of_lt (lt_of_le_of_lt hle hsize)
  obtain ⟨buf, hbuf, hbufeq, tail, hfill⟩ := fillStringReadBuf_run (n * w) hnw hf havail
  have htake : (buf ++ tail).take ((n - 1) * w) = (f.data.drop f.pos).take ((n - 1) * w) := by
    rw [List.take_append_of_le_length (by omega), hbufeq, List.take_take, min_eq_left hle]
  refine ⟨{ gf with
      File := some { f with pos := f.pos + n * w, ops := f.ops ++ [FileOp.read (n * w)] },
      stringReadBuf := buf ++ tail }, rfl, ?_⟩
  rcases hw with rfl | rfl
  · simp only [readStringOfWidth, decoderOfWidth, readUTF16String, hn0, if_false,
      show (2 : Nat) ≠ 4 by decide, hwrap, hwrap1, bind_apply, hfill, sliceStringReadBuf,
      List.length_append, hbuf, getState, htake]
    rw [if_pos (by omega)]
  · simp only [readStringOfWidth, decoderOfWidth, readUTF32String, hn0, if_false, if_true,
      hwrap, hwrap1, bind_apply, hfill, sliceStringReadBuf,
      List.length_append, hbuf, getState, htake]
    rw [if_pos (by omega)]

theorem refUTF32LE_length : ∀ (m : Nat) (bytes : List UInt8), bytes.length = m * 4 →
    ∃ s, refUTF32LE bytes = some s ∧ s.length = m := by
  intro m
  induction m with
  | zero =>
    intro bytes h
    have : bytes = [] := List.length_eq_zero.mp (by simpa using h)
    subst this
    exact ⟨[], rfl, rfl⟩
  | succ m ih =>
    intro bytes h
    match bytes, h with
    | b0 :: b1 :: b2 :: b3 :: rest, h =>
      obtain ⟨s, hs, hlen⟩ := ih rest (by simp only [List.length_cons] at h; omega)
      refine ⟨runeOrError (leBytes [b0, b1, b2, b3]) :: s, ?_, ?_⟩
      · rw [refUTF32LE, hs]
      · simp [hlen]
    | [], h => simp at h
    | [_], h => simp at h; omega
    | [_, _], h => simp at h; omega
    | [_, _, _], h => simp at h; omega

theorem refUTF16LE_length : ∀ (m : Nat) (bytes : List UInt8), bytes.length = m * 2 →
    noSurrogatePair bytes = true → ∃ s, refUTF16LE bytes = some s ∧ s.length = m := by
  intro m
  induction m with
  | zero =>
    intro bytes h _
    have : bytes = [] := List.length_eq_zero.mp (by simpa using h)
    subst this
    exact ⟨[], rfl, rfl⟩
  | succ m ih =>
    intro bytes h hno
    match bytes, h, hno with
    | [], h, _ => simp at h
    | [_], h, _ => simp at h; omega
    | [lo, hi], h, _ =>
      have : m = 0 := by simp only [List.length_cons, List.length_nil] at h; omega
      subst this
      exact ⟨_, rfl, rfl⟩
    | [_, _, _], h, _ => simp at h; omega
    | lo :: hi :: lo2 :: hi2 :: rest, h, hno =>
      rw [noSurrogatePair, Bool.and_eq_true] at hno
      obtain ⟨hfirst, hrest⟩ := hno
      simp only [Bool.not_eq_true', decide_eq_false_iff_not] at hfirst
      obtain ⟨s, hs, hlen⟩ := ih (lo2 :: hi2 :: rest)
        (by simp only [List.length_cons] at h ⊢; omega) hrest
      refine ⟨runeOrError (lo.toNat + 256 * hi.toNat) :: s, ?_, ?_⟩
      · rw [refUTF16LE, if_neg hfirst, hs]
      · simp [hlen]

/-- C19, as the code has it. For the width `w` (2 or 4) and a character count `n ≥ 1`
with `n * w < 2^32` whose `n * w` name bytes are available: when the decoder
decodes the first `(n - 1) * w` of them to `s`, the reader returns `s` and has read
`n * w` bytes in one read. With the reference decoders `s` has exactly `n - 1`
characters for width 4, and for width 2 when no surrogate code unit of the name is
followed by a unit in 0xDC00 to 0xDFFF (the decoder then takes every code unit as
one character). For `n = 0` the reader returns
the empty string with no error and leaves the whole state, the byte source
included, unchanged. -/
theorem readString_decodes (gf : GGPKFile) (f : OSFile) (w n : Nat) (dec : Decoder)
    (s : GoString) (hw : w = 2 ∨ w = 4) (hn : 1 ≤ n) (hsize : n * w < 2 ^ 32)
    (hf : gf.File = some f) (havail : f.pos + n * w ≤ f.data.length)
    (hdec : decoderOfWidth w gf = some dec)
    (hs : dec ((f.data.drop f.pos).take ((n - 1) * w)) = some s) :
    (readStringOfWidth w n gf).1 = Res.ok s ∧
    (readStringOfWidth w n gf).2.File =
      some { f with pos := f.pos + n * w, ops := f.ops ++ [FileOp.read (n * w)] } ∧
    (w = 4 → dec = refUTF32LE → s.length = n - 1) ∧
    (w = 2 → dec = refUTF16LE →
      noSurrogatePair ((f.data.drop f.pos).take ((n - 1) * w)) = true → s.length = n - 1) ∧
    ∀ g : GGPKFile, readStringOfWidth w 0 g = (Res.ok [], g) := by
  obtain ⟨g1, hg1, hrun⟩ := readString_run w n hw hn hsize hf havail
  have hres : readStringOfWidth w n gf = (Res.ok s, g1) := by
    rw [hrun, hdec]
    simp only [transformBytes, hs]
    rfl
  have hle : (n - 1) * w ≤ n * w := Nat.mul_le_mul_right w (Nat.sub_le n 1)
  have hlen : ((f.data.drop f.pos).take ((n - 1) * w)).length = (n - 1) * w := by
    rw [List.length_take, List.length_drop]
    omega
  refine ⟨by rw [hres], by rw [hres]; exact hg1, ?_, ?_, ?_⟩
  · rintro rfl rfl
    obtain ⟨s1, hs1, hl⟩ := refUTF32LE_length (n - 1) _ hlen
    rw [hs] at hs1
    cases hs1
    exact hl
  · rintro rfl rfl hno
    obtain ⟨s1, hs1, hl⟩ := refUTF16LE_length (n - 1) _ hlen hno
    rw [hs] at hs1
    cases hs1
    exact hl
  · intro g
    rcases hw with rfl | rfl <;> rfl

theorem readString_decodes_witness :
    (readStringOfWidth 2 3 shortNameHandle).1 = Res.ok ['a', 'b'] ∧
    (readStringOfWidth 2 3 shortNameHandle).2.File =
      some { data := putUTF16LE ['a', 'b'] ++ [0, 0], pos := 0 + 3 * 2,
             ops := [] ++ [FileOp.read (3 * 2)] } ∧
    ['a', 'b'].length = 3 - 1 ∧
    ∀ g : GGPKFile, readStringOfWidth 2 0 g = (Res.ok [], g) :=
  have h := readString_decodes shortNameHandle
    { data := putUTF16LE ['a', 'b'] ++ [0, 0], pos := 0, ops := [] } 2 3 refUTF16LE ['a', 'b']
    (Or.inl rfl) (by decide) (by decide) rfl (by decide) rfl (by decide!)
  ⟨h.1, h.2.1, h.2.2.2.1 rfl rfl (by decide!), h.2.2.2.2⟩

/-- C19 as stated fails for width 2: a name of `n = 3` code units, the surrogate pair
of U+1F600 and the terminator, is available and decodes, and the decoded name has
one character, not `n - 1 = 2`. The same holds for two trail surrogates and the
terminator: the decoder takes the two units together and returns one U+FFFD. -/
theorem readUTF16String_surrogate_counterexample :
    (readUTF16String 3 surrogateHandle).1 = Res.ok [Char.ofNat 0x1F600] ∧
    (¬ ∃ s : GoString, (readUTF16String 3 surrogateHandle).1 = Res.ok s ∧ s.length = 3 - 1) ∧
    (readUTF16String 3 trailPairHandle).1 = Res.ok [Char.ofNat 0xFFFD] ∧
    noSurrogatePair (surrogateNameBytes.take 4) = false ∧
    noSurrogatePair (trailPairNameBytes.take 4) = false := by
  have h : (readUTF16String 3 surrogateHandle).1 = Res.ok [Char.ofNat 0x1F600] := by decide!
  refine ⟨h, ?_, by decide!, by decide!, by decide!⟩
  rintro ⟨s, hs, hlen⟩
  rw [h] at hs
  cases hs
  simp at hlen

/-! ### The layout of a file record -/

theorem toNat_ofNat8 (k : Nat) : (UInt8.ofNat k).toNat = k % 256 := by
  simp [UInt8.toNat, UInt8.ofNat, Fin.ofNat]

theorem leBytes_putUint32 (x : Nat) (h : x < 2 ^ 32) : leBytes (putUint32 x) = x := by
  simp only [putUint32, leBytes, toNat_ofNat8]
  omega

theorem wrapInt32_leBytes_putInt32 (i : Int) (h0 : 0 ≤ i) (h : i < 2 ^ 31) :
    wrapInt32 (leBytes (putInt32 i)) = i := by
  have hm : (i % 2 ^ 32).toNat = i.toNat := by
    rw [Int.emod_eq_of_lt h0 (by omega)]
  unfold putInt32
  rw [hm, leBytes_putUint32 _ (by omega)]
  unfold wrapInt32
  omega

theorem length_putUint32 (x : Nat) : (putUint32 x).length = 4 := rfl
theorem length_putInt32 (i : Int) : (putInt32 i).length = 4 := rfl

theorem drop_take_segment {α : Type} (a b c : List α) :
    ((a ++ b ++ c).drop a.length).take b.length = b := by
  rw [List.append_assoc, List.drop_left, List.take_left]

theorem readFull_at {g : GGPKFile} {f : OSFile} (k : Nat) (hf : g.File = some f) (hk : k ≠ 0)
    (havail : f.pos + k ≤ f.data.length) :
    ∃ g1 f1, readFull k g = (Res.ok ((f.data.drop f.pos).take k), g1) ∧ g1.File = some f1 ∧
      f1.data = f.data ∧ f1.pos = f.pos + k ∧ IOStep g g1 := by
  have hlen : ((f.data.drop f.pos).take k).length = k := by
    rw [List.length_take, List.length_drop]
    omega
  have hrun := readFull_run f k hf hk hlen
  exact ⟨_, _, hrun, rfl, rfl, rfl, keeps_of_eq (io_readFull k) hrun⟩

theorem seekStart_at {g : GGPKFile} {f : OSFile} (offset : Int) (e : GoError)
    (hf : g.File = some f) (hoff : 0 ≤ offset) :
    ∃ g1 f1, seekStart offset e g = (Res.ok (), g1) ∧ g1.File = some f1 ∧
      f1.data = f.data ∧ f1.pos = offset.toNat ∧ IOStep g g1 := by
  have hrun := seekStart_run offset e hf hoff
  exact ⟨_, _, hrun, rfl, rfl, rfl, keeps_of_eq (io_seekStart offset e) hrun⟩

theorem readName_at {g : GGPKFile} {f : OSFile} (w n : Nat) (dec : Decoder) (s : GoString)
    (hw : w = if g.Header.Version = 4 then 4 else 2) (hn : 1 ≤ n) (hsize : n * w < 2 ^ 32)
    (hf : g.File = some f) (havail : f.pos + n * w ≤ f.data.length)
    (hdec : decoderOfWidth w g = some dec)
    (hs : dec ((f.data.drop f.pos).take ((n - 1) * w)) = some s) :
    ∃ g1 f1, readName n g = (Res.ok s, g1) ∧ g1.File = some f1 ∧
      f1.data = f.data ∧ f1.pos = f.pos + n * w ∧ IOStep g g1 := by
  have hw2 : w = 2 ∨ w = 4 := by
    rw [hw]
    split
    · exact Or.inr rfl
    · exact Or.inl rfl
  obtain ⟨g1, hg1, hrun⟩ := readString_run w n hw2 hn hsize hf havail
  have hname : readName n g = readStringOfWidth w n g := by
    simp only [readName, bind_apply, getState, readStringOfWidth]
    by_cases hv : g.Header.Version = 4
    · rw [if_pos hv] at hw
      simp only [hv, if_true, hw]
    · rw [if_neg hv] at hw
      simp only [hv, if_false, hw, show (2 : Nat) ≠ 4 by decide]
  have hres : readName n g = (Res.ok s, g1) := by
    rw [hname, hrun, hdec]
    simp only [transformBytes, hs]
    rfl
  exact ⟨g1, _, hres, hg1, rfl, rfl, keeps_of_eq (io_readName n) hres⟩

theorem segment {α : Type} (l pre x y z post : List α) (h : l = pre ++ (x ++ y ++ z) ++ post) :
    (l.drop (pre.length + x.length)).take y.length = y := by
  have h1 : l = (pre ++ x) ++ y ++ (z ++ post) := by
    rw [h]
    simp only [List.append_assoc]
  rw [h1, ← List.length_append]
  exact drop_take_segment _ _ _

theorem readRecordHeaderAndSeek_at {gf : GGPKFile} {f : OSFile} (o : Nat) (a b : List UInt8)
    (hf : gf.File = some f) (ha : (f.data.drop o).take 4 = a)
    (hb : (f.data.drop (o + 4)).take 4 = b) (havail : o + 8 ≤ f.data.length) :
    ∃ g1 f1, readRecordHeaderAndSeek (o : Int) gf = (Res.ok (wrapInt32 (leBytes a), leBytes b), g1) ∧
      g1.File = some f1 ∧ f1.data = f.data ∧ f1.pos = o + 8 ∧ IOStep gf g1 := by
  obtain ⟨g1, f1, h1, hf1, hd1, hp1, io1⟩ :=
    seekStart_at (o : Int) GoError.seekFailed hf (Int.ofNat_nonneg o)
  rw [Int.toNat_ofNat] at hp1
  obtain ⟨g2, f2, h2, hf2, hd2, hp2, io2⟩ := readFull_at 4 hf1 (by decide)
    (by rw [hp1, hd1]; omega)
  obtain ⟨g3, f3, h3, hf3, hd3, hp3, io3⟩ := readFull_at 4 hf2 (by decide)
    (by rw [hp2, hp1, hd2, hd1]; omega)
  rw [hd1, hp1, ha] at h2
  rw [hd2, hd1, hp2, hp1, hb] at h3
  refine ⟨g3, f3, ?_, hf3, by rw [hd3, hd2, hd1], by rw [hp3, hp2, hp1],
    ioStep_trans _ _ _ (ioStep_trans _ _ _ io1 io2) io3⟩
  simp only [readRecordHeaderAndSeek, readInt32, readUint32, bind_apply, h1, h2, h3, pure_apply]

theorem parseFileRecordBody_steps {g g1 g2 g3 g4 : GGPKFile} (off : Int) (base : BaseRecord)
    (bs hash : List UInt8) (name : GoString)
    (h1 : readFull 4 g = (Res.ok bs, g1)) (h2 : readFull HashSize g1 = (Res.ok hash, g2))
    (h3 : readName (leBytes bs) g2 = (Res.ok name, g3))
    (h4 : seekStart (wrapInt64 (base.Offset + base.Length)) GoError.seekFailed g3 =
      (Res.ok (), g4)) :
    parseFileRecordBody off base g =
      (Res.ok g4.fileRecords.length,
        { g4 with fileRecords := g4.fileRecords ++
          [{ toBaseRecord := base, parent := none, NameLength := leBytes bs, Hash := hash,
             Name := name,
             DataOffset := wrapInt64 (base.Offset +
               wrapInt32 (RecordHeaderSize + 4 + HashSize + wrapInt32
                 ((if g3.Header.Version = 4 then wrapUint32 (leBytes bs * 4)
                   else wrapUint32 (leBytes bs * 2) : Nat) : Int))),
             DataLength := wrapInt32 (base.Length -
               wrapInt32 (RecordHeaderSize + 4 + HashSize + wrapInt32
                 ((if g3.Header.Version = 4 then wrapUint32 (leBytes bs * 4)
                   else wrapUint32 (leBytes bs * 2) : Nat) : Int))) }] }) := by
  unfold parseFileRecordBody
  rw [bind_apply]
  unfold readUint32
  rw [bind_apply, h1]
  simp only [pure_apply]
  rw [bind_apply, h2]
  simp only
  rw [bind_apply, h3]
  simp only
  rw [bind_apply]
  simp only [getState]
  rw [bind_apply, h4]
  rfl

theorem wrapInt32_eq_self {x : Int} (h0 : 0 ≤ x) (h : x < 2 ^ 31) : wrapInt32 x = x := by
  unfold wrapInt32
  omega

theorem wrapInt64_eq_self {x : Int} (h0 : 0 ≤ x) (h : x < 2 ^ 63) : wrapInt64 x = x := by
  unfold wrapInt64
  omega

theorem fileRecord_arith (o n d : Nat) (hlen : 8 + 4 + 32 + n + d < 2 ^ 31)
    (hend : o + (8 + 4 + 32 + n + d) < 2 ^ 63) :
    wrapInt32 (((8 + 4 + 32 + n + d : Nat) : Int) -
        wrapInt32 (RecordHeaderSize + 4 + (HashSize : Int) + wrapInt32 (n : Int))) = (d : Int) ∧
    wrapInt64 ((o : Int) +
        wrapInt32 (RecordHeaderSize + 4 + (HashSize : Int) + wrapInt32 (n : Int))) =
      ((o + 8 + 4 + 32 + n : Nat) : Int) := by
  have h1 : wrapInt32 (n : Int) = n := wrapInt32_eq_self (by omega) (by omega)
  have h2 : wrapInt32 (RecordHeaderSize + 4 + (HashSize : Int) + (n : Int)) = 44 + (n : Int) := by
    rw [wrapInt32_eq_self]
    · simp only [RecordHeaderSize, HashSize]
      omega
    · simp only [RecordHeaderSize, HashSize]
      omega
    · simp only [RecordHeaderSize, HashSize]
      omega
  rw [h1, h2]
  constructor
  · rw [wrapInt32_eq_self] <;> omega
  · rw [wrapInt64_eq_self] <;> omega

theorem parseFileRecordBody_at {g : GGPKFile} {f : OSFile} (o w : Nat) (dec : Decoder)
    (base : BaseRecord) (hash text term data : List UInt8) (name : GoString)
    (hf : g.File = some f) (hpos : f.pos = o + 8)
    (hw : w = if g.Header.Version = 4 then 4 else 2)
    (hdec : decoderOfWidth w g = some dec) (hname : dec text = some name)
    (htext : text.length = name.length * w) (hterm : term.length = w)
    (_hhash : hash.length = 32)
    (hoff : base.Offset = o)
    (hlength : base.Length = ((8 + 4 + 32 + (name.length + 1) * w + data.length : Nat) : Int))
    (hc : (f.data.drop (o + 8)).take 4 = putUint32 (name.length + 1))
    (hh : (f.data.drop (o + 12)).take 32 = hash)
    (ht : (f.data.drop (o + 44)).take (name.length * w) = text)
    (havail : o + 44 + (name.length + 1) * w ≤ f.data.length)
    (hlen : 8 + 4 + 32 + (name.length + 1) * w + data.length < 2 ^ 31)
    (hend : o + (8 + 4 + 32 + (name.length + 1) * w + data.length) < 2 ^ 63) :
    ∃ g2 r, parseFileRecordBody (o : Int) base g = (Res.ok g.fileRecords.length, g2) ∧
      g2.fileRecords = g.fileRecords ++ [r] ∧ r.toBaseRecord = base ∧ r.Name = name ∧
      r.NameLength = name.length + 1 ∧ r.Hash = hash ∧
      r.DataLength = (data.length : Int) ∧
      r.DataOffset = ((o + 8 + 4 + 32 + (name.length + 1) * w : Nat) : Int) ∧
      g2.recordCache = g.recordCache := by
  have hw2 : w = 2 ∨ w = 4 := by
    rw [hw]
    split
    · exact Or.inr rfl
    · exact Or.inl rfl
  have hwpos : 0 < w := by rcases hw2 with rfl | rfl <;> decide
  obtain ⟨g1, f1, h1, hf1, hd1, hp1, io1⟩ := readFull_at 4 hf (by decide)
    (by rw [hpos]; omega)
  rw [hpos, hc] at h1
  obtain ⟨g2, f2, h2, hf2, hd2, hp2, io2⟩ := readFull_at 32 hf1 (by decide)
    (by rw [hp1, hpos, hd1]; omega)
  rw [hd1, hp1, hpos, show o + 8 + 4 = o + 12 by omega, hh] at h2
  have hv2 : g2.Header = g.Header := by rw [io2.Header, io1.Header]
  obtain ⟨g3, f3, h3, hf3, hd3, hp3, io3⟩ := readName_at w (name.length + 1) dec name
    (by rw [hv2]; exact hw) (by omega) (by omega) hf2
    (by rw [hp2, hp1, hpos, hd2, hd1]; omega)
    (by
      unfold decoderOfWidth at hdec ⊢
      rw [io2.utf32LEDecoder, io2.utf16LEDecoder, io1.utf32LEDecoder, io1.utf16LEDecoder]
      exact hdec)
    (by
      rw [hd2, hd1, hp2, hp1, hpos, show o + 8 + 4 + 32 = o + 44 by omega,
        Nat.add_sub_cancel, ht]
      exact hname)
  have hv3 : g3.Header = g.Header := by rw [io3.Header, hv2]
  obtain ⟨g4, f4, h4, hf4, hd4, hp4, io4⟩ := seekStart_at
    (wrapInt64 (base.Offset + base.Length)) GoError.seekFailed hf3
    (by
      rw [hoff, hlength, wrapInt64_eq_self (by omega) (by omega)]
      omega)
  have hrec : g4.fileRecords = g.fileRecords := by
    rw [io4.fileRecords, io3.fileRecords, io2.fileRecords, io1.fileRecords]
  have hcache : g4.recordCache = g.recordCache := by
    rw [io4.recordCache, io3.recordCache, io2.recordCache, io1.recordCache]
  have hnl : leBytes (putUint32 (name.length + 1)) = name.length + 1 :=
    leBytes_putUint32 _ (by have := Nat.le_mul_of_pos_right (name.length + 1) hwpos; omega)
  have hmul : (name.length + 1) * w = name.length * w + w := Nat.succ_mul _ _
  have hnb : (if g3.Header.Version = 4 then wrapUint32 ((name.length + 1) * 4)
      else wrapUint32 ((name.length + 1) * 2)) = (name.length + 1) * w := by
    rw [hv3]
    by_cases hv : g.Header.Version = 4
    · rw [if_pos hv] at hw
      subst hw
      rw [if_pos hv]
      exact Nat.mod_eq_of_lt (by omega)
    · rw [if_neg hv] at hw
      subst hw
      rw [if_neg hv]
      exact Nat.mod_eq_of_lt (by omega)
  have hrun := parseFileRecordBody_steps (o : Int) base _ hash name h1 h2
    (by rw [hnl]; exact h3) h4
  rw [hnl, hnb, hrec] at hrun
  refine ⟨_, _, hrun, rfl, rfl, rfl, rfl, rfl, ?_, ?_, hcache⟩
  · rw [hlength]
    exact (fileRecord_arith o _ data.length hlen hend).1
  · rw [hoff]
    exact (fileRecord_arith o _ data.length hlen hend).2

theorem length_fileRecordLayout (w n : Nat) (hash text term data : List UInt8) :
    (fileRecordLayout w n hash text term data).length =
      8 + 4 + hash.length + text.length + term.length + data.length := by
  simp only [fileRecordLayout, List.length_append, length_putInt32, length_putUint32]

theorem fileRecordLayout_eq (w n : Nat) (hash text term data : List UInt8) :
    fileRecordLayout w n hash text term data =
      putInt32 ((8 + 4 + 32 + n * w + data.length : Nat) : Int) ++ putUint32 FileRecordTag ++
        putUint32 n ++ hash ++ text ++ term ++ data := by
  unfold fileRecordLayout
  push_cast
  rfl

theorem parseFileRecord_core (gf : GGPKFile) (f : OSFile) (dec : Decoder) (w : Nat)
    (pre post hash text term data : List UInt8) (name : GoString)
    (hf : gf.File = some f)
    (hw : w = if gf.Header.Version = 4 then 4 else 2)
    (hdec : decoderOfWidth w gf = some dec) (hname : dec text = some name)
    (htext : text.length = name.length * w) (hterm : term.length = w)
    (hhash : hash.length = 32)
    (hdata : f.data = pre ++ fileRecordLayout w (name.length + 1) hash text term data ++ post)
    (hlen : 8 + 4 + 32 + (name.length + 1) * w + data.length < 2 ^ 31)
    (hend : pre.length + (8 + 4 + 32 + (name.length + 1) * w + data.length) < 2 ^ 63) :
    ∃ g1 g2 r,
      readRecordHeaderAndSeek (pre.length : Int) gf =
        (Res.ok (((8 + 4 + 32 + (name.length + 1) * w + data.length : Nat) : Int),
          FileRecordTag), g1) ∧
      parseFileRecordBody (pre.length : Int)
        { Offset := (pre.length : Int),
          Length := ((8 + 4 + 32 + (name.length + 1) * w + data.length : Nat) : Int),
          Tag := FileRecordTag } g1 = (Res.ok gf.fileRecords.length, g2) ∧
      g2.fileRecords = gf.fileRecords ++ [r] ∧
      r.Offset = (pre.length : Int) ∧ r.Tag = FileRecordTag ∧
      r.Name = name ∧ r.DataLength = (data.length : Int) ∧
      r.DataOffset = ((pre.length + 8 + 4 + 32 + (name.length + 1) * w : Nat) : Int) ∧
      g1.recordCache = gf.recordCache ∧ g2.recordCache = gf.recordCache := by
  have hmul : (name.length + 1) * w = name.length * w + w := Nat.succ_mul _ _
  have htotal : f.data.length = pre.length +
      (8 + 4 + 32 + (name.length + 1) * w + data.length) + post.length := by
    rw [hdata, List.length_append, List.length_append, length_fileRecordLayout]
    omega
  have hlay : f.data = pre ++
      (putInt32 ((8 + 4 + 32 + (name.length + 1) * w + data.length : Nat) : Int) ++
        putUint32 FileRecordTag ++ putUint32 (name.length + 1) ++ hash ++ text ++ term ++ data) ++
      post := by
    rw [hdata, fileRecordLayout_eq]
  have ha : (f.data.drop pre.length).take 4 =
      putInt32 ((8 + 4 + 32 + (name.length + 1) * w + data.length : Nat) : Int) :=
    segment f.data pre [] (putInt32 ((8 + 4 + 32 + (name.length + 1) * w + data.length : Nat) : Int))
      (putUint32 FileRecordTag ++ putUint32 (name.length + 1) ++ hash ++ text ++ term ++ data)
      post (by
        rw [hlay]
        simp only [List.append_assoc, List.nil_append])
  have hb : (f.data.drop (pre.length + 4)).take 4 = putUint32 FileRecordTag :=
    segment f.data pre (putInt32 ((8 + 4 + 32 + (name.length + 1) * w + data.length : Nat) : Int)) (putUint32 FileRecordTag)
      (putUint32 (name.length + 1) ++ hash ++ text ++ term ++ data) post (by
        rw [hlay]
        simp only [List.append_assoc])
  have hc : (f.data.drop (pre.length + 8)).take 4 = putUint32 (name.length + 1) :=
    segment f.data pre (putInt32 ((8 + 4 + 32 + (name.length + 1) * w + data.length : Nat) : Int) ++ putUint32 FileRecordTag) (putUint32 (name.length + 1))
      (hash ++ text ++ term ++ data) post (by
        rw [hlay]
        simp only [List.append_assoc])
  have hh : (f.data.drop (pre.length + 12)).take 32 = hash := by
    have := segment f.data pre
      (putInt32 ((8 + 4 + 32 + (name.length + 1) * w + data.length : Nat) : Int) ++ putUint32 FileRecordTag ++ putUint32 (name.length + 1))
      hash (text ++ term ++ data) post (by
        rw [hlay]
        simp only [List.append_assoc])
    rw [hhash] at this
    exact this
  have ht : (f.data.drop (pre.length + 44)).take (name.length * w) = text := by
    have := segment f.data pre
      (putInt32 ((8 + 4 + 32 + (name.length + 1) * w + data.length : Nat) : Int) ++ putUint32 FileRecordTag ++ putUint32 (name.length + 1) ++ hash)
      text (term ++ data) post (by
        rw [hlay]
        simp only [List.append_assoc])
    rw [htext] at this
    simp only [List.length_append, length_putInt32, length_putUint32, hhash] at this
    exact this
  obtain ⟨g1, f1, h1, hf1, hd1, hp1, io1⟩ :=
    readRecordHeaderAndSeek_at pre.length _ _ hf ha hb (by omega)
  rw [wrapInt32_leBytes_putInt32 _ (Int.ofNat_nonneg _) (by exact_mod_cast hlen),
    leBytes_putUint32 FileRecordTag (by decide)] at h1
  obtain ⟨g2, r, h2, hrec, hbase, hn, _, _, hdl, hdo, hcache⟩ :=
    parseFileRecordBody_at pre.length w dec
      { Offset := (pre.length : Int),
        Length := ((8 + 4 + 32 + (name.length + 1) * w + data.length : Nat) : Int),
        Tag := FileRecordTag } hash text term data name hf1 hp1
      (by rw [io1.Header]; exact hw)
      (by
        unfold decoderOfWidth at hdec ⊢
        rw [io1.utf32LEDecoder, io1.utf16LEDecoder]
        exact hdec)
      hname htext hterm hhash rfl rfl (by rw [hd1]; exact hc) (by rw [hd1]; exact hh)
      (by rw [hd1]; exact ht) (by rw [hd1]; omega) hlen hend
  rw [io1.fileRecords] at h2 hrec
  refine ⟨g1, g2, r, h1, h2, hrec, ?_, ?_, hn, hdl, hdo, io1.recordCache, ?_⟩
  · show r.toBaseRecord.Offset = _
    rw [hbase]
  · show r.toBaseRecord.Tag = _
    rw [hbase]
  · rw [hcache, io1.recordCache]

/-- C20. In a byte source that holds, at offset `o = pre.length`, a file record laid
out as `[int32 length, FILE tag, uint32 n = len(name) + 1, 32-byte hash, name text,
terminator, data]`, where the name text takes `len(name)` code units of the width
`w` of the archive version (4 when `Header.Version = 4`, 2 otherwise) and decodes
to `name`, and the record length fits an `int32`: reading the header at `o` and
parsing the body returns a file record with `Name = name`, `DataLength = len(data)`
and `DataOffset = o + 8 + 4 + 32 + n * w`; `ReadRecordAt o` with nothing cached at
`o` returns the same record. -/
theorem parseFileRecord_layout (gf : GGPKFile) (f : OSFile) (dec : Decoder) (w : Nat)
    (pre post hash text term data : List UInt8) (name : GoString)
    (hf : gf.File = some f)
    (hw : w = if gf.Header.Version = 4 then 4 else 2)
    (hdec : decoderOfWidth w gf = some dec) (hname : dec text = some name)
    (htext : text.length = name.length * w) (hterm : term.length = w)
    (hhash : hash.length = 32)
    (hdata : f.data = pre ++ fileRecordLayout w (name.length + 1) hash text term data ++ post)
    (hlen : 8 + 4 + 32 + (name.length + 1) * w + data.length < 2 ^ 31)
    (hend : pre.length + (8 + 4 + 32 + (name.length + 1) * w + data.length) < 2 ^ 63) :
    ∃ p r,
      ((readRecordHeaderAndSeek (pre.length : Int) >>= fun hdr =>
        parseFileRecordBody (pre.length : Int)
          { Offset := (pre.length : Int), Length := hdr.1, Tag := hdr.2 }) gf).1 = Res.ok p ∧
      ((readRecordHeaderAndSeek (pre.length : Int) >>= fun hdr =>
        parseFileRecordBody (pre.length : Int)
          { Offset := (pre.length : Int), Length := hdr.1, Tag := hdr.2 }) gf).2.fileRecords[p]? =
        some r ∧
      r.Offset = (pre.length : Int) ∧ r.Tag = FileRecordTag ∧
      r.Name = name ∧ r.DataLength = (data.length : Int) ∧
      r.DataOffset = ((pre.length + 8 + 4 + 32 + (name.length + 1) * w : Nat) : Int) ∧
      (gf.recordCache (pre.length : Int) = none →
        (ReadRecordAt (pre.length : Int) gf).1 = Res.ok (RecordRef.file p) ∧
        (ReadRecordAt (pre.length : Int) gf).2.fileRecords[p]? = some r) := by
  obtain ⟨g1, g2, r, h1, h2, hrec, hoff, htag, hn, hdl, hdo, _, _⟩ :=
    parseFileRecord_core gf f dec w pre post hash text term data name hf hw hdec hname htext
      hterm hhash hdata hlen hend
  have hget : g2.fileRecords[gf.fileRecords.length]? = some r := by
    rw [hrec]
    exact getElem?_append_singleton _ _
  refine ⟨gf.fileRecords.length, r, ?_, ?_, hoff, htag, hn, hdl, hdo, fun hmiss => ?_⟩
  · rw [bind_apply, h1]
    simp only
    rw [h2]
  · rw [bind_apply, h1]
    simp only
    rw [h2]
    exact hget
  · have hrun : ReadRecordAt (pre.length : Int) gf =
        (Res.ok (RecordRef.file gf.fileRecords.length),
          { g2 with recordCache := fun k =>
              if k = (pre.length : Int) then some (RecordRef.file gf.fileRecords.length)
              else g2.recordCache k }) := by
      unfold ReadRecordAt
      rw [hmiss]
      simp only
      rw [bind_apply, h1]
      simp only
      rw [bind_apply]
      unfold parseByTag
      simp only [show FileRecordTag ≠ GGPKRecordTag by decide,
        show FileRecordTag ≠ PDirRecordTag by decide, if_false, if_true]
      rw [bind_apply, h2]
      rfl
    rw [hrun]
    exact ⟨rfl, hget⟩

theorem parseFileRecord_layout_witness :
    ∃ p r,
      ((readRecordHeaderAndSeek ((([] : List UInt8).length : Nat) : Int) >>= fun hdr =>
        parseFileRecordBody ((([] : List UInt8).length : Nat) : Int)
          { Offset := ((([] : List UInt8).length : Nat) : Int), Length := hdr.1, Tag := hdr.2 })
        fileRecordHandle).1 = Res.ok p ∧
      ((readRecordHeaderAndSeek ((([] : List UInt8).length : Nat) : Int) >>= fun hdr =>
        parseFileRecordBody ((([] : List UInt8).length : Nat) : Int)
          { Offset := ((([] : List UInt8).length : Nat) : Int), Length := hdr.1, Tag := hdr.2 })
        fileRecordHandle).2.fileRecords[p]? = some r ∧
      r.Offset = ((([] : List UInt8).length : Nat) : Int) ∧ r.Tag = FileRecordTag ∧
      r.Name = "testfile.txt".toList ∧
      r.DataLength = (((asciiBytes "hello".toList).length : Nat) : Int) ∧
      r.DataOffset =
        (((([] : List UInt8).length + 8 + 4 + 32 + ("testfile.txt".toList.length + 1) * 2 : Nat)) :
          Int) ∧
      (fileRecordHandle.recordCache ((([] : List UInt8).length : Nat) : Int) = none →
        (ReadRecordAt ((([] : List UInt8).length : Nat) : Int) fileRecordHandle).1 =
          Res.ok (RecordRef.file p) ∧
        (ReadRecordAt ((([] : List UInt8).length : Nat) : Int) fileRecordHandle).2.fileRecords[p]? =
          some r) :=
  parseFileRecord_layout fileRecordHandle
    { data := createFileRecordBytes "testfile.txt".toList (asciiBytes "hello".toList),
      pos := 0, ops := [] }
    refUTF16LE 2 [] [] ((List.range 32).map UInt8.ofNat) (putUTF16LE "testfile.txt".toList) [0, 0]
    (asciiBytes "hello".toList) "testfile.txt".toList rfl (by decide!) rfl (by decide!)
    (by decide!) (by decide!) (by decide!) (by decide!) (by decide!) (by decide!)

/-! ## The header reader and the unknown tag -/

theorem readFull_short {g : GGPKFile} {f : OSFile} (k : Nat) (hf : g.File = some f)
    (hk : k ≠ 0) (hshort : f.data.length < f.pos + k) :
    ∃ g1, readFull k g = (Res.err GoError.readFailed, g1) ∧ IOStep g g1 := by
  have hlen : ((f.data.drop f.pos).take k).length ≠ k := by
    rw [List.length_take, List.length_drop]
    omega
  have hrun : readFull k g = (Res.err GoError.readFailed,
      { g with File := some { data := f.data, pos := f.pos + ((f.data.drop f.pos).take k).length,
                              ops := f.ops ++ [FileOp.read k] } }) := by
    unfold readFull
    simp only [hk, if_false, hf, OSFile.ReadFull, hlen]
  exact ⟨_, hrun, keeps_of_eq (io_readFull k) hrun⟩

theorem seekStart_negative {g : GGPKFile} (offset : Int) (e : GoError) (hneg : offset < 0) :
    (seekStart offset e g).1 = Res.err e := by
  unfold seekStart
  cases g.File with
  | none => rfl
  | some f => simp only [OSFile.Seek, hneg, if_true]

theorem readRecordHeaderAndSeek_short {gf : GGPKFile} {f : OSFile} (o : Nat)
    (hf : gf.File = some f) (hshort : f.data.length < o + 8) :
    ∃ e g1, readRecordHeaderAndSeek (o : Int) gf = (Res.err e, g1) := by
  obtain ⟨g1, f1, h1, hf1, hd1, hp1, _⟩ :=
    seekStart_at (o : Int) GoError.seekFailed hf (Int.ofNat_nonneg o)
  rw [Int.toNat_ofNat] at hp1
  by_cases h4 : f.data.length < o + 4
  · obtain ⟨g2, h2, _⟩ := readFull_short 4 hf1 (by decide) (by rw [hd1, hp1]; exact h4)
    refine ⟨GoError.readFailed, g2, ?_⟩
    simp only [readRecordHeaderAndSeek, readInt32, bind_apply, h1, h2]
  · obtain ⟨g2, f2, h2, hf2, hd2, hp2, _⟩ := readFull_at 4 hf1 (by decide)
      (by rw [hd1, hp1]; omega)
    obtain ⟨g3, h3, _⟩ := readFull_short 4 hf2 (by decide) (by rw [hd2, hd1, hp2, hp1]; omega)
    refine ⟨GoError.readFailed, g3, ?_⟩
    simp only [readRecordHeaderAndSeek, readInt32, readUint32, bind_apply, h1, h2, h3,
      pure_apply]

/-- C25. On a handle with a byte source: when at least 8 bytes are available from the
offset `o`, the header reader returns the little-endian `int32` at `[o, o+4)` as
length and the little-endian `uint32` at `[o+4, o+8)` as tag and leaves the stream
at `o + 8`; when fewer than 8 bytes are available from `o` it returns an error, as
it does for a negative offset. -/
theorem readRecordHeaderAndSeek_spec (gf : GGPKFile) (f : OSFile) (o : Nat)
    (hf : gf.File = some f) :
    (o + 8 ≤ f.data.length →
      (readRecordHeaderAndSeek (o : Int) gf).1 =
        Res.ok (wrapInt32 (leBytes ((f.data.drop o).take 4)),
          leBytes ((f.data.drop (o + 4)).take 4)) ∧
      (readRecordHeaderAndSeek (o : Int) gf).2.File.map (·.pos) = some (o + 8)) ∧
    (f.data.length < o + 8 → ∃ e, (readRecordHeaderAndSeek (o : Int) gf).1 = Res.err e) ∧
    ∀ i : Int, i < 0 → ∃ e, (readRecordHeaderAndSeek i gf).1 = Res.err e := by
  refine ⟨fun havail => ?_, fun hshort => ?_, fun i hi => ?_⟩
  · obtain ⟨g1, f1, h1, hf1, _, hp1, _⟩ :=
      readRecordHeaderAndSeek_at o _ _ hf rfl rfl havail
    rw [h1]
    exact ⟨rfl, by simp only [hf1, Option.map_some', hp1]⟩
  · obtain ⟨e, g1, h⟩ := readRecordHeaderAndSeek_short o hf hshort
    exact ⟨e, by rw [h]⟩
  · refine ⟨GoError.seekFailed, ?_⟩
    have hs := seekStart_negative (g := gf) i GoError.seekFailed hi
    rcases hrun : seekStart i GoError.seekFailed gf with ⟨r, g1⟩
    rw [hrun] at hs
    simp only at hs
    subst hs
    simp only [readRecordHeaderAndSeek, bind_apply, hrun]

theorem readRecordHeaderAndSeek_spec_witness :
    ((readRecordHeaderAndSeek ((0 : Nat) : Int) headerOnlyHandle).1 =
        Res.ok (28, GGPKRecordTag) ∧
      (readRecordHeaderAndSeek ((0 : Nat) : Int) headerOnlyHandle).2.File.map (·.pos) =
        some (0 + 8)) ∧
    (∃ e, (readRecordHeaderAndSeek ((24 : Nat) : Int) headerOnlyHandle).1 = Res.err e) :=
  have h0 := (readRecordHeaderAndSeek_spec headerOnlyHandle
    { data := createHeaderBytes 28, pos := 0, ops := [] } 0 rfl).1 (by decide!)
  have h1 := (readRecordHeaderAndSeek_spec headerOnlyHandle
    { data := createHeaderBytes 28, pos := 0, ops := [] } 24 rfl).2.1 (by decide!)
  ⟨⟨by decide!, h0.2⟩, h1⟩

/-- C28. On a handle with a byte source and nothing cached at the offset `o`, when 8
bytes are available at `o` and the tag stored there is none of the four known tags:
`ReadRecordAt` returns an error, and the cache and the stored records are as before
(no record is returned or kept). When the seek to `o + length` succeeds (the target is
not negative) the error is the unknown-tag error and the stream is left at
`o + length`, `length` being the declared length; the sum is taken in `int64`, and is
the mathematical sum whenever `o + 2^31 ≤ 2^63`. -/
theorem ReadRecordAt_unknown_tag (gf : GGPKFile) (f : OSFile) (o : Nat)
    (hf : gf.File = some f) (hmiss : gf.recordCache (o : Int) = none)
    (havail : o + 8 ≤ f.data.length)
    (h1 : leBytes ((f.data.drop (o + 4)).take 4) ≠ GGPKRecordTag)
    (h2 : leBytes ((f.data.drop (o + 4)).take 4) ≠ PDirRecordTag)
    (h3 : leBytes ((f.data.drop (o + 4)).take 4) ≠ FileRecordTag)
    (h4 : leBytes ((f.data.drop (o + 4)).take 4) ≠ FreeRecordTag) :
    (∃ e, (ReadRecordAt (o : Int) gf).1 = Res.err e) ∧
    (ReadRecordAt (o : Int) gf).2.recordCache = gf.recordCache ∧
    (ReadRecordAt (o : Int) gf).2.ggpkRecords = gf.ggpkRecords ∧
    (ReadRecordAt (o : Int) gf).2.freeRecords = gf.freeRecords ∧
    (ReadRecordAt (o : Int) gf).2.fileRecords = gf.fileRecords ∧
    (ReadRecordAt (o : Int) gf).2.dirRecords = gf.dirRecords ∧
    (0 ≤ wrapInt64 ((o : Int) + wrapInt32 (leBytes ((f.data.drop o).take 4))) →
      (ReadRecordAt (o : Int) gf).1 = Res.err GoError.unknownTag ∧
      (ReadRecordAt (o : Int) gf).2.File.map (fun f1 => (f1.pos : Int)) =
        some (wrapInt64 ((o : Int) + wrapInt32 (leBytes ((f.data.drop o).take 4))))) ∧
    (o + 2 ^ 31 ≤ 2 ^ 63 →
      wrapInt64 ((o : Int) + wrapInt32 (leBytes ((f.data.drop o).take 4))) =
        (o : Int) + wrapInt32 (leBytes ((f.data.drop o).take 4))) := by
  obtain ⟨g1, f1, hh, hf1, hd1, hp1, io1⟩ :=
    readRecordHeaderAndSeek_at o _ _ hf rfl rfl havail
  have hrun : ReadRecordAt (o : Int) gf =
      (do
        seekStart (wrapInt64 ((o : Int) + wrapInt32 (leBytes ((f.data.drop o).take 4))))
          GoError.unknownTagSeekFailed
        (fail GoError.unknownTag : M RecordRef)) g1 := by
    unfold ReadRecordAt
    rw [hmiss]
    simp only
    rw [bind_apply, hh]
    simp only
    rw [bind_apply]
    unfold parseByTag
    simp only [h1, h2, h3, h4, if_false]
    rw [bind_apply]
    rcases seekStart _ GoError.unknownTagSeekFailed g1 with ⟨r, g2⟩
    cases r <;> rfl
  have hio : IOStep gf (ReadRecordAt (o : Int) gf).2 := by
    rw [hrun]
    exact ioStep_trans _ _ _ io1
      (io_bind (io_seekStart _ _) (fun _ => io_fail _) g1)
  refine ⟨?_, hio.recordCache, hio.ggpkRecords, hio.freeRecords, hio.fileRecords,
    hio.dirRecords, fun hpos => ?_, fun hbig => ?_⟩
  · rw [hrun, bind_apply]
    by_cases hpos : 0 ≤ wrapInt64 ((o : Int) + wrapInt32 (leBytes ((f.data.drop o).take 4)))
    · obtain ⟨g2, f2, hs, _⟩ := seekStart_at _ GoError.unknownTagSeekFailed hf1 hpos
      rw [hs]
      exact ⟨_, rfl⟩
    · have hs := seekStart_negative (g := g1) _ GoError.unknownTagSeekFailed (not_le.mp hpos)
      rcases hrun2 : seekStart (wrapInt64 ((o : Int) +
          wrapInt32 (leBytes ((f.data.drop o).take 4)))) GoError.unknownTagSeekFailed g1
        with ⟨r, g2⟩
      rw [hrun2] at hs
      simp only at hs
      subst hs
      exact ⟨_, rfl⟩
  · obtain ⟨g2, f2, hs, hf2, _, hp2, _⟩ := seekStart_at _ GoError.unknownTagSeekFailed hf1 hpos
    rw [hrun, bind_apply, hs]
    refine ⟨rfl, ?_⟩
    show g2.File.map _ = _
    rw [hf2, Option.map_some', hp2, Int.toNat_of_nonneg hpos]
  · have hlo : -(2 : Int) ^ 31 ≤ wrapInt32 (leBytes ((f.data.drop o).take 4)) := by
      unfold wrapInt32
      omega
    have hhi : wrapInt32 (leBytes ((f.data.drop o).take 4)) < (2 : Int) ^ 31 := by
      unfold wrapInt32
      omega
    generalize wrapInt32 (leBytes ((f.data.drop o).take 4)) = l at hlo hhi ⊢
    unfold wrapInt64
    omega

theorem ReadRecordAt_unknown_tag_witness :
    (ReadRecordAt ((0 : Nat) : Int) unknownTagHandle).1 = Res.err GoError.unknownTag ∧
    (ReadRecordAt ((0 : Nat) : Int) unknownTagHandle).2.File.map (fun f1 => (f1.pos : Int)) =
      some 16 ∧
    (ReadRecordAt ((0 : Nat) : Int) unknownTagHandle).2.recordCache =
      unknownTagHandle.recordCache ∧
    (ReadRecordAt ((0 : Nat) : Int) unknownTagHandle).2.fileRecords =
      unknownTagHandle.fileRecords :=
  have h := ReadRecordAt_unknown_tag unknownTagHandle
    { data := unknownTagBytes, pos := 0, ops := [] } 0 rfl rfl (by decide!) (by decide!)
    (by decide!) (by decide!) (by decide!)
  have hp := h.2.2.2.2.2.2.1 (by decide!)
  ⟨hp.1, hp.2.trans (by decide!), h.2.1, h.2.2.2.2.1⟩

/-! ## The header record -/

theorem leBytes_append (a b : List UInt8) :
    leBytes (a ++ b) = leBytes a + 256 ^ a.length * leBytes b := by
  induction a with
  | nil => simp [leBytes]
  | cons x xs ih =>
    show leBytes (x :: (xs ++ b)) = _
    simp only [leBytes, ih, List.length_cons, pow_succ]
    ring

theorem leBytes_putInt64 (i : Int) : (leBytes (putInt64 i) : Int) = i % 2 ^ 64 := by
  have hnn : (0 : Int) ≤ i % 2 ^ 64 := Int.emod_nonneg _ (by decide)
  have hlt : i % 2 ^ 64 < 2 ^ 64 := Int.emod_lt_of_pos _ (by decide)
  generalize hx : (i % 2 ^ 64).toNat = x
  have hxi : (x : Int) = i % 2 ^ 64 := by
    rw [← hx]
    exact Int.toNat_of_nonneg hnn
  have hxlt : x < 2 ^ 64 := by omega
  unfold putInt64
  rw [hx, leBytes_append, leBytes_putUint32 _ (Nat.mod_lt _ (by decide)),
    leBytes_putUint32 _ (by omega), length_putUint32, ← hxi]
  have : x % 2 ^ 32 + 256 ^ 4 * (x / 2 ^ 32) = x := by omega
  exact_mod_cast this

theorem wrapInt64_leBytes_putInt64 (i : Int) (h0 : -(2 : Int) ^ 63 ≤ i) (h1 : i < 2 ^ 63) :
    wrapInt64 (leBytes (putInt64 i)) = i := by
  rw [leBytes_putInt64]
  unfold wrapInt64
  omega

theorem length_putInt64 (i : Int) : (putInt64 i).length = 8 := rfl

theorem segment_at {α : Type} (l pre x y z post : List α) (n k : Nat)
    (h : l = pre ++ (x ++ y ++ z) ++ post) (hn : pre.length + x.length = n)
    (hk : y.length = k) : (l.drop n).take k = y := by
  rw [← hn, ← hk]
  exact segment l pre x y z post h

/-- The header parse on a byte source that holds at `pre.length` the encoding
`[int32 len, tag, uint32 v, int64 root, int64 free]` with `tag` the GGPK tag. -/
theorem parseGGPKRecordBody_core (gf : GGPKFile) (f : OSFile) (len : Int) (tag v : Nat)
    (root free : Int) (pre post : List UInt8) (hf : gf.File = some f)
    (htag : tag = GGPKRecordTag) (hlen0 : 0 ≤ len) (hlen1 : len < 2 ^ 31) (hv : v < 2 ^ 32)
    (hroot0 : -(2 : Int) ^ 63 ≤ root) (hroot1 : root < 2 ^ 63)
    (hfree0 : -(2 : Int) ^ 63 ≤ free) (hfree1 : free < 2 ^ 63)
    (hdata : f.data =
      pre ++ (putInt32 len ++ putUint32 tag ++ putUint32 v ++ putInt64 root ++ putInt64 free) ++
        post) :
    ∃ g4 f4, parseGGPKRecordBody (pre.length : Int) gf =
      (Res.ok gf.ggpkRecords.length,
        { g4 with ggpkRecords := gf.ggpkRecords ++
          [{ Offset := (pre.length : Int), Length := len, Tag := tag, Version := v,
             RootDirectoryOffset := root, FirstFreeOffset := free }] }) ∧
      g4.File = some f4 ∧ f4.data = f.data ∧ f4.pos = pre.length + 28 ∧ IOStep gf g4 := by
  have htot : f.data.length = pre.length + 28 + post.length := by
    rw [hdata]
    simp only [List.length_append, length_putInt32, length_putUint32, length_putInt64]
  have ha : (f.data.drop pre.length).take 4 = putInt32 len :=
    segment_at f.data pre [] (putInt32 len)
      (putUint32 tag ++ putUint32 v ++ putInt64 root ++ putInt64 free) post _ _
      (hdata.trans (by simp only [List.append_assoc, List.nil_append]))
      (by simp only [List.length_nil]; omega) (by simp only [length_putInt32, length_putUint32, length_putInt64])
  have hb : (f.data.drop (pre.length + 4)).take 4 = putUint32 tag :=
    segment_at f.data pre (putInt32 len) (putUint32 tag)
      (putUint32 v ++ putInt64 root ++ putInt64 free) post _ _
      (hdata.trans (by simp only [List.append_assoc]))
      (by simp only [List.length_append, List.length_nil, length_putInt32, length_putUint32,
        length_putInt64]) (by simp only [length_putInt32, length_putUint32, length_putInt64])
  have hc : (f.data.drop (pre.length + 8)).take 4 = putUint32 v :=
    segment_at f.data pre (putInt32 len ++ putUint32 tag) (putUint32 v)
      (putInt64 root ++ putInt64 free) post _ _
      (hdata.trans (by simp only [List.append_assoc]))
      (by simp only [List.length_append, List.length_nil, length_putInt32, length_putUint32,
        length_putInt64]) (by simp only [length_putInt32, length_putUint32, length_putInt64])
  have hd : (f.data.drop (pre.length + 12)).take 8 = putInt64 root :=
    segment_at f.data pre (putInt32 len ++ putUint32 tag ++ putUint32 v) (putInt64 root)
      (putInt64 free) post _ _ hdata
      (by simp only [List.length_append, List.length_nil, length_putInt32, length_putUint32,
        length_putInt64]) (by simp only [length_putInt32, length_putUint32, length_putInt64])
  have he : (f.data.drop (pre.length + 20)).take 8 = putInt64 free :=
    segment_at f.data pre (putInt32 len ++ putUint32 tag ++ putUint32 v ++ putInt64 root)
      (putInt64 free) [] post _ _
      (hdata.trans (by simp only [List.append_nil]))
      (by simp only [List.length_append, List.length_nil, length_putInt32, length_putUint32,
        length_putInt64]) (by simp only [length_putInt32, length_putUint32, length_putInt64])
  obtain ⟨g1, f1, h1, hf1, hd1, hp1, io1⟩ :=
    readRecordHeaderAndSeek_at pre.length (putInt32 len) (putUint32 tag) hf ha hb (by omega)
  rw [wrapInt32_leBytes_putInt32 len hlen0 hlen1, leBytes_putUint32 tag (by rw [htag]; decide)]
    at h1
  obtain ⟨g2, f2, h2, hf2, hd2, hp2, io2⟩ := readFull_at 4 hf1 (by decide)
    (by rw [hp1, hd1]; omega)
  rw [hp1, hd1, hc] at h2
  obtain ⟨g3, f3, h3, hf3, hd3, hp3, io3⟩ := readFull_at 8 hf2 (by decide)
    (by rw [hp2, hp1, hd2, hd1]; omega)
  rw [hp2, hp1, hd2, hd1, show pre.length + 8 + 4 = pre.length + 12 by omega, hd] at h3
  obtain ⟨g4, f4, h4, hf4, hd4, hp4, io4⟩ := readFull_at 8 hf3 (by decide)
    (by rw [hp3, hp2, hp1, hd3, hd2, hd1]; omega)
  rw [hp3, hp2, hp1, hd3, hd2, hd1, show pre.length + 8 + 4 + 8 = pre.length + 20 by omega, he]
    at h4
  have hio : IOStep gf g4 :=
    ioStep_trans _ _ _ (ioStep_trans _ _ _ (ioStep_trans _ _ _ io1 io2) io3) io4
  refine ⟨g4, f4, ?_, hf4, by rw [hd4, hd3, hd2, hd1], by rw [hp4, hp3, hp2, hp1], hio⟩
  unfold parseGGPKRecordBody
  rw [bind_apply, h1]
  simp only [ne_eq, htag, not_true_eq_false, if_false]
  rw [bind_apply]
  unfold readUint32
  rw [bind_apply, h2]
  simp only [pure_apply]
  rw [bind_apply]
  unfold readInt64
  rw [bind_apply, h3]
  simp only [pure_apply]
  rw [bind_apply, bind_apply, h4]
  simp only [pure_apply, allocGGPK, leBytes_putUint32 v hv,
    wrapInt64_leBytes_putInt64 root hroot0 hroot1,
    wrapInt64_leBytes_putInt64 free hfree0 hfree1, hio.ggpkRecords]

/-- C21. On a byte source that holds at the offset `o = pre.length` (offset 0 for the
header of an archive, `pre = []`) the 28-byte little-endian encoding `[int32 28, GGPK
tag, uint32 version, int64 root offset, int64 first-free offset]`, parsing the header
at `o` returns a header record with exactly that version, root directory offset and
first-free offset, `Tag` the GGPK tag, `Length = 28` and `Offset = o`, and leaves the
stream at `o + 28`. -/
theorem parseGGPKRecordBody_layout (gf : GGPKFile) (f : OSFile) (v : Nat) (root free : Int)
    (pre post : List UInt8) (hf : gf.File = some f) (hv : v < 2 ^ 32)
    (hroot0 : -(2 : Int) ^ 63 ≤ root) (hroot1 : root < 2 ^ 63)
    (hfree0 : -(2 : Int) ^ 63 ≤ free) (hfree1 : free < 2 ^ 63)
    (hdata : f.data =
      pre ++ (putInt32 28 ++ putUint32 GGPKRecordTag ++ putUint32 v ++ putInt64 root ++
        putInt64 free) ++ post) :
    (parseGGPKRecordBody (pre.length : Int) gf).1 = Res.ok gf.ggpkRecords.length ∧
    (parseGGPKRecordBody (pre.length : Int) gf).2.ggpkRecords = gf.ggpkRecords ++
      [{ Offset := (pre.length : Int), Length := 28, Tag := GGPKRecordTag, Version := v,
         RootDirectoryOffset := root, FirstFreeOffset := free }] ∧
    (parseGGPKRecordBody (pre.length : Int) gf).2.File.map (·.pos) = some (pre.length + 28) := by
  obtain ⟨g4, f4, hrun, hf4, _, hp4, _⟩ :=
    parseGGPKRecordBody_core gf f 28 GGPKRecordTag v root free pre post hf rfl (by norm_num)
      (by norm_num) hv hroot0 hroot1 hfree0 hfree1 hdata
  rw [hrun]
  refine ⟨rfl, rfl, ?_⟩
  show g4.File.map _ = _
  rw [hf4, Option.map_some', hp4]

theorem parseGGPKRecordBody_layout_witness :
    (parseGGPKRecordBody 0 headerOnlyHandle).1 = Res.ok 0 ∧
    (parseGGPKRecordBody 0 headerOnlyHandle).2.ggpkRecords =
      [{ Offset := 0, Length := 28, Tag := GGPKRecordTag, Version := 3,
         RootDirectoryOffset := 28, FirstFreeOffset := 0 }] ∧
    (parseGGPKRecordBody 0 headerOnlyHandle).2.File.map (·.pos) = some 28 :=
  parseGGPKRecordBody_layout headerOnlyHandle
    { data := createHeaderBytes 28, pos := 0, ops := [] } 3 28 0 [] [] rfl (by decide)
    (by decide) (by decide) (by decide) (by decide) (by decide!)

/-! ## Counts and lengths outside the expected range -/

/-- C29 fails for character counts whose byte count does not fit 32 bits. On a byte
source of 6 bytes, with a buffer of capacity 1024: for `n = 2^31` (width 2) and for
`n = 2^30` (width 4) the byte count wraps to 0 and the slice expression
`stringReadBuf[:(n-1)*w]` is out of range, a runtime panic; for `n = 2^31 + 1`
(width 2) the byte count wraps to 2, the decode succeeds with the empty string and
the stream has advanced by 2 bytes, not by `n * w`. -/
theorem readString_overflow :
    (readUTF16String (2 ^ 31) shortNameHandle).1 = Res.crash ∧
    (readUTF32String (2 ^ 30) shortNameHandle).1 = Res.crash ∧
    (readUTF16String (2 ^ 31 + 1) shortNameHandle).1 = Res.ok [] ∧
    (readUTF16String (2 ^ 31 + 1) shortNameHandle).2.File.map (·.pos) = some 2 ∧
    shortNameHandle.File.map (·.pos) = some 0 ∧
    shortNameHandle.stringReadBuf.length = 1024 :=
  ⟨by decide!, by decide!, by decide!, by decide!, by decide!, by decide!⟩

/-- C27 fails: a file record whose length field holds 8, less than its header and name
(46 bytes), parses successfully with `DataLength = -38`; one whose length field
holds 1000 in an archive of 46 bytes parses successfully with `DataOffset +
DataLength = 1000`, beyond the end of the archive. -/
theorem ReadRecordAt_file_data_range :
    (ReadRecordAt 0 (declaredLengthHandle 8)).1 = Res.ok (RecordRef.file 0) ∧
    ((ReadRecordAt 0 (declaredLengthHandle 8)).2.fileRecords[0]?).map
      (fun r => (r.Length, r.DataOffset, r.DataLength)) = some (8, 46, -38) ∧
    (ReadRecordAt 0 (declaredLengthHandle 1000)).1 = Res.ok (RecordRef.file 0) ∧
    ((ReadRecordAt 0 (declaredLengthHandle 1000)).2.fileRecords[0]?).map
      (fun r => (r.Length, r.DataOffset, r.DataLength)) = some (1000, 46, 954) ∧
    (declaredLengthFile 1000).length = 46 :=
  ⟨by decide!, by decide!, by decide!, by decide!, by decide!⟩

/-! ## Paths from the parent chain (`GetPath`) -/

theorem joinSlash_snoc (names : List GoString) (s : GoString) (h : names ≠ []) :
    joinSlash (names ++ [s]) = joinSlash names ++ '/' :: s := by
  induction names with
  | nil => exact absurd rfl h
  | cons a rest ih =>
    cases rest with
    | nil => rfl
    | cons b rest2 =>
      show a ++ '/' :: joinSlash ((b :: rest2) ++ [s]) = (a ++ '/' :: joinSlash (b :: rest2)) ++ _
      rw [ih (List.cons_ne_nil _ _)]
      simp only [List.append_assoc, List.cons_append]

theorem joinSlash_ne_nil (names : List GoString) (h : names ≠ [])
    (hne : ∀ s ∈ names, s ≠ []) : joinSlash names ≠ [] := by
  cases names with
  | nil => exact absurd rfl h
  | cons a rest =>
    have ha : a ≠ [] := hne a (List.mem_cons_self _ _)
    cases rest with
    | nil => exact ha
    | cons b rest2 =>
      show a ++ '/' :: joinSlash (b :: rest2) ≠ []
      simp

theorem joinSlash_eq_nil_of_nil : joinSlash [] = [] := rfl

theorem isAncestry_cons {dirs : List DirectoryRecord} {p q : Nat} {rest : List Nat}
    (h : isAncestry dirs (p :: q :: rest) = true) :
    (∃ d, dirs[p]? = some d ∧ d.parent = some q) ∧ isAncestry dirs (q :: rest) = true := by
  unfold isAncestry at h
  rw [Bool.and_eq_true] at h
  obtain ⟨h1, h2⟩ := h
  cases hd : dirs[p]? with
  | none => rw [hd] at h1; cases h1
  | some d =>
    rw [hd] at h1
    exact ⟨⟨d, rfl, of_decide_eq_true h1⟩, h2⟩

theorem isAncestry_single {dirs : List DirectoryRecord} {r : Nat}
    (h : isAncestry dirs [r] = true) :
    ∃ d, dirs[r]? = some d ∧ d.Name = [] ∧ d.parent = none := by
  unfold isAncestry at h
  cases hd : dirs[r]? with
  | none => rw [hd] at h; cases h
  | some d =>
    rw [hd] at h
    exact ⟨d, rfl, of_decide_eq_true h⟩

/-- In a chain the parent of the directory at position `i` is the directory at
position `i + 1`, and the last directory has no parent. -/
theorem isAncestry_parent {dirs : List DirectoryRecord} :
    ∀ (chain : List Nat), isAncestry dirs chain = true →
      ∀ (i x : Nat) (d : DirectoryRecord), chain[i]? = some x → dirs[x]? = some d →
        d.parent = chain[i + 1]? := by
  intro chain
  induction chain with
  | nil => intro h; cases h
  | cons p rest ih =>
    intro h i x d hx hd
    cases rest with
    | nil =>
      obtain ⟨d0, hd0, _, hpar⟩ := isAncestry_single h
      cases i with
      | zero =>
        simp only [List.getElem?_cons_zero, Option.some.injEq] at hx
        subst hx
        rw [hd0] at hd
        cases hd
        rw [hpar]
        simp
      | succ j => simp at hx
    | cons q rest2 =>
      obtain ⟨⟨d0, hd0, hpar⟩, hrest⟩ := isAncestry_cons h
      cases i with
      | zero =>
        simp only [List.getElem?_cons_zero, Option.some.injEq] at hx
        subst hx
        rw [hd0] at hd
        cases hd
        rw [hpar]
        simp
      | succ j =>
        simp only [List.getElem?_cons_succ] at hx
        have := ih hrest j x d hx hd
        simpa using this

theorem isAncestry_mem {dirs : List DirectoryRecord} :
    ∀ (chain : List Nat), isAncestry dirs chain = true → ∀ x ∈ chain, x < dirs.length := by
  intro chain
  induction chain with
  | nil => intro h; cases h
  | cons p rest ih =>
    intro h x hx
    have hp : p < dirs.length := by
      cases rest with
      | nil =>
        obtain ⟨d0, hd0, _⟩ := isAncestry_single h
        by_contra hge
        rw [List.getElem?_eq_none (not_lt.mp hge)] at hd0
        cases hd0
      | cons q rest2 =>
        obtain ⟨⟨d0, hd0, _⟩, _⟩ := isAncestry_cons h
        by_contra hge
        rw [List.getElem?_eq_none (not_lt.mp hge)] at hd0
        cases hd0
    rcases List.mem_cons.mp hx with rfl | hmem
    · exact hp
    · cases rest with
      | nil => cases hmem
      | cons q rest2 => exact ih (isAncestry_cons h).2 x hmem

/-- A chain visits no directory twice. -/
theorem isAncestry_nodup {dirs : List DirectoryRecord} :
    ∀ (chain : List Nat), isAncestry dirs chain = true → chain.Nodup := by
  intro chain
  induction chain with
  | nil => intro h; cases h
  | cons p rest ih =>
    intro h
    cases rest with
    | nil => exact List.nodup_singleton p
    | cons q rest2 =>
      obtain ⟨⟨d0, hd0, hpar⟩, hrest⟩ := isAncestry_cons h
      have hnd := ih hrest
      refine List.nodup_cons.mpr ⟨fun hmem => ?_, hnd⟩
      obtain ⟨i, hi⟩ := List.getElem?_of_mem hmem
      have h1 := isAncestry_parent (q :: rest2) hrest i p d0 hi hd0
      rw [hpar] at h1
      have hlt1 : i + 1 < (q :: rest2).length := by
        by_contra hge
        rw [List.getElem?_eq_none (not_lt.mp hge)] at h1
        cases h1
      have hlt0 : 0 < (q :: rest2).length := by simp
      rw [List.getElem?_eq_getElem hlt1, Option.some.injEq] at h1
      have h2 : (q :: rest2)[0] = (q :: rest2)[i + 1] := by simpa using h1
      have := (List.Nodup.getElem_inj_iff hnd).mp h2
      omega

theorem isAncestry_length {dirs : List DirectoryRecord} (chain : List Nat)
    (h : isAncestry dirs chain = true) : chain.length ≤ dirs.length := by
  have hsub : chain ⊆ List.range dirs.length := fun x hx =>
    List.mem_range.mpr (isAncestry_mem chain h x hx)
  have := (List.subperm_of_subset (isAncestry_nodup chain h) hsub).length_le
  simpa using this

theorem ancestryNames_mem_cons {dirs : List DirectoryRecord} (q : Nat) (rest : List Nat)
    (s : GoString) (h : s ∈ ancestryNames dirs rest) : s ∈ ancestryNames dirs (q :: rest) := by
  cases rest with
  | nil => cases h
  | cons r rest2 =>
    show s ∈ ancestryNames dirs (r :: rest2) ++ _
    exact List.mem_append_left _ h

theorem GetPathFuel_join {dirs : List DirectoryRecord} :
    ∀ (anc : List Nat) (p fuel : Nat), isAncestry dirs (p :: anc) = true →
      (∀ s ∈ ancestryNames dirs anc, s ≠ []) → (p :: anc).length ≤ fuel →
      DirectoryRecord.GetPathFuel dirs fuel p =
        some (joinSlash (ancestryNames dirs (p :: anc))) := by
  intro anc
  induction anc with
  | nil =>
    intro p fuel h _ hfuel
    obtain ⟨d, hd, hname, hpar⟩ := isAncestry_single h
    cases fuel with
    | zero => simp at hfuel
    | succ f =>
      unfold DirectoryRecord.GetPathFuel
      simp only [hd, hname, hpar, and_self, if_true]
      rfl
  | cons q rest ih =>
    intro p fuel h hne hfuel
    obtain ⟨⟨d, hd, hpar⟩, hrest⟩ := isAncestry_cons h
    cases fuel with
    | zero => simp at hfuel
    | succ f =>
      have hq := ih q f hrest (fun s hs => hne s (ancestryNames_mem_cons q rest s hs))
        (by simp only [List.length_cons] at hfuel ⊢; omega)
      have hnames : ancestryNames dirs (p :: q :: rest) =
          ancestryNames dirs (q :: rest) ++ [d.Name] := by
        show ancestryNames dirs (q :: rest) ++ [((dirs[p]?).map (·.Name)).getD []] = _
        rw [hd]
        rfl
      unfold DirectoryRecord.GetPathFuel
      simp only [hd, hpar, hq]
      rw [if_neg (by simp), hnames]
      by_cases hN : ancestryNames dirs (q :: rest) = []
      · rw [hN]
        simp only [joinSlash_eq_nil_of_nil, if_true, List.nil_append]
        rfl
      · rw [if_neg (joinSlash_ne_nil _ hN hne), joinSlash_snoc _ _ hN]

/-- C24, where the defect does not bear. For a directory `q` whose parent chain `q :: anc` is
finite and ends at a root (empty name, no parent), and in which every directory
strictly between `q` and the root has a non-empty name: `GetPath` of the directory
node `q` returns the names of the non-root directories of the chain, outermost
first, joined by `/` (the empty string when `q` is the root itself); `GetPath` of a
file node with parent `q` returns those names followed by the file's name, joined
by `/`. The state is unchanged. -/
theorem GetPath_join (gf : GGPKFile) (q : Nat) (anc : List Nat)
    (hchain : isAncestry gf.dirRecords (q :: anc) = true)
    (hne : ∀ s ∈ ancestryNames gf.dirRecords anc, s ≠ []) :
    TreeNode.GetPath (TreeNode.dir (some q)) gf =
      (Res.ok (joinSlash (ancestryNames gf.dirRecords (q :: anc))), gf) ∧
    ∀ (fr : Nat) (r : FileRecord), gf.fileRecords[fr]? = some r → r.parent = some q →
      TreeNode.GetPath (TreeNode.file fr) gf =
        (Res.ok (joinSlash (ancestryNames gf.dirRecords (q :: anc) ++ [r.Name])), gf) := by
  have hfuel := GetPathFuel_join anc q (gf.dirRecords.length + 1) hchain hne
    (Nat.le_succ_of_le (isAncestry_length _ hchain))
  have hdir : DirectoryRecord.GetPath (some q) gf =
      (Res.ok (joinSlash (ancestryNames gf.dirRecords (q :: anc))), gf) := by
    unfold DirectoryRecord.GetPath
    simp only [hfuel]
  refine ⟨hdir, fun fr r hr hpar => ?_⟩
  show FileRecord.GetPath fr gf = _
  unfold FileRecord.GetPath
  rw [bind_apply]
  unfold getFile
  simp only [hr, hpar]
  cases anc with
  | nil =>
    obtain ⟨d, hd, hname, hp⟩ := isAncestry_single hchain
    rw [bind_apply, getDir_run hd]
    simp only [hname, hp, and_self, if_true]
    rfl
  | cons q1 rest =>
    obtain ⟨⟨d, hd, hp⟩, hrest⟩ := isAncestry_cons hchain
    rw [bind_apply, getDir_run hd]
    simp only [hp]
    rw [if_neg (by simp), bind_apply, hdir]
    simp only [pure_apply]
    rw [joinSlash_snoc]
    show ancestryNames gf.dirRecords (q1 :: rest) ++ _ ≠ []
    simp

theorem GetPath_join_witness :
    TreeNode.GetPath (TreeNode.dir (some 2)) nestedHandle =
      (Res.ok "Metadata/Items".toList, nestedHandle) ∧
    TreeNode.GetPath (TreeNode.file 0) nestedHandle =
      (Res.ok "Metadata/Items/file.dat".toList, nestedHandle) := by
  have h := GetPath_join nestedHandle 2 [1, 0] (by decide!) (by decide!)
  have hj : joinSlash (ancestryNames nestedHandle.dirRecords [2, 1, 0]) =
      "Metadata/Items".toList := by decide!
  have hr : (nestedHandle.fileRecords[0]?).map (fun r => (r.Name, r.parent)) =
      some ("file.dat".toList, some 2) := by decide!
  cases hf : nestedHandle.fileRecords[0]? with
  | none =>
    rw [hf] at hr
    cases hr
  | some r =>
    rw [hf] at hr
    simp only [Option.map_some', Option.some.injEq, Prod.mk.injEq] at hr
    have h2 := h.2 0 r hf hr.2
    rw [hr.1] at h2
    rw [hj] at h
    refine ⟨h.1, ?_⟩
    rw [h2]
    have hj2 : joinSlash (ancestryNames nestedHandle.dirRecords [2, 1, 0] ++
        ["file.dat".toList]) = "Metadata/Items/file.dat".toList := by decide!
    rw [hj2]

/-- C24 fails on this archive, for a non-root directory with the empty name: in the
tree root -> "" -> "x" the parent chain of the directory "x" is finite and ends at the
root, its non-root ancestors and itself have the names "" and "x", which joined by
`/` give "/x", and `GetPath` returns "x": the test `parentPath == ""` of
`DirectoryRecord.GetPath`, meant for a parent that is the root, also holds for the
directory "". -/
theorem GetPath_empty_name_counterexample :
    Open refUTF16LE refUTF32LE (some emptyNameArchive) =
      Res.ok (openBody (newGGPKFile refUTF16LE refUTF32LE emptyNameArchive)).2 ∧
    (GetChildren 0 (openBody (newGGPKFile refUTF16LE refUTF32LE emptyNameArchive)).2).1 =
      Res.ok [TreeNode.dir (some 1)] ∧
    (GetChildren 1 (GetChildren 0
      (openBody (newGGPKFile refUTF16LE refUTF32LE emptyNameArchive)).2).2).1 =
      Res.ok [TreeNode.dir (some 2)] ∧
    emptyNameHandle.dirRecords.map (fun d => (d.Name, d.parent)) =
      [([], none), ([], some 0), (['x'], some 1)] ∧
    isAncestry emptyNameHandle.dirRecords [2, 1, 0] = true ∧
    ancestryNames emptyNameHandle.dirRecords [2, 1, 0] = [[], ['x']] ∧
    joinSlash [[], ['x']] = ['/', 'x'] ∧
    (TreeNode.GetPath (TreeNode.dir (some 2)) emptyNameHandle).1 = Res.ok ['x'] :=
  ⟨Open_of_openBody (by decide!), by decide!, by decide!, by decide!, by decide!, by decide!,
    by decide!, by decide!⟩

/-! ## `Open` -/

theorem parseGGPKRecordBody_tag {offset : Int} {gf g1 : GGPKFile} {h : Nat}
    (hp : parseGGPKRecordBody offset gf = (Res.ok h, g1)) :
    ∃ hdr, g1.ggpkRecords[h]? = some hdr ∧ hdr.Tag = GGPKRecordTag := by
  unfold parseGGPKRecordBody at hp
  obtain ⟨⟨len, tag⟩, ga, _, h2⟩ := bind_eq_ok.mp hp
  simp only at h2
  split at h2
  · cases h2
  next htag =>
    obtain ⟨v, gb, _, h3⟩ := bind_eq_ok.mp h2
    obtain ⟨r, gc, _, h4⟩ := bind_eq_ok.mp h3
    obtain ⟨fr, gd, _, h5⟩ := bind_eq_ok.mp h4
    unfold allocGGPK at h5
    cases h5
    exact ⟨_, getElem?_append_singleton _ _, not_not.mp htag⟩

/-- The outcomes of `Open`, for every byte source. (1) When the tag stored at offset
0 is not the GGPK tag, `Open` returns an error. (2) When the header parses and its
root directory offset is 0, `Open` returns the invalid-offset error. (3) When `Open`
succeeds, the handle's header carries the GGPK tag, its root directory offset is not
0 and the tag stored there is `PDIR`, the cache maps offset 0 to the header and the
root offset to the root directory. -/
theorem Open_outcomes (utf16LE utf32LE : Decoder) (data : List UInt8) :
    (tagAt data 0 ≠ GGPKRecordTag → ∃ e, Open utf16LE utf32LE (some data) = Res.err e) ∧
    (∀ h g1 hdr, parseGGPKRecordBody 0 (newGGPKFile utf16LE utf32LE data) = (Res.ok h, g1) →
      g1.ggpkRecords[h]? = some hdr → hdr.RootDirectoryOffset = 0 →
      Open utf16LE utf32LE (some data) = Res.err GoError.invalidOffset) ∧
    (∀ gf, Open utf16LE utf32LE (some data) = Res.ok gf →
      gf.Header.Tag = GGPKRecordTag ∧ gf.Header.RootDirectoryOffset ≠ 0 ∧
      tagAt data gf.Header.RootDirectoryOffset = PDirRecordTag ∧
      (∃ h, gf.recordCache 0 = some (RecordRef.ggpk h) ∧
        gf.ggpkRecords[h]? = some gf.Header) ∧
      (∃ p, gf.Root = some p ∧
        gf.recordCache gf.Header.RootDirectoryOffset = some (RecordRef.dir p))) := by
  refine ⟨fun htag => ?_, fun h g1 hdr hp hh hroot => ?_, fun gf hopen => ?_⟩
  · have hf : (newGGPKFile utf16LE utf32LE data).File =
        some { data := data, pos := 0, ops := [] } := rfl
    have herr : ∃ e g1, parseGGPKRecordBody 0 (newGGPKFile utf16LE utf32LE data) =
        (Res.err e, g1) := by
      by_cases hlen : 8 ≤ data.length
      · obtain ⟨g1, f1, h1, _⟩ := readRecordHeaderAndSeek_at 0 _ _ hf rfl rfl hlen
        refine ⟨GoError.unexpectedTag, g1, ?_⟩
        unfold parseGGPKRecordBody
        rw [bind_apply]
        have h1' : readRecordHeaderAndSeek 0 (newGGPKFile utf16LE utf32LE data) = _ := h1
        rw [h1']
        simp only
        rw [if_pos]
        · rfl
        · simpa [tagAt] using htag
      · obtain ⟨e, g1, h1⟩ := readRecordHeaderAndSeek_short 0 hf (by show data.length < 0 + 8; omega)
        refine ⟨e, g1, ?_⟩
        unfold parseGGPKRecordBody
        rw [bind_apply]
        have h1' : readRecordHeaderAndSeek 0 (newGGPKFile utf16LE utf32LE data) = _ := h1
        rw [h1']
    obtain ⟨e, g1, he⟩ := herr
    refine ⟨e, ?_⟩
    unfold Open openBody
    simp only [bind_apply, he]
  · obtain ⟨hdr1, hh1, htag⟩ := parseGGPKRecordBody_tag hp
    rw [hh] at hh1
    cases hh1
    unfold Open openBody
    simp only [bind_apply, hp, getState, hh, setHeader, cacheStore, htag, ne_eq,
      not_true_eq_false, if_false, hroot, ReadDirectoryRecordAt, if_true, fail]
  · have h := Open_eq_ok hopen
    unfold openBody at h
    obtain ⟨header, g1, h1, h⟩ := bind_eq_ok.mp h
    obtain ⟨g0, g0a, hg, h⟩ := bind_eq_ok.mp h
    cases hg
    have grow1 := keeps_of_eq (grow_parseGGPKRecordBody 0) h1
    cases hh : g1.ggpkRecords[header]? with
    | none => rw [hh] at h; cases h
    | some hdr =>
      rw [hh] at h
      simp only at h
      obtain ⟨u1, ga, hset, h⟩ := bind_eq_ok.mp h
      obtain ⟨u2, gb, hstore, h⟩ := bind_eq_ok.mp h
      unfold setHeader at hset
      cases hset
      unfold cacheStore at hstore
      cases hstore
      split at h
      · cases h
      next htag =>
        obtain ⟨root, g3, hroot, h⟩ := bind_eq_ok.mp h
        unfold setRoot at h
        cases h
        obtain ⟨hne, g2, d0, hread, hd0, rfl⟩ := ReadDirectoryRecordAt_ok hroot
        have hmiss : (fun k => if k = 0 then some (RecordRef.ggpk header)
            else g1.recordCache k) hdr.RootDirectoryOffset = none := by
          simp only [hne, if_false, grow1.recordCache]
          rfl
        obtain ⟨length, tag, gc, gd, hhead, hparse, rfl⟩ := ReadRecordAt_miss_ok hmiss hread
        have hio := keeps_of_eq (io_readRecordHeaderAndSeek hdr.RootDirectoryOffset) hhead
        have hgrow := keeps_of_eq (grow_parseByTag hdr.RootDirectoryOffset length tag) hparse
        obtain ⟨f, hf, _, _, htageq, _, _, _⟩ := readRecordHeaderAndSeek_ok hhead
        have hf1 : g1.File = some f := hf
        have hdata : f.data = data := by
          have := grow1.data
          rw [hf1] at this
          exact Option.some.inj this
        have htagdir : tag = PDirRecordTag := by
          rcases parseByTag_ok hparse with ⟨_, p, hp, _⟩ | ⟨ht, _⟩ | ⟨_, p, hp, _⟩ | ⟨_, p, hp, _⟩
          · cases hp
          · exact ht
          · cases hp
          · cases hp
        have hheader : gd.Header = hdr := by
          rw [hgrow.Header, hio.Header]
        have hcache : gd.recordCache = fun k => if k = 0 then some (RecordRef.ggpk header)
            else g1.recordCache k := by
          rw [hgrow.recordCache, hio.recordCache]
        have hggpk : gd.ggpkRecords[header]? = some hdr := by
          obtain ⟨l, hl⟩ := hgrow.ggpkRecords
          rw [hl, hio.ggpkRecords]
          exact getElem?_append_of_some l hh
        refine ⟨?_, ?_, ?_, ⟨header, ?_, ?_⟩, ⟨root, rfl, ?_⟩⟩
        · show gd.Header.Tag = GGPKRecordTag
          rw [hheader]
          exact not_not.mp htag
        · show gd.Header.RootDirectoryOffset ≠ 0
          rw [hheader]
          exact hne
        · show tagAt data gd.Header.RootDirectoryOffset = PDirRecordTag
          rw [hheader]
          unfold tagAt
          rw [← hdata, ← htageq, htagdir]
        · show (if (0 : Int) = hdr.RootDirectoryOffset then some (RecordRef.dir root)
            else gd.recordCache 0) = some (RecordRef.ggpk header)
          rw [if_neg (Ne.symm hne), hcache]
          rfl
        · show gd.ggpkRecords[header]? = some gd.Header
          rw [hheader]
          exact hggpk
        · show (if gd.Header.RootDirectoryOffset = hdr.RootDirectoryOffset
            then some (RecordRef.dir root)
            else gd.recordCache gd.Header.RootDirectoryOffset) = some (RecordRef.dir root)
          rw [hheader, if_pos rfl]

theorem Open_of_openBody_crash {utf16LE utf32LE : Decoder} {data : List UInt8}
    (h : (openBody (newGGPKFile utf16LE utf32LE data)).1 = Res.crash) :
    Open utf16LE utf32LE (some data) = Res.crash := by
  unfold Open
  simp only
  rcases hb : openBody (newGGPKFile utf16LE utf32LE data) with ⟨r, g⟩
  rw [hb] at h
  simp only at h
  subst h
  rfl

theorem Open_of_openBody_err {utf16LE utf32LE : Decoder} {data : List UInt8} {e : GoError}
    (h : (openBody (newGGPKFile utf16LE utf32LE data)).1 = Res.err e) :
    Open utf16LE utf32LE (some data) = Res.err e := by
  unfold Open
  simp only
  rcases hb : openBody (newGGPKFile utf16LE utf32LE data) with ⟨r, g⟩
  rw [hb] at h
  simp only at h
  subst h
  rfl

/-- C22 fails on this archive: the header is well formed and its root directory offset
(28) points at a record with the `FILE` tag, not a directory record, whose name-length
field holds 2^31. `Open` does not return an error: parsing that record ends in a
runtime panic (the slice expression of `readUTF16String`). With an ordinary file
record at the root offset `Open` returns the wrong-record-type error. -/
theorem Open_file_root_crash :
    tagAt fileRootArchive 0 = GGPKRecordTag ∧
    tagAt fileRootArchive 28 = FileRecordTag ∧
    Open refUTF16LE refUTF32LE (some fileRootArchive) = Res.crash ∧
    tagAt plainFileRootArchive 28 = FileRecordTag ∧
    Open refUTF16LE refUTF32LE (some plainFileRootArchive) =
      Res.err GoError.wrongRecordType :=
  ⟨by decide!, by decide!, Open_of_openBody_crash (by decide!), by decide!,
    Open_of_openBody_err (by decide!)⟩

/-! ## The layout of a directory record -/

theorem drop_of_append {α : Type} {l bs rest : List α} {p : Nat}
    (h : l.drop p = bs ++ rest) :
    (l.drop p).take bs.length = bs ∧ l.drop (p + bs.length) = rest ∧
      p + bs.length + rest.length = l.length ∨ (bs = [] ∧ rest = [] ∧ l.length ≤ p) := by
  by_cases hp : p ≤ l.length
  · left
    refine ⟨by rw [h, List.take_left], ?_, ?_⟩
    · rw [← List.drop_drop, h, List.drop_left]
    · have := congrArg List.length h
      rw [List.length_drop, List.length_append] at this
      omega
  · right
    have hnil : l.drop p = [] := List.drop_eq_nil_of_le (by omega)
    rw [hnil] at h
    have := List.append_eq_nil.mp h.symm
    exact ⟨this.1, this.2, by omega⟩

/-- One read of the bytes `bs` that the byte source holds at the stream position. -/
theorem readFull_drop {g : GGPKFile} {f : OSFile} (bs rest : List UInt8)
    (hf : g.File = some f) (hbs : bs ≠ []) (hdrop : f.data.drop f.pos = bs ++ rest) :
    ∃ g1 f1, readFull bs.length g = (Res.ok bs, g1) ∧ g1.File = some f1 ∧
      f1.data = f.data ∧ f1.pos = f.pos + bs.length ∧ f1.data.drop f1.pos = rest ∧
      IOStep g g1 := by
  rcases drop_of_append hdrop with ⟨htake, hrest, hlen⟩ | ⟨hnil, _, _⟩
  · obtain ⟨g1, f1, h1, hf1, hd1, hp1, io1⟩ := readFull_at bs.length hf
      (by simpa using hbs) (by omega)
    rw [htake] at h1
    exact ⟨g1, f1, h1, hf1, hd1, hp1, by rw [hd1, hp1, hrest], io1⟩
  · exact absurd hnil hbs

/-- The header read at `o`, where the byte source holds `[int32 len, uint32 tag]`. -/
theorem readRecordHeaderAndSeek_drop {gf : GGPKFile} {f : OSFile} (o : Nat) (len : Int)
    (tag : Nat) (rest : List UInt8) (hf : gf.File = some f)
    (hlen0 : 0 ≤ len) (hlen1 : len < 2 ^ 31) (htag : tag < 2 ^ 32)
    (hdrop : f.data.drop o = putInt32 len ++ putUint32 tag ++ rest) :
    ∃ g1 f1, readRecordHeaderAndSeek (o : Int) gf = (Res.ok (len, tag), g1) ∧
      g1.File = some f1 ∧ f1.data = f.data ∧ f1.pos = o + 8 ∧ f1.data.drop f1.pos = rest ∧
      IOStep gf g1 := by
  obtain ⟨g1, f1, h1, hf1, hd1, hp1, io1⟩ :=
    seekStart_at (o : Int) GoError.seekFailed hf (Int.ofNat_nonneg o)
  rw [Int.toNat_ofNat] at hp1
  obtain ⟨g2, f2, h2, hf2, hd2, hp2, hr2, io2⟩ := readFull_drop (putInt32 len)
    (putUint32 tag ++ rest) hf1 (by simp [putInt32, putUint32])
    (by rw [hd1, hp1, hdrop, List.append_assoc])
  obtain ⟨g3, f3, h3, hf3, hd3, hp3, hr3, io3⟩ := readFull_drop (putUint32 tag) rest hf2
    (by simp [putUint32]) hr2
  refine ⟨g3, f3, ?_, hf3, by rw [hd3, hd2, hd1], ?_, hr3,
    ioStep_trans _ _ _ (ioStep_trans _ _ _ io1 io2) io3⟩
  · rw [length_putInt32] at h2
    rw [length_putUint32] at h3
    simp only [readRecordHeaderAndSeek, readInt32, readUint32, bind_apply, h1, h2, h3,
      pure_apply, wrapInt32_leBytes_putInt32 len hlen0 hlen1, leBytes_putUint32 tag htag]
  · rw [hp3, hp2, hp1, length_putInt32, length_putUint32]

theorem readUint32_drop {g : GGPKFile} {f : OSFile} (v : Nat) (rest : List UInt8)
    (hf : g.File = some f) (hv : v < 2 ^ 32) (hdrop : f.data.drop f.pos = putUint32 v ++ rest) :
    ∃ g1 f1, readUint32 g = (Res.ok v, g1) ∧ g1.File = some f1 ∧
      f1.data = f.data ∧ f1.pos = f.pos + 4 ∧ f1.data.drop f1.pos = rest ∧ IOStep g g1 := by
  obtain ⟨g1, f1, h1, hf1, hd1, hp1, hr1, io1⟩ := readFull_drop (putUint32 v) rest hf
    (by simp [putUint32]) hdrop
  rw [length_putUint32] at h1 hp1
  refine ⟨g1, f1, ?_, hf1, hd1, hp1, hr1, io1⟩
  simp only [readUint32, bind_apply, h1, pure_apply, leBytes_putUint32 v hv]

theorem readInt64_drop {g : GGPKFile} {f : OSFile} (i : Int) (rest : List UInt8)
    (hf : g.File = some f) (h0 : -(2 : Int) ^ 63 ≤ i) (h1 : i < 2 ^ 63)
    (hdrop : f.data.drop f.pos = putInt64 i ++ rest) :
    ∃ g1 f1, readInt64 g = (Res.ok i, g1) ∧ g1.File = some f1 ∧
      f1.data = f.data ∧ f1.pos = f.pos + 8 ∧ f1.data.drop f1.pos = rest ∧ IOStep g g1 := by
  obtain ⟨g1, f1, hr, hf1, hd1, hp1, hr1, io1⟩ := readFull_drop (putInt64 i) rest hf
    (by simp [putInt64, putUint32]) hdrop
  rw [length_putInt64] at hr hp1
  refine ⟨g1, f1, ?_, hf1, hd1, hp1, hr1, io1⟩
  simp only [readInt64, bind_apply, hr, pure_apply, wrapInt64_leBytes_putInt64 i h0 h1]

/-- The entry loop on a byte source that holds the encoding of `entries` at the
stream position: it returns `entries` and has consumed 12 bytes for each. -/
theorem readEntries_drop :
    ∀ (entries : List DirectoryEntry) (g : GGPKFile) (f : OSFile) (rest : List UInt8),
      g.File = some f →
      (∀ e ∈ entries, e.NameHash < 2 ^ 32 ∧ -(2 : Int) ^ 63 ≤ e.Offset ∧ e.Offset < 2 ^ 63) →
      f.data.drop f.pos = entriesLayout entries ++ rest →
      ∃ g1 f1, readEntries entries.length g = (Res.ok entries, g1) ∧ g1.File = some f1 ∧
        f1.data = f.data ∧ f1.pos = f.pos + 12 * entries.length ∧
        f1.data.drop f1.pos = rest ∧ IOStep g g1 := by
  intro entries
  induction entries with
  | nil =>
    intro g f rest hf _ hdrop
    exact ⟨g, f, rfl, hf, rfl, rfl, hdrop, ioStep_refl g⟩
  | cons e es ih =>
    intro g f rest hf hrange hdrop
    obtain ⟨hh, ho0, ho1⟩ := hrange e (List.mem_cons_self _ _)
    have hlay : entriesLayout (e :: es) =
        putUint32 e.NameHash ++ (putInt64 e.Offset ++ entriesLayout es) := by
      simp only [entriesLayout, List.flatMap_cons, List.append_assoc]
    obtain ⟨g1, f1, h1, hf1, hd1, hp1, hr1, io1⟩ := readUint32_drop e.NameHash
      (putInt64 e.Offset ++ entriesLayout es ++ rest) hf hh
      (by rw [hdrop, hlay]; simp only [List.append_assoc])
    obtain ⟨g2, f2, h2, hf2, hd2, hp2, hr2, io2⟩ := readInt64_drop e.Offset
      (entriesLayout es ++ rest) hf1 ho0 ho1 (by rw [hr1]; simp only [List.append_assoc])
    obtain ⟨g3, f3, h3, hf3, hd3, hp3, hr3, io3⟩ := ih g2 f2 rest hf2
      (fun x hx => hrange x (List.mem_cons_of_mem _ hx)) hr2
    refine ⟨g3, f3, ?_, hf3, by rw [hd3, hd2, hd1], ?_, hr3,
      ioStep_trans _ _ _ (ioStep_trans _ _ _ io1 io2) io3⟩
    · show readEntries (es.length + 1) g = _
      unfold readEntries
      simp only [bind_apply, h1, h2, h3, pure_apply]
    · rw [hp3, hp2, hp1, List.length_cons]
      omega

theorem readName_zero (g : GGPKFile) : readName 0 g = (Res.ok [], g) := by
  simp only [readName, bind_apply, getState]
  split <;> rfl

/-- The name read on a byte source that holds the `n * w` name bytes at the stream
position. -/
theorem readName_drop {g : GGPKFile} {f : OSFile} (w n : Nat) (dec : Decoder)
    (name : GoString) (nameBytes rest : List UInt8)
    (hw : w = if g.Header.Version = 4 then 4 else 2) (hf : g.File = some f)
    (hdec : decoderOfWidth w g = some dec)
    (hname : (n = 0 ∧ name = []) ∨ (1 ≤ n ∧ dec (nameBytes.take ((n - 1) * w)) = some name))
    (hbytes : nameBytes.length = n * w) (hsize : n * w < 2 ^ 32)
    (hdrop : f.data.drop f.pos = nameBytes ++ rest) :
    ∃ g1 f1, readName n g = (Res.ok name, g1) ∧ g1.File = some f1 ∧
      f1.data = f.data ∧ f1.pos = f.pos + n * w ∧ f1.data.drop f1.pos = rest ∧ IOStep g g1 := by
  rcases hname with ⟨rfl, rfl⟩ | ⟨hn, hs⟩
  · have hnil : nameBytes = [] := List.length_eq_zero.mp (by simpa using hbytes)
    subst hnil
    exact ⟨g, f, readName_zero g, hf, rfl, by simp, by simpa using hdrop, ioStep_refl g⟩
  · have hw2 : w = 2 ∨ w = 4 := by
      rw [hw]
      split
      · exact Or.inr rfl
      · exact Or.inl rfl
    have hne : nameBytes ≠ [] := by
      intro h
      rw [h] at hbytes
      have : 0 < n * w := Nat.mul_pos (by omega) (by rcases hw2 with h | h <;> omega)
      simp at hbytes
      omega
    rcases drop_of_append hdrop with ⟨htake, hrest, hlen⟩ | ⟨hnil, _, _⟩
    · have hle : (n - 1) * w ≤ n * w := Nat.mul_le_mul_right w (Nat.sub_le n 1)
      obtain ⟨g1, f1, h1, hf1, hd1, hp1, io1⟩ := readName_at w n dec name hw hn hsize hf
        (by omega) hdec (by
          rw [hdrop, List.take_append_of_le_length (by omega)]
          exact hs)
      refine ⟨g1, f1, h1, hf1, hd1, hp1, ?_, io1⟩
      rw [hd1, hp1, ← hbytes, hrest]
    · exact absurd hnil hne

theorem length_entriesLayout (entries : List DirectoryEntry) :
    (entriesLayout entries).length = 12 * entries.length := by
  induction entries with
  | nil => rfl
  | cons e es ih =>
    have : entriesLayout (e :: es) = putUint32 e.NameHash ++ putInt64 e.Offset ++
        entriesLayout es := by
      simp only [entriesLayout, List.flatMap_cons]
    rw [this, List.length_append, List.length_append, length_putUint32, length_putInt64, ih,
      List.length_cons]
    omega

/-- The directory parse on a byte source that holds at `pre.length` a directory record
laid out as `dirRecordLayout`. -/
theorem parseDirectoryRecord_core (gf : GGPKFile) (f : OSFile) (dec : Decoder) (w n : Nat)
    (len : Int) (tag : Nat) (pre post hash nameBytes : List UInt8)
    (entries : List DirectoryEntry) (name : GoString)
    (hf : gf.File = some f) (hw : w = if gf.Header.Version = 4 then 4 else 2)
    (hdec : decoderOfWidth w gf = some dec)
    (hname : (n = 0 ∧ name = []) ∨ (1 ≤ n ∧ dec (nameBytes.take ((n - 1) * w)) = some name))
    (hbytes : nameBytes.length = n * w) (hhash : hash.length = 32)
    (htag : tag = PDirRecordTag) (hlen0 : 0 ≤ len) (hlen1 : len < 2 ^ 31)
    (hsize : n * w < 2 ^ 32) (hcount : entries.length < 2 ^ 32)
    (hrange : ∀ e ∈ entries,
      e.NameHash < 2 ^ 32 ∧ -(2 : Int) ^ 63 ≤ e.Offset ∧ e.Offset < 2 ^ 63)
    (hdata : f.data = pre ++ (putInt32 len ++ putUint32 tag ++ putUint32 n ++
      putUint32 entries.length ++ hash ++ nameBytes ++ entriesLayout entries) ++ post) :
    ∃ g1 g5 f5,
      readRecordHeaderAndSeek (pre.length : Int) gf = (Res.ok (len, tag), g1) ∧
      parseDirectoryRecordBody (pre.length : Int)
        { Offset := (pre.length : Int), Length := len, Tag := tag } [] g1 =
        (Res.ok gf.dirRecords.length,
          { g5 with dirRecords := gf.dirRecords ++
            [{ Offset := (pre.length : Int), Length := len, Tag := tag, parent := none,
               NameLength := n, EntryCount := entries.length, Hash := hash, Name := name,
               Entries := entries,
               Children := some (List.replicate entries.length TreeNode.nil),
               childRecordsDirty := true }] }) ∧
      g5.File = some f5 ∧ f5.data = f.data ∧
      f5.pos = pre.length + 8 + 4 + 4 + 32 + n * w + 12 * entries.length ∧
      IOStep gf g1 ∧ IOStep gf g5 := by
  have hdrop : f.data.drop pre.length = putInt32 len ++ putUint32 tag ++
      (putUint32 n ++ (putUint32 entries.length ++ (hash ++ (nameBytes ++
        (entriesLayout entries ++ post))))) := by
    rw [hdata]
    simp only [List.append_assoc, List.drop_left]
  obtain ⟨g1, f1, h1, hf1, hd1, hp1, hr1, io1⟩ :=
    readRecordHeaderAndSeek_drop pre.length len tag _ hf hlen0 hlen1
      (by rw [htag]; decide) hdrop
  obtain ⟨g2, f2, h2, hf2, hd2, hp2, hr2, io2⟩ := readUint32_drop n _ hf1
    (lt_of_le_of_lt (Nat.le_mul_of_pos_right n (by rw [hw]; split <;> decide)) hsize) hr1
  obtain ⟨g3, f3, h3, hf3, hd3, hp3, hr3, io3⟩ := readUint32_drop entries.length _ hf2 hcount hr2
  have hhne : hash ≠ [] := by
    intro h
    rw [h] at hhash
    cases hhash
  obtain ⟨g4, f4, h4, hf4, hd4, hp4, hr4, io4⟩ := readFull_drop hash _ hf3 hhne hr3
  rw [hhash] at h4 hp4
  have io14 : IOStep g1 g4 := ioStep_trans _ _ _ (ioStep_trans _ _ _ io2 io3) io4
  have io04 : IOStep gf g4 := ioStep_trans _ _ _ io1 io14
  obtain ⟨g5, f5, h5, hf5, hd5, hp5, hr5, io5⟩ := readName_drop w n dec name nameBytes _
    (by rw [io04.Header]; exact hw) hf4
    (by
      unfold decoderOfWidth at hdec ⊢
      rw [io04.utf32LEDecoder, io04.utf16LEDecoder]
      exact hdec)
    hname hbytes hsize hr4
  obtain ⟨g6, f6, h6, hf6, hd6, hp6, hr6, io6⟩ := readEntries_drop entries g5 f5 post hf5
    hrange hr5
  have io06 : IOStep gf g6 := ioStep_trans _ _ _ (ioStep_trans _ _ _ io04 io5) io6
  refine ⟨g1, g6, f6, h1, ?_, hf6, by rw [hd6, hd5, hd4, hd3, hd2, hd1], ?_, io1, io06⟩
  · unfold parseDirectoryRecordBody
    rw [bind_apply, h2]
    simp only
    rw [bind_apply, h3]
    simp only
    rw [bind_apply]
    have h4' : readFull HashSize g3 = (Res.ok hash, g4) := h4
    rw [h4']
    simp only [ne_eq, not_true_eq_false, false_and, if_false]
    rw [bind_apply, h5]
    simp only
    rw [bind_apply, h6]
    simp only [allocDir, io06.dirRecords]
  · rw [hp6, hp5, hp4, hp3, hp2, hp1]

/-- C23. In a byte source that holds, at offset `o = pre.length`, a directory record
laid out as `[int32 length, PDIR tag, uint32 n, uint32 N, 32-byte hash, n * w name
bytes, N pairs (uint32 name_hash, int64 child_offset)]`, with `w` the width of the
archive version, a name that decodes (or `n = 0`) and whose byte count `n * w` fits
a `uint32`, and any length field from 0 to `2^31 - 1`: reading the header at `o` and
parsing the body returns a directory record with `EntryCount = N` and `Entries`
equal to the `N` stored pairs in stored order, and leaves the stream right behind the
`N`-th pair, whatever the length field holds; `ReadRecordAt o` with nothing cached at
`o` returns the same record. -/
theorem parseDirectoryRecord_layout (gf : GGPKFile) (f : OSFile) (dec : Decoder) (w n : Nat)
    (len : Int) (pre post hash nameBytes : List UInt8) (entries : List DirectoryEntry) (name : GoString)
    (hf : gf.File = some f) (hw : w = if gf.Header.Version = 4 then 4 else 2)
    (hdec : decoderOfWidth w gf = some dec)
    (hname : (n = 0 ∧ name = []) ∨ (1 ≤ n ∧ dec (nameBytes.take ((n - 1) * w)) = some name))
    (hbytes : nameBytes.length = n * w) (hhash : hash.length = 32)
    (hlen0 : 0 ≤ len) (hlen1 : len < 2 ^ 31) (hsize : n * w < 2 ^ 32)
    (hcount : entries.length < 2 ^ 32)
    (hrange : ∀ e ∈ entries,
      e.NameHash < 2 ^ 32 ∧ -(2 : Int) ^ 63 ≤ e.Offset ∧ e.Offset < 2 ^ 63)
    (hdata : f.data = pre ++ dirRecordLayout len n hash nameBytes entries ++ post) :
    ∃ p r,
      ((readRecordHeaderAndSeek (pre.length : Int) >>= fun hdr =>
        parseDirectoryRecordBody (pre.length : Int)
          { Offset := (pre.length : Int), Length := hdr.1, Tag := hdr.2 } []) gf).1 =
        Res.ok p ∧
      ((readRecordHeaderAndSeek (pre.length : Int) >>= fun hdr =>
        parseDirectoryRecordBody (pre.length : Int)
          { Offset := (pre.length : Int), Length := hdr.1, Tag := hdr.2 } []) gf).2.dirRecords[p]? =
        some r ∧
      ((readRecordHeaderAndSeek (pre.length : Int) >>= fun hdr =>
        parseDirectoryRecordBody (pre.length : Int)
          { Offset := (pre.length : Int), Length := hdr.1, Tag := hdr.2 } []) gf).2.File.map
          (·.pos) = some (pre.length + 8 + 4 + 4 + 32 + n * w + 12 * entries.length) ∧
      r.EntryCount = entries.length ∧ r.Entries = entries ∧ r.Name = name ∧
      r.Offset = (pre.length : Int) ∧ r.Tag = PDirRecordTag ∧ r.Length = len ∧
      (gf.recordCache (pre.length : Int) = none →
        (ReadRecordAt (pre.length : Int) gf).1 = Res.ok (RecordRef.dir p) ∧
        (ReadRecordAt (pre.length : Int) gf).2.dirRecords[p]? = some r) := by
  obtain ⟨g1, g5, f5, h1, h2, hf5, _, hp5, _, _⟩ :=
    parseDirectoryRecord_core gf f dec w n len PDirRecordTag pre post hash nameBytes entries name
      hf hw hdec hname hbytes hhash rfl hlen0 hlen1 hsize hcount hrange hdata
  refine ⟨gf.dirRecords.length,
    { Offset := (pre.length : Int),
      Length := len,
      Tag := PDirRecordTag, parent := none,
      NameLength := n, EntryCount := entries.length, Hash := hash, Name := name,
      Entries := entries,
      Children := some (List.replicate entries.length TreeNode.nil),
      childRecordsDirty := true }, ?_, ?_, ?_, rfl, rfl, rfl, rfl, rfl, rfl, fun hmiss => ?_⟩
  · rw [bind_apply, h1]
    simp only
    rw [h2]
  · rw [bind_apply, h1]
    simp only
    rw [h2]
    exact getElem?_append_singleton _ _
  · rw [bind_apply, h1]
    simp only
    rw [h2]
    show g5.File.map _ = _
    rw [hf5, Option.map_some', hp5]
  · have hrun : ReadRecordAt (pre.length : Int) gf =
        (Res.ok (RecordRef.dir gf.dirRecords.length),
          { g5 with
            dirRecords := gf.dirRecords ++
              [{ Offset := (pre.length : Int),
                 Length := len,
                 Tag := PDirRecordTag, parent := none,
                 NameLength := n, EntryCount := entries.length, Hash := hash, Name := name,
                 Entries := entries,
                 Children := some (List.replicate entries.length TreeNode.nil),
                 childRecordsDirty := true }],
            recordCache := fun k =>
              if k = (pre.length : Int) then some (RecordRef.dir gf.dirRecords.length)
              else g5.recordCache k }) := by
      unfold ReadRecordAt
      rw [hmiss]
      simp only
      rw [bind_apply, h1]
      simp only
      rw [bind_apply]
      unfold parseByTag
      simp only [show PDirRecordTag ≠ GGPKRecordTag by decide, if_false, if_true]
      rw [bind_apply, h2]
      rfl
    rw [hrun]
    exact ⟨rfl, getElem?_append_singleton _ _⟩

theorem parseDirectoryRecord_layout_witness :
    ∃ p r,
      ((readRecordHeaderAndSeek ((([] : List UInt8).length : Nat) : Int) >>= fun hdr =>
        parseDirectoryRecordBody ((([] : List UInt8).length : Nat) : Int)
          { Offset := ((([] : List UInt8).length : Nat) : Int), Length := hdr.1, Tag := hdr.2 } [])
        dirRecordHandle).1 = Res.ok p ∧
      ((readRecordHeaderAndSeek ((([] : List UInt8).length : Nat) : Int) >>= fun hdr =>
        parseDirectoryRecordBody ((([] : List UInt8).length : Nat) : Int)
          { Offset := ((([] : List UInt8).length : Nat) : Int), Length := hdr.1, Tag := hdr.2 } [])
        dirRecordHandle).2.dirRecords[p]? = some r ∧
      ((readRecordHeaderAndSeek ((([] : List UInt8).length : Nat) : Int) >>= fun hdr =>
        parseDirectoryRecordBody ((([] : List UInt8).length : Nat) : Int)
          { Offset := ((([] : List UInt8).length : Nat) : Int), Length := hdr.1, Tag := hdr.2 } [])
        dirRecordHandle).2.File.map (·.pos) =
        some (([] : List UInt8).length + 8 + 4 + 4 + 32 + 4 * 2 + 12 *
          [({ NameHash := 0xABCD, Offset := 0x3000 } : DirectoryEntry),
            { NameHash := 0x1234, Offset := 0x4000 }].length) ∧
      r.EntryCount = [({ NameHash := 0xABCD, Offset := 0x3000 } : DirectoryEntry),
          { NameHash := 0x1234, Offset := 0x4000 }].length ∧
      r.Entries = [{ NameHash := 0xABCD, Offset := 0x3000 },
          { NameHash := 0x1234, Offset := 0x4000 }] ∧
      r.Name = ['d', 'i', 'r'] ∧
      r.Offset = ((([] : List UInt8).length : Nat) : Int) ∧ r.Tag = PDirRecordTag ∧
      r.Length = 80 ∧
      (dirRecordHandle.recordCache ((([] : List UInt8).length : Nat) : Int) = none →
        (ReadRecordAt ((([] : List UInt8).length : Nat) : Int) dirRecordHandle).1 =
          Res.ok (RecordRef.dir p) ∧
        (ReadRecordAt ((([] : List UInt8).length : Nat) : Int) dirRecordHandle).2.dirRecords[p]? =
          some r) :=
  parseDirectoryRecord_layout dirRecordHandle
    { data := createDirRecordBytes ['d', 'i', 'r']
        [{ NameHash := 0xABCD, Offset := 0x3000 }, { NameHash := 0x1234, Offset := 0x4000 }],
      pos := 0, ops := [] }
    refUTF16LE 2 4 80 [] [] (0xAA :: List.replicate 31 0) (putUTF16LE ['d', 'i', 'r'] ++ [0, 0])
    [{ NameHash := 0xABCD, Offset := 0x3000 }, { NameHash := 0x1234, Offset := 0x4000 }]
    ['d', 'i', 'r'] rfl (by decide!) rfl (Or.inr ⟨by decide, by decide!⟩) (by decide!)
    (by decide!) (by decide) (by decide) (by decide) (by decide) (by decide!) (by decide!)

/-! ## The stream position after a parse -/

theorem readFull_pos {n : Nat} {g g1 : GGPKFile} {bs : List UInt8} {f : OSFile}
    (h : readFull n g = (Res.ok bs, g1)) (hf : g.File = some f) :
    ∃ f1, g1.File = some f1 ∧ f1.data = f.data ∧ f1.pos = f.pos + n ∧
      (n ≠ 0 → f.pos + n ≤ f.data.length) ∧ bs = (f.data.drop f.pos).take n := by
  by_cases hn : n = 0
  · subst hn
    unfold readFull at h
    simp only [if_true] at h
    cases h
    exact ⟨f, hf, rfl, rfl, fun h => absurd rfl h, by simp⟩
  · obtain ⟨f0, hf0, hbs, hlen, hf1⟩ := readFull_ok hn h
    rw [hf] at hf0
    cases hf0
    refine ⟨_, hf1, rfl, rfl, fun _ => ?_, hbs⟩
    rw [hbs, List.length_take, List.length_drop] at hlen
    omega

theorem readUint32_pos {g g1 : GGPKFile} {v : Nat} {f : OSFile}
    (h : readUint32 g = (Res.ok v, g1)) (hf : g.File = some f) :
    ∃ f1, g1.File = some f1 ∧ f1.data = f.data ∧ f1.pos = f.pos + 4 ∧
      f.pos + 4 ≤ f.data.length ∧ v = leBytes ((f.data.drop f.pos).take 4) := by
  unfold readUint32 at h
  obtain ⟨bs, ga, h1, h2⟩ := bind_eq_ok.mp h
  cases h2
  obtain ⟨f1, hf1, hd1, hp1, hav, rfl⟩ := readFull_pos h1 hf
  exact ⟨f1, hf1, hd1, hp1, hav (by decide), rfl⟩

theorem readInt64_pos {g g1 : GGPKFile} {v : Int} {f : OSFile}
    (h : readInt64 g = (Res.ok v, g1)) (hf : g.File = some f) :
    ∃ f1, g1.File = some f1 ∧ f1.data = f.data ∧ f1.pos = f.pos + 8 ∧
      f.pos + 8 ≤ f.data.length ∧ v = wrapInt64 (leBytes ((f.data.drop f.pos).take 8)) := by
  unfold readInt64 at h
  obtain ⟨bs, ga, h1, h2⟩ := bind_eq_ok.mp h
  simp only [pure_apply, Prod.mk.injEq, Res.ok.injEq] at h2
  obtain ⟨hv, hg⟩ := h2
  subst hg
  obtain ⟨f1, hf1, hd1, hp1, hav, hbs⟩ := readFull_pos h1 hf
  refine ⟨f1, hf1, hd1, hp1, hav (by decide), ?_⟩
  rw [← hv, hbs]

theorem fillStringReadBuf_pos {k : Nat} {g g1 : GGPKFile} {u : Unit} {f : OSFile}
    (h : fillStringReadBuf k g = (Res.ok u, g1)) (hf : g.File = some f) :
    ∃ f1, g1.File = some f1 ∧ f1.data = f.data ∧ f1.pos = f.pos + k ∧
      (k ≠ 0 → f.pos + k ≤ f.data.length) := by
  unfold fillStringReadBuf at h
  by_cases hk : k = 0
  · subst hk
    simp only [if_true] at h
    cases h
    exact ⟨f, hf, rfl, rfl, fun h => absurd rfl h⟩
  · simp only [hk, if_false, hf, OSFile.ReadFull] at h
    by_cases hl : ((f.data.drop f.pos).take k).length = k
    · simp only [hl, if_true] at h
      cases h
      refine ⟨_, rfl, rfl, rfl, fun _ => ?_⟩
      rw [List.length_take, List.length_drop] at hl
      omega
    · simp only [hl, if_false] at h
      cases h

theorem sliceStringReadBuf_state {k : Nat} {g g1 : GGPKFile} {bs : List UInt8}
    (h : sliceStringReadBuf k g = (Res.ok bs, g1)) : g1 = g := by
  unfold sliceStringReadBuf at h
  split at h
  · cases h
    rfl
  · cases h

theorem transformBytes_state {d : Option Decoder} {bs : List UInt8} {g g1 : GGPKFile}
    {s : GoString} (h : transformBytes d bs g = (Res.ok s, g1)) : g1 = g := by
  unfold transformBytes at h
  cases d with
  | none => cases h
  | some dec =>
    simp only at h
    cases hd : dec bs with
    | none => rw [hd] at h; cases h
    | some s1 =>
      rw [hd] at h
      cases h
      rfl

/-- A successful name read has advanced the stream by the byte count the code
computes, `uint32(n * w)`. -/
theorem readName_pos {n : Nat} {g g1 : GGPKFile} {s : GoString} {f : OSFile}
    (h : readName n g = (Res.ok s, g1)) (hf : g.File = some f) :
    ∃ f1, g1.File = some f1 ∧ f1.data = f.data ∧
      f1.pos = f.pos + wrapUint32 (n * (if g.Header.Version = 4 then 4 else 2)) ∧
      (wrapUint32 (n * (if g.Header.Version = 4 then 4 else 2)) ≠ 0 →
        f.pos + wrapUint32 (n * (if g.Header.Version = 4 then 4 else 2)) ≤ f.data.length) := by
  unfold readName at h
  obtain ⟨g0, g0a, hg, h1⟩ := bind_eq_ok.mp h
  cases hg
  by_cases hn : n = 0
  · subst hn
    have : g1 = g := by
      split at h1 <;>
        · simp only [readUTF32String, readUTF16String, if_true] at h1
          cases h1
          rfl
    subst this
    refine ⟨f, hf, rfl, ?_, fun h => absurd ?_ h⟩
    · simp [wrapUint32]
    · simp [wrapUint32]
  · split at h1
    next hv =>
      simp only [readUTF32String, hn, if_false] at h1
      obtain ⟨u, ga, hfill, h2⟩ := bind_eq_ok.mp h1
      obtain ⟨bs, gb, hslice, h3⟩ := bind_eq_ok.mp h2
      obtain ⟨gc, gd, hget, h4⟩ := bind_eq_ok.mp h3
      cases hget
      have e1 := sliceStringReadBuf_state hslice
      have e2 := transformBytes_state h4
      subst e1
      subst e2
      obtain ⟨f1, hf1, hd1, hp1, hav⟩ := fillStringReadBuf_pos hfill hf
      rw [if_pos hv]
      exact ⟨f1, hf1, hd1, hp1, hav⟩
    next hv =>
      simp only [readUTF16String, hn, if_false] at h1
      obtain ⟨u, ga, hfill, h2⟩ := bind_eq_ok.mp h1
      obtain ⟨bs, gb, hslice, h3⟩ := bind_eq_ok.mp h2
      obtain ⟨gc, gd, hget, h4⟩ := bind_eq_ok.mp h3
      cases hget
      have e1 := sliceStringReadBuf_state hslice
      have e2 := transformBytes_state h4
      subst e1
      subst e2
      obtain ⟨f1, hf1, hd1, hp1, hav⟩ := fillStringReadBuf_pos hfill hf
      rw [if_neg hv]
      exact ⟨f1, hf1, hd1, hp1, hav⟩

theorem readEntries_pos :
    ∀ (count : Nat) (g g1 : GGPKFile) (es : List DirectoryEntry) (f : OSFile),
      readEntries count g = (Res.ok es, g1) → g.File = some f →
      ∃ f1, g1.File = some f1 ∧ f1.data = f.data ∧ f1.pos = f.pos + 12 * count ∧
        es.length = count := by
  intro count
  induction count with
  | zero =>
    intro g g1 es f h hf
    cases h
    exact ⟨f, hf, rfl, rfl, rfl⟩
  | succ c ih =>
    intro g g1 es f h hf
    unfold readEntries at h
    obtain ⟨v, ga, h1, h2⟩ := bind_eq_ok.mp h
    obtain ⟨o, gb, h3, h4⟩ := bind_eq_ok.mp h2
    obtain ⟨rest, gc, h5, h6⟩ := bind_eq_ok.mp h4
    cases h6
    obtain ⟨f1, hf1, hd1, hp1, _, _⟩ := readUint32_pos h1 hf
    obtain ⟨f2, hf2, hd2, hp2, _, _⟩ := readInt64_pos h3 hf1
    obtain ⟨f3, hf3, hd3, hp3, hlen⟩ := ih gb g1 rest f2 h5 hf2
    refine ⟨f3, hf3, by rw [hd3, hd2, hd1], ?_, by simp [hlen]⟩
    rw [hp3, hp2, hp1]
    omega

/-- What a successful `parseFileRecordBody` has done: the record it stored, the
stream position, and the bytes that were available. -/
theorem parseFileRecordBody_inv {off : Int} {base : BaseRecord} {g g2 : GGPKFile} {p : Nat}
    {f : OSFile} (h : parseFileRecordBody off base g = (Res.ok p, g2))
    (hf : g.File = some f) :
    ∃ (n : Nat) (hash : List UInt8) (name : GoString) (f2 : OSFile),
      g2.fileRecords[p]? = some
        { toBaseRecord := base, parent := none, NameLength := n, Hash := hash, Name := name,
          DataOffset := wrapInt64 (base.Offset + wrapInt32 (RecordHeaderSize + 4 + HashSize +
            wrapInt32 ((wrapUint32 (n * (if g.Header.Version = 4 then 4 else 2)) : Nat) : Int))),
          DataLength := wrapInt32 (base.Length - wrapInt32 (RecordHeaderSize + 4 + HashSize +
            wrapInt32 ((wrapUint32 (n * (if g.Header.Version = 4 then 4 else 2)) : Nat) : Int))) } ∧
      g2.File = some f2 ∧ f2.data = f.data ∧
      (f2.pos : Int) = wrapInt64 (base.Offset + base.Length) ∧
      0 ≤ wrapInt64 (base.Offset + base.Length) ∧
      f.pos + 36 + wrapUint32 (n * (if g.Header.Version = 4 then 4 else 2)) ≤ f.data.length ∧
      g2.Header = g.Header := by
  unfold parseFileRecordBody at h
  obtain ⟨n, ga, h1, h⟩ := bind_eq_ok.mp h
  obtain ⟨hash, gb, h2, h⟩ := bind_eq_ok.mp h
  obtain ⟨name, gc, h3, h⟩ := bind_eq_ok.mp h
  obtain ⟨gx, gy, hg, h⟩ := bind_eq_ok.mp h
  cases hg
  obtain ⟨u, gd, h4, h⟩ := bind_eq_ok.mp h
  obtain ⟨f1, hf1, hd1, hp1, hav1, _⟩ := readUint32_pos h1 hf
  obtain ⟨f2, hf2, hd2, hp2, hav2, _⟩ := readFull_pos h2 hf1
  obtain ⟨f3, hf3, hd3, hp3, hav3⟩ := readName_pos h3 hf2
  obtain ⟨f3a, hf3a, hpos, hf4⟩ := seekStart_ok h4
  have io1 := keeps_of_eq io_readUint32 h1
  have io2 := keeps_of_eq (io_readFull _) h2
  have io3 := keeps_of_eq (io_readName _) h3
  have io4 := keeps_of_eq (io_seekStart _ _) h4
  have hv2 : gb.Header = g.Header := by rw [io2.Header, io1.Header]
  have hv3 : gc.Header = g.Header := by rw [io3.Header, hv2]
  rw [hf3] at hf3a
  cases hf3a
  unfold allocFile at h
  cases h
  refine ⟨n, hash, name, _, ?_, hf4, by rw [hd3, hd2, hd1], ?_, hpos, ?_, ?_⟩
  · rw [getElem?_append_singleton]
    by_cases hv : g.Header.Version = 4
    · rw [if_pos hv, if_pos (show gc.Header.Version = 4 from by rw [hv3]; exact hv)]
    · rw [if_neg hv, if_neg (show ¬ gc.Header.Version = 4 from by rw [hv3]; exact hv)]
  · simp only [Int.toNat_of_nonneg hpos]
  · rw [hv2] at hp3 hav3
    have hav2a := hav2 (by decide)
    have hl1 := congrArg List.length hd1
    have hl2 := congrArg List.length hd2
    have hs : HashSize = 32 := rfl
    by_cases hz : wrapUint32 (n * (if g.Header.Version = 4 then 4 else 2)) = 0
    · rw [hz]
      omega
    · have := hav3 hz
      omega
  · show gd.Header = g.Header
    rw [io4.Header, hv3]

theorem readRecordHeaderAndSeek_pos {offset : Int} {g g1 : GGPKFile} {length : Int} {tag : Nat}
    {f : OSFile} (h : readRecordHeaderAndSeek offset g = (Res.ok (length, tag), g1))
    (hf : g.File = some f) :
    ∃ f1, g1.File = some f1 ∧ f1.data = f.data ∧ f1.pos = offset.toNat + 8 ∧ 0 ≤ offset ∧
      offset.toNat + 8 ≤ f.data.length ∧
      length = wrapInt32 (leBytes ((f.data.drop offset.toNat).take 4)) ∧
      tag = leBytes ((f.data.drop (offset.toNat + 4)).take 4) := by
  obtain ⟨f0, hf0, hoff, hlen, htag, _, hl2, hpos⟩ := readRecordHeaderAndSeek_ok h
  rw [hf] at hf0
  cases hf0
  have io := keeps_of_eq (io_readRecordHeaderAndSeek offset) h
  have hdata := io.data
  cases hg1 : g1.File with
  | none =>
    rw [hg1] at hpos
    cases hpos
  | some f1 =>
    rw [hg1] at hpos hdata
    rw [hf] at hdata
    simp only [Option.map_some', Option.some.injEq] at hpos hdata
    refine ⟨f1, rfl, hdata, hpos, hoff, ?_, hlen, htag⟩
    simp only [List.length_take, List.length_drop] at hl2
    omega

/-- What a successful `parseDirectoryRecordBody` without an assigned name has done. -/
theorem parseDirectoryRecordBody_inv {off : Int} {base : BaseRecord} {g g2 : GGPKFile} {p : Nat}
    {f : OSFile} (h : parseDirectoryRecordBody off base [] g = (Res.ok p, g2))
    (hf : g.File = some f) :
    ∃ (d : DirectoryRecord) (f2 : OSFile),
      g2.dirRecords[p]? = some d ∧ d.toBaseRecord = base ∧ d.Entries.length = d.EntryCount ∧
      g2.File = some f2 ∧ f2.data = f.data ∧
      f2.pos = f.pos + 40 +
        wrapUint32 (d.NameLength * (if g.Header.Version = 4 then 4 else 2)) + 12 * d.EntryCount ∧
      g2.Header = g.Header := by
  unfold parseDirectoryRecordBody at h
  obtain ⟨n, ga, h1, h⟩ := bind_eq_ok.mp h
  obtain ⟨c, gb, h2, h⟩ := bind_eq_ok.mp h
  obtain ⟨hash, gc, h3, h⟩ := bind_eq_ok.mp h
  obtain ⟨name, gd, h4, h⟩ := bind_eq_ok.mp h
  obtain ⟨es, ge, h5, h⟩ := bind_eq_ok.mp h
  rw [if_neg (fun hh => hh.1 rfl)] at h4
  obtain ⟨f1, hf1, hd1, hp1, _, _⟩ := readUint32_pos h1 hf
  obtain ⟨f2, hf2, hd2, hp2, _, _⟩ := readUint32_pos h2 hf1
  obtain ⟨f3, hf3, hd3, hp3, _, _⟩ := readFull_pos h3 hf2
  obtain ⟨f4, hf4, hd4, hp4, _⟩ := readName_pos h4 hf3
  obtain ⟨f5, hf5, hd5, hp5, hlen⟩ := readEntries_pos _ _ _ _ _ h5 hf4
  have io1 := keeps_of_eq io_readUint32 h1
  have io2 := keeps_of_eq io_readUint32 h2
  have io3 := keeps_of_eq (io_readFull _) h3
  have io4 := keeps_of_eq (io_readName _) h4
  have io5 := keeps_of_eq (io_readEntries _) h5
  have hv3 : gc.Header = g.Header := by rw [io3.Header, io2.Header, io1.Header]
  unfold allocDir at h
  cases h
  refine ⟨_, f5, getElem?_append_singleton _ _, rfl, hlen, hf5,
    by rw [hd5, hd4, hd3, hd2, hd1], ?_, ?_⟩
  · rw [hv3] at hp4
    have hs : HashSize = 32 := rfl
    show f5.pos = f.pos + 40 + wrapUint32 (n * (if g.Header.Version = 4 then 4 else 2)) + 12 * c
    omega
  · show ge.Header = g.Header
    rw [io5.Header, io4.Header, hv3]

/-- What a successful `parseFreeRecordBody` has done. -/
theorem parseFreeRecordBody_inv {off : Int} {base : BaseRecord} {g g2 : GGPKFile} {p : Nat}
    {f : OSFile} (h : parseFreeRecordBody off base g = (Res.ok p, g2))
    (hf : g.File = some f) :
    ∃ (d : FreeRecord) (f2 : OSFile),
      g2.freeRecords[p]? = some d ∧ d.toBaseRecord = base ∧
      g2.File = some f2 ∧ f2.data = f.data ∧
      (f2.pos : Int) = wrapInt64 (base.Offset + base.Length) := by
  unfold parseFreeRecordBody at h
  obtain ⟨nx, ga, h1, h⟩ := bind_eq_ok.mp h
  obtain ⟨cur, gb, h2, h⟩ := bind_eq_ok.mp h
  obtain ⟨u, gc, h3, h⟩ := bind_eq_ok.mp h
  obtain ⟨f1, hf1, hd1, hp1, _, _⟩ := readInt64_pos h1 hf
  unfold currentOffset at h2
  rw [hf1] at h2
  simp only [Prod.mk.injEq, Res.ok.injEq] at h2
  obtain ⟨hcur, hgb⟩ := h2
  unfold allocFree at h
  cases h
  by_cases hc : cur ≠ wrapInt64 (base.Offset + base.Length)
  · rw [if_pos hc] at h3
    obtain ⟨f3, hf3, hpos, hf4⟩ := seekStart_ok h3
    rw [← hgb] at hf3
    simp only [Option.some.injEq] at hf3
    refine ⟨_, _, getElem?_append_singleton _ _, rfl, hf4, ?_, ?_⟩
    · rw [← hf3]
      exact hd1
    · simp only [Int.toNat_of_nonneg hpos]
  · rw [if_neg hc] at h3
    simp only [pure_apply, Prod.mk.injEq, Res.ok.injEq, true_and] at h3
    have hc2 : cur = wrapInt64 (base.Offset + base.Length) := not_not.mp hc
    refine ⟨_, { f1 with ops := f1.ops ++ [FileOp.seekCurrent] }, getElem?_append_singleton _ _,
      rfl, ?_, hd1, ?_⟩
    · show gc.File = _
      rw [← h3, ← hgb]
    · show (f1.pos : Int) = _
      rw [hcur, hc2]

/-- What a successful `parseGGPKRecordBody` has done. -/
theorem parseGGPKRecordBody_inv {off : Int} {g g2 : GGPKFile} {p : Nat}
    {f : OSFile} (h : parseGGPKRecordBody off g = (Res.ok p, g2))
    (hf : g.File = some f) :
    ∃ (d : GGPKRecord) (f2 : OSFile),
      g2.ggpkRecords[p]? = some d ∧ d.Offset = off ∧
      d.Length = wrapInt32 (leBytes ((f.data.drop off.toNat).take 4)) ∧
      g2.File = some f2 ∧ f2.data = f.data ∧ f2.pos = off.toNat + 28 := by
  unfold parseGGPKRecordBody at h
  obtain ⟨⟨len, tag⟩, ga, h1, h⟩ := bind_eq_ok.mp h
  simp only at h
  split at h
  · cases h
  · obtain ⟨v, gb, h2, h⟩ := bind_eq_ok.mp h
    obtain ⟨r, gc, h3, h⟩ := bind_eq_ok.mp h
    obtain ⟨fr, gd, h4, h⟩ := bind_eq_ok.mp h
    obtain ⟨f1, hf1, hd1, hp1, _, _, hlen, _⟩ := readRecordHeaderAndSeek_pos h1 hf
    obtain ⟨f2, hf2, hd2, hp2, _, _⟩ := readUint32_pos h2 hf1
    obtain ⟨f3, hf3, hd3, hp3, _, _⟩ := readInt64_pos h3 hf2
    obtain ⟨f4, hf4, hd4, hp4, _, _⟩ := readInt64_pos h4 hf3
    unfold allocGGPK at h
    cases h
    refine ⟨_, f4, getElem?_append_singleton _ _, rfl, hlen, hf4, by rw [hd4, hd3, hd2, hd1], ?_⟩
    omega

/-- The branch of the `switch tag` behind a successful `parseByTag`. -/
theorem parseByTag_inv {offset length : Int} {tag : Nat} {g1 g2 : GGPKFile} {r : RecordRef}
    (h : parseByTag offset length tag g1 = (Res.ok r, g2)) :
    (∃ p, r = RecordRef.ggpk p ∧ parseGGPKRecordBody offset g1 = (Res.ok p, g2)) ∨
    (∃ p, r = RecordRef.dir p ∧
      parseDirectoryRecordBody offset { Offset := offset, Length := length, Tag := tag } [] g1 =
        (Res.ok p, g2)) ∨
    (∃ p, r = RecordRef.file p ∧
      parseFileRecordBody offset { Offset := offset, Length := length, Tag := tag } g1 =
        (Res.ok p, g2)) ∨
    (∃ p, r = RecordRef.free p ∧
      parseFreeRecordBody offset { Offset := offset, Length := length, Tag := tag } g1 =
        (Res.ok p, g2)) := by
  unfold parseByTag at h
  split at h
  next =>
    obtain ⟨q, g, hq, hr⟩ := bind_eq_ok.mp h
    cases hr
    exact Or.inl ⟨q, rfl, hq⟩
  next =>
    split at h
    next =>
      obtain ⟨q, g, hq, hr⟩ := bind_eq_ok.mp h
      cases hr
      exact Or.inr (Or.inl ⟨q, rfl, hq⟩)
    next =>
      split at h
      next =>
        obtain ⟨q, g, hq, hr⟩ := bind_eq_ok.mp h
        cases hr
        exact Or.inr (Or.inr (Or.inl ⟨q, rfl, hq⟩))
      next =>
        split at h
        next =>
          obtain ⟨q, g, hq, hr⟩ := bind_eq_ok.mp h
          cases hr
          exact Or.inr (Or.inr (Or.inr ⟨q, rfl, hq⟩))
        next =>
          obtain ⟨u, g, _, hr⟩ := bind_eq_ok.mp h
          cases hr

theorem wrapInt32_range (x : Int) : -2 ^ 31 ≤ wrapInt32 x ∧ wrapInt32 x < 2 ^ 31 := by
  unfold wrapInt32
  omega

theorem wrapInt64_eq_of_range {x : Int} (h0 : -2 ^ 63 ≤ x) (h : x < 2 ^ 63) :
    wrapInt64 x = x := by
  unfold wrapInt64
  omega

/-- C26 (amended). Where the stream stands after `ReadRecordAt` has parsed a record at
`offset` (cache miss, success): the record's `Length` is the length field read at
`offset`; after a File or a Free record the position is `offset + Length` (in int64
arithmetic, and exactly so when `offset + 2^31 ≤ 2^63`), because these two parsers
seek there; after a Header record it is `offset + 28` and after a Directory record
`offset + 48 + (name bytes) + 12 * EntryCount`, the bytes the parser consumed,
whatever the length field says. -/
theorem ReadRecordAt_position (gf : GGPKFile) (f : OSFile) (offset : Int) (r : RecordRef)
    (hf : gf.File = some f) (hmiss : gf.recordCache offset = none)
    (hok : (ReadRecordAt offset gf).1 = Res.ok r) :
    ∃ f2, (ReadRecordAt offset gf).2.File = some f2 ∧ f2.data = f.data ∧ 0 ≤ offset ∧
      (∀ p, r = RecordRef.ggpk p → ∃ d, (ReadRecordAt offset gf).2.ggpkRecords[p]? = some d ∧
        d.Offset = offset ∧ d.Length = wrapInt32 (leBytes ((f.data.drop offset.toNat).take 4)) ∧
        (f2.pos : Int) = offset + 28) ∧
      (∀ p, r = RecordRef.dir p → ∃ d, (ReadRecordAt offset gf).2.dirRecords[p]? = some d ∧
        d.Offset = offset ∧ d.Length = wrapInt32 (leBytes ((f.data.drop offset.toNat).take 4)) ∧
        (f2.pos : Int) = offset + 48 +
          wrapUint32 (d.NameLength * (if gf.Header.Version = 4 then 4 else 2)) +
          12 * d.EntryCount) ∧
      (∀ p, r = RecordRef.file p → ∃ d, (ReadRecordAt offset gf).2.fileRecords[p]? = some d ∧
        d.Offset = offset ∧ d.Length = wrapInt32 (leBytes ((f.data.drop offset.toNat).take 4)) ∧
        (f2.pos : Int) = wrapInt64 (offset + d.Length) ∧
        (offset + 2 ^ 31 ≤ 2 ^ 63 → (f2.pos : Int) = offset + d.Length)) ∧
      (∀ p, r = RecordRef.free p → ∃ d, (ReadRecordAt offset gf).2.freeRecords[p]? = some d ∧
        d.Offset = offset ∧ d.Length = wrapInt32 (leBytes ((f.data.drop offset.toNat).take 4)) ∧
        (f2.pos : Int) = wrapInt64 (offset + d.Length) ∧
        (offset + 2 ^ 31 ≤ 2 ^ 63 → (f2.pos : Int) = offset + d.Length)) := by
  have h : ReadRecordAt offset gf = (Res.ok r, (ReadRecordAt offset gf).2) :=
    Prod.ext hok rfl
  generalize (ReadRecordAt offset gf).2 = gf2 at h ⊢
  obtain ⟨length, tag, g1, g2, hh, hp, hgf2⟩ := ReadRecordAt_miss_ok hmiss h
  obtain ⟨f1, hf1, hd1, hp1, hoff, hav, hlen, htag⟩ := readRecordHeaderAndSeek_pos hh hf
  have hv1 : g1.Header = gf.Header := (keeps_of_eq (io_readRecordHeaderAndSeek offset) hh).Header
  have hrange := wrapInt32_range (leBytes ((f.data.drop offset.toNat).take 4))
  have hnat : ((offset.toNat : Nat) : Int) = offset := Int.toNat_of_nonneg hoff
  subst hgf2
  rcases parseByTag_inv hp with ⟨p, hr, hq⟩ | ⟨p, hr, hq⟩ | ⟨p, hr, hq⟩ | ⟨p, hr, hq⟩
  · obtain ⟨d, f2, hd, hdo, hdl, hf2, hd2, hp2⟩ := parseGGPKRecordBody_inv hq hf1
    refine ⟨f2, hf2, by rw [hd2, hd1], hoff, ?_, ?_, ?_, ?_⟩
    · intro p1 hp1
      rw [hr] at hp1
      cases hp1
      refine ⟨d, hd, hdo, by rw [hdl, hd1], ?_⟩
      omega
    · intro p1 hp1
      rw [hr] at hp1
      cases hp1
    · intro p1 hp1
      rw [hr] at hp1
      cases hp1
    · intro p1 hp1
      rw [hr] at hp1
      cases hp1
  · obtain ⟨d, f2, hd, hdb, _, hf2, hd2, hp2, _⟩ := parseDirectoryRecordBody_inv hq hf1
    refine ⟨f2, hf2, by rw [hd2, hd1], hoff, ?_, ?_, ?_, ?_⟩
    · intro p1 hp1
      rw [hr] at hp1
      cases hp1
    · intro p1 hp1
      rw [hr] at hp1
      cases hp1
      refine ⟨d, hd, by rw [hdb], by rw [hdb]; exact hlen, ?_⟩
      rw [hv1] at hp2
      omega
    · intro p1 hp1
      rw [hr] at hp1
      cases hp1
    · intro p1 hp1
      rw [hr] at hp1
      cases hp1
  · obtain ⟨n, hash, name, f2, hd, hf2, hd2, hp2, hpos, _, _⟩ := parseFileRecordBody_inv hq hf1
    refine ⟨f2, hf2, by rw [hd2, hd1], hoff, ?_, ?_, ?_, ?_⟩
    · intro p1 hp1
      rw [hr] at hp1
      cases hp1
    · intro p1 hp1
      rw [hr] at hp1
      cases hp1
    · intro p1 hp1
      rw [hr] at hp1
      cases hp1
      refine ⟨_, hd, rfl, hlen, hp2, ?_⟩
      intro hbig
      rw [hp2]
      show wrapInt64 (offset + length) = offset + length
      apply wrapInt64_eq_of_range <;> omega
    · intro p1 hp1
      rw [hr] at hp1
      cases hp1
  · obtain ⟨d, f2, hd, hdb, hf2, hd2, hp2⟩ := parseFreeRecordBody_inv hq hf1
    refine ⟨f2, hf2, by rw [hd2, hd1], hoff, ?_, ?_, ?_, ?_⟩
    · intro p1 hp1
      rw [hr] at hp1
      cases hp1
    · intro p1 hp1
      rw [hr] at hp1
      cases hp1
    · intro p1 hp1
      rw [hr] at hp1
      cases hp1
    · intro p1 hp1
      rw [hr] at hp1
      cases hp1
      refine ⟨d, hd, by rw [hdb], by rw [hdb]; exact hlen, ?_, ?_⟩
      · rw [hdb]
        exact hp2
      · intro hbig
        rw [hp2, hdb]
        show wrapInt64 (offset + length) = offset + length
        apply wrapInt64_eq_of_range <;> omega

theorem ReadRecordAt_position_witness :
    ∃ f2, (ReadRecordAt 0 fileRecordHandle).2.File = some f2 ∧
      f2.data = createFileRecordBytes "testfile.txt".toList (asciiBytes "hello".toList) ∧
      (0 : Int) ≤ 0 ∧
      (∀ p, RecordRef.file 0 = RecordRef.ggpk p →
        ∃ d, (ReadRecordAt 0 fileRecordHandle).2.ggpkRecords[p]? = some d ∧
        d.Offset = 0 ∧
        d.Length = wrapInt32 (leBytes (((createFileRecordBytes "testfile.txt".toList
          (asciiBytes "hello".toList)).drop (0 : Int).toNat).take 4)) ∧
        (f2.pos : Int) = 0 + 28) ∧
      (∀ p, RecordRef.file 0 = RecordRef.dir p →
        ∃ d, (ReadRecordAt 0 fileRecordHandle).2.dirRecords[p]? = some d ∧
        d.Offset = 0 ∧
        d.Length = wrapInt32 (leBytes (((createFileRecordBytes "testfile.txt".toList
          (asciiBytes "hello".toList)).drop (0 : Int).toNat).take 4)) ∧
        (f2.pos : Int) = 0 + 48 +
          wrapUint32 (d.NameLength * (if fileRecordHandle.Header.Version = 4 then 4 else 2)) +
          12 * d.EntryCount) ∧
      (∀ p, RecordRef.file 0 = RecordRef.file p →
        ∃ d, (ReadRecordAt 0 fileRecordHandle).2.fileRecords[p]? = some d ∧
        d.Offset = 0 ∧
        d.Length = wrapInt32 (leBytes (((createFileRecordBytes "testfile.txt".toList
          (asciiBytes "hello".toList)).drop (0 : Int).toNat).take 4)) ∧
        (f2.pos : Int) = wrapInt64 (0 + d.Length) ∧
        ((0 : Int) + 2 ^ 31 ≤ 2 ^ 63 → (f2.pos : Int) = 0 + d.Length)) ∧
      (∀ p, RecordRef.file 0 = RecordRef.free p →
        ∃ d, (ReadRecordAt 0 fileRecordHandle).2.freeRecords[p]? = some d ∧
        d.Offset = 0 ∧
        d.Length = wrapInt32 (leBytes (((createFileRecordBytes "testfile.txt".toList
          (asciiBytes "hello".toList)).drop (0 : Int).toNat).take 4)) ∧
        (f2.pos : Int) = wrapInt64 (0 + d.Length) ∧
        ((0 : Int) + 2 ^ 31 ≤ 2 ^ 63 → (f2.pos : Int) = 0 + d.Length)) :=
  ReadRecordAt_position fileRecordHandle
    { data := createFileRecordBytes "testfile.txt".toList (asciiBytes "hello".toList),
      pos := 0, ops := [] }
    0 (RecordRef.file 0) rfl rfl (by decide!)

/-- C26 fails as stated: a header record whose length field holds 100 parses
successfully and leaves the stream at 28; a directory record whose length field
holds 1000 parses successfully and leaves the stream at 48; a file record of 46
bytes whose length field holds 8 parses successfully and leaves the stream at 8,
inside the bytes the parse consumed. -/
theorem ReadRecordAt_position_counterexample :
    (ReadRecordAt 0 longHeaderHandle).1 = Res.ok (RecordRef.ggpk 0) ∧
    ((ReadRecordAt 0 longHeaderHandle).2.ggpkRecords[0]?).map (fun r => (r.Offset, r.Length)) =
      some (0, 100) ∧
    (ReadRecordAt 0 longHeaderHandle).2.File.map (·.pos) = some 28 ∧
    (ReadRecordAt 0 longDirHandle).1 = Res.ok (RecordRef.dir 0) ∧
    ((ReadRecordAt 0 longDirHandle).2.dirRecords[0]?).map (fun r => (r.Offset, r.Length)) =
      some (0, 1000) ∧
    (ReadRecordAt 0 longDirHandle).2.File.map (·.pos) = some 48 ∧
    (ReadRecordAt 0 (declaredLengthHandle 8)).1 = Res.ok (RecordRef.file 0) ∧
    ((ReadRecordAt 0 (declaredLengthHandle 8)).2.fileRecords[0]?).map
      (fun r => (r.Offset, r.Length)) = some (0, 8) ∧
    (ReadRecordAt 0 (declaredLengthHandle 8)).2.File.map (·.pos) = some 8 ∧
    (ReadRecordAt 0 (declaredLengthHandle 8)).2.File.map
      (fun f => f.ops.filter (fun o => o matches FileOp.read _)) =
      some [FileOp.read 4, FileOp.read 4, FileOp.read 4, FileOp.read 32, FileOp.read 2] :=
  ⟨by decide!, by decide!, by decide!, by decide!, by decide!, by decide!, by decide!, by decide!,
    by decide!, by decide!⟩

/-! ## The data range of a file record -/

theorem headerSize_eq : RecordHeaderSize + 4 + (HashSize : Int) = 44 := by decide

theorem fileData_arith (o len : Int) (nb : Nat) (h1 : 0 ≤ o) (h2 : o + 44 + nb < 2 ^ 63)
    (h3 : (nb : Int) + 44 < 2 ^ 31) (h4 : -2 ^ 31 ≤ len - (44 + nb)) (h5 : len < 2 ^ 31) :
    wrapInt64 (o + wrapInt32 (44 + wrapInt32 (nb : Int))) = o + 44 + nb ∧
      wrapInt32 (len - wrapInt32 (44 + wrapInt32 (nb : Int))) = len - (44 + nb) := by
  have e1 : wrapInt32 (nb : Int) = nb := wrapInt32_eq_self (Int.ofNat_nonneg nb) (by omega)
  have e2 : wrapInt32 (44 + (nb : Int)) = 44 + nb := wrapInt32_eq_self (by omega) (by omega)
  rw [e1, e2]
  constructor
  · rw [wrapInt64_eq_self (by omega) (by omega)]
    omega
  · have hr : -2 ^ 31 ≤ len - (44 + (nb : Int)) ∧ len - (44 + (nb : Int)) < 2 ^ 31 := by omega
    unfold wrapInt32
    omega

/-- C30 (amended). For a file record that `ReadRecordAt` has parsed at `offset`
(cache miss, success), with `nb` the uint32 name byte count `NameLength * w`:
`DataOffset + DataLength = Offset + Length` holds whenever the byte source is
shorter than 2^31 bytes; and for a byte source shorter than 2^63 bytes it holds
whenever `44 + nb` fits an int32 and `Length - (44 + nb)` does not underflow an
int32, and then `DataOffset = offset + 44 + nb` and `DataLength = Length - (44 +
nb)`. -/
theorem ReadRecordAt_file_data_end (gf : GGPKFile) (f : OSFile) (offset : Int) (p : Nat)
    (hf : gf.File = some f) (hmiss : gf.recordCache offset = none)
    (hok : (ReadRecordAt offset gf).1 = Res.ok (RecordRef.file p)) :
    ∃ d, (ReadRecordAt offset gf).2.fileRecords[p]? = some d ∧ d.Offset = offset ∧
      (f.data.length < 2 ^ 31 → d.DataOffset + d.DataLength = d.Offset + d.Length) ∧
      (f.data.length < 2 ^ 63 →
        wrapUint32 (d.NameLength * (if gf.Header.Version = 4 then 4 else 2)) + 44 < 2 ^ 31 →
        -2 ^ 31 ≤ d.Length -
          (44 + wrapUint32 (d.NameLength * (if gf.Header.Version = 4 then 4 else 2))) →
        d.DataOffset + d.DataLength = d.Offset + d.Length ∧
        d.DataOffset =
          offset + 44 + wrapUint32 (d.NameLength * (if gf.Header.Version = 4 then 4 else 2)) ∧
        d.DataLength = d.Length -
          (44 + wrapUint32 (d.NameLength * (if gf.Header.Version = 4 then 4 else 2)))) := by
  have h : ReadRecordAt offset gf = (Res.ok (RecordRef.file p), (ReadRecordAt offset gf).2) :=
    Prod.ext hok rfl
  generalize (ReadRecordAt offset gf).2 = gf2 at h ⊢
  obtain ⟨length, tag, g1, g2, hh, hp, hgf2⟩ := ReadRecordAt_miss_ok hmiss h
  obtain ⟨f1, hf1, hd1, hp1, hoff, hav, hlen, htag⟩ := readRecordHeaderAndSeek_pos hh hf
  have hv1 : g1.Header = gf.Header := (keeps_of_eq (io_readRecordHeaderAndSeek offset) hh).Header
  have hrange := wrapInt32_range (leBytes ((f.data.drop offset.toNat).take 4))
  rw [← hlen] at hrange
  have hnat : ((offset.toNat : Nat) : Int) = offset := Int.toNat_of_nonneg hoff
  subst hgf2
  rcases parseByTag_inv hp with ⟨q, hr, hq⟩ | ⟨q, hr, hq⟩ | ⟨q, hr, hq⟩ | ⟨q, hr, hq⟩
  · cases hr
  · cases hr
  · cases hr
    obtain ⟨n, hash, name, f2, hd, hf2, hd2, hp2, hpos, havn, _⟩ := parseFileRecordBody_inv hq hf1
    rw [hv1] at hd havn
    rw [hd1, hp1] at havn
    refine ⟨_, hd, rfl, ?_, ?_⟩
    · intro hsmall
      have hwr : wrapInt64 (offset + length) = offset + length :=
        wrapInt64_eq_of_range (by omega) (by omega)
      rw [show ({ Offset := offset, Length := length, Tag := tag } : BaseRecord).Offset
        = offset from rfl, show ({ Offset := offset, Length := length, Tag := tag } :
        BaseRecord).Length = length from rfl] at hpos
      rw [hwr] at hpos
      obtain ⟨e1, e2⟩ := fileData_arith offset length
        (wrapUint32 (n * (if gf.Header.Version = 4 then 4 else 2))) hoff (by omega) (by omega)
        (by omega) hrange.2
      show wrapInt64 (offset + wrapInt32 (RecordHeaderSize + 4 + (HashSize : Int) + _)) +
        wrapInt32 (length - wrapInt32 (RecordHeaderSize + 4 + (HashSize : Int) + _)) =
        offset + length
      rw [headerSize_eq, e1, e2]
      omega
    · intro hbig hnb hunder
      obtain ⟨e1, e2⟩ := fileData_arith offset length
        (wrapUint32 (n * (if gf.Header.Version = 4 then 4 else 2))) hoff (by omega)
        (by exact_mod_cast hnb) hunder hrange.2
      refine ⟨?_, ?_, ?_⟩
      · show wrapInt64 (offset + wrapInt32 (RecordHeaderSize + 4 + (HashSize : Int) + _)) +
          wrapInt32 (length - wrapInt32 (RecordHeaderSize + 4 + (HashSize : Int) + _)) =
          offset + length
        rw [headerSize_eq, e1, e2]
        omega
      · show wrapInt64 (offset + wrapInt32 (RecordHeaderSize + 4 + (HashSize : Int) + _)) = _
        rw [headerSize_eq, e1]
      · show wrapInt32 (length - wrapInt32 (RecordHeaderSize + 4 + (HashSize : Int) + _)) = _
        rw [headerSize_eq, e2]
  · cases hr

theorem ReadRecordAt_file_data_end_witness :
    ∃ d, (ReadRecordAt 0 fileRecordHandle).2.fileRecords[0]? = some d ∧ d.Offset = 0 ∧
      ((createFileRecordBytes "testfile.txt".toList (asciiBytes "hello".toList)).length < 2 ^ 31 →
        d.DataOffset + d.DataLength = d.Offset + d.Length) ∧
      ((createFileRecordBytes "testfile.txt".toList (asciiBytes "hello".toList)).length < 2 ^ 63 →
        wrapUint32 (d.NameLength * (if fileRecordHandle.Header.Version = 4 then 4 else 2)) + 44 <
          2 ^ 31 →
        (-2 ^ 31 : Int) ≤ d.Length -
          (44 + ((wrapUint32
            (d.NameLength * (if fileRecordHandle.Header.Version = 4 then 4 else 2)) : Nat) : Int)) →
        d.DataOffset + d.DataLength = d.Offset + d.Length ∧
        d.DataOffset = (0 : Int) + 44 +
          ((wrapUint32 (d.NameLength * (if fileRecordHandle.Header.Version = 4 then 4 else 2)) :
            Nat) : Int) ∧
        d.DataLength = d.Length -
          (44 + ((wrapUint32
            (d.NameLength * (if fileRecordHandle.Header.Version = 4 then 4 else 2)) : Nat) : Int))) :=
  ReadRecordAt_file_data_end fileRecordHandle
    { data := createFileRecordBytes "testfile.txt".toList (asciiBytes "hello".toList),
      pos := 0, ops := [] }
    0 0 rfl rfl (by decide!)

/-- The run of `ReadRecordAt` on `farRecord` at offset `2^31`. -/
theorem farHandle_run (pre : List UInt8) (hpre : pre.length = 2 ^ 31) :
    ∃ g2, ReadRecordAt (2 ^ 31) (farHandle pre) = (Res.ok (RecordRef.file 0), g2) ∧
      g2.fileRecords[0]? = some
        { Offset := 2 ^ 31, Length := -(2 ^ 31), Tag := FileRecordTag, parent := none,
          NameLength := 1, Hash := List.replicate 32 0, Name := [],
          DataOffset := 2 ^ 31 + 46, DataLength := 2 ^ 31 - 46 } := by
  have hf : (farHandle pre).File = some { data := pre ++ farRecord, pos := 0, ops := [] } := rfl
  have hoff : ((2 : Int) ^ 31) = ((pre.length : Nat) : Int) := by
    rw [hpre]
    norm_num
  obtain ⟨g1, f1, h1, hf1, hd1, hp1, io1⟩ :=
    seekStart_at (pre.length : Int) GoError.seekFailed hf (Int.ofNat_nonneg _)
  rw [Int.toNat_ofNat] at hp1
  have hdrop1 : f1.data.drop f1.pos = putInt32 (-(2 ^ 31)) ++ (putUint32 FileRecordTag ++
      (putUint32 1 ++ (List.replicate 32 0 ++ [0, 0]))) := by
    rw [hd1, hp1]
    show (pre ++ farRecord).drop pre.length = _
    rw [List.drop_left]
    simp only [farRecord, List.append_assoc]
  obtain ⟨g2, f2, h2, hf2, hd2, hp2, hr2, io2⟩ := readFull_drop (putInt32 (-(2 ^ 31))) _ hf1
    (by simp [putInt32, putUint32]) hdrop1
  obtain ⟨g3, f3, h3, hf3, hd3, hp3, hr3, io3⟩ := readFull_drop (putUint32 FileRecordTag) _ hf2
    (by simp [putUint32]) hr2
  rw [length_putInt32] at h2
  rw [length_putUint32] at h3
  have hhdr : readRecordHeaderAndSeek (pre.length : Int) (farHandle pre) =
      (Res.ok (-(2 ^ 31), FileRecordTag), g3) := by
    simp only [readRecordHeaderAndSeek, readInt32, readUint32, bind_apply, h1, h2, h3, pure_apply,
      show wrapInt32 (leBytes (putInt32 (-(2 ^ 31)))) = -(2 ^ 31) from by decide,
      leBytes_putUint32 FileRecordTag (by decide)]
  obtain ⟨g4, f4, h4, hf4, hd4, hp4, hr4, io4⟩ := readFull_drop (putUint32 1) _ hf3
    (by simp [putUint32]) hr3
  rw [length_putUint32] at h4
  obtain ⟨g5, f5, h5, hf5, hd5, hp5, hr5, io5⟩ := readFull_drop (List.replicate 32 0) [0, 0] hf4
    (by simp) hr4
  rw [List.length_replicate] at h5
  have hv5 : g5.Header = (farHandle pre).Header := by
    rw [io5.Header, io4.Header, io3.Header, io2.Header, io1.Header]
  have h16 : g5.utf16LEDecoder = some refUTF16LE := by
    rw [io5.utf16LEDecoder, io4.utf16LEDecoder, io3.utf16LEDecoder, io2.utf16LEDecoder,
      io1.utf16LEDecoder]
    rfl
  have hver : ¬ g5.Header.Version = 4 := by
    rw [hv5]
    show ¬ (0 : Nat) = 4
    decide
  obtain ⟨g6, f6, h6, hf6, hd6, hp6, hr6, io6⟩ := readName_drop 2 1 refUTF16LE [] [0, 0] []
    (by rw [if_neg hver]) hf5
    (by
      unfold decoderOfWidth
      simp only [show ¬ (2 : Nat) = 4 by decide, if_false]
      exact h16)
    (Or.inr ⟨le_refl 1, rfl⟩) rfl (by decide) (by rw [hr5]; rfl)
  obtain ⟨g7, f7, h7, hf7, hd7, hp7, io7⟩ :=
    seekStart_at (wrapInt64 ((pre.length : Int) + -(2 ^ 31))) GoError.seekFailed hf6 (by
      rw [← hoff]
      decide)
  have hv6 : ¬ g6.Header.Version = 4 := by
    rw [io6.Header]
    exact hver
  have hfr : g7.fileRecords = [] := by
    rw [io7.fileRecords, io6.fileRecords, io5.fileRecords, io4.fileRecords, io3.fileRecords,
      io2.fileRecords, io1.fileRecords]
    rfl
  have hbody := parseFileRecordBody_steps (pre.length : Int)
    { Offset := (pre.length : Int), Length := -(2 ^ 31), Tag := FileRecordTag }
    (putUint32 1) (List.replicate 32 0) [] h4 h5
    (by rw [leBytes_putUint32 1 (by decide)]; exact h6) h7
  have e1 : wrapInt64 ((2 : Int) ^ 31 + wrapInt32 (RecordHeaderSize + 4 + (HashSize : Int) +
      wrapInt32 ((wrapUint32 (1 * 2) : Nat) : Int))) = 2 ^ 31 + 46 := by
    decide
  have e2 : wrapInt32 (-(2 : Int) ^ 31 - wrapInt32 (RecordHeaderSize + 4 + (HashSize : Int) +
      wrapInt32 ((wrapUint32 (1 * 2) : Nat) : Int))) = 2 ^ 31 - 46 := by
    decide
  rw [if_neg hv6, hfr] at hbody
  simp only [List.nil_append, List.length_nil] at hbody
  rw [← hoff, leBytes_putUint32 1 (by decide), e1, e2] at hbody
  rw [← hoff] at hhdr
  have hc : (farHandle pre).recordCache (2 ^ 31) = none := rfl
  have hrun : ReadRecordAt (2 ^ 31) (farHandle pre) =
      (Res.ok (RecordRef.file 0),
        { g7 with
          fileRecords :=
            [{ Offset := 2 ^ 31, Length := -(2 ^ 31), Tag := FileRecordTag, parent := none,
               NameLength := 1, Hash := List.replicate 32 0, Name := [],
               DataOffset := 2 ^ 31 + 46, DataLength := 2 ^ 31 - 46 }],
          recordCache := fun k =>
            if k = (2 : Int) ^ 31 then some (RecordRef.file 0) else g7.recordCache k }) := by
    unfold ReadRecordAt
    rw [hc]
    simp only
    rw [bind_apply, hhdr]
    simp only
    rw [bind_apply]
    unfold parseByTag
    simp only [show FileRecordTag ≠ GGPKRecordTag by decide,
      show FileRecordTag ≠ PDirRecordTag by decide, if_false, if_true]
    rw [bind_apply, hbody]
    rfl
  exact ⟨_, hrun, rfl⟩

/-- C30 fails as stated: in a byte source of `2^31 + 46` bytes, the file record at
offset `2^31` whose length field holds `-2^31` parses successfully (the closing
seek goes to `2^31 - 2^31 = 0`); `Length - 46` underflows the int32, so that
`DataLength = 2^31 - 46`, `DataOffset = 2^31 + 46`, and `DataOffset + DataLength =
2^32` while `Offset + Length = 0`. -/
theorem ReadRecordAt_file_data_end_counterexample :
    (ReadRecordAt (2 ^ 31) farFileHandle).1 = Res.ok (RecordRef.file 0) ∧
    ((ReadRecordAt (2 ^ 31) farFileHandle).2.fileRecords[0]?).map
      (fun r => (r.Offset, r.Length, r.DataOffset, r.DataLength)) =
      some (2 ^ 31, -(2 ^ 31), 2 ^ 31 + 46, 2 ^ 31 - 46) ∧
    ((ReadRecordAt (2 ^ 31) farFileHandle).2.fileRecords[0]?).map
      (fun r => (r.DataOffset + r.DataLength, r.Offset + r.Length)) = some (2 ^ 32, 0) := by
  obtain ⟨g2, hrun, hrec⟩ :=
    farHandle_run (List.replicate (2 ^ 31) 0) (List.length_replicate _ _)
  have hh : farFileHandle = farHandle (List.replicate (2 ^ 31) 0) := rfl
  rw [hh, hrun]
  refine ⟨rfl, ?_, ?_⟩
  · show (g2.fileRecords[0]?).map _ = _
    rw [hrec]
    rfl
  · show (g2.fileRecords[0]?).map _ = _
    rw [hrec]
    simp only [Option.map_some', Option.some.injEq, Prod.mk.injEq]
    constructor <;> norm_num

/-! ## The data range of a parsed file record -/

/-- C27 (amended). For a file record that `ReadRecordAt` has parsed at `offset`
(cache miss, success) from a byte source shorter than 2^31 bytes, with `nb` the
name byte count `NameLength * w`: `DataOffset = offset + 44 + nb` and `DataLength =
Length - (44 + nb)`, whatever the length field holds. So `DataLength ≥ 0` holds
exactly when the declared length covers the 44 + `nb` bytes of header and name, and
`DataOffset + DataLength` lies within the byte source exactly when the declared end
`Offset + Length` does. The parse checks neither; a record with a negative
`DataLength` is refused when its data are read: `ReadFileData` returns an error and
leaves the state unchanged. -/
theorem ReadRecordAt_file_data_bounds (gf : GGPKFile) (f : OSFile) (offset : Int) (p : Nat)
    (hf : gf.File = some f) (hmiss : gf.recordCache offset = none)
    (hok : (ReadRecordAt offset gf).1 = Res.ok (RecordRef.file p))
    (hsmall : f.data.length < 2 ^ 31) :
    ∃ d, (ReadRecordAt offset gf).2.fileRecords[p]? = some d ∧ d.Offset = offset ∧
      d.DataOffset =
        offset + 44 + wrapUint32 (d.NameLength * (if gf.Header.Version = 4 then 4 else 2)) ∧
      d.DataLength = d.Length -
        (44 + wrapUint32 (d.NameLength * (if gf.Header.Version = 4 then 4 else 2))) ∧
      (0 ≤ d.DataLength ↔
        44 + (wrapUint32 (d.NameLength * (if gf.Header.Version = 4 then 4 else 2)) : Int) ≤
          d.Length) ∧
      (d.DataOffset + d.DataLength ≤ f.data.length ↔ d.Offset + d.Length ≤ f.data.length) ∧
      (d.DataLength < 0 → ∀ (U : UncompressBlockFn) (g : GGPKFile),
        ReadFileData U (some d) g = (Res.err GoError.negativeDataLength, g)) := by
  have h : ReadRecordAt offset gf = (Res.ok (RecordRef.file p), (ReadRecordAt offset gf).2) :=
    Prod.ext hok rfl
  generalize (ReadRecordAt offset gf).2 = gf2 at h ⊢
  obtain ⟨length, tag, g1, g2, hh, hp, hgf2⟩ := ReadRecordAt_miss_ok hmiss h
  obtain ⟨f1, hf1, hd1, hp1, hoff, hav, hlen, htag⟩ := readRecordHeaderAndSeek_pos hh hf
  have hv1 : g1.Header = gf.Header := (keeps_of_eq (io_readRecordHeaderAndSeek offset) hh).Header
  have hrange := wrapInt32_range (leBytes ((f.data.drop offset.toNat).take 4))
  rw [← hlen] at hrange
  have hnat : ((offset.toNat : Nat) : Int) = offset := Int.toNat_of_nonneg hoff
  subst hgf2
  rcases parseByTag_inv hp with ⟨q, hr, hq⟩ | ⟨q, hr, hq⟩ | ⟨q, hr, hq⟩ | ⟨q, hr, hq⟩
  · cases hr
  · cases hr
  · cases hr
    obtain ⟨n, hash, name, f2, hd, hf2, hd2, hp2, hpos, havn, _⟩ := parseFileRecordBody_inv hq hf1
    rw [hv1] at hd havn
    rw [hd1, hp1] at havn
    have hwr : wrapInt64 (offset + length) = offset + length :=
      wrapInt64_eq_of_range (by omega) (by omega)
    rw [show ({ Offset := offset, Length := length, Tag := tag } : BaseRecord).Offset
      = offset from rfl, show ({ Offset := offset, Length := length, Tag := tag } :
      BaseRecord).Length = length from rfl] at hpos
    rw [hwr] at hpos
    obtain ⟨e1, e2⟩ := fileData_arith offset length
      (wrapUint32 (n * (if gf.Header.Version = 4 then 4 else 2))) hoff (by omega) (by omega)
      (by omega) hrange.2
    have hdo : wrapInt64 (offset + wrapInt32 (RecordHeaderSize + 4 + (HashSize : Int) +
        wrapInt32 ((wrapUint32 (n * (if gf.Header.Version = 4 then 4 else 2)) : Nat) : Int))) =
        offset + 44 + wrapUint32 (n * (if gf.Header.Version = 4 then 4 else 2)) := by
      rw [headerSize_eq, e1]
    have hdl : wrapInt32 (length - wrapInt32 (RecordHeaderSize + 4 + (HashSize : Int) +
        wrapInt32 ((wrapUint32 (n * (if gf.Header.Version = 4 then 4 else 2)) : Nat) : Int))) =
        length - (44 + wrapUint32 (n * (if gf.Header.Version = 4 then 4 else 2))) := by
      rw [headerSize_eq, e2]
    refine ⟨_, hd, rfl, hdo, hdl, ?_, ?_, ?_⟩
    · show 0 ≤ wrapInt32 (length - wrapInt32 (RecordHeaderSize + 4 + (HashSize : Int) +
          wrapInt32 ((wrapUint32 (n * (if gf.Header.Version = 4 then 4 else 2)) : Nat) : Int))) ↔
        44 + ((wrapUint32 (n * (if gf.Header.Version = 4 then 4 else 2)) : Nat) : Int) ≤ length
      rw [hdl]
      omega
    · show wrapInt64 (offset + wrapInt32 (RecordHeaderSize + 4 + (HashSize : Int) +
          wrapInt32 ((wrapUint32 (n * (if gf.Header.Version = 4 then 4 else 2)) : Nat) : Int))) +
        wrapInt32 (length - wrapInt32 (RecordHeaderSize + 4 + (HashSize : Int) +
          wrapInt32 ((wrapUint32 (n * (if gf.Header.Version = 4 then 4 else 2)) : Nat) : Int))) ≤
          (f.data.length : Int) ↔ offset + length ≤ (f.data.length : Int)
      rw [hdo, hdl]
      omega
    · intro hneg U g
      have hneg1 : wrapInt32 (length - wrapInt32 (RecordHeaderSize + 4 + (HashSize : Int) +
          wrapInt32 ((wrapUint32 (n * (if gf.Header.Version = 4 then 4 else 2)) : Nat) : Int)))
          < 0 := hneg
      unfold ReadFileData
      simp only
      rw [if_neg (ne_of_lt hneg1), if_pos hneg1]
      rfl
  · cases hr

theorem ReadRecordAt_file_data_bounds_witness :
    ∃ d, (ReadRecordAt 0 (declaredLengthHandle 8)).2.fileRecords[0]? = some d ∧ d.Offset = 0 ∧
      d.DataOffset = (0 : Int) + 44 +
        ((wrapUint32 (d.NameLength *
          (if (declaredLengthHandle 8).Header.Version = 4 then 4 else 2)) : Nat) : Int) ∧
      d.DataLength = d.Length -
        (44 + ((wrapUint32 (d.NameLength *
          (if (declaredLengthHandle 8).Header.Version = 4 then 4 else 2)) : Nat) : Int)) ∧
      (0 ≤ d.DataLength ↔
        44 + ((wrapUint32 (d.NameLength *
          (if (declaredLengthHandle 8).Header.Version = 4 then 4 else 2)) : Nat) : Int) ≤
          d.Length) ∧
      (d.DataOffset + d.DataLength ≤ ((declaredLengthFile 8).length : Int) ↔
        d.Offset + d.Length ≤ ((declaredLengthFile 8).length : Int)) ∧
      (d.DataLength < 0 → ∀ (U : UncompressBlockFn) (g : GGPKFile),
        ReadFileData U (some d) g = (Res.err GoError.negativeDataLength, g)) :=
  ReadRecordAt_file_data_bounds (declaredLengthHandle 8)
    { data := declaredLengthFile 8, pos := 0, ops := [] } 0 0 rfl rfl (by decide!) (by decide!)

/-! ## Parent chains after resolving -/

/-- C33 fails on these archives. In the first the root directory has one entry that
points at the root record itself: `Open` succeeds and the root has no parent;
`GetChildren` on the root succeeds and returns the root, which is now its own
parent, and `GetPath` of that node never returns, whatever the depth allowed. In the
second the root holds the directory "a", whose one entry points at the root:
`GetNodeByPath("a")` returns "a", `GetChildren` on it returns the root, and then
the root has parent "a" and "a" has parent root; `GetPath` returns on neither. -/
theorem GetChildren_parent_cycle :
    Open refUTF16LE refUTF32LE (some selfEntryArchive) = Res.ok selfEntryHandle ∧
    selfEntryHandle.Root = some 0 ∧
    (selfEntryHandle.dirRecords[0]?).map (·.parent) = some none ∧
    (GetChildren 0 selfEntryHandle).1 = Res.ok [TreeNode.dir (some 0)] ∧
    ((GetChildren 0 selfEntryHandle).2.dirRecords[0]?).map (·.parent) = some (some 0) ∧
    (∀ fuel, DirectoryRecord.GetPathFuel (GetChildren 0 selfEntryHandle).2.dirRecords fuel 0 =
      none) ∧
    (TreeNode.GetPath (TreeNode.dir (some 0)) (GetChildren 0 selfEntryHandle).2).1 = Res.crash ∧
    Open refUTF16LE refUTF32LE (some backEntryArchive) = Res.ok backEntryHandle ∧
    backEntryHandle.Root = some 0 ∧
    (GetNodeByPath ['a'] backEntryHandle).1 = Res.ok (TreeNode.dir (some 1)) ∧
    (GetChildren 1 (GetNodeByPath ['a'] backEntryHandle).2).1 = Res.ok [TreeNode.dir (some 0)] ∧
    backEntryVisited.dirRecords.map (fun d => (d.Name, d.parent)) =
      [([], some 1), (['a'], some 0)] ∧
    (TreeNode.GetPath (TreeNode.dir (some 0)) backEntryVisited).1 = Res.crash ∧
    (TreeNode.GetPath (TreeNode.dir (some 1)) backEntryVisited).1 = Res.crash ∧
    (GetNodeByPath [] backEntryVisited).1 = Res.ok (TreeNode.dir (some 0)) := by
  refine ⟨Open_of_openBody (by decide!), by decide!, by decide!, by decide!, by decide!, ?_,
    by decide!, Open_of_openBody (by decide!), by decide!, by decide!, by decide!, by decide!,
    by decide!, by decide!, by decide!⟩
  have hd : ((GetChildren 0 selfEntryHandle).2.dirRecords[0]?).map (·.parent) =
      some (some 0) := by decide!
  cases hrec : (GetChildren 0 selfEntryHandle).2.dirRecords[0]? with
  | none =>
    rw [hrec] at hd
    cases hd
  | some d =>
    rw [hrec] at hd
    simp only [Option.map_some', Option.some.injEq] at hd
    exact GetPathFuel_self_parent _ 0 d hrec hd

/-! ## The two `GetPath` methods -/

theorem isParentChain_cons {dirs : List DirectoryRecord} {p q : Nat} {rest : List Nat}
    (h : isParentChain dirs (p :: q :: rest) = true) :
    (∃ d, dirs[p]? = some d ∧ d.parent = some q) ∧ isParentChain dirs (q :: rest) = true := by
  unfold isParentChain at h ⊢
  obtain ⟨⟨d1, hd1, hp⟩, hrest⟩ := isAncestry_cons h
  rw [List.getElem?_map] at hd1
  cases hd : dirs[p]? with
  | none =>
    rw [hd] at hd1
    cases hd1
  | some d =>
    rw [hd] at hd1
    simp only [Option.map_some', Option.some.injEq] at hd1
    subst hd1
    exact ⟨⟨d, rfl, hp⟩, hrest⟩

theorem isParentChain_single {dirs : List DirectoryRecord} {r : Nat}
    (h : isParentChain dirs [r] = true) : ∃ d, dirs[r]? = some d ∧ d.parent = none := by
  unfold isParentChain at h
  obtain ⟨d1, hd1, _, hp⟩ := isAncestry_single h
  rw [List.getElem?_map] at hd1
  cases hd : dirs[r]? with
  | none =>
    rw [hd] at hd1
    cases hd1
  | some d =>
    rw [hd] at hd1
    simp only [Option.map_some', Option.some.injEq] at hd1
    subst hd1
    exact ⟨d, rfl, hp⟩

theorem isParentChain_length {dirs : List DirectoryRecord} (chain : List Nat)
    (h : isParentChain dirs chain = true) : chain.length ≤ dirs.length := by
  have := isAncestry_length chain h
  simpa using this

theorem isParentChain_push {dirs : List DirectoryRecord} {e q : Nat} {anc : List Nat}
    {de : DirectoryRecord} (h : isParentChain dirs (q :: anc) = true)
    (he : dirs[e]? = some de) (hp : de.parent = some q) :
    isParentChain dirs (e :: q :: anc) = true := by
  unfold isParentChain at h ⊢
  unfold isAncestry
  rw [List.getElem?_map, he, h]
  simp only [Option.map_some', hp, decide_True, Bool.and_self]

theorem GetPathFuel_step {dirs : List DirectoryRecord} {p q : Nat} {d : DirectoryRecord}
    (fuel : Nat) (hd : dirs[p]? = some d) (hp : d.parent = some q) :
    DirectoryRecord.GetPathFuel dirs (fuel + 1) p =
      match DirectoryRecord.GetPathFuel dirs fuel q with
      | none => none
      | some pp => some (if pp = [] then d.Name else pp ++ '/' :: d.Name) := by
  rw [DirectoryRecord.GetPathFuel, hd]
  simp only [hp]
  rw [if_neg (fun h => Option.noConfusion h.2)]
  generalize DirectoryRecord.GetPathFuel dirs fuel q = x
  cases x with
  | none => rfl
  | some pp =>
    simp only
    split <;> rfl

theorem GetPathFuel_top {dirs : List DirectoryRecord} {p : Nat} {d : DirectoryRecord}
    (fuel : Nat) (hd : dirs[p]? = some d) (hp : d.parent = none) :
    DirectoryRecord.GetPathFuel dirs (fuel + 1) p = some d.Name := by
  rw [DirectoryRecord.GetPathFuel, hd]
  simp only [hp, and_true]
  by_cases hn : d.Name = []
  · rw [if_pos hn, hn]
  · rw [if_neg hn]

/-- Along a finite parent chain the recursion of `GetPath` ends, with the same result
for every depth allowed that is at least the length of the chain. -/
theorem GetPathFuel_chain {dirs : List DirectoryRecord} :
    ∀ (anc : List Nat) (p : Nat), isParentChain dirs (p :: anc) = true →
      ∃ s, ∀ k, (p :: anc).length ≤ k → DirectoryRecord.GetPathFuel dirs k p = some s := by
  intro anc
  induction anc with
  | nil =>
    intro p h
    obtain ⟨d, hd, hp⟩ := isParentChain_single h
    refine ⟨d.Name, fun k hk => ?_⟩
    obtain ⟨k1, rfl⟩ : ∃ k1, k = k1 + 1 := ⟨k - 1, by simp at hk; omega⟩
    exact GetPathFuel_top k1 hd hp
  | cons q rest ih =>
    intro p h
    obtain ⟨⟨d, hd, hp⟩, hrest⟩ := isParentChain_cons h
    obtain ⟨s, hs⟩ := ih q hrest
    refine ⟨if s = [] then d.Name else s ++ '/' :: d.Name, fun k hk => ?_⟩
    obtain ⟨k1, rfl⟩ : ∃ k1, k = k1 + 1 := ⟨k - 1, by simp at hk; omega⟩
    rw [GetPathFuel_step k1 hd hp, hs k1 (by simp at hk ⊢; omega)]

/-- C32, what the two methods return. For a directory `q` with a finite parent chain, a file record and
a directory record that have `q` as parent and the same name `s`: `GetPath` of `q`
returns a path `pp`; `GetPath` of the File node returns `s` when `q` is a root
(empty name, no parent) and `pp + "/" + s` otherwise; `GetPath` of the Directory
node returns `s` when `pp` is empty and `pp + "/" + s` otherwise. The two agree
when `pp` is not empty or `q` is a root; when `q` is not a root and `pp` is empty,
the File node gives `"/" + s` and the Directory node gives `s`. -/
theorem GetPath_file_dir (gf : GGPKFile) (q : Nat) (anc : List Nat) (fr e : Nat)
    (s : GoString) (isRoot : Bool)
    (hchain : isParentChain gf.dirRecords (q :: anc) = true)
    (hroot : (gf.dirRecords[q]?).map (fun d => decide (d.Name = [] ∧ d.parent = none)) =
      some isRoot)
    (hfr : (gf.fileRecords[fr]?).map (fun r => (r.parent, r.Name)) = some (some q, s))
    (hde : (gf.dirRecords[e]?).map (fun d => (d.parent, d.Name)) = some (some q, s)) :
    ∃ pp, (TreeNode.GetPath (TreeNode.dir (some q)) gf).1 = Res.ok pp ∧
      (TreeNode.GetPath (TreeNode.file fr) gf).1 =
        Res.ok (if isRoot = true then s else pp ++ '/' :: s) ∧
      (TreeNode.GetPath (TreeNode.dir (some e)) gf).1 =
        Res.ok (if pp = [] then s else pp ++ '/' :: s) ∧
      ((pp ≠ [] ∨ isRoot = true) →
        (TreeNode.GetPath (TreeNode.file fr) gf).1 =
          (TreeNode.GetPath (TreeNode.dir (some e)) gf).1) ∧
      (pp = [] → isRoot = false →
        (TreeNode.GetPath (TreeNode.file fr) gf).1 = Res.ok ('/' :: s) ∧
        (TreeNode.GetPath (TreeNode.dir (some e)) gf).1 = Res.ok s) := by
  cases hd : gf.dirRecords[q]? with
  | none =>
    rw [hd] at hroot
    cases hroot
  | some d =>
  cases hr : gf.fileRecords[fr]? with
  | none =>
    rw [hr] at hfr
    cases hfr
  | some r =>
  cases he : gf.dirRecords[e]? with
  | none =>
    rw [he] at hde
    cases hde
  | some de =>
  rw [hd] at hroot
  rw [hr] at hfr
  rw [he] at hde
  simp only [Option.map_some', Option.some.injEq, Prod.mk.injEq] at hroot hfr hde
  obtain ⟨hrp, hrn⟩ := hfr
  obtain ⟨hep, hen⟩ := hde
  obtain ⟨pp, hpp⟩ := GetPathFuel_chain anc q hchain
  have hchain2 := isParentChain_push hchain he hep
  have hlen := isParentChain_length _ hchain2
  have hq1 : DirectoryRecord.GetPathFuel gf.dirRecords (gf.dirRecords.length + 1) q = some pp :=
    hpp _ (by simp at hlen ⊢; omega)
  have hq0 : DirectoryRecord.GetPathFuel gf.dirRecords gf.dirRecords.length q = some pp :=
    hpp _ (by simp at hlen ⊢; omega)
  have hqrun : DirectoryRecord.GetPath (some q) gf = (Res.ok pp, gf) := by
    unfold DirectoryRecord.GetPath
    simp only [hq1]
  have hdir : (TreeNode.GetPath (TreeNode.dir (some e)) gf).1 =
      Res.ok (if pp = [] then s else pp ++ '/' :: s) := by
    show (DirectoryRecord.GetPath (some e) gf).1 = _
    unfold DirectoryRecord.GetPath
    simp only [GetPathFuel_step gf.dirRecords.length he hep, hq0, hen]
  have hfile : (TreeNode.GetPath (TreeNode.file fr) gf).1 =
      Res.ok (if isRoot = true then s else pp ++ '/' :: s) := by
    show (FileRecord.GetPath fr gf).1 = _
    unfold FileRecord.GetPath
    have hgf : getFile fr gf = (Res.ok r, gf) := by
      unfold getFile
      rw [hr]
    rw [bind_apply, hgf]
    simp only [hrp]
    rw [bind_apply, getDir_run hd]
    simp only
    by_cases hrt : d.Name = [] ∧ d.parent = none
    · have hb : isRoot = true := by rw [← hroot]; exact decide_eq_true hrt
      rw [if_pos hrt, if_pos hb, hrn]
      rfl
    · have hb : ¬ isRoot = true := by
        rw [← hroot]
        simpa using hrt
      rw [if_neg hrt, if_neg hb, bind_apply, hqrun, hrn]
      rfl
  have hroot_pp : isRoot = true → pp = [] := by
    intro hb
    rw [← hroot] at hb
    have hrt : d.Name = [] ∧ d.parent = none := of_decide_eq_true hb
    have := GetPathFuel_top gf.dirRecords.length hd hrt.2
    rw [hq1, hrt.1] at this
    exact Option.some.inj this
  refine ⟨pp, ?_, hfile, hdir, ?_, ?_⟩
  · show (DirectoryRecord.GetPath (some q) gf).1 = _
    rw [hqrun]
  · intro h
    rw [hfile, hdir]
    by_cases hb : isRoot = true
    · rw [if_pos hb, if_pos (hroot_pp hb)]
    · rcases h with h | h
      · rw [if_neg hb, if_neg h]
      · exact absurd h hb
  · intro h0 hb
    rw [hfile, hdir, if_pos h0, h0]
    simp only [hb, Bool.false_eq_true, if_false, List.nil_append, and_self]

theorem GetPath_file_dir_witness :
    ∃ pp, (TreeNode.GetPath (TreeNode.dir (some 1)) (siblingHandle ['d'])).1 = Res.ok pp ∧
      (TreeNode.GetPath (TreeNode.file 0) (siblingHandle ['d'])).1 =
        Res.ok (if false = true then ['s'] else pp ++ '/' :: ['s']) ∧
      (TreeNode.GetPath (TreeNode.dir (some 2)) (siblingHandle ['d'])).1 =
        Res.ok (if pp = [] then ['s'] else pp ++ '/' :: ['s']) ∧
      ((pp ≠ [] ∨ false = true) →
        (TreeNode.GetPath (TreeNode.file 0) (siblingHandle ['d'])).1 =
          (TreeNode.GetPath (TreeNode.dir (some 2)) (siblingHandle ['d'])).1) ∧
      (pp = [] → false = false →
        (TreeNode.GetPath (TreeNode.file 0) (siblingHandle ['d'])).1 = Res.ok ('/' :: ['s']) ∧
        (TreeNode.GetPath (TreeNode.dir (some 2)) (siblingHandle ['d'])).1 = Res.ok ['s']) :=
  GetPath_file_dir (siblingHandle ['d']) 1 [0] 0 2 ['s'] false (by decide!) (by decide!)
    (by decide!) (by decide!)

/-- C32 fails on this archive, for a parent with the empty name that is not the root: in the
tree root -> "" -> { file "s", directory "s" } the parent chain of the directory ""
is finite, the file and the directory have it as parent and the same name, and
`GetPath` returns "/s" for the File node and "s" for the Directory node. With the
parent named "d" both return "d/s". -/
theorem GetPath_file_dir_counterexample :
    Open refUTF16LE refUTF32LE (some (siblingArchive [])) =
      Res.ok (openBody (newGGPKFile refUTF16LE refUTF32LE (siblingArchive []))).2 ∧
    (siblingHandle []).dirRecords.map (fun d => (d.Name, d.parent)) =
      [([], none), ([], some 0), (['s'], some 1)] ∧
    (siblingHandle []).fileRecords.map (fun r => (r.Name, r.parent)) = [(['s'], some 1)] ∧
    isParentChain (siblingHandle []).dirRecords [1, 0] = true ∧
    (TreeNode.GetPath (TreeNode.file 0) (siblingHandle [])).1 = Res.ok ['/', 's'] ∧
    (TreeNode.GetPath (TreeNode.dir (some 2)) (siblingHandle [])).1 = Res.ok ['s'] ∧
    (TreeNode.GetPath (TreeNode.file 0) (siblingHandle ['d'])).1 = Res.ok ['d', '/', 's'] ∧
    (TreeNode.GetPath (TreeNode.dir (some 2)) (siblingHandle ['d'])).1 = Res.ok ['d', '/', 's'] :=
  ⟨Open_of_openBody (by decide!), by decide!, by decide!, by decide!, by decide!, by decide!,
    by decide!, by decide!⟩

/-! ## What a parse does to the stores -/

theorem iothen_bind_io {α β : Type} {m : M α} {k : α → M β}
    {Q : GGPKFile → β → GGPKFile → Prop}
    (hQ : ∀ g g1 b g2, IOStep g g1 → Q g1 b g2 → Q g b g2)
    (hm : Keeps IOStep m) (hk : ∀ a, IOThen (k a) Q) : IOThen (m >>= k) Q := by
  intro g
  rw [bind_apply]
  have h1 := hm g
  rcases hrun : m g with ⟨r, g1⟩
  rw [hrun] at h1
  cases r with
  | ok a =>
    have h2 := hk a g1
    simp only
    rcases hrun2 : k a g1 with ⟨r2, g2⟩
    rw [hrun2] at h2
    cases r2 with
    | ok b => exact hQ _ _ _ _ h1 h2
    | err e => exact ioStep_trans _ _ _ h1 h2
    | crash => exact ioStep_trans _ _ _ h1 h2
  | err e => exact h1
  | crash => exact h1

theorem iothen_fail {α : Type} (e : GoError) (Q : GGPKFile → α → GGPKFile → Prop) :
    IOThen (fail e : M α) Q := fun g => ioStep_refl g

theorem added_io (o : Int) (g g1 : GGPKFile) (ref : RecordRef) (g2 : GGPKFile)
    (h : IOStep g g1) (hq : Added o g1 ref g2) : Added o g ref g2 := by
  obtain ⟨g0, h0, hrest⟩ := hq
  exact ⟨g0, ioStep_trans _ _ _ h h0, hrest⟩

theorem iothen_mono {α : Type} {m : M α} {Q Q1 : GGPKFile → α → GGPKFile → Prop}
    (h : IOThen m Q) (hq : ∀ g a g1, Q g a g1 → Q1 g a g1) : IOThen m Q1 := by
  intro g
  have h1 := h g
  rcases hrun : m g with ⟨r, g1⟩
  rw [hrun] at h1
  cases r with
  | ok a => exact hq _ _ _ h1
  | err e => exact h1
  | crash => exact h1

theorem iothen_parseFileRecordBody (o : Int) (length : Int) (tag : Nat) :
    IOThen (parseFileRecordBody o { Offset := o, Length := length, Tag := tag })
      (fun g p g1 => Added o g (RecordRef.file p) g1) := by
  unfold parseFileRecordBody
  refine iothen_bind_io (fun g g1 b g2 => added_io o g g1 _ g2) io_readUint32 fun n => ?_
  refine iothen_bind_io (fun g g1 b g2 => added_io o g g1 _ g2) (io_readFull _) fun hash => ?_
  refine iothen_bind_io (fun g g1 b g2 => added_io o g g1 _ g2) (io_readName _) fun name => ?_
  refine iothen_bind_io (fun g g1 b g2 => added_io o g g1 _ g2) io_getState fun gf => ?_
  refine iothen_bind_io (fun g g1 b g2 => added_io o g g1 _ g2) (io_seekStart _ _) fun _ => ?_
  intro g
  exact ⟨g, ioStep_refl g, Or.inr (Or.inl ⟨_, rfl, rfl, rfl⟩)⟩

theorem readEntries_length :
    ∀ (c : Nat) (g g1 : GGPKFile) (es : List DirectoryEntry),
      readEntries c g = (Res.ok es, g1) → es.length = c := by
  intro c
  induction c with
  | zero =>
    intro g g1 es h
    cases h
    rfl
  | succ k ih =>
    intro g g1 es h
    unfold readEntries at h
    obtain ⟨a, ga, h1, h⟩ := bind_eq_ok.mp h
    obtain ⟨b, gb, h2, h⟩ := bind_eq_ok.mp h
    obtain ⟨rest, gc, h3, h⟩ := bind_eq_ok.mp h
    simp only [pure_apply, Prod.mk.injEq, Res.ok.injEq] at h
    rw [← h.1, List.length_cons, ih gb gc rest h3]

theorem iothen_parseDirectoryRecordBody (o : Int) (length : Int) (tag : Nat) :
    IOThen (parseDirectoryRecordBody o { Offset := o, Length := length, Tag := tag } [])
      (fun g p g1 => Added o g (RecordRef.dir p) g1) := by
  unfold parseDirectoryRecordBody
  refine iothen_bind_io (fun g g1 b g2 => added_io o g g1 _ g2) io_readUint32 fun n => ?_
  refine iothen_bind_io (fun g g1 b g2 => added_io o g g1 _ g2) io_readUint32 fun c => ?_
  refine iothen_bind_io (fun g g1 b g2 => added_io o g g1 _ g2) (io_readFull _) fun hash => ?_
  refine iothen_bind_io (fun g g1 b g2 => added_io o g g1 _ g2) ?_ fun name => ?_
  · rw [if_neg (fun hh => hh.1 rfl)]
    exact io_readName n
  · intro g
    rw [bind_apply]
    have hio := io_readEntries c g
    rcases hrun : readEntries c g with ⟨r, g1⟩
    rw [hrun] at hio
    cases r with
    | ok es =>
      have hlen := readEntries_length c g g1 es hrun
      exact ⟨g1, hio, Or.inl ⟨_, rfl, rfl, rfl, rfl, rfl, hlen⟩⟩
    | err e => exact hio
    | crash => exact hio

theorem iothen_parseFreeRecordBody (o : Int) (length : Int) (tag : Nat) :
    IOThen (parseFreeRecordBody o { Offset := o, Length := length, Tag := tag })
      (fun g p g1 => Added o g (RecordRef.free p) g1) := by
  unfold parseFreeRecordBody
  refine iothen_bind_io (fun g g1 b g2 => added_io o g g1 _ g2) io_readInt64 fun nx => ?_
  refine iothen_bind_io (fun g g1 b g2 => added_io o g g1 _ g2) io_currentOffset fun cur => ?_
  refine iothen_bind_io (fun g g1 b g2 => added_io o g g1 _ g2) ?_ fun _ => ?_
  · split
    · exact io_seekStart _ _
    · exact io_pure _
  · intro g
    exact ⟨g, ioStep_refl g, Or.inr (Or.inr (Or.inr ⟨_, rfl, rfl⟩))⟩

theorem iothen_parseGGPKRecordBody (o : Int) :
    IOThen (parseGGPKRecordBody o) (fun g p g1 => Added o g (RecordRef.ggpk p) g1) := by
  unfold parseGGPKRecordBody
  refine iothen_bind_io (fun g g1 b g2 => added_io o g g1 _ g2)
    (io_readRecordHeaderAndSeek o) fun hdr => ?_
  obtain ⟨len, tag⟩ := hdr
  simp only
  split
  · exact iothen_fail _ _
  · refine iothen_bind_io (fun g g1 b g2 => added_io o g g1 _ g2) io_readUint32 fun v => ?_
    refine iothen_bind_io (fun g g1 b g2 => added_io o g g1 _ g2) io_readInt64 fun r => ?_
    refine iothen_bind_io (fun g g1 b g2 => added_io o g g1 _ g2) io_readInt64 fun fr => ?_
    intro g
    exact ⟨g, ioStep_refl g, Or.inr (Or.inr (Or.inl ⟨_, rfl, rfl⟩))⟩

theorem iothen_map {α β : Type} {m : M α} (f : α → β) {Q : GGPKFile → β → GGPKFile → Prop}
    (h : IOThen m fun g a g1 => Q g (f a) g1) :
    IOThen (m >>= fun a => pure (f a)) Q := by
  intro g
  rw [bind_apply]
  have h1 := h g
  rcases hrun : m g with ⟨r, g1⟩
  rw [hrun] at h1
  cases r with
  | ok a => exact h1
  | err e => exact h1
  | crash => exact h1

theorem iothen_parseByTag (o length : Int) (tag : Nat) :
    IOThen (parseByTag o length tag) (Added o) := by
  unfold parseByTag
  simp only
  split
  · exact iothen_map RecordRef.ggpk (iothen_parseGGPKRecordBody o)
  · split
    · exact iothen_map RecordRef.dir (iothen_parseDirectoryRecordBody o length tag)
    · split
      · exact iothen_map RecordRef.file (iothen_parseFileRecordBody o length tag)
      · split
        · exact iothen_map RecordRef.free (iothen_parseFreeRecordBody o length tag)
        · exact iothen_bind_io (fun g g1 b g2 => added_io o g g1 _ g2) (io_seekStart _ _)
            fun _ => iothen_fail _ _

/-- The three ways a call of `ReadRecordAt` can go: a cache hit, which changes
nothing; a failure, after which only the byte source's position and log and the
string buffer differ; a successful parse, which stores one record and caches it. -/
theorem ReadRecordAt_cases (o : Int) (g : GGPKFile) :
    (∃ r, g.recordCache o = some r ∧ ReadRecordAt o g = (Res.ok r, g)) ∨
    (g.recordCache o = none ∧ (∀ r, (ReadRecordAt o g).1 ≠ Res.ok r) ∧
      IOStep g (ReadRecordAt o g).2) ∨
    (g.recordCache o = none ∧ ∃ r g1, Added o g r g1 ∧
      ReadRecordAt o g =
        (Res.ok r, { g1 with recordCache := fun k => if k = o then some r else g1.recordCache k })) := by
  cases hc : g.recordCache o with
  | some r =>
    left
    refine ⟨r, rfl, ?_⟩
    unfold ReadRecordAt
    rw [hc]
  | none =>
    right
    have hrun : ReadRecordAt o g =
        (do
          let (length, tag) ← readRecordHeaderAndSeek o
          let parsedRecord ← parseByTag o length tag
          cacheStore o parsedRecord
          pure parsedRecord) g := by
      unfold ReadRecordAt
      rw [hc]
    have key : IOThen (do
          let (length, tag) ← readRecordHeaderAndSeek o
          parseByTag o length tag) (Added o) :=
      iothen_bind_io (fun g g1 b g2 => added_io o g g1 _ g2) (io_readRecordHeaderAndSeek o)
        fun hdr => iothen_parseByTag o hdr.1 hdr.2
    have h1 := key g
    rw [bind_apply] at h1 hrun
    rcases hh : readRecordHeaderAndSeek o g with ⟨rh, gh⟩
    rw [hh] at h1 hrun
    cases rh with
    | ok hdr =>
      obtain ⟨len, tag⟩ := hdr
      simp only at h1 hrun
      rw [bind_apply] at hrun
      rcases hp : parseByTag o len tag gh with ⟨rp, gp⟩
      rw [hp] at h1 hrun
      cases rp with
      | ok r =>
        right
        exact ⟨rfl, r, gp, h1, hrun⟩
      | err e =>
        left
        simp only at hrun h1
        rw [hrun]
        exact ⟨rfl, fun r h => Res.noConfusion h, h1⟩
      | crash =>
        left
        simp only at hrun h1
        rw [hrun]
        exact ⟨rfl, fun r h => Res.noConfusion h, h1⟩
    | err e =>
      left
      simp only at hrun h1
      rw [hrun]
      exact ⟨rfl, fun r h => Res.noConfusion h, h1⟩
    | crash =>
      left
      simp only at hrun h1
      rw [hrun]
      exact ⟨rfl, fun r h => Res.noConfusion h, h1⟩

/-! ## The links between cache, records and children are kept -/

theorem linkedChild_congr {g g1 : GGPKFile} (h2 : g1.recordCache = g.recordCache)
    (h3 : g1.dirRecords = g.dirRecords) (h4 : g1.fileRecords = g.fileRecords)
    {q : Nat} {d : DirectoryRecord} {node : TreeNode} (h : LinkedChild g q d node) :
    LinkedChild g1 q d node := by
  unfold LinkedChild at h ⊢
  rw [h2, h3, h4]
  exact h

theorem linked_congr {g g1 : GGPKFile} (h1 : g1.Root = g.Root)
    (h2 : g1.recordCache = g.recordCache) (h3 : g1.dirRecords = g.dirRecords)
    (h4 : g1.fileRecords = g.fileRecords) (h : Linked g) : Linked g1 := by
  refine ⟨?_, ?_, ?_, ?_, ?_, ?_⟩
  · rw [h1, h3]
    exact h.root
  · rw [h2, h3]
    exact h.cacheDir
  · rw [h2, h4]
    exact h.cacheFile
  · rw [h3]
    exact h.counts
  · rw [h3]
    exact h.clean
  · rw [h3]
    intro q d cs hd hc hcs node hn
    exact linkedChild_congr h2 h3 h4 (h.kids q d cs hd hc hcs node hn)

theorem linked_of_ioStep {g g1 : GGPKFile} (hio : IOStep g g1) (h : Linked g) : Linked g1 :=
  linked_congr hio.Root hio.recordCache hio.dirRecords hio.fileRecords h

theorem getElem?_append_singleton_cases {α : Type} {l : List α} {a d : α} {p : Nat}
    (h : (l ++ [a])[p]? = some d) : l[p]? = some d ∨ (p = l.length ∧ d = a) := by
  by_cases hp : p < l.length
  · left
    rw [List.getElem?_append_left hp] at h
    exact h
  · right
    rw [List.getElem?_append_right (not_lt.mp hp)] at h
    have hlt : p - l.length < 1 := by
      by_contra hge
      have hge1 : ([a] : List α).length ≤ p - l.length := by
        rw [List.length_singleton]
        omega
      rw [List.getElem?_eq_none hge1] at h
      cases h
    have h0 : p - l.length = 0 := by omega
    rw [h0] at h
    simp only [List.getElem?_cons_zero, Option.some.injEq] at h
    exact ⟨by omega, h.symm⟩

/-- The links survive when records are added that nothing points at yet, and the
one new cache entry points at a record with the offset it is cached at. -/
theorem linked_extend {g g1 : GGPKFile} (o : Int) (h : Linked g)
    (hmiss : g.recordCache o = none) (hroot : g1.Root = g.Root)
    (hdirOld : ∀ (p : Nat) (d : DirectoryRecord),
      g.dirRecords[p]? = some d → g1.dirRecords[p]? = some d)
    (hdirNew : ∀ (p : Nat) (d : DirectoryRecord),
      g1.dirRecords[p]? = some d → g.dirRecords[p]? = some d ∨
      (d.childRecordsDirty = true ∧ d.Entries.length = d.EntryCount))
    (hfileOld : ∀ (p : Nat) (r : FileRecord),
      g.fileRecords[p]? = some r → g1.fileRecords[p]? = some r)
    (hcache : ∀ k : Int, k ≠ o → g1.recordCache k = g.recordCache k)
    (hnewDir : ∀ p : Nat, g1.recordCache o = some (RecordRef.dir p) →
      ∃ r, g1.dirRecords[p]? = some r ∧ r.Offset = o)
    (hnewFile : ∀ p : Nat, g1.recordCache o = some (RecordRef.file p) →
      ∃ r, g1.fileRecords[p]? = some r ∧ r.Offset = o) : Linked g1 := by
  refine ⟨?_, ?_, ?_, ?_, ?_, ?_⟩
  · intro r hr
    rw [hroot] at hr
    obtain ⟨d, hd, hn, hp⟩ := h.root r hr
    exact ⟨d, hdirOld r d hd, hn, hp⟩
  · intro k p hk
    by_cases hko : k = o
    · subst hko
      exact hnewDir p hk
    · rw [hcache k hko] at hk
      obtain ⟨r, hr, ho⟩ := h.cacheDir k p hk
      exact ⟨r, hdirOld p r hr, ho⟩
  · intro k p hk
    by_cases hko : k = o
    · subst hko
      exact hnewFile p hk
    · rw [hcache k hko] at hk
      obtain ⟨r, hr, ho⟩ := h.cacheFile k p hk
      exact ⟨r, hfileOld p r hr, ho⟩
  · intro p d hd
    rcases hdirNew p d hd with hold | ⟨_, hlen⟩
    · exact h.counts p d hold
    · exact hlen
  · intro p d hd hclean
    rcases hdirNew p d hd with hold | ⟨hdirty, _⟩
    · exact h.clean p d hold hclean
    · rw [hdirty] at hclean
      cases hclean
  · intro q d cs hd hclean hcs node hn
    rcases hdirNew q d hd with hold | ⟨hdirty, _⟩
    · obtain ⟨e, he, hch⟩ := h.kids q d cs hold hclean hcs node hn
      have hne : ∀ ref, g.recordCache e.Offset = some ref → g1.recordCache e.Offset = some ref := by
        intro ref href
        have hko : e.Offset ≠ o := by
          intro heq
          rw [heq, hmiss] at href
          cases href
        rw [hcache _ hko]
        exact href
      refine ⟨e, he, ?_⟩
      rcases hch with ⟨p, r, hnode, hc, hr, hp⟩ | ⟨p, r, hnode, hc, hr, hp⟩
      · exact Or.inl ⟨p, r, hnode, hne _ hc, hdirOld p r hr, hp⟩
      · exact Or.inr ⟨p, r, hnode, hne _ hc, hfileOld p r hr, hp⟩
    · rw [hdirty] at hclean
      cases hclean

/-- `ReadRecordAt` keeps the links, whatever its outcome. -/
theorem linked_ReadRecordAt (o : Int) (g : GGPKFile) (h : Linked g) :
    Linked (ReadRecordAt o g).2 := by
  rcases ReadRecordAt_cases o g with ⟨r, _, hrun⟩ | ⟨_, _, hio⟩ | ⟨hmiss, r, g1, hadd, hrun⟩
  · rw [hrun]
    exact h
  · exact linked_of_ioStep hio h
  · rw [hrun]
    obtain ⟨g0, hio, hvar⟩ := hadd
    have h0 := linked_of_ioStep hio h
    have hmiss0 : g0.recordCache o = none := by
      rw [hio.recordCache]
      exact hmiss
    rcases hvar with ⟨rec, href, hg1, hoff, _, hdirty, hlen⟩ | ⟨rec, href, hg1, hoff⟩ |
      ⟨rec, href, hg1⟩ | ⟨rec, href, hg1⟩
    · subst hg1 href
      refine linked_extend o h0 hmiss0 rfl (fun p d hd => getElem?_append_of_some _ hd)
        (fun p d hd => ?_) (fun p r hr => hr) (fun k hk => if_neg hk) (fun p hp => ?_)
        (fun p hp => ?_)
      · rcases getElem?_append_singleton_cases hd with hold | ⟨_, hd2⟩
        · exact Or.inl hold
        · subst hd2
          exact Or.inr ⟨hdirty, hlen⟩
      · simp only [if_true, Option.some.injEq, RecordRef.dir.injEq] at hp
        subst hp
        exact ⟨rec, getElem?_append_singleton _ _, hoff⟩
      · simp only [if_true, Option.some.injEq] at hp
        cases hp
    · subst hg1 href
      refine linked_extend o h0 hmiss0 rfl (fun p d hd => hd) (fun p d hd => Or.inl hd)
        (fun p r hr => getElem?_append_of_some _ hr) (fun k hk => if_neg hk) (fun p hp => ?_)
        (fun p hp => ?_)
      · simp only [if_true, Option.some.injEq] at hp
        cases hp
      · simp only [if_true, Option.some.injEq, RecordRef.file.injEq] at hp
        subst hp
        exact ⟨rec, getElem?_append_singleton _ _, hoff⟩
    · subst hg1 href
      refine linked_extend o h0 hmiss0 rfl (fun p d hd => hd) (fun p d hd => Or.inl hd)
        (fun p r hr => hr) (fun k hk => if_neg hk) (fun p hp => ?_) (fun p hp => ?_)
      · simp only [if_true, Option.some.injEq] at hp
        cases hp
      · simp only [if_true, Option.some.injEq] at hp
        cases hp
    · subst hg1 href
      refine linked_extend o h0 hmiss0 rfl (fun p d hd => hd) (fun p d hd => Or.inl hd)
        (fun p r hr => hr) (fun k hk => if_neg hk) (fun p hp => ?_) (fun p hp => ?_)
      · simp only [if_true, Option.some.injEq] at hp
        cases hp
      · simp only [if_true, Option.some.injEq] at hp
        cases hp

/-! ## Records keep their base fields, names and entries -/

theorem stable_refl (g : GGPKFile) : Stable g g :=
  ⟨rfl, fun _ r h => ⟨r, h, rfl, rfl, rfl⟩⟩

theorem stable_trans (a b c : GGPKFile) (h1 : Stable a b) (h2 : Stable b c) : Stable a c := by
  refine ⟨by rw [h2.Root, h1.Root], fun p r hr => ?_⟩
  obtain ⟨r1, hr1, hb1, hn1, he1⟩ := h1.dirRecords p r hr
  obtain ⟨r2, hr2, hb2, hn2, he2⟩ := h2.dirRecords p r1 hr1
  exact ⟨r2, hr2, by rw [hb2, hb1], by rw [hn2, hn1], by rw [he2, he1]⟩

theorem stable_of_resolving {dr : Nat} {w : Option Nat} {g g1 : GGPKFile}
    (h : Resolving dr w g g1) : Stable g g1 := by
  refine ⟨h.Root, fun p r hr => ?_⟩
  obtain ⟨r1, hr1, heq, _⟩ := h.dirRecords p r hr
  refine ⟨r1, hr1, ?_, ?_, ?_⟩ <;> rw [heq]

theorem stable_of_state {α : Type} {m : M α} (h : ∀ gf, (m gf).2 = gf) : Keeps Stable m := by
  intro gf
  rw [h gf]
  exact stable_refl gf

theorem getElem?_set_cases {α : Type} {l : List α} {p q : Nat} {a x : α}
    (h : (l.set p a)[q]? = some x) : (q = p ∧ x = a) ∨ (q ≠ p ∧ l[q]? = some x) := by
  by_cases hq : q = p
  · subst hq
    left
    have hlt : q < l.length := by
      by_contra hge
      rw [List.getElem?_eq_none (by simpa using hge)] at h
      cases h
    rw [List.getElem?_set_self hlt] at h
    simp only [Option.some.injEq] at h
    exact ⟨rfl, h.symm⟩
  · right
    rw [List.getElem?_set_ne (Ne.symm hq)] at h
    exact ⟨hq, h⟩

theorem getElem?_set_other {α : Type} {l : List α} {p q : Nat} {a x : α} (hq : q ≠ p)
    (h : l[q]? = some x) : (l.set p a)[q]? = some x := by
  rw [List.getElem?_set_ne (Ne.symm hq)]
  exact h

theorem stable_set {g : GGPKFile} {dr : Nat} {d d2 : DirectoryRecord}
    (hd : g.dirRecords[dr]? = some d) (hb : d2.toBaseRecord = d.toBaseRecord)
    (hn : d2.Name = d.Name) (he : d2.Entries = d.Entries) :
    Stable g { g with dirRecords := g.dirRecords.set dr d2 } := by
  refine ⟨rfl, fun p r hr => ?_⟩
  by_cases hp : p = dr
  · subst hp
    rw [hd] at hr
    cases hr
    exact ⟨d2, getElem?_set_same hd, hb, hn, he⟩
  · exact ⟨r, getElem?_set_other hp hr, rfl, rfl, rfl⟩

theorem stable_set_file (g : GGPKFile) (l : List FileRecord) :
    Stable g { g with fileRecords := l } :=
  ⟨rfl, fun _ r h => ⟨r, h, rfl, rfl, rfl⟩⟩

theorem stable_modifyDir (p : Nat) (f : DirectoryRecord → DirectoryRecord)
    (hf : ∀ d, (f d).toBaseRecord = d.toBaseRecord ∧ (f d).Name = d.Name ∧
      (f d).Entries = d.Entries) : Keeps Stable (modifyDir p f) := by
  intro g
  unfold modifyDir
  cases hd : g.dirRecords[p]? with
  | none => exact stable_refl g
  | some d => exact stable_set hd (hf d).1 (hf d).2.1 (hf d).2.2

theorem stable_getDir (p : Nat) : Keeps Stable (getDir p) := by
  refine stable_of_state fun g => ?_
  unfold getDir
  cases g.dirRecords[p]? <;> rfl

theorem stable_resolveEntries (dr : Nat) (entries : List DirectoryEntry) (i : Nat) :
    Keeps Stable (resolveEntries dr i entries) :=
  fun g => stable_of_resolving (res_resolveEntries dr entries i g)

theorem stable_GetChildren (q : Nat) : Keeps Stable (GetChildren q) := by
  unfold GetChildren
  refine keeps_bind stable_trans (stable_getDir q) fun d => ?_
  split
  · exact stable_of_state fun _ => rfl
  · refine keeps_bind stable_trans (stable_modifyDir q _ fun _ => ⟨rfl, rfl, rfl⟩) fun _ => ?_
    refine keeps_bind stable_trans (stable_resolveEntries q _ 0) fun _ => ?_
    refine keeps_bind stable_trans (stable_modifyDir q _ fun _ => ⟨rfl, rfl, rfl⟩) fun _ => ?_
    refine keeps_bind stable_trans (stable_getDir q) fun _ => ?_
    exact stable_of_state fun _ => rfl

theorem stable_wrapErr {α β : Type} {m : M α} {args : M β}
    (hm : Keeps Stable m) (ha : Keeps Stable args) : Keeps Stable (wrapErr m args) := by
  intro gf
  have h1 := hm gf
  unfold wrapErr
  rcases hrun : m gf with ⟨r, g1⟩
  rw [hrun] at h1
  cases r with
  | ok a => exact h1
  | crash => exact h1
  | err e =>
    have h2 := ha g1
    simp only
    rcases hargs : args g1 with ⟨r2, g2⟩
    rw [hargs] at h2
    cases r2 <;> exact stable_trans _ _ _ h1 h2

theorem stable_FindChildByName (dr : Option Nat) (name : GoString) :
    Keeps Stable (FindChildByName dr name) := by
  cases dr with
  | none =>
    intro gf
    exact stable_refl gf
  | some p =>
    unfold FindChildByName
    refine keeps_bind stable_trans
      (stable_wrapErr (stable_GetChildren p)
        (stable_of_state (DirectoryRecord_GetPath_state _)))
      fun children => keeps_bind stable_trans
        (stable_of_state (scanChildren_state name children)) fun found => ?_
    cases found with
    | some child =>
      intro gf
      exact stable_refl gf
    | none =>
      refine keeps_bind stable_trans
        (stable_of_state (DirectoryRecord_GetPath_state _)) fun _ => ?_
      intro gf
      exact stable_refl gf

theorem stable_walkParts (parts : List GoString) :
    ∀ cur : TreeNode, Keeps Stable (walkParts cur parts) := by
  induction parts with
  | nil =>
    intro cur gf
    exact stable_refl gf
  | cons part rest ih =>
    intro cur
    unfold walkParts
    split
    · exact ih cur
    · cases cur with
      | nil =>
        intro gf
        exact stable_refl gf
      | file p =>
        intro gf
        exact stable_refl gf
      | dir dirNode =>
        exact keeps_bind stable_trans
          (stable_wrapErr (stable_FindChildByName dirNode part)
            (stable_of_state (DirectoryRecord_GetPath_state _)))
          fun child => ih child

theorem stable_GetNodeByPath (path : GoString) : Keeps Stable (GetNodeByPath path) := by
  intro gf
  rw [GetNodeByPath_eq_walk]
  exact stable_walkParts _ _ gf

theorem stable_runCalls (calls : List ApiCall) : ∀ g, Stable g (runCalls calls g) := by
  induction calls with
  | nil => exact stable_refl
  | cons c rest ih =>
    intro g
    cases c with
    | children dr => exact stable_trans _ _ _ (stable_GetChildren dr g) (ih _)
    | lookup path => exact stable_trans _ _ _ (stable_GetNodeByPath path g) (ih _)

/-! ## Unique targets -/

theorem uniqueTargets_iff (g : GGPKFile) :
    UniqueTargets g ↔
      (∀ (p q : Nat) (d1 d2 : DirectoryRecord), g.dirRecords[p]? = some d1 →
        g.dirRecords[q]? = some d2 → ∀ e1 ∈ d1.Entries, ∀ e2 ∈ d2.Entries,
          e1.Offset = e2.Offset → p = q) ∧
      (∀ (p : Nat) (d : DirectoryRecord), g.dirRecords[p]? = some d →
        ∀ e ∈ d.Entries, rootOffset g ≠ some e.Offset) := by
  unfold UniqueTargets
  constructor
  · rintro ⟨h1, h2⟩
    refine ⟨fun p q d1 d2 hp hq e1 he1 e2 he2 ho => ?_, fun p d hp e he => ?_⟩
    · exact h1 (p, d1) (List.mk_mem_enum_iff_getElem?.mpr hp) (q, d2)
        (List.mk_mem_enum_iff_getElem?.mpr hq) e1 he1 e2 he2 ho
    · exact h2 (p, d) (List.mk_mem_enum_iff_getElem?.mpr hp) e he
  · rintro ⟨h1, h2⟩
    refine ⟨fun x hx y hy e1 he1 e2 he2 ho => ?_, fun x hx e he => ?_⟩
    · exact h1 x.1 y.1 x.2 y.2 (List.mk_mem_enum_iff_getElem?.mp hx)
        (List.mk_mem_enum_iff_getElem?.mp hy) e1 he1 e2 he2 ho
    · exact h2 x.1 x.2 (List.mk_mem_enum_iff_getElem?.mp hx) e he

theorem rootOffset_eq_some {g : GGPKFile} {o : Int} (h : rootOffset g = some o) :
    ∃ r d, g.Root = some r ∧ g.dirRecords[r]? = some d ∧ d.Offset = o := by
  unfold rootOffset at h
  cases hr : g.Root with
  | none =>
    rw [hr] at h
    cases h
  | some r =>
    rw [hr] at h
    simp only [Option.some_bind] at h
    cases hd : g.dirRecords[r]? with
    | none =>
      rw [hd] at h
      cases h
    | some d =>
      rw [hd] at h
      simp only [Option.map_some', Option.some.injEq] at h
      exact ⟨r, d, rfl, hd, h⟩

theorem rootOffset_of_root {g : GGPKFile} {r : Nat} {d : DirectoryRecord}
    (hr : g.Root = some r) (hd : g.dirRecords[r]? = some d) : rootOffset g = some d.Offset := by
  unfold rootOffset
  rw [hr]
  simp only [Option.some_bind]
  rw [hd]
  rfl

theorem uniqueTargets_of_stable {g g1 : GGPKFile} (hs : Stable g g1)
    (hu : UniqueTargets g1) : UniqueTargets g := by
  rw [uniqueTargets_iff] at hu ⊢
  obtain ⟨h1, h2⟩ := hu
  refine ⟨fun p q d1 d2 hp hq e1 he1 e2 he2 ho => ?_, fun p d hp e he hroot => ?_⟩
  · obtain ⟨r1, hr1, _, _, hen1⟩ := hs.dirRecords p d1 hp
    obtain ⟨r2, hr2, _, _, hen2⟩ := hs.dirRecords q d2 hq
    exact h1 p q r1 r2 hr1 hr2 e1 (by rw [hen1]; exact he1) e2 (by rw [hen2]; exact he2) ho
  · obtain ⟨r1, hr1, _, _, hen1⟩ := hs.dirRecords p d hp
    obtain ⟨r, d0, hr, hd0, ho⟩ := rootOffset_eq_some hroot
    obtain ⟨d01, hd01, hb, _, _⟩ := hs.dirRecords r d0 hd0
    refine h2 p r1 hr1 e (by rw [hen1]; exact he) ?_
    rw [rootOffset_of_root (hs.Root.trans hr) hd01]
    have : d01.Offset = d0.Offset := congrArg BaseRecord.Offset hb
    rw [this, ho]

theorem dirty_of_resolving {dr : Nat} {w : Option Nat} {E : List DirectoryEntry}
    {g g1 : GGPKFile} {q : Nat} (h : Resolving q w g g1) (hd : Dirty dr E g) : Dirty dr E g1 := by
  obtain ⟨d, hd, hdirty, hE⟩ := hd
  obtain ⟨r1, hr1, heq, _⟩ := h.dirRecords dr d hd
  refine ⟨r1, hr1, ?_, ?_⟩
  · rw [heq]
    exact hdirty
  · rw [heq]
    exact hE

/-! ## Assignments to one record keep the links -/

/-- Replacing the directory record behind `p` keeps the links when offset, entries
and entry count stay, the root keeps its shape, a replacement with the dirty flag
cleared comes with linked children, and the parent stays the directory that lists
`p` among its resolved children. -/
theorem linked_set_dir {g : GGPKFile} {p : Nat} {r r2 : DirectoryRecord} (h : Linked g)
    (hr : g.dirRecords[p]? = some r) (hoff : r2.Offset = r.Offset)
    (hent : r2.Entries = r.Entries) (hcount : r2.EntryCount = r.EntryCount)
    (hroot : g.Root = some p → r2.Name = [] ∧ r2.parent = none)
    (hclean : r2.childRecordsDirty = false → ∃ cs, r2.Children = some cs ∧
      cs.length = r2.EntryCount ∧
      ∀ node ∈ cs, LinkedChild { g with dirRecords := g.dirRecords.set p r2 } p r2 node)
    (hkid : ∀ (q : Nat) (dq : DirectoryRecord) (cs : List TreeNode), q ≠ p →
      g.dirRecords[q]? = some dq → dq.childRecordsDirty = false → dq.Children = some cs →
      TreeNode.dir (some p) ∈ cs → r2.parent = some q) :
    Linked { g with dirRecords := g.dirRecords.set p r2 } := by
  have hnew : ∀ (q : Nat) (x : DirectoryRecord), g.dirRecords[q]? = some x →
      ∃ x1, (g.dirRecords.set p r2)[q]? = some x1 ∧ x1.Offset = x.Offset := by
    intro q x hx
    by_cases hq : q = p
    · subst hq
      rw [hr] at hx
      cases hx
      exact ⟨r2, getElem?_set_same hr, hoff⟩
    · exact ⟨x, getElem?_set_other hq hx, rfl⟩
  refine ⟨?_, ?_, ?_, ?_, ?_, ?_⟩
  · intro r0 hr0
    obtain ⟨d0, hd0, hn, hp⟩ := h.root r0 hr0
    by_cases hq : r0 = p
    · subst hq
      exact ⟨r2, getElem?_set_same hr, (hroot hr0).1, (hroot hr0).2⟩
    · exact ⟨d0, getElem?_set_other hq hd0, hn, hp⟩
  · intro o q hc
    obtain ⟨x, hx, hxo⟩ := h.cacheDir o q hc
    obtain ⟨x1, hx1, hxo1⟩ := hnew q x hx
    exact ⟨x1, hx1, by rw [hxo1, hxo]⟩
  · exact h.cacheFile
  · intro q d hd
    rcases getElem?_set_cases hd with ⟨_, rfl⟩ | ⟨_, hold⟩
    · rw [hent, hcount]
      exact h.counts p r hr
    · exact h.counts q d hold
  · intro q d hd hc
    rcases getElem?_set_cases hd with ⟨_, rfl⟩ | ⟨_, hold⟩
    · obtain ⟨cs, hcs, hlen, _⟩ := hclean hc
      exact ⟨cs, hcs, hlen⟩
    · exact h.clean q d hold hc
  · intro q d cs hd hc hcs node hnode
    rcases getElem?_set_cases hd with ⟨hq, rfl⟩ | ⟨hq, hold⟩
    · subst hq
      obtain ⟨cs1, hcs1, _, hall⟩ := hclean hc
      rw [hcs1] at hcs
      cases hcs
      exact hall node hnode
    · obtain ⟨e, he, hch⟩ := h.kids q d cs hold hc hcs node hnode
      refine ⟨e, he, ?_⟩
      rcases hch with ⟨p1, r1, hn1, hc1, hr1, hp1⟩ | ⟨p1, r1, hn1, hc1, hr1, hp1⟩
      · left
        by_cases hp : p1 = p
        · subst hp
          refine ⟨p1, r2, hn1, hc1, getElem?_set_same hr, ?_⟩
          rw [hn1] at hnode
          exact hkid q d cs hq hold hc hcs hnode
        · exact ⟨p1, r1, hn1, hc1, getElem?_set_other hp hr1, hp1⟩
      · exact Or.inr ⟨p1, r1, hn1, hc1, hr1, hp1⟩

/-- Replacing the file record behind `p` keeps the links when its offset stays and
the parent stays the directory that lists `p` among its resolved children. -/
theorem linked_set_file {g : GGPKFile} {p : Nat} {r r2 : FileRecord} (h : Linked g)
    (hr : g.fileRecords[p]? = some r) (hoff : r2.Offset = r.Offset)
    (hkid : ∀ (q : Nat) (dq : DirectoryRecord) (cs : List TreeNode),
      g.dirRecords[q]? = some dq → dq.childRecordsDirty = false → dq.Children = some cs →
      TreeNode.file p ∈ cs → r2.parent = some q) :
    Linked { g with fileRecords := g.fileRecords.set p r2 } := by
  refine ⟨h.root, h.cacheDir, ?_, h.counts, h.clean, ?_⟩
  · intro o q hc
    obtain ⟨x, hx, hxo⟩ := h.cacheFile o q hc
    by_cases hq : q = p
    · subst hq
      rw [hr] at hx
      cases hx
      exact ⟨r2, getElem?_set_same hr, by rw [hoff, hxo]⟩
    · exact ⟨x, getElem?_set_other hq hx, hxo⟩
  · intro q d cs hd hc hcs node hnode
    obtain ⟨e, he, hch⟩ := h.kids q d cs hd hc hcs node hnode
    refine ⟨e, he, ?_⟩
    rcases hch with ⟨p1, r1, hn1, hc1, hr1, hp1⟩ | ⟨p1, r1, hn1, hc1, hr1, hp1⟩
    · exact Or.inl ⟨p1, r1, hn1, hc1, hr1, hp1⟩
    · right
      by_cases hp : p1 = p
      · subst hp
        refine ⟨p1, r2, hn1, hc1, getElem?_set_same hr, ?_⟩
        rw [hn1] at hnode
        exact hkid q d cs hd hc hcs hnode
      · exact ⟨p1, r1, hn1, hc1, getElem?_set_other hp hr1, hp1⟩

/-- With unique targets, the directory record cached at the target of an entry of a
dirty directory is no resolved child of any directory. -/
theorem no_clean_parent_dir {g : GGPKFile} {dr p q : Nat} {d dq : DirectoryRecord}
    {e : DirectoryEntry} {cs : List TreeNode} (h : Linked g) (hu : UniqueTargets g)
    (hd : g.dirRecords[dr]? = some d) (hdirty : d.childRecordsDirty = true)
    (he : e ∈ d.Entries) (hc : g.recordCache e.Offset = some (RecordRef.dir p))
    (hq : g.dirRecords[q]? = some dq) (hclean : dq.childRecordsDirty = false)
    (hcs : dq.Children = some cs) (hnode : TreeNode.dir (some p) ∈ cs) : False := by
  obtain ⟨e1, he1, hch⟩ := h.kids q dq cs hq hclean hcs _ hnode
  have hoff : e1.Offset = e.Offset := by
    rcases hch with ⟨p1, r1, hn1, hc1, _, _⟩ | ⟨p1, r1, hn1, _, _, _⟩
    · cases hn1
      obtain ⟨x, hx, hxo⟩ := h.cacheDir _ _ hc1
      obtain ⟨y, hy, hyo⟩ := h.cacheDir _ _ hc
      rw [hx] at hy
      cases hy
      rw [← hxo, hyo]
    · cases hn1
  have hqdr := ((uniqueTargets_iff g).mp hu).1 q dr dq d hq hd e1 he1 e he hoff
  subst hqdr
  rw [hq] at hd
  cases hd
  rw [hclean] at hdirty
  cases hdirty

theorem no_clean_parent_file {g : GGPKFile} {dr p q : Nat} {d dq : DirectoryRecord}
    {e : DirectoryEntry} {cs : List TreeNode} (h : Linked g) (hu : UniqueTargets g)
    (hd : g.dirRecords[dr]? = some d) (hdirty : d.childRecordsDirty = true)
    (he : e ∈ d.Entries) (hc : g.recordCache e.Offset = some (RecordRef.file p))
    (hq : g.dirRecords[q]? = some dq) (hclean : dq.childRecordsDirty = false)
    (hcs : dq.Children = some cs) (hnode : TreeNode.file p ∈ cs) : False := by
  obtain ⟨e1, he1, hch⟩ := h.kids q dq cs hq hclean hcs _ hnode
  have hoff : e1.Offset = e.Offset := by
    rcases hch with ⟨p1, r1, hn1, _, _, _⟩ | ⟨p1, r1, hn1, hc1, _, _⟩
    · cases hn1
    · cases hn1
      obtain ⟨x, hx, hxo⟩ := h.cacheFile _ _ hc1
      obtain ⟨y, hy, hyo⟩ := h.cacheFile _ _ hc
      rw [hx] at hy
      cases hy
      rw [← hxo, hyo]
  have hqdr := ((uniqueTargets_iff g).mp hu).1 q dr dq d hq hd e1 he1 e he hoff
  subst hqdr
  rw [hq] at hd
  cases hd
  rw [hclean] at hdirty
  cases hdirty

/-- The parent assignment of `ReadDirectoryRecordAt`, for the record cached at the
target of an entry of the dirty directory `dr`. -/
theorem linked_set_parent_dir {g : GGPKFile} {dr p : Nat} {d r r2 : DirectoryRecord}
    {e : DirectoryEntry} (h : Linked g) (hu : UniqueTargets g)
    (hd : g.dirRecords[dr]? = some d) (hdirty : d.childRecordsDirty = true)
    (he : e ∈ d.Entries) (hc : g.recordCache e.Offset = some (RecordRef.dir p))
    (hr : g.dirRecords[p]? = some r) (hr2 : r2 = { r with parent := r2.parent }) :
    Linked { g with dirRecords := g.dirRecords.set p r2 } := by
  have hfix : ∀ (q : Nat) (dq : DirectoryRecord) (cs : List TreeNode),
      g.dirRecords[q]? = some dq → dq.childRecordsDirty = false → dq.Children = some cs →
      TreeNode.dir (some p) ∈ cs → False :=
    fun q dq cs hq hclean hcs hnode =>
      no_clean_parent_dir h hu hd hdirty he hc hq hclean hcs hnode
  have hroff : r.Offset = e.Offset := by
    obtain ⟨x, hx, hxo⟩ := h.cacheDir _ _ hc
    rw [hr] at hx
    cases hx
    exact hxo
  refine linked_set_dir h hr (by rw [hr2]) (by rw [hr2]) (by rw [hr2]) ?_ ?_ ?_
  · intro hroot
    exfalso
    refine ((uniqueTargets_iff g).mp hu).2 dr d hd e he ?_
    rw [rootOffset_of_root hroot hr, hroff]
  · intro hclean
    have hclean1 : r.childRecordsDirty = false := by
      rw [hr2] at hclean
      exact hclean
    obtain ⟨cs, hcs, hlen⟩ := h.clean p r hr hclean1
    refine ⟨cs, by rw [hr2]; exact hcs, by rw [hr2]; exact hlen, fun node hnode => ?_⟩
    obtain ⟨e1, he1, hch⟩ := h.kids p r cs hr hclean1 hcs node hnode
    refine ⟨e1, by rw [hr2]; exact he1, ?_⟩
    rcases hch with ⟨p1, r1, hn1, hc1, hr1, hp1⟩ | ⟨p1, r1, hn1, hc1, hr1, hp1⟩
    · left
      have hp : p1 ≠ p := by
        rintro rfl
        rw [hn1] at hnode
        exact hfix p1 r cs hr hclean1 hcs hnode
      exact ⟨p1, r1, hn1, hc1, getElem?_set_other hp hr1, hp1⟩
    · exact Or.inr ⟨p1, r1, hn1, hc1, hr1, hp1⟩
  · intro q dq cs _ hq hclean hcs hnode
    exact (hfix q dq cs hq hclean hcs hnode).elim

/-- The parent assignment of `ReadFileRecordAt`, for the record cached at the target
of an entry of the dirty directory `dr`. -/
theorem linked_set_parent_file {g : GGPKFile} {dr p : Nat} {d : DirectoryRecord}
    {r r2 : FileRecord} {e : DirectoryEntry} (h : Linked g) (hu : UniqueTargets g)
    (hd : g.dirRecords[dr]? = some d) (hdirty : d.childRecordsDirty = true)
    (he : e ∈ d.Entries) (hc : g.recordCache e.Offset = some (RecordRef.file p))
    (hr : g.fileRecords[p]? = some r) (hoff : r2.Offset = r.Offset) :
    Linked { g with fileRecords := g.fileRecords.set p r2 } :=
  linked_set_file h hr hoff fun _ _ _ hq hclean hcs hnode =>
    (no_clean_parent_file h hu hd hdirty he hc hq hclean hcs hnode).elim

/-- Replacing a dirty directory record by a dirty one with the same offset, name,
parent, entries and entry count keeps the links. -/
theorem linked_set_dirty {g : GGPKFile} {p : Nat} {r r2 : DirectoryRecord} (h : Linked g)
    (hr : g.dirRecords[p]? = some r) (hoff : r2.Offset = r.Offset)
    (hent : r2.Entries = r.Entries) (hcount : r2.EntryCount = r.EntryCount)
    (hname : r2.Name = r.Name) (hpar : r2.parent = r.parent)
    (hdirty : r2.childRecordsDirty = true) :
    Linked { g with dirRecords := g.dirRecords.set p r2 } := by
  refine linked_set_dir h hr hoff hent hcount ?_ ?_ ?_
  · intro hroot
    obtain ⟨d0, hd0, hn, hp⟩ := h.root p hroot
    rw [hr] at hd0
    cases hd0
    exact ⟨by rw [hname, hn], by rw [hpar, hp]⟩
  · intro hc
    rw [hdirty] at hc
    cases hc
  · intro q dq cs _ hq hclean hcs hnode
    obtain ⟨e1, _, hch⟩ := h.kids q dq cs hq hclean hcs _ hnode
    rcases hch with ⟨p1, r1, hn1, _, hr1, hp1⟩ | ⟨p1, r1, hn1, _, _, _⟩
    · cases hn1
      rw [hr] at hr1
      cases hr1
      rw [hpar, hp1]
    · cases hn1

/-! ## The loop of `GetChildren` keeps the links -/

theorem linked_ReadDirectoryRecordAt {dr : Nat} {E : List DirectoryEntry} {e : DirectoryEntry}
    {g : GGPKFile} (h : Linked g) (hd : Dirty dr E g) (he : e ∈ E)
    (hu : UniqueTargets (ReadDirectoryRecordAt e.Offset (some dr) [] g).2) :
    Linked (ReadDirectoryRecordAt e.Offset (some dr) [] g).2 := by
  unfold ReadDirectoryRecordAt at hu ⊢
  by_cases h0 : e.Offset = 0
  · rw [if_pos h0]
    exact h
  · rw [if_neg h0, bind_apply] at hu ⊢
    have hl1 := linked_ReadRecordAt e.Offset g h
    have hd1 := dirty_of_resolving (res_ReadRecordAt dr none e.Offset g) hd
    rcases hrun : ReadRecordAt e.Offset g with ⟨res, g1⟩
    rw [hrun] at hl1 hd1 hu
    simp only at hl1 hd1 hu ⊢
    cases res with
    | err x => exact hl1
    | crash => exact hl1
    | ok ref =>
      have hc := ReadRecordAt_cache_after hrun
      cases ref with
      | ggpk p => exact hl1
      | free p => exact hl1
      | file p => exact hl1
      | dir p =>
        obtain ⟨r, hr, _⟩ := hl1.cacheDir _ _ hc
        simp only at hu ⊢
        rw [bind_apply, modifyDir_run _ hr] at hu ⊢
        simp only [pure_apply] at hu ⊢
        obtain ⟨d, hdr, hdirty, hE⟩ := hd1
        have hu1 : UniqueTargets g1 := by
          refine uniqueTargets_of_stable (stable_set hr ?_ ?_ ?_) hu
          · rfl
          · simp
          · rfl
        refine linked_set_parent_dir hl1 hu1 hdr hdirty (by rw [hE]; exact he) hc hr ?_
        simp

theorem linked_ReadFileRecordAt {dr : Nat} {E : List DirectoryEntry} {e : DirectoryEntry}
    {g : GGPKFile} (h : Linked g) (hd : Dirty dr E g) (he : e ∈ E)
    (hu : UniqueTargets (ReadFileRecordAt e.Offset (some dr) g).2) :
    Linked (ReadFileRecordAt e.Offset (some dr) g).2 := by
  unfold ReadFileRecordAt at hu ⊢
  by_cases h0 : e.Offset = 0
  · rw [if_pos h0]
    exact h
  · rw [if_neg h0, bind_apply] at hu ⊢
    have hl1 := linked_ReadRecordAt e.Offset g h
    have hd1 := dirty_of_resolving (res_ReadRecordAt dr none e.Offset g) hd
    rcases hrun : ReadRecordAt e.Offset g with ⟨res, g1⟩
    rw [hrun] at hl1 hd1 hu
    simp only at hl1 hd1 hu ⊢
    cases res with
    | err x => exact hl1
    | crash => exact hl1
    | ok ref =>
      have hc := ReadRecordAt_cache_after hrun
      cases ref with
      | ggpk p => exact hl1
      | free p => exact hl1
      | dir p => exact hl1
      | file p =>
        obtain ⟨r, hr, _⟩ := hl1.cacheFile _ _ hc
        simp only at hu ⊢
        have hm : modifyFile p (fun r => { r with parent := some dr }) g1 =
            (Res.ok (), { g1 with fileRecords := g1.fileRecords.set p { r with parent := some dr } }) := by
          unfold modifyFile
          rw [hr]
        rw [bind_apply, hm] at hu ⊢
        simp only [pure_apply] at hu ⊢
        obtain ⟨d, hdr, hdirty, hE⟩ := hd1
        have hu1 : UniqueTargets g1 := uniqueTargets_of_stable (stable_set_file g1 _) hu
        exact linked_set_parent_file hl1 hu1 hdr hdirty (by rw [hE]; exact he) hc hr rfl

theorem bind_pure_state {α β : Type} (m : M α) (f : α → β) (g : GGPKFile) :
    ((m >>= fun a => (pure (f a) : M β)) g).2 = (m g).2 := by
  rw [bind_apply]
  rcases m g with ⟨r, g1⟩
  cases r <;> rfl

theorem linked_resolveEntry {dr : Nat} {E : List DirectoryEntry} {e : DirectoryEntry}
    {g : GGPKFile} (h : Linked g) (hd : Dirty dr E g) (he : e ∈ E)
    (hu : UniqueTargets (resolveEntry dr e g).2) : Linked (resolveEntry dr e g).2 := by
  unfold resolveEntry at hu ⊢
  rw [bind_apply] at hu ⊢
  have hio := io_readRecordHeaderAndSeek e.Offset g
  rcases hrun : readRecordHeaderAndSeek e.Offset g with ⟨res, g1⟩
  rw [hrun] at hio hu
  simp only at hio hu ⊢
  have hl1 := linked_of_ioStep hio h
  have hd1 : Dirty dr E g1 := by
    obtain ⟨d, hdr, hx⟩ := hd
    exact ⟨d, by rw [hio.dirRecords]; exact hdr, hx⟩
  cases res with
  | err x => exact hl1
  | crash => exact hl1
  | ok hdr =>
    obtain ⟨len, tag⟩ := hdr
    simp only at hu ⊢
    by_cases ht : tag = PDirRecordTag
    · rw [if_pos ht] at hu ⊢
      rw [bind_pure_state] at hu ⊢
      exact linked_ReadDirectoryRecordAt hl1 hd1 he hu
    · rw [if_neg ht] at hu ⊢
      by_cases hf : tag = FileRecordTag
      · rw [if_pos hf] at hu ⊢
        rw [bind_pure_state] at hu ⊢
        exact linked_ReadFileRecordAt hl1 hd1 he hu
      · rw [if_neg hf]
        have hio2 : Keeps IOStep
            (do
              seekStartIgnored (wrapInt64 (e.Offset + RecordHeaderSize))
              (fail GoError.unexpectedTag : M TreeNode)) :=
          io_bind (io_seekStartIgnored _) fun _ => io_fail _
        exact linked_of_ioStep (hio2 g1) hl1

theorem linked_setChild {dr i : Nat} {node : TreeNode} {E : List DirectoryEntry} {g : GGPKFile}
    (h : Linked g) (hd : Dirty dr E g) : Linked (setChild dr i node g).2 := by
  obtain ⟨d, hdr, hdirty, _⟩ := hd
  unfold setChild
  rw [hdr]
  simp only
  cases hc : d.Children with
  | none => exact h
  | some cs =>
    simp only
    split
    · exact linked_set_dirty h hdr rfl rfl rfl rfl rfl hdirty
    · exact h

theorem resolveEntries_cons_apply (dr i : Nat) (e : DirectoryEntry) (rest : List DirectoryEntry)
    (g : GGPKFile) :
    resolveEntries dr i (e :: rest) g =
      match resolveEntry dr e g with
      | (Res.ok node, g1) =>
        (match setChild dr i node g1 with
          | (Res.ok _, g2) => resolveEntries dr (i + 1) rest g2
          | (Res.err x, g2) => (Res.err x, g2)
          | (Res.crash, g2) => (Res.crash, g2))
      | (Res.err x, g1) => (Res.err x, g1)
      | (Res.crash, g1) => (Res.crash, g1) := by
  rw [resolveEntries, bind_apply]
  rcases resolveEntry dr e g with ⟨r, g1⟩
  cases r with
  | ok node =>
    simp only
    rw [bind_apply]
    rcases setChild dr i node g1 with ⟨r2, g2⟩
    cases r2 <;> rfl
  | err x => rfl
  | crash => rfl

theorem linked_resolveEntries (dr : Nat) (E : List DirectoryEntry) :
    ∀ (es : List DirectoryEntry) (i : Nat) (g : GGPKFile), (∀ e ∈ es, e ∈ E) →
      Linked g → Dirty dr E g → UniqueTargets (resolveEntries dr i es g).2 →
      Linked (resolveEntries dr i es g).2 ∧ Dirty dr E (resolveEntries dr i es g).2 := by
  intro es
  induction es with
  | nil =>
    intro i g _ h hd _
    exact ⟨h, hd⟩
  | cons e rest ih =>
    intro i g hsub h hd hu
    rw [resolveEntries_cons_apply] at hu ⊢
    have hres1 := res_resolveEntry dr (some dr) e g
    have hlink1 := linked_resolveEntry (e := e) h hd (hsub e (List.mem_cons_self _ _))
    rcases hrun : resolveEntry dr e g with ⟨res, g1⟩
    rw [hrun] at hres1 hlink1 hu
    simp only at hres1 hlink1 hu ⊢
    have hd1 := dirty_of_resolving hres1 hd
    cases res with
    | err x => exact ⟨hlink1 hu, hd1⟩
    | crash => exact ⟨hlink1 hu, hd1⟩
    | ok node =>
      simp only at hu ⊢
      have hres2 := res_setChild dr i node g1
      have hlink2 : Linked g1 → Linked (setChild dr i node g1).2 := fun hl =>
        linked_setChild hl hd1
      rcases hrun2 : setChild dr i node g1 with ⟨res2, g2⟩
      rw [hrun2] at hres2 hlink2 hu
      simp only at hres2 hlink2 hu ⊢
      have hd2 := dirty_of_resolving hres2 hd1
      have hst2 := stable_of_resolving hres2
      cases res2 with
      | err x => exact ⟨hlink2 (hlink1 (uniqueTargets_of_stable hst2 hu)), hd2⟩
      | crash => exact ⟨hlink2 (hlink1 (uniqueTargets_of_stable hst2 hu)), hd2⟩
      | ok u =>
        simp only at hu ⊢
        have hu2 : UniqueTargets g2 :=
          uniqueTargets_of_stable (stable_resolveEntries dr rest (i + 1) g2) hu
        exact ih (i + 1) g2 (fun x hx => hsub x (List.mem_cons_of_mem _ hx))
          (hlink2 (hlink1 (uniqueTargets_of_stable hst2 hu2))) hd2 hu

/-! ## `GetChildren` and the lookups keep the links -/

theorem linkedChild_of_childOf {dr : Nat} {data : List UInt8} {e : DirectoryEntry}
    {node : TreeNode} {g : GGPKFile} {d : DirectoryRecord} (he : e ∈ d.Entries)
    (h : ChildOf dr data e node g) : LinkedChild g dr d node := by
  refine ⟨e, he, ?_⟩
  rcases h with ⟨_, p, r, h1, h2, h3, h4⟩ | ⟨_, p, r, h1, h2, h3, h4⟩
  · exact Or.inl ⟨p, r, h1, h2, h3, h4⟩
  · exact Or.inr ⟨p, r, h1, h2, h3, h4⟩

/-- `GetChildren` keeps the links, whatever its outcome, when the targets in the
state it leaves are unique. -/
theorem linked_GetChildren (dr : Nat) (g : GGPKFile) (h : Linked g)
    (hu : UniqueTargets (GetChildren dr g).2) : Linked (GetChildren dr g).2 := by
  cases hd : g.dirRecords[dr]? with
  | none =>
    have : GetChildren dr g = (Res.crash, g) := by
      unfold GetChildren
      rw [bind_apply]
      unfold getDir
      rw [hd]
    rw [this]
    exact h
  | some d =>
    by_cases hguard : d.childRecordsDirty = false ∧ d.Children ≠ none ∧
        (d.Children.getD []).length = d.EntryCount
    · obtain ⟨hdirty, hnone, hlen⟩ := hguard
      obtain ⟨cs0, hcs0⟩ := Option.ne_none_iff_exists'.mp hnone
      rw [hcs0] at hlen
      rw [GetChildren_resolved g dr cs0 ⟨d, hd, hdirty, hcs0, hlen⟩]
      exact h
    · have hdirty : d.childRecordsDirty = true := by
        cases hb : d.childRecordsDirty with
        | true => rfl
        | false =>
          exfalso
          obtain ⟨cs, hcs, hlen⟩ := h.clean dr d hd hb
          refine hguard ⟨hb, ?_, ?_⟩
          · rw [hcs]
            exact fun hx => Option.noConfusion hx
          · rw [hcs]
            exact hlen
      have hrun0 := GetChildren_unresolved_run hd hguard
      have hl0 : Linked { g with dirRecords := (g.dirRecords.set dr
          { d with Children := some (List.replicate d.EntryCount TreeNode.nil) }) } :=
        linked_set_dirty h hd rfl rfl rfl rfl rfl hdirty
      have hd0 : Dirty dr d.Entries { g with dirRecords := (g.dirRecords.set dr
          { d with Children := some (List.replicate d.EntryCount TreeNode.nil) }) } :=
        ⟨_, getElem?_set_same hd, hdirty, rfl⟩
      obtain ⟨g0, hg0⟩ : ∃ g0, g0 = ({ g with dirRecords := (g.dirRecords.set dr
          { d with Children := some (List.replicate d.EntryCount TreeNode.nil) }) } : GGPKFile) :=
        ⟨_, rfl⟩
      rw [← hg0] at hrun0 hl0 hd0
      have hloop := linked_resolveEntries dr d.Entries d.Entries 0 g0 (fun _ hx => hx) hl0 hd0
      have hres := res_resolveEntries dr d.Entries 0 g0
      rw [bind_apply] at hrun0
      rcases hloopRun : resolveEntries dr 0 d.Entries g0 with ⟨r, gb⟩
      rw [hloopRun] at hrun0 hloop hres
      simp only at hrun0 hloop hres
      cases r with
      | err x =>
        rw [hrun0] at hu ⊢
        exact (hloop hu).1
      | crash =>
        rw [hrun0] at hu ⊢
        exact (hloop hu).1
      | ok u =>
        simp only at hrun0
        obtain ⟨d1, hd1, _⟩ := hres.dirRecords dr _ hd0.choose_spec.1
        rw [bind_apply, modifyDir_run _ hd1] at hrun0
        simp only at hrun0
        rw [bind_apply, getDir_run (getElem?_set_same hd1)] at hrun0
        simp only [pure_apply] at hrun0
        have hco := GetChildren_childOf g dr d _ hd (congrArg Prod.fst hrun0)
        have hrs := GetChildren_ok_resolved (congrArg Prod.fst hrun0)
        rw [hrun0] at hu hco hrs ⊢
        simp only at hu hco hrs ⊢
        have hub : UniqueTargets gb := by
          refine uniqueTargets_of_stable (stable_set hd1 ?_ ?_ ?_) hu <;> rfl
        obtain ⟨hlb, d1x, hd1x, _, hE1⟩ := hloop hub
        rw [hd1] at hd1x
        cases hd1x
        obtain ⟨d2, hd2, _, hcs2, hlen2⟩ := hrs
        rw [getElem?_set_same hd1] at hd2
        cases hd2
        refine linked_set_dir hlb hd1 rfl rfl rfl ?_ ?_ ?_
        · intro hroot
          obtain ⟨d0, hd0x, hn, hp⟩ := hlb.root dr hroot
          rw [hd1] at hd0x
          cases hd0x
          exact ⟨hn, hp⟩
        · intro _
          refine ⟨_, hcs2, hlen2, fun node hnode => ?_⟩
          obtain ⟨k, hk, hkn⟩ := List.getElem_of_mem hnode
          have hklen : k < d.Entries.length := by
            rw [h.counts dr d hd, ← hco.1]
            exact hk
          obtain ⟨f, node1, _, hn1, hch⟩ := hco.2 hdirty k hklen
          rw [List.getElem?_eq_getElem hk, hkn] at hn1
          cases hn1
          refine linkedChild_of_childOf ?_ hch
          show d.Entries.get ⟨k, hklen⟩ ∈ d1.Entries
          rw [hE1]
          exact List.get_mem _ _ _
        · intro q dq cs _ hq hclean hcs hnode
          obtain ⟨e1, _, hch⟩ := hlb.kids q dq cs hq hclean hcs _ hnode
          rcases hch with ⟨p1, r1, hn1, _, hr1, hp1⟩ | ⟨p1, r1, hn1, _, _, _⟩
          · cases hn1
            rw [hd1] at hr1
            cases hr1
            exact hp1
          · cases hn1

theorem pres_of_state {α : Type} {P : GGPKFile → Prop} {m : M α} (h : ∀ g, (m g).2 = g) :
    Pres P m := by
  intro g hp _
  rw [h g]
  exact hp

theorem pres_bind {α β : Type} {P : GGPKFile → Prop} {m : M α} {f : α → M β}
    (hm : Pres P m) (hf : ∀ a, Pres P (f a)) (hs : ∀ a, Keeps Stable (f a)) :
    Pres P (m >>= f) := by
  intro g hp hu
  rw [bind_apply] at hu ⊢
  have h1 := hm g hp
  rcases hrun : m g with ⟨r, g1⟩
  rw [hrun] at h1 hu
  simp only at h1 hu ⊢
  cases r with
  | ok a =>
    simp only at hu ⊢
    exact hf a g1 (h1 (uniqueTargets_of_stable (hs a g1) hu)) hu
  | err e => exact h1 hu
  | crash => exact h1 hu

theorem pres_wrapErr {α β : Type} {P : GGPKFile → Prop} {m : M α} {args : M β}
    (hm : Pres P m) (ha : ∀ g, (args g).2 = g) : Pres P (wrapErr m args) := by
  intro g hp hu
  have h1 := hm g hp
  unfold wrapErr at hu ⊢
  rcases hrun : m g with ⟨r, g1⟩
  rw [hrun] at h1 hu
  simp only at h1 hu ⊢
  cases r with
  | ok a => exact h1 hu
  | crash => exact h1 hu
  | err e =>
    simp only at hu ⊢
    have h2 := ha g1
    rcases hargs : args g1 with ⟨r2, g2⟩
    rw [hargs] at h2 hu
    simp only at h2 hu ⊢
    subst h2
    cases r2 <;> exact h1 hu

theorem pres_GetChildren (dr : Nat) : Pres Linked (GetChildren dr) :=
  fun g h hu => linked_GetChildren dr g h hu

theorem pres_FindChildByName (dr : Option Nat) (name : GoString) :
    Pres Linked (FindChildByName dr name) := by
  cases dr with
  | none => exact pres_of_state fun _ => rfl
  | some p =>
    unfold FindChildByName
    refine pres_bind (pres_wrapErr (pres_GetChildren p) (DirectoryRecord_GetPath_state _))
      (fun children => pres_of_state fun g => ?_) fun children => stable_of_state fun g => ?_
    all_goals
      rw [bind_apply]
      have hs := scanChildren_state name children g
      rcases hrun : scanChildren name children g with ⟨r, g1⟩
      rw [hrun] at hs
      simp only at hs
      subst hs
      cases r with
      | ok found =>
        cases found with
        | some child => rfl
        | none =>
          simp only
          rw [bind_apply]
          have hs2 := DirectoryRecord_GetPath_state (some p) g1
          rcases hrun2 : DirectoryRecord.GetPath (some p) g1 with ⟨r2, g2⟩
          rw [hrun2] at hs2
          simp only at hs2
          subst hs2
          cases r2 <;> rfl
      | err e => rfl
      | crash => rfl

theorem pres_walkParts (parts : List GoString) :
    ∀ cur : TreeNode, Pres Linked (walkParts cur parts) := by
  induction parts with
  | nil =>
    intro cur
    exact pres_of_state fun _ => rfl
  | cons part rest ih =>
    intro cur
    unfold walkParts
    split
    · exact ih cur
    · cases cur with
      | nil => exact pres_of_state fun _ => rfl
      | file p => exact pres_of_state fun _ => rfl
      | dir dirNode =>
        exact pres_bind
          (pres_wrapErr (pres_FindChildByName dirNode part) (DirectoryRecord_GetPath_state _))
          (fun child => ih child) fun child => stable_walkParts rest child

theorem pres_GetNodeByPath (path : GoString) : Pres Linked (GetNodeByPath path) := by
  intro g h hu
  rw [GetNodeByPath_eq_walk] at hu ⊢
  exact pres_walkParts _ _ g h hu

theorem linked_runCalls (calls : List ApiCall) :
    ∀ g, Linked g → UniqueTargets (runCalls calls g) → Linked (runCalls calls g) := by
  induction calls with
  | nil =>
    intro g h _
    exact h
  | cons c rest ih =>
    intro g h hu
    cases c with
    | children dr =>
      exact ih _ (pres_GetChildren dr g h (uniqueTargets_of_stable (stable_runCalls rest _) hu)) hu
    | lookup path =>
      exact ih _ (pres_GetNodeByPath path g h
        (uniqueTargets_of_stable (stable_runCalls rest _) hu)) hu

/-! ## `Open` establishes the links -/

theorem allDirty_ReadRecordAt (o : Int) (g : GGPKFile) (h : AllDirty g) :
    AllDirty (ReadRecordAt o g).2 := by
  rcases ReadRecordAt_cases o g with ⟨r, _, hrun⟩ | ⟨_, _, hio⟩ | ⟨_, r, g1, hadd, hrun⟩
  · rw [hrun]
    exact h
  · intro p d hd
    rw [hio.dirRecords] at hd
    exact h p d hd
  · rw [hrun]
    obtain ⟨g0, hio, hvar⟩ := hadd
    have h0 : AllDirty g0 := by
      intro p d hd
      rw [hio.dirRecords] at hd
      exact h p d hd
    rcases hvar with ⟨rec, _, hg1, _, _, hdirty, _⟩ | ⟨rec, _, hg1, _⟩ | ⟨rec, _, hg1⟩ | ⟨rec, _, hg1⟩
    · subst hg1
      intro p d hd
      rcases getElem?_append_singleton_cases hd with hold | ⟨_, hd2⟩
      · exact h0 p d hold
      · rw [hd2]
        exact hdirty
    · subst hg1
      exact h0
    · subst hg1
      exact h0
    · subst hg1
      exact h0

theorem linked_ReadDirectoryRecordAt_root (o : Int) (g : GGPKFile) (h : Linked g)
    (hall : AllDirty g) (hroot : g.Root = none) :
    Linked (ReadDirectoryRecordAt o none [] g).2 := by
  unfold ReadDirectoryRecordAt
  by_cases h0 : o = 0
  · rw [if_pos h0]
    exact h
  · rw [if_neg h0, bind_apply]
    have hl1 := linked_ReadRecordAt o g h
    have ha1 := allDirty_ReadRecordAt o g hall
    have hr1 := (res_ReadRecordAt 0 none o g).Root
    rcases hrun : ReadRecordAt o g with ⟨res, g1⟩
    rw [hrun] at hl1 ha1 hr1
    simp only at hl1 ha1 hr1 ⊢
    cases res with
    | err x => exact hl1
    | crash => exact hl1
    | ok ref =>
      have hc := ReadRecordAt_cache_after hrun
      cases ref with
      | ggpk p => exact hl1
      | free p => exact hl1
      | file p => exact hl1
      | dir p =>
        obtain ⟨r, hr, _⟩ := hl1.cacheDir _ _ hc
        simp only
        rw [bind_apply, modifyDir_run _ hr]
        simp only [pure_apply]
        refine linked_set_dir hl1 hr rfl rfl rfl ?_ ?_ ?_
        · intro hx
          rw [hr1, hroot] at hx
          cases hx
        · intro hx
          have := ha1 p r hr
          simp only at hx
          rw [this] at hx
          cases hx
        · intro q dq cs _ hq hclean _ _
          rw [ha1 q dq hq] at hclean
          cases hclean

theorem linked_fresh {g : GGPKFile} (hr : g.Root = none) (hd : g.dirRecords = [])
    (hc : ∀ (o : Int) (p : Nat), g.recordCache o ≠ some (RecordRef.dir p))
    (hf : ∀ (o : Int) (p : Nat), g.recordCache o ≠ some (RecordRef.file p)) :
    Linked g ∧ AllDirty g := by
  have hnone : ∀ (q : Nat) (dq : DirectoryRecord), g.dirRecords[q]? = some dq → False := by
    intro q dq hq
    rw [hd] at hq
    cases hq
  refine ⟨⟨?_, ?_, ?_, ?_, ?_, ?_⟩, ?_⟩
  · intro r hr0
    rw [hr] at hr0
    cases hr0
  · exact fun o p hx => (hc o p hx).elim
  · exact fun o p hx => (hf o p hx).elim
  · exact fun q dq hq => (hnone q dq hq).elim
  · exact fun q dq hq => (hnone q dq hq).elim
  · exact fun q dq cs hq => (hnone q dq hq).elim
  · exact fun q dq hq => (hnone q dq hq).elim

theorem linked_open_step {o : Int} {gb g3 : GGPKFile} {root : Nat}
    (hrd : ReadDirectoryRecordAt o none [] gb = (Res.ok root, g3))
    (hr : gb.Root = none) (hd : gb.dirRecords = [])
    (hc : ∀ (o : Int) (p : Nat), gb.recordCache o ≠ some (RecordRef.dir p))
    (hf : ∀ (o : Int) (p : Nat), gb.recordCache o ≠ some (RecordRef.file p)) : Linked g3 := by
  obtain ⟨hlb, hab⟩ := linked_fresh hr hd hc hf
  have hl3 := linked_ReadDirectoryRecordAt_root o gb hlb hab hr
  rw [hrd] at hl3
  exact hl3

theorem linked_setRoot {g : GGPKFile} {r : Nat} {d : DirectoryRecord} (h : Linked g)
    (hd : g.dirRecords[r]? = some d) (hn : d.Name = []) (hp : d.parent = none) :
    Linked { g with Root := some r } := by
  refine ⟨?_, h.cacheDir, h.cacheFile, h.counts, h.clean, h.kids⟩
  intro r0 hr0
  simp only [Option.some.injEq] at hr0
  subst hr0
  exact ⟨d, hd, hn, hp⟩

/-- After a successful `Open` of an archive whose root record has the empty name,
the root is set and the links hold. -/
theorem linked_Open {utf16LE utf32LE : Decoder} {data : List UInt8} {gf : GGPKFile}
    (hopen : Open utf16LE utf32LE (some data) = Res.ok gf) (hname : rootName gf = some []) :
    Linked gf ∧ ∃ r, gf.Root = some r := by
  obtain ⟨p, d, hp, hd, hpar, _⟩ := Open_root_record hopen
  have hdn : d.Name = [] := by
    unfold rootName at hname
    rw [hp] at hname
    simp only [Option.some_bind] at hname
    rw [hd] at hname
    simpa using hname
  refine ⟨?_, p, hp⟩
  have h := Open_eq_ok hopen
  unfold openBody at h
  obtain ⟨header, g1, h1, h⟩ := bind_eq_ok.mp h
  obtain ⟨g0, g0a, hg, h⟩ := bind_eq_ok.mp h
  cases hg
  have hadd := iothen_parseGGPKRecordBody 0 (newGGPKFile utf16LE utf32LE data)
  rw [h1] at hadd
  simp only at hadd
  obtain ⟨gx, hio, hvar⟩ := hadd
  have hfacts : g1.Root = none ∧ g1.recordCache = (fun _ => none) ∧ g1.dirRecords = [] ∧
      g1.fileRecords = [] := by
    rcases hvar with ⟨rec, href, _⟩ | ⟨rec, href, _⟩ | ⟨rec, _, hg1⟩ | ⟨rec, href, _⟩
    · cases href
    · cases href
    · subst hg1
      exact ⟨hio.Root, hio.recordCache, hio.dirRecords, hio.fileRecords⟩
    · cases href
  obtain ⟨hroot1, hcache1, hdirs1, hfiles1⟩ := hfacts
  cases hh : g1.ggpkRecords[header]? with
  | none => rw [hh] at h; cases h
  | some hdr =>
    rw [hh] at h
    simp only at h
    obtain ⟨u1, ga, hset, h⟩ := bind_eq_ok.mp h
    obtain ⟨u2, gb, hstore, h⟩ := bind_eq_ok.mp h
    unfold setHeader at hset
    cases hset
    unfold cacheStore at hstore
    cases hstore
    split at h
    · cases h
    · obtain ⟨root, g3, hrd, h⟩ := bind_eq_ok.mp h
      unfold setRoot at h
      cases h
      have hl3 : Linked g3 := by
        refine linked_open_step hrd hroot1 hdirs1 (fun o q hc => ?_) (fun o q hc => ?_)
        · simp only [hcache1] at hc
          split at hc <;> cases hc
        · simp only [hcache1] at hc
          split at hc <;> cases hc
      simp only [Option.some.injEq] at hp
      subst hp
      exact linked_setRoot hl3 hd hdn hpar

/-! ## The segments of a path -/

theorem stringsSplit_ne_nil (s : GoString) : stringsSplit s ≠ [] := by
  cases s with
  | nil => simp [stringsSplit]
  | cons c t =>
    unfold stringsSplit
    split
    · simp
    · split <;> simp

theorem stringsSplit_append_slash (s : GoString) :
    stringsSplit (s ++ ['/']) = stringsSplit s ++ [[]] := by
  induction s with
  | nil => rfl
  | cons c t ih =>
    rw [List.cons_append, stringsSplit, stringsSplit, ih]
    by_cases hc : c = '/'
    · rw [if_pos hc, if_pos hc]
      rfl
    · rw [if_neg hc, if_neg hc]
      cases hsp : stringsSplit t with
      | nil => exact (stringsSplit_ne_nil t hsp).elim
      | cons seg segs => rfl

theorem segments_dropWhile (s : GoString) :
    (stringsSplit (s.dropWhile (· = '/'))).filter (fun x => decide (x ≠ [])) =
      (stringsSplit s).filter (fun x => decide (x ≠ [])) := by
  induction s with
  | nil => rfl
  | cons c t ih =>
    by_cases hc : c = '/'
    · subst hc
      rw [List.dropWhile_cons_of_pos (by simp), ih]
      conv_rhs => rw [stringsSplit, if_pos rfl]
      rw [List.filter_cons_of_neg (by simp)]
    · rw [List.dropWhile_cons_of_neg (by simpa using hc)]

theorem segments_dropLast (s : GoString) :
    (stringsSplit ((s.reverse.dropWhile (· = '/')).reverse)).filter
        (fun x => decide (x ≠ [])) =
      (stringsSplit s).filter (fun x => decide (x ≠ [])) := by
  induction s using List.reverseRecOn with
  | nil => rfl
  | append_singleton t c ih =>
    rw [List.reverse_append, List.reverse_singleton, List.singleton_append]
    by_cases hc : c = '/'
    · subst hc
      rw [List.dropWhile_cons_of_pos (by simp), ih, stringsSplit_append_slash,
        List.filter_append]
      simp
    · rw [List.dropWhile_cons_of_neg (by simpa using hc), List.reverse_cons,
        List.reverse_reverse]

/-- Trimming the `/` characters at both ends leaves the non-empty segments as they
are. -/
theorem segments_trim (path : GoString) :
    (stringsSplit (stringsTrim path)).filter (fun x => decide (x ≠ [])) =
      (stringsSplit path).filter (fun x => decide (x ≠ [])) := by
  unfold stringsTrim
  rw [segments_dropLast, segments_dropWhile]

/-! ## The walk of `GetNodeByPath` -/

theorem wrapErr_ok {α β : Type} {m : M α} {args : M β} {g g1 : GGPKFile} {a : α}
    (h : wrapErr m args g = (Res.ok a, g1)) : m g = (Res.ok a, g1) := by
  unfold wrapErr at h
  rcases hrun : m g with ⟨r, g2⟩
  rw [hrun] at h
  cases r with
  | ok b => exact h
  | crash => exact h
  | err e =>
    simp only at h
    rcases hargs : args g2 with ⟨r2, g3⟩
    rw [hargs] at h
    cases r2 <;> cases h

theorem scanChildren_some (name : GoString) :
    ∀ (children : List TreeNode) (g g1 : GGPKFile) (c : TreeNode),
      scanChildren name children g = (Res.ok (some c), g1) →
      c ∈ children ∧ (c.GetName g).1 = Res.ok name := by
  intro children
  induction children with
  | nil =>
    intro g g1 c h
    cases h
  | cons child rest ih =>
    intro g g1 c h
    unfold scanChildren at h
    split at h
    · obtain ⟨h1, h2⟩ := ih g g1 c h
      exact ⟨List.mem_cons_of_mem _ h1, h2⟩
    · rw [bind_apply] at h
      have hs := TreeNode_GetName_state child g
      rcases hrun : child.GetName g with ⟨r, g2⟩
      rw [hrun] at h hs
      simp only at hs
      subst hs
      cases r with
      | err e => cases h
      | crash => cases h
      | ok nm =>
        simp only at h
        split at h
        next hnm =>
          simp only [pure_apply, Prod.mk.injEq, Res.ok.injEq, Option.some.injEq] at h
          obtain ⟨hc, _⟩ := h
          subst hc
          subst hnm
          exact ⟨List.mem_cons_self _ _, by rw [hrun]⟩
        next =>
          obtain ⟨h1, h2⟩ := ih g2 g1 c h
          exact ⟨List.mem_cons_of_mem _ h1, h2⟩

theorem FindChildByName_ok {q : Nat} {name : GoString} {g g1 : GGPKFile} {child : TreeNode}
    (h : FindChildByName (some q) name g = (Res.ok child, g1)) :
    ∃ children, GetChildren q g = (Res.ok children, g1) ∧ child ∈ children ∧
      (child.GetName g1).1 = Res.ok name := by
  unfold FindChildByName at h
  simp only at h
  obtain ⟨children, ga, hw, h⟩ := bind_eq_ok.mp h
  obtain ⟨found, gb, hscan, h⟩ := bind_eq_ok.mp h
  have hs := scanChildren_state name children ga
  rw [hscan] at hs
  simp only at hs
  subst hs
  cases found with
  | none =>
    simp only at h
    rw [bind_apply] at h
    rcases hrun2 : DirectoryRecord.GetPath (some q) gb with ⟨r2, g2⟩
    rw [hrun2] at h
    cases r2 <;> cases h
  | some c =>
    simp only [pure_apply, Prod.mk.injEq, Res.ok.injEq] at h
    obtain ⟨hc, hg⟩ := h
    subst hc hg
    obtain ⟨hmem, hname⟩ := scanChildren_some name children gb gb c hscan
    exact ⟨children, wrapErr_ok hw, hmem, hname⟩

theorem wellChain_keep {g g1 : GGPKFile} (hk : KeepsResolved g g1) (hr : g1.Root = g.Root) :
    ∀ chain : List Nat, WellChain g chain → WellChain g1 chain := by
  intro chain
  induction chain with
  | nil => exact fun h => h
  | cons x rest ih =>
    cases rest with
    | nil =>
      intro h
      show g1.Root = some x
      rw [hr]
      exact h
    | cons y rest2 =>
      intro h
      obtain ⟨⟨cs, hres, hmem⟩, htail⟩ := h
      exact ⟨⟨cs, hk y cs hres, hmem⟩, ih htail⟩

theorem wellChain_child {g : GGPKFile} (hl : Linked g) {x y : Nat} {cs : List TreeNode}
    (hres : Resolved y cs g) (hmem : TreeNode.dir (some x) ∈ cs) :
    ∃ r, g.dirRecords[x]? = some r ∧ r.parent = some y := by
  obtain ⟨d, hd, hclean, hcs, _⟩ := hres
  obtain ⟨e, _, hch⟩ := hl.kids y d cs hd hclean hcs _ hmem
  rcases hch with ⟨p, r, hn, _, hr, hp⟩ | ⟨p, r, hn, _, _, _⟩
  · cases hn
    exact ⟨r, hr, hp⟩
  · cases hn

theorem wellChain_ancestry {g : GGPKFile} (hl : Linked g) :
    ∀ chain : List Nat, WellChain g chain → isAncestry g.dirRecords chain = true := by
  intro chain
  induction chain with
  | nil => exact fun h => h.elim
  | cons x rest ih =>
    cases rest with
    | nil =>
      intro h
      obtain ⟨d, hd, hn, hp⟩ := hl.root x h
      simp only [isAncestry, hd, hn, hp, and_self, decide_True]
    | cons y rest2 =>
      intro h
      obtain ⟨⟨cs, hres, hmem⟩, htail⟩ := h
      obtain ⟨r, hr, hp⟩ := wellChain_child hl hres hmem
      simp only [isAncestry, hr, hp, decide_True, Bool.true_and]
      exact ih htail

theorem names_stable {g g1 : GGPKFile} (hl : Linked g) (hs : Stable g g1) :
    ∀ chain : List Nat, WellChain g chain →
      ancestryNames g1.dirRecords chain = ancestryNames g.dirRecords chain := by
  intro chain
  induction chain with
  | nil => exact fun _ => rfl
  | cons x rest ih =>
    cases rest with
    | nil => exact fun _ => rfl
    | cons y rest2 =>
      intro h
      obtain ⟨⟨cs, hres, hmem⟩, htail⟩ := h
      obtain ⟨r, hr, _⟩ := wellChain_child hl hres hmem
      obtain ⟨r1, hr1, _, hn, _⟩ := hs.dirRecords x r hr
      simp only [ancestryNames, hr, hr1, ih htail, Option.map_some', Option.getD_some, hn]

theorem filter_nonempty_cons_nil (rest : List GoString) :
    (([] : GoString) :: rest).filter (fun s => decide (s ≠ [])) =
      rest.filter (fun s => decide (s ≠ [])) := by
  rw [List.filter_cons_of_neg]
  simp

theorem filter_nonempty_cons {part : GoString} (hp : part ≠ []) (rest : List GoString) :
    (part :: rest).filter (fun s => decide (s ≠ [])) =
      part :: rest.filter (fun s => decide (s ≠ [])) := by
  rw [List.filter_cons_of_pos]
  simpa using hp

/-- One step of the walk: the child found under a located directory is located at the
path extended by the name asked for. -/
theorem located_child {g g1 : GGPKFile} {q : Nat} {anc : List Nat} {part : GoString}
    {child : TreeNode} (hl : Linked g) (hchain : WellChain g (q :: anc))
    (hfind : FindChildByName (some q) part g = (Res.ok child, g1)) (hu : UniqueTargets g1) :
    Linked g1 ∧ Located g1 child (ancestryNames g.dirRecords (q :: anc) ++ [part]) := by
  obtain ⟨children, hget, hmem, hname⟩ := FindChildByName_ok hfind
  have hl1 := linked_GetChildren q g hl (by rw [hget]; exact hu)
  have hk := keepsResolved_GetChildren q g
  have hs := stable_GetChildren q g
  have hres := GetChildren_ok_resolved (congrArg Prod.fst hget)
  rw [hget] at hl1 hk hs hres
  simp only at hl1 hk hs hres
  refine ⟨hl1, ?_⟩
  have hchain1 := wellChain_keep hk hs.Root _ hchain
  have hnames := names_stable hl hs _ hchain
  obtain ⟨d, hd, hclean, hcs, _⟩ := hres
  obtain ⟨e, _, hch⟩ := hl1.kids q d children hd hclean hcs child hmem
  rcases hch with ⟨p, r, hn, _, hr, hp⟩ | ⟨p, r, hn, _, hr, hp⟩
  · subst hn
    have hrn : r.Name = part := by
      simp only [TreeNode.GetName, bind_apply, getDir_run hr, pure_apply, Res.ok.injEq] at hname
      exact hname
    left
    refine ⟨p, q :: anc, rfl, ⟨⟨children, ⟨d, hd, hclean, hcs, by assumption⟩, hmem⟩, hchain1⟩, ?_⟩
    simp only [ancestryNames, hr, Option.map_some', Option.getD_some, hrn]
    rw [← hnames]
  · subst hn
    have hrn : r.Name = part := by
      have hf : getFile p g1 = (Res.ok r, g1) := by
        unfold getFile
        rw [hr]
      simp only [TreeNode.GetName, bind_apply, hf, pure_apply, Res.ok.injEq] at hname
      exact hname
    right
    exact ⟨p, r, q, anc, rfl, hr, hp, hchain1, by rw [hnames, hrn]⟩

/-- The walk from a located node ends at a node located at the path extended by the
non-empty parts. -/
theorem walkParts_located (parts : List GoString) :
    ∀ (cur : TreeNode) (g : GGPKFile) (segs : List GoString) (n : TreeNode),
      Linked g → Located g cur segs → (walkParts cur parts g).1 = Res.ok n →
      UniqueTargets (walkParts cur parts g).2 →
      Located (walkParts cur parts g).2 n (segs ++ parts.filter (fun s => decide (s ≠ []))) := by
  induction parts with
  | nil =>
    intro cur g segs n _ hloc hok _
    simp only [walkParts, pure_apply, Res.ok.injEq] at hok
    subst hok
    simp only [List.filter_nil, List.append_nil]
    exact hloc
  | cons part rest ih =>
    intro cur g segs n hl hloc hok hu
    unfold walkParts at hok hu ⊢
    by_cases hpart : part = []
    · rw [if_pos hpart] at hok hu ⊢
      rw [hpart, filter_nonempty_cons_nil]
      exact ih cur g segs n hl hloc hok hu
    · rw [if_neg hpart] at hok hu ⊢
      rw [filter_nonempty_cons hpart]
      cases cur with
      | nil => cases hok
      | file p => cases hok
      | dir dirNode =>
        simp only at hok hu ⊢
        rw [bind_apply] at hok hu ⊢
        rcases hrun : wrapErr (FindChildByName dirNode part) (DirectoryRecord.GetPath dirNode) g
          with ⟨r, g1⟩
        rw [hrun] at hok hu
        cases r with
        | err e => cases hok
        | crash => cases hok
        | ok child =>
          simp only at hok hu ⊢
          have hfind := wrapErr_ok hrun
          rcases hloc with ⟨q, anc, hcur, hchain, hnames⟩ | ⟨fr, r, q, anc, hcur, _⟩
          · cases hcur
            have hu1 : UniqueTargets g1 := uniqueTargets_of_stable (stable_walkParts rest child g1) hu
            obtain ⟨hl1, hloc1⟩ := located_child hl hchain hfind hu1
            rw [hnames] at hloc1
            have := ih child g1 (segs ++ [part]) n hl1 hloc1 hok hu
            rw [List.append_assoc] at this
            exact this
          · cases hcur

/-! ## `GetPath` inverts `GetNodeByPath` -/

theorem GetPath_of_ancestry (gf : GGPKFile) (q : Nat) (anc : List Nat)
    (hchain : isAncestry gf.dirRecords (q :: anc) = true)
    (hne : ∀ s ∈ ancestryNames gf.dirRecords anc, s ≠ []) :
    TreeNode.GetPath (TreeNode.dir (some q)) gf =
      (Res.ok (joinSlash (ancestryNames gf.dirRecords (q :: anc))), gf) ∧
    ∀ (fr : Nat) (r : FileRecord), gf.fileRecords[fr]? = some r → r.parent = some q →
      TreeNode.GetPath (TreeNode.file fr) gf =
        (Res.ok (joinSlash (ancestryNames gf.dirRecords (q :: anc) ++ [r.Name])), gf) := by
  have hfuel := GetPathFuel_join anc q (gf.dirRecords.length + 1) hchain hne
    (Nat.le_succ_of_le (isAncestry_length _ hchain))
  have hdir : DirectoryRecord.GetPath (some q) gf =
      (Res.ok (joinSlash (ancestryNames gf.dirRecords (q :: anc))), gf) := by
    unfold DirectoryRecord.GetPath
    simp only [hfuel]
  refine ⟨hdir, fun fr r hr hpar => ?_⟩
  show FileRecord.GetPath fr gf = _
  unfold FileRecord.GetPath
  rw [bind_apply]
  unfold getFile
  simp only [hr, hpar]
  cases anc with
  | nil =>
    obtain ⟨d, hd, hname, hp⟩ := isAncestry_single hchain
    rw [bind_apply, getDir_run hd]
    simp only [hname, hp, and_self, if_true]
    rfl
  | cons q1 rest =>
    obtain ⟨⟨d, hd, hp⟩, hrest⟩ := isAncestry_cons hchain
    rw [bind_apply, getDir_run hd]
    simp only [hp]
    rw [if_neg (by simp), bind_apply, hdir]
    simp only [pure_apply]
    rw [joinSlash_snoc]
    show ancestryNames gf.dirRecords (q1 :: rest) ++ _ ≠ []
    simp

/-- The path computed for a located node is its names joined by `/`. -/
theorem located_GetPath {g : GGPKFile} {n : TreeNode} {segs : List GoString} (hl : Linked g)
    (hloc : Located g n segs) (hne : ∀ s ∈ segs, s ≠ []) :
    TreeNode.GetPath n g = (Res.ok (joinSlash segs), g) := by
  rcases hloc with ⟨q, anc, hn, hchain, hnames⟩ | ⟨fr, r, q, anc, hn, hr, hp, hchain, hnames⟩
  · subst hn
    have hanc := wellChain_ancestry hl _ hchain
    have := (GetPath_of_ancestry g q anc hanc fun s hs =>
      hne s (by rw [← hnames]; exact ancestryNames_mem_cons q anc s hs)).1
    rw [hnames] at this
    exact this
  · subst hn
    have hanc := wellChain_ancestry hl _ hchain
    have := (GetPath_of_ancestry g q anc hanc fun s hs =>
      hne s (by
        rw [← hnames]
        exact List.mem_append_left _ (ancestryNames_mem_cons q anc s hs))).2 fr r hr hp
    rw [hnames] at this
    exact this

/-- C31. `GetPath` inverts `GetNodeByPath`. On a successfully opened archive whose
root record has the empty name, after any sequence of `GetChildren` and
`GetNodeByPath` calls: when `GetNodeByPath path` returns a node and, among the
directory records the handle has parsed by then, no offset is the target of entries
of two different directories and no entry targets the root's offset, `GetPath` of
that node returns the non-empty `/`-separated segments of `path` joined by `/`, and
leaves the state unchanged. -/
theorem GetNodeByPath_GetPath (utf16LE utf32LE : Decoder) (data : List UInt8) (g0 : GGPKFile)
    (calls : List ApiCall) (path : GoString) (n : TreeNode)
    (hopen : Open utf16LE utf32LE (some data) = Res.ok g0)
    (hname : rootName g0 = some [])
    (hok : (GetNodeByPath path (runCalls calls g0)).1 = Res.ok n)
    (huniq : UniqueTargets (GetNodeByPath path (runCalls calls g0)).2) :
    TreeNode.GetPath n (GetNodeByPath path (runCalls calls g0)).2 =
      (Res.ok (joinSlash (pathSegments path)), (GetNodeByPath path (runCalls calls g0)).2) := by
  obtain ⟨hl0, r, hr⟩ := linked_Open hopen hname
  have hu : UniqueTargets (runCalls calls g0) :=
    uniqueTargets_of_stable (stable_GetNodeByPath path _) huniq
  have hl := linked_runCalls calls g0 hl0 hu
  have hroot : (runCalls calls g0).Root = some r := by
    rw [(stable_runCalls calls g0).Root]
    exact hr
  have hlfin := pres_GetNodeByPath path _ hl huniq
  rw [GetNodeByPath_eq_walk] at hok huniq hlfin ⊢
  have hloc0 : Located (runCalls calls g0) (TreeNode.dir (runCalls calls g0).Root) [] := by
    rw [hroot]
    exact Or.inl ⟨r, [], rfl, hroot, rfl⟩
  have hloc := walkParts_located _ _ _ [] n hl hloc0 hok huniq
  rw [List.nil_append, segments_trim] at hloc
  exact located_GetPath hlfin hloc fun s hs => by
    have := (List.mem_filter.mp hs).2
    simpa using this

theorem GetNodeByPath_GetPath_witness :
    Open refUTF16LE refUTF32LE (some nestedArchive) = Res.ok nestedOpened ∧
    rootName nestedOpened = some [] ∧
    (GetNodeByPath "/Metadata//Items/file.dat/".toList
      (runCalls [ApiCall.children 0, ApiCall.lookup "Metadata".toList] nestedOpened)).1 =
        Res.ok (TreeNode.file 0) ∧
    joinSlash (pathSegments "/Metadata//Items/file.dat/".toList) =
      "Metadata/Items/file.dat".toList ∧
    TreeNode.GetPath (TreeNode.file 0)
      (GetNodeByPath "/Metadata//Items/file.dat/".toList
        (runCalls [ApiCall.children 0, ApiCall.lookup "Metadata".toList] nestedOpened)).2 =
      (Res.ok (joinSlash (pathSegments "/Metadata//Items/file.dat/".toList)),
        (GetNodeByPath "/Metadata//Items/file.dat/".toList
          (runCalls [ApiCall.children 0, ApiCall.lookup "Metadata".toList] nestedOpened)).2) :=
  ⟨Open_of_openBody (by decide!), by decide!, by decide!, by decide!,
    GetNodeByPath_GetPath refUTF16LE refUTF32LE nestedArchive nestedOpened
      [ApiCall.children 0, ApiCall.lookup "Metadata".toList]
      "/Metadata//Items/file.dat/".toList (TreeNode.file 0)
      (Open_of_openBody (by decide!)) (by decide!) (by decide!) (by decide!)⟩

/-! ## Runs on a second byte source -/

theorem agree_sub {a a1 : List UInt8} {p n q m : Nat} (h : Agree a a1 p n) (hq : p ≤ q)
    (hm : q + m ≤ p + n) : Agree a a1 q m := by
  unfold Agree at h ⊢
  have h1 := congrArg (fun l => (l.drop (q - p)).take m) h
  simp only [List.drop_take, List.take_take, List.drop_drop] at h1
  have e1 : min m (n - (q - p)) = m := by omega
  have e2 : p + (q - p) = q := by omega
  rw [e1, e2] at h1
  exact h1

theorem hashEq_symm {g g1 : GGPKFile} (h : HashEq g g1) : HashEq g1 g :=
  (hashEq_iff g1 g).mpr ((hashEq_iff g g1).mp h).symm

theorem hashEq_trans {a b c : GGPKFile} (h1 : HashEq a b) (h2 : HashEq b c) : HashEq a c :=
  (hashEq_iff a c).mpr (((hashEq_iff a b).mp h1).trans ((hashEq_iff b c).mp h2))

theorem swapRel_of_eq {α : Type} {a1 : List UInt8} {m : M α} {g : GGPKFile}
    (h : SwapEq a1 m g) : SwapRel a1 m g := by
  unfold SwapEq at h
  unfold SwapRel
  rw [h]
  exact ⟨rfl, hashEq_refl _⟩

theorem swapEq_bind {α β : Type} {a1 : List UInt8} {m : M α} {k : α → M β} {g : GGPKFile}
    (hm : SwapEq a1 m g) (hk : ∀ x g2, m g = (Res.ok x, g2) → SwapEq a1 (k x) g2) :
    SwapEq a1 (m >>= k) g := by
  unfold SwapEq at hm ⊢
  rw [bind_apply, bind_apply, hm]
  rcases hrun : m g with ⟨r, g2⟩
  cases r with
  | ok x => exact hk x g2 hrun
  | err e => rfl
  | crash => rfl

theorem swapRel_bind_eq {α β : Type} {a1 : List UInt8} {m : M α} {k : α → M β} {g : GGPKFile}
    (hm : SwapEq a1 m g) (hk : ∀ x g2, m g = (Res.ok x, g2) → SwapRel a1 (k x) g2) :
    SwapRel a1 (m >>= k) g := by
  unfold SwapEq at hm
  unfold SwapRel
  rw [bind_apply, bind_apply, hm]
  rcases hrun : m g with ⟨r, g2⟩
  cases r with
  | ok x => exact hk x g2 hrun
  | err e => exact ⟨rfl, hashEq_refl _⟩
  | crash => exact ⟨rfl, hashEq_refl _⟩

theorem indep_apply_eq {α : Type} {m m1 : M α} (h : Indep Eq m m1) {g g1 : GGPKFile}
    (hg : HashEq g g1) : (m1 g1).1 = (m g).1 ∧ HashEq (m g).2 (m1 g1).2 :=
  ⟨(relRes_eq (h g g1 hg).1).symm, (h g g1 hg).2⟩

theorem swapRel_bind {α β : Type} {a1 : List UInt8} {m : M α} {k : α → M β} {g : GGPKFile}
    (hm : SwapRel a1 m g) (hi : ∀ x, Indep Eq (k x) (k x))
    (hk : ∀ x g2, m g = (Res.ok x, g2) → SwapRel a1 (k x) g2) :
    SwapRel a1 (m >>= k) g := by
  unfold SwapRel at hm ⊢
  rw [bind_apply, bind_apply]
  obtain ⟨hr, hs⟩ := hm
  rcases hrun : m g with ⟨r, g2⟩
  rcases hrun1 : m (swapData a1 g) with ⟨r1, s1⟩
  rw [hrun, hrun1] at hr hs
  simp only at hr hs
  subst hr
  cases r1 with
  | ok x =>
    simp only
    obtain ⟨e1, e2⟩ := hk x g2 hrun
    obtain ⟨e3, e4⟩ := indep_apply_eq (hi x) hs
    exact ⟨e3.trans e1, hashEq_trans e2 e4⟩
  | err e => exact ⟨rfl, hs⟩
  | crash => exact ⟨rfl, hs⟩

theorem with_File_self (g : GGPKFile) : ({ g with File := g.File } : GGPKFile) = g := by
  cases g
  rfl

theorem fileFree_file {α : Type} {m : M α} (h : FileFree m) (g : GGPKFile) :
    (m g).2.File = g.File := by
  have h1 := h g g.File
  rw [with_File_self] at h1
  have h2 := congrArg (fun x => x.2.File) h1
  exact h2

theorem swapEq_of_fileFree {α : Type} {m : M α} (h : FileFree m) (a1 : List UInt8)
    (g : GGPKFile) : SwapEq a1 m g := by
  unfold SwapEq
  show m { g with File := g.File.map fun f => { f with data := a1 } } = _
  rw [h g]
  unfold swapData
  rw [fileFree_file h g]

theorem fileFree_pure {α : Type} (x : α) : FileFree (pure x : M α) := fun _ _ => rfl

theorem fileFree_fail {α : Type} (e : GoError) : FileFree (fail e : M α) := fun _ _ => rfl

theorem fileFree_crash {α : Type} : FileFree (crash : M α) := fun _ _ => rfl

theorem fileFree_bind {α β : Type} {m : M α} {k : α → M β} (hm : FileFree m)
    (hk : ∀ x, FileFree (k x)) : FileFree (m >>= k) := by
  intro g F
  rw [bind_apply, bind_apply, hm g F]
  rcases hmg : m g with ⟨r, g2⟩
  cases r with
  | ok x => exact hk x g2 F
  | err e => rfl
  | crash => rfl

theorem fileFree_allocGGPK (r : GGPKRecord) : FileFree (allocGGPK r) := fun _ _ => rfl

theorem fileFree_allocFree (r : FreeRecord) : FileFree (allocFree r) := fun _ _ => rfl

theorem fileFree_allocFile (r : FileRecord) : FileFree (allocFile r) := fun _ _ => rfl

theorem fileFree_allocDir (r : DirectoryRecord) : FileFree (allocDir r) := fun _ _ => rfl

theorem fileFree_cacheStore (offset : Int) (r : RecordRef) : FileFree (cacheStore offset r) :=
  fun _ _ => rfl

theorem fileFree_setHeader (h : GGPKRecord) : FileFree (setHeader h) := fun _ _ => rfl

theorem fileFree_setRoot (r : Nat) : FileFree (setRoot r) := fun _ _ => rfl

theorem fileFree_getDir (p : Nat) : FileFree (getDir p) := by
  intro g F
  unfold getDir
  show (match g.dirRecords[p]? with
    | none => (Res.crash, ({ g with File := F } : GGPKFile))
    | some d => (Res.ok d, { g with File := F })) = _
  cases g.dirRecords[p]? <;> rfl

theorem fileFree_getFile (p : Nat) : FileFree (getFile p) := by
  intro g F
  unfold getFile
  show (match g.fileRecords[p]? with
    | none => (Res.crash, ({ g with File := F } : GGPKFile))
    | some d => (Res.ok d, { g with File := F })) = _
  cases g.fileRecords[p]? <;> rfl

theorem fileFree_modifyDir (p : Nat) (f : DirectoryRecord → DirectoryRecord) :
    FileFree (modifyDir p f) := by
  intro g F
  unfold modifyDir
  show (match g.dirRecords[p]? with
    | none => (Res.crash, ({ g with File := F } : GGPKFile))
    | some d => (Res.ok (), { g with File := F, dirRecords := g.dirRecords.set p (f d) })) = _
  cases g.dirRecords[p]? <;> rfl

theorem fileFree_modifyFile (p : Nat) (f : FileRecord → FileRecord) :
    FileFree (modifyFile p f) := by
  intro g F
  unfold modifyFile
  show (match g.fileRecords[p]? with
    | none => (Res.crash, ({ g with File := F } : GGPKFile))
    | some d => (Res.ok (), { g with File := F, fileRecords := g.fileRecords.set p (f d) })) = _
  cases g.fileRecords[p]? <;> rfl

theorem fileFree_setChild (dr i : Nat) (c : TreeNode) : FileFree (setChild dr i c) := by
  intro g F
  cases g with
  | mk File Header Root cache buf d16 d32 gr fr fl ds =>
    simp only [setChild]
    cases ds[dr]? with
    | none => rfl
    | some d =>
      simp only
      cases d.Children with
      | none => rfl
      | some cs =>
        simp only
        split <;> rfl

theorem fileFree_sliceStringReadBuf (k : Nat) : FileFree (sliceStringReadBuf k) := by
  intro g F
  cases g with
  | mk File Header Root cache buf d16 d32 gr fr fl ds =>
    simp only [sliceStringReadBuf]
    split <;> rfl

theorem fileFree_transformBytes (d : Option Decoder) (bs : List UInt8) :
    FileFree (transformBytes d bs) := by
  intro g F
  unfold transformBytes
  cases d with
  | none => rfl
  | some dec =>
    simp only
    cases dec bs <;> rfl

theorem fileFree_GetPath (dr : Option Nat) : FileFree (DirectoryRecord.GetPath dr) := by
  intro g F
  cases g with
  | mk File Header Root cache buf d16 d32 gr fr fl ds =>
    unfold DirectoryRecord.GetPath
    cases dr with
    | none => rfl
    | some p =>
      simp only
      cases DirectoryRecord.GetPathFuel ds (ds.length + 1) p <;> rfl

theorem fileFree_GetName (c : TreeNode) : FileFree c.GetName := by
  cases c with
  | nil => exact fileFree_crash
  | file p => exact fileFree_bind (fileFree_getFile p) fun _ => fileFree_pure _
  | dir q =>
    cases q with
    | none => exact fileFree_crash
    | some p => exact fileFree_bind (fileFree_getDir p) fun _ => fileFree_pure _

theorem fileFree_scanChildren (name : GoString) :
    ∀ cs : List TreeNode, FileFree (scanChildren name cs) := by
  intro cs
  induction cs with
  | nil => exact fileFree_pure _
  | cons c rest ih =>
    unfold scanChildren
    split
    · exact ih
    · refine fileFree_bind (fileFree_GetName c) fun nm => ?_
      split
      · exact fileFree_pure _
      · exact ih
/-! ## Reads from the second byte source -/

theorem swapEq_seekStart (a1 : List UInt8) (offset : Int) (e : GoError) (g : GGPKFile) :
    SwapEq a1 (seekStart offset e) g := by
  cases g with
  | mk File Header Root cache buf d16 d32 gr fr fl ds =>
    cases File with
    | none => rfl
    | some f =>
      by_cases ho : offset < 0
      · simp only [SwapEq, swapData, seekStart, OSFile.Seek, Option.map_some', ho, if_true]
      · simp only [SwapEq, swapData, seekStart, OSFile.Seek, Option.map_some', ho, if_false]

theorem swapEq_seekStartIgnored (a1 : List UInt8) (offset : Int) (g : GGPKFile) :
    SwapEq a1 (seekStartIgnored offset) g := by
  cases g with
  | mk File Header Root cache buf d16 d32 gr fr fl ds =>
    cases File with
    | none => rfl
    | some f =>
      by_cases ho : offset < 0
      · simp only [SwapEq, swapData, seekStartIgnored, OSFile.Seek, Option.map_some', ho, if_true]
      · simp only [SwapEq, swapData, seekStartIgnored, OSFile.Seek, Option.map_some', ho,
          if_false]

theorem swapEq_currentOffset (a1 : List UInt8) (g : GGPKFile) :
    SwapEq a1 currentOffset g := by
  cases g with
  | mk File Header Root cache buf d16 d32 gr fr fl ds =>
    cases File with
    | none => rfl
    | some f => rfl

theorem agree_length {a a1 : List UInt8} (hlen : a.length = a1.length) (p n : Nat) :
    ((a.drop p).take n).length = ((a1.drop p).take n).length := by
  simp only [List.length_take, List.length_drop, hlen]

theorem swapEq_readFull {a a1 : List UInt8} {g : GGPKFile} {f : OSFile} (n : Nat)
    (hlen : a.length = a1.length) (hf : g.File = some f) (hfa : f.data = a)
    (hag : Agree a a1 f.pos n) : SwapEq a1 (readFull n) g := by
  cases g with
  | mk File Header Root cache buf d16 d32 gr fr fl ds =>
    simp only at hf
    subst hf
    subst hfa
    unfold Agree at hag
    simp only [SwapEq, swapData, readFull, OSFile.ReadFull, Option.map_some']
    by_cases hn : n = 0
    · simp only [hn, if_true]
      rfl
    · simp only [hn, if_false, ← hag]
      split <;> rfl

theorem swapEq_readUint32 {a a1 : List UInt8} {g : GGPKFile} {f : OSFile}
    (hlen : a.length = a1.length) (hf : g.File = some f) (hfa : f.data = a)
    (hag : Agree a a1 f.pos 4) : SwapEq a1 readUint32 g :=
  swapEq_bind (swapEq_readFull 4 hlen hf hfa hag) fun _ _ _ =>
    swapEq_of_fileFree (fileFree_pure _) _ _

theorem swapEq_readInt32 {a a1 : List UInt8} {g : GGPKFile} {f : OSFile}
    (hlen : a.length = a1.length) (hf : g.File = some f) (hfa : f.data = a)
    (hag : Agree a a1 f.pos 4) : SwapEq a1 readInt32 g :=
  swapEq_bind (swapEq_readFull 4 hlen hf hfa hag) fun _ _ _ =>
    swapEq_of_fileFree (fileFree_pure _) _ _

theorem swapEq_readInt64 {a a1 : List UInt8} {g : GGPKFile} {f : OSFile}
    (hlen : a.length = a1.length) (hf : g.File = some f) (hfa : f.data = a)
    (hag : Agree a a1 f.pos 8) : SwapEq a1 readInt64 g :=
  swapEq_bind (swapEq_readFull 8 hlen hf hfa hag) fun _ _ _ =>
    swapEq_of_fileFree (fileFree_pure _) _ _

/-- A successful seek: the byte source afterwards. -/
theorem seekStart_pos {offset : Int} {e : GoError} {g g1 : GGPKFile} {u : Unit} {f : OSFile}
    (h : seekStart offset e g = (Res.ok u, g1)) (hf : g.File = some f) :
    ∃ f1, g1.File = some f1 ∧ f1.data = f.data ∧ f1.pos = offset.toNat ∧ 0 ≤ offset := by
  unfold seekStart at h
  rw [hf] at h
  simp only [OSFile.Seek] at h
  by_cases ho : offset < 0
  · simp only [ho, if_true] at h
    cases h
  · simp only [ho, if_false] at h
    cases h
    exact ⟨_, rfl, rfl, rfl, not_lt.mp ho⟩

theorem swapEq_readRecordHeaderAndSeek {a a1 : List UInt8} {g : GGPKFile} {f : OSFile}
    (offset : Int) (hlen : a.length = a1.length) (hf : g.File = some f) (hfa : f.data = a)
    (hag : 0 ≤ offset → Agree a a1 offset.toNat 8) :
    SwapEq a1 (readRecordHeaderAndSeek offset) g := by
  unfold readRecordHeaderAndSeek
  refine swapEq_bind (swapEq_seekStart a1 offset _ g) fun u g1 h1 => ?_
  obtain ⟨f1, hf1, hd1, hp1, ho⟩ := seekStart_pos h1 hf
  have hag8 := hag ho
  refine swapEq_bind (swapEq_readInt32 hlen hf1 (hd1.trans hfa)
    (agree_sub hag8 (by omega) (by omega))) fun len g2 h2 => ?_
  have h2' : readFull 4 g1 = (Res.ok ((f1.data.drop f1.pos).take 4), g2) := by
    unfold readInt32 at h2
    obtain ⟨bs, gx, hx, hy⟩ := bind_eq_ok.mp h2
    simp only [pure_apply, Prod.mk.injEq, Res.ok.injEq] at hy
    obtain ⟨f2, _, _, _, _, hbs⟩ := readFull_pos hx hf1
    rw [← hbs, ← hy.2]
    exact hx
  obtain ⟨f2, hf2, hd2, hp2, _, _⟩ := readFull_pos h2' hf1
  refine swapEq_bind (swapEq_readUint32 hlen hf2 (hd2.trans (hd1.trans hfa))
    (agree_sub hag8 (by omega) (by omega))) fun tag g3 h3 => ?_
  exact swapEq_of_fileFree (fileFree_pure _) _ _

theorem swapEq_fillStringReadBuf {a a1 : List UInt8} {g : GGPKFile} {f : OSFile} (k : Nat)
    (hlen : a.length = a1.length) (hf : g.File = some f) (hfa : f.data = a)
    (hag : Agree a a1 f.pos k) : SwapEq a1 (fillStringReadBuf k) g := by
  cases g with
  | mk File Header Root cache buf d16 d32 gr fr fl ds =>
    simp only at hf
    subst hf
    subst hfa
    unfold Agree at hag
    simp only [SwapEq, swapData, fillStringReadBuf, OSFile.ReadFull, Option.map_some']
    by_cases hn : k = 0
    · simp only [hn, if_true]
      rfl
    · simp only [hn, if_false, ← hag]
      split <;> rfl

theorem swapEq_getState_bind {α : Type} {a1 : List UInt8} {k : GGPKFile → M α} {g : GGPKFile}
    (hk : k (swapData a1 g) = k g) (h : SwapEq a1 (k g) g) : SwapEq a1 (getState >>= k) g := by
  unfold SwapEq at h ⊢
  rw [bind_apply, bind_apply]
  show k (swapData a1 g) (swapData a1 g) = ((k g g).1, swapData a1 (k g g).2)
  rw [hk]
  exact h

theorem swapEq_readUTF16String {a a1 : List UInt8} {g : GGPKFile} {f : OSFile} (n : Nat)
    (hlen : a.length = a1.length) (hf : g.File = some f) (hfa : f.data = a)
    (hag : Agree a a1 f.pos (wrapUint32 (n * 2))) : SwapEq a1 (readUTF16String n) g := by
  unfold readUTF16String
  split
  · exact swapEq_of_fileFree (fileFree_pure _) _ _
  · refine swapEq_bind (swapEq_fillStringReadBuf _ hlen hf hfa hag) fun _ g1 _ => ?_
    refine swapEq_bind (swapEq_of_fileFree (fileFree_sliceStringReadBuf _) _ _) fun bs g2 _ => ?_
    exact swapEq_getState_bind rfl (swapEq_of_fileFree (fileFree_transformBytes _ _) _ _)

theorem swapEq_readUTF32String {a a1 : List UInt8} {g : GGPKFile} {f : OSFile} (n : Nat)
    (hlen : a.length = a1.length) (hf : g.File = some f) (hfa : f.data = a)
    (hag : Agree a a1 f.pos (wrapUint32 (n * 4))) : SwapEq a1 (readUTF32String n) g := by
  unfold readUTF32String
  split
  · exact swapEq_of_fileFree (fileFree_pure _) _ _
  · refine swapEq_bind (swapEq_fillStringReadBuf _ hlen hf hfa hag) fun _ g1 _ => ?_
    refine swapEq_bind (swapEq_of_fileFree (fileFree_sliceStringReadBuf _) _ _) fun bs g2 _ => ?_
    exact swapEq_getState_bind rfl (swapEq_of_fileFree (fileFree_transformBytes _ _) _ _)

theorem swapEq_readName {a a1 : List UInt8} {g : GGPKFile} {f : OSFile} (n : Nat)
    (hlen : a.length = a1.length) (hf : g.File = some f) (hfa : f.data = a)
    (hag : Agree a a1 f.pos (wrapUint32 (n * (if g.Header.Version = 4 then 4 else 2)))) :
    SwapEq a1 (readName n) g := by
  unfold readName
  refine swapEq_getState_bind rfl ?_
  by_cases hv : g.Header.Version = 4
  · rw [if_pos hv] at hag ⊢
    exact swapEq_readUTF32String n hlen hf hfa hag
  · rw [if_neg hv] at hag ⊢
    exact swapEq_readUTF16String n hlen hf hfa hag
/-! ## Parses from the second byte source -/

theorem nameBytes_eq {a : List UInt8} {f : OSFile} (hfa : f.data = a) (v n : Nat)
    (hn : n = leBytes ((f.data.drop f.pos).take 4)) :
    nameBytes a v f.pos = wrapUint32 (n * (if v = 4 then 4 else 2)) := by
  unfold nameBytes
  rw [hn, hfa]

theorem swapEq_parseGGPKRecordBody {a a1 : List UInt8} {g : GGPKFile} {f : OSFile}
    (offset : Int) (hlen : a.length = a1.length) (hf : g.File = some f) (hfa : f.data = a)
    (hag : 0 ≤ offset → Agree a a1 offset.toNat 28) :
    SwapEq a1 (parseGGPKRecordBody offset) g := by
  unfold parseGGPKRecordBody
  refine swapEq_bind (swapEq_readRecordHeaderAndSeek offset hlen hf hfa
    fun ho => agree_sub (hag ho) (le_refl _) (by omega)) fun hdr g1 h1 => ?_
  obtain ⟨len, tag⟩ := hdr
  obtain ⟨f1, hf1, hd1, hp1, ho, _, _, _⟩ := readRecordHeaderAndSeek_pos h1 hf
  have hag28 := hag ho
  simp only
  split
  · exact swapEq_of_fileFree (fileFree_fail _) _ _
  · refine swapEq_bind (swapEq_readUint32 hlen hf1 (hd1.trans hfa)
      (agree_sub hag28 (by omega) (by omega))) fun v g2 h2 => ?_
    obtain ⟨f2, hf2, hd2, hp2, _, _⟩ := readUint32_pos h2 hf1
    refine swapEq_bind (swapEq_readInt64 hlen hf2 (hd2.trans (hd1.trans hfa))
      (agree_sub hag28 (by omega) (by omega))) fun r g3 h3 => ?_
    obtain ⟨f3, hf3, hd3, hp3, _, _⟩ := readInt64_pos h3 hf2
    refine swapEq_bind (swapEq_readInt64 hlen hf3 (hd3.trans (hd2.trans (hd1.trans hfa)))
      (agree_sub hag28 (by omega) (by omega))) fun fr g4 h4 => ?_
    exact swapEq_of_fileFree (fileFree_allocGGPK _) _ _

theorem swapEq_parseFileRecordBody {a a1 : List UInt8} {g : GGPKFile} {f : OSFile}
    (offset : Int) (base : BaseRecord) (hlen : a.length = a1.length) (hf : g.File = some f)
    (hfa : f.data = a) (hag : Agree a a1 f.pos (36 + nameBytes a g.Header.Version f.pos)) :
    SwapEq a1 (parseFileRecordBody offset base) g := by
  unfold parseFileRecordBody
  refine swapEq_bind (swapEq_readUint32 hlen hf hfa
    (agree_sub hag (le_refl _) (by omega))) fun n g1 h1 => ?_
  obtain ⟨f1, hf1, hd1, hp1, _, hn⟩ := readUint32_pos h1 hf
  have hv1 : g1.Header = g.Header := (keeps_of_eq io_readUint32 h1).Header
  rw [nameBytes_eq hfa _ n hn] at hag
  refine swapEq_bind (swapEq_readFull HashSize hlen hf1 (hd1.trans hfa)
    (agree_sub hag (by omega) (by simp only [HashSize]; omega))) fun hash g2 h2 => ?_
  obtain ⟨f2, hf2, hd2, hp2, _, _⟩ := readFull_pos h2 hf1
  have hv2 : g2.Header = g.Header := ((keeps_of_eq (io_readFull _) h2).Header).trans hv1
  refine swapEq_bind (swapEq_readName n hlen hf2 (hd2.trans (hd1.trans hfa)) ?_)
    fun name g3 h3 => ?_
  · rw [hv2]
    exact agree_sub hag (by simp only [HashSize] at hp2; omega)
      (by simp only [HashSize] at hp2; omega)
  · refine swapEq_getState_bind rfl ?_
    exact swapEq_bind (swapEq_seekStart a1 _ _ g3) fun _ _ _ =>
      swapEq_of_fileFree (fileFree_allocFile _) _ _

theorem swapEq_parseFreeRecordBody {a a1 : List UInt8} {g : GGPKFile} {f : OSFile}
    (offset : Int) (base : BaseRecord) (hlen : a.length = a1.length) (hf : g.File = some f)
    (hfa : f.data = a) (hag : Agree a a1 f.pos 8) :
    SwapEq a1 (parseFreeRecordBody offset base) g := by
  unfold parseFreeRecordBody
  refine swapEq_bind (swapEq_readInt64 hlen hf hfa hag) fun nx g1 h1 => ?_
  refine swapEq_bind (swapEq_currentOffset a1 g1) fun cur g2 h2 => ?_
  refine swapEq_bind ?_ fun _ g3 _ => swapEq_of_fileFree (fileFree_allocFree _) _ _
  split
  · exact swapEq_seekStart a1 _ _ g2
  · exact swapEq_of_fileFree (fileFree_pure _) _ _

/-- A name hash read from the second byte source: the value may differ, the state is
the one of the read from the first. -/
theorem swap_readUint32_any {a a1 : List UInt8} {g : GGPKFile} {f : OSFile}
    (hlen : a.length = a1.length) (hf : g.File = some f) (hfa : f.data = a) :
    (readUint32 (swapData a1 g)).2 = swapData a1 (readUint32 g).2 ∧
      RelRes (fun _ _ => True) (readUint32 g).1 (readUint32 (swapData a1 g)).1 := by
  cases g with
  | mk File Header Root cache buf d16 d32 gr fr fl ds =>
    simp only at hf
    subst hf
    subst hfa
    have hl := agree_length hlen f.pos 4
    simp only [readUint32, bind_apply, swapData, readFull, OSFile.ReadFull, Option.map_some',
      show (4 : Nat) ≠ 0 from by decide, if_false, ← hl]
    by_cases hfull : ((f.data.drop f.pos).take 4).length = 4
    · simp only [hfull, if_true]
      exact ⟨rfl, trivial⟩
    · simp only [hfull, if_false]
      exact ⟨rfl, rfl⟩

theorem swap_readEntries {a a1 : List UInt8} (hlen : a.length = a1.length) :
    ∀ (c : Nat) (g : GGPKFile) (f : OSFile), g.File = some f → f.data = a →
      (∀ k, k < c → Agree a a1 (f.pos + 12 * k + 4) 8) →
      (readEntries c (swapData a1 g)).2 = swapData a1 (readEntries c g).2 ∧
        RelRes (fun es es1 => es.map (fun e => ({ e with NameHash := 0 } : DirectoryEntry)) =
            es1.map (fun e => ({ e with NameHash := 0 } : DirectoryEntry)))
          (readEntries c g).1 (readEntries c (swapData a1 g)).1 := by
  intro c
  induction c with
  | zero =>
    intro g f _ _ _
    exact ⟨rfl, rfl⟩
  | succ c ih =>
    intro g f hf hfa hag
    unfold readEntries
    rw [bind_apply, bind_apply]
    obtain ⟨hs, hr⟩ := swap_readUint32_any hlen hf hfa
    rcases h1 : readUint32 g with ⟨r, g1⟩
    rcases h1s : readUint32 (swapData a1 g) with ⟨r1, s1⟩
    rw [h1, h1s] at hs hr
    simp only at hs hr
    subst hs
    cases r with
    | err e =>
      cases r1 with
      | err e1 => exact ⟨rfl, hr⟩
      | ok x => exact hr.elim
      | crash => exact hr.elim
    | crash =>
      cases r1 with
      | crash => exact ⟨rfl, trivial⟩
      | ok x => exact hr.elim
      | err e => exact hr.elim
    | ok hsh =>
      cases r1 with
      | err e => exact hr.elim
      | crash => exact hr.elim
      | ok hsh1 =>
        simp only
        obtain ⟨f1, hf1, hd1, hp1, _, _⟩ := readUint32_pos h1 hf
        have hfa1 := hd1.trans hfa
        have e2 := swapEq_readInt64 hlen hf1 hfa1
          (by rw [hp1]; exact hag 0 (Nat.succ_pos c))
        unfold SwapEq at e2
        rw [bind_apply, bind_apply, e2]
        rcases h2 : readInt64 g1 with ⟨r2, g2⟩
        cases r2 with
        | err e => exact ⟨rfl, rfl⟩
        | crash => exact ⟨rfl, trivial⟩
        | ok o =>
          simp only
          obtain ⟨f2, hf2, hd2, hp2, _, _⟩ := readInt64_pos h2 hf1
          obtain ⟨hs3, hr3⟩ := ih g2 f2 hf2 (hd2.trans hfa1) fun k hk => by
            have := hag (k + 1) (Nat.succ_lt_succ hk)
            rw [hp2, hp1]
            have e : f.pos + 4 + 8 + 12 * k + 4 = f.pos + 12 * (k + 1) + 4 := by omega
            rw [e]
            exact this
          rw [bind_apply, bind_apply]
          rcases h3 : readEntries c g2 with ⟨r3, g3⟩
          rcases h3s : readEntries c (swapData a1 g2) with ⟨r4, s3⟩
          rw [h3, h3s] at hs3 hr3
          simp only at hs3 hr3
          subst hs3
          cases r3 <;> cases r4 <;> simp only [RelRes] at hr3
          · refine ⟨rfl, ?_⟩
            show List.map _ (_ :: _) = List.map _ (_ :: _)
            rw [List.map_cons, List.map_cons, hr3]
          · exact ⟨rfl, hr3⟩
          · exact ⟨rfl, trivial⟩
theorem erase_dir_entries (base : BaseRecord) (n c : Nat) (hash : List UInt8) (name : GoString)
    (cs : Option (List TreeNode)) (dirty : Bool) {es es1 : List DirectoryEntry}
    (h : es.map (fun e => ({ e with NameHash := 0 } : DirectoryEntry)) =
      es1.map (fun e => ({ e with NameHash := 0 } : DirectoryEntry))) :
    eraseNameHash
        { toBaseRecord := base, parent := none, NameLength := n, EntryCount := c,
          Hash := hash, Name := name, Entries := es, Children := cs,
          childRecordsDirty := dirty } =
      eraseNameHash
        { toBaseRecord := base, parent := none, NameLength := n, EntryCount := c,
          Hash := hash, Name := name, Entries := es1, Children := cs,
          childRecordsDirty := dirty } := by
  simp only [eraseNameHash, h]

theorem hashEq_swap_append (a1 : List UInt8) (g : GGPKFile) {d d1 : DirectoryRecord}
    (h : eraseNameHash d = eraseNameHash d1) :
    HashEq (swapData a1 { g with dirRecords := g.dirRecords ++ [d] })
      { swapData a1 g with dirRecords := (swapData a1 g).dirRecords ++ [d1] } := by
  refine ⟨rfl, rfl, rfl, rfl, rfl, rfl, rfl, rfl, rfl, rfl, ?_⟩
  show (g.dirRecords ++ [d]).map eraseNameHash = (g.dirRecords ++ [d1]).map eraseNameHash
  rw [List.map_append, List.map_append, List.map_cons, List.map_cons, h]

theorem swapRel_parseDirectoryRecordBody {a a1 : List UInt8} {g : GGPKFile} {f : OSFile}
    (offset : Int) (base : BaseRecord) (hlen : a.length = a1.length) (hf : g.File = some f)
    (hfa : f.data = a) (hag : Agree a a1 f.pos (40 + nameBytes a g.Header.Version f.pos))
    (hent : ∀ k, k < leBytes ((a.drop (f.pos + 4)).take 4) →
      Agree a a1 (f.pos + 40 + nameBytes a g.Header.Version f.pos + 12 * k + 4) 8) :
    SwapRel a1 (parseDirectoryRecordBody offset base []) g := by
  unfold parseDirectoryRecordBody
  refine swapRel_bind_eq (swapEq_readUint32 hlen hf hfa
    (agree_sub hag (le_refl _) (by omega))) fun n g1 h1 => ?_
  obtain ⟨f1, hf1, hd1, hp1, _, hn⟩ := readUint32_pos h1 hf
  have hv1 : g1.Header = g.Header := (keeps_of_eq io_readUint32 h1).Header
  have hfa1 := hd1.trans hfa
  rw [nameBytes_eq hfa _ n hn] at hag hent
  refine swapRel_bind_eq (swapEq_readUint32 hlen hf1 hfa1
    (agree_sub hag (by omega) (by omega))) fun c g2 h2 => ?_
  obtain ⟨f2, hf2, hd2, hp2, _, hc⟩ := readUint32_pos h2 hf1
  have hv2 : g2.Header = g.Header := ((keeps_of_eq io_readUint32 h2).Header).trans hv1
  have hfa2 := hd2.trans hfa1
  have hc2 : c = leBytes ((a.drop (f.pos + 4)).take 4) := by
    rw [hc, hfa1, hp1]
  refine swapRel_bind_eq (swapEq_readFull HashSize hlen hf2 hfa2
    (agree_sub hag (by omega) (by simp only [HashSize]; omega))) fun hash g3 h3 => ?_
  obtain ⟨f3, hf3, hd3, hp3, _, _⟩ := readFull_pos h3 hf2
  have hv3 : g3.Header = g.Header := ((keeps_of_eq (io_readFull _) h3).Header).trans hv2
  have hfa3 := hd3.trans hfa2
  simp only [HashSize] at hp3
  rw [if_neg (fun hh => hh.1 rfl)]
  refine swapRel_bind_eq (swapEq_readName n hlen hf3 hfa3 ?_) fun name g4 h4 => ?_
  · rw [hv3]
    exact agree_sub hag (by omega) (by omega)
  · obtain ⟨f4, hf4, hd4, hp4, _⟩ := readName_pos h4 hf3
    rw [hv3] at hp4
    have hfa4 := hd4.trans hfa3
    obtain ⟨hs, hr⟩ := swap_readEntries hlen c g4 f4 hf4 hfa4 fun k hk => by
      have := hent k (by rw [← hc2]; exact hk)
      have e : f4.pos + 12 * k + 4 =
          f.pos + 40 + wrapUint32 (n * if g.Header.Version = 4 then 4 else 2) + 12 * k + 4 := by
        omega
      rw [e]
      exact this
    unfold SwapRel
    rw [bind_apply, bind_apply]
    rcases h5 : readEntries c g4 with ⟨r, g5⟩
    rcases h5s : readEntries c (swapData a1 g4) with ⟨r1, s5⟩
    rw [h5, h5s] at hs hr
    simp only at hs hr
    subst hs
    cases r <;> cases r1 <;> simp only [RelRes] at hr
    · exact ⟨rfl, hashEq_swap_append a1 g5 (erase_dir_entries _ _ _ _ _ _ _ hr)⟩
    · exact ⟨by rw [hr], hashEq_refl _⟩
    · exact ⟨rfl, hashEq_refl _⟩

theorem swapRel_parseByTag {a a1 : List UInt8} {g : GGPKFile} {f : OSFile}
    (o len : Int) (tag : Nat) (hlen : a.length = a1.length) (hf : g.File = some f)
    (hfa : f.data = a) (ho : 0 ≤ o) (hpos : f.pos = o.toNat + 8) (htag : tag = tagAt a o)
    (hrec : AgreeRecord a a1 g.Header.Version o) : SwapRel a1 (parseByTag o len tag) g := by
  obtain ⟨h8, hggpk, hfree, hfile, hdir⟩ := hrec ho
  rw [← htag] at hggpk hfree hfile hdir
  unfold parseByTag
  simp only
  split
  next ht =>
    exact swapRel_of_eq (swapEq_bind (swapEq_parseGGPKRecordBody o hlen hf hfa fun _ => hggpk ht)
      fun _ _ _ => swapEq_of_fileFree (fileFree_pure _) _ _)
  next =>
    split
    next ht =>
      obtain ⟨hd1, hd2⟩ := hdir ht
      refine swapRel_bind (swapRel_parseDirectoryRecordBody o _ hlen hf hfa ?_ ?_)
        (fun _ => indep_pure rfl)
        fun _ _ _ => swapRel_of_eq (swapEq_of_fileFree (fileFree_pure _) _ _)
      · rw [hpos]
        exact hd1
      · intro k hk
        rw [hpos] at hk ⊢
        have e1 : o.toNat + 8 + 4 = o.toNat + 12 := by omega
        rw [e1] at hk
        have := hd2 k hk
        have e2 : o.toNat + 8 + 40 + nameBytes a g.Header.Version (o.toNat + 8) + 12 * k + 4 =
            o.toNat + 48 + nameBytes a g.Header.Version (o.toNat + 8) + 12 * k + 4 := by omega
        rw [e2]
        exact this
    next =>
      split
      next ht =>
        refine swapRel_of_eq (swapEq_bind (swapEq_parseFileRecordBody o _ hlen hf hfa ?_)
          fun _ _ _ => swapEq_of_fileFree (fileFree_pure _) _ _)
        rw [hpos]
        exact hfile ht
      next =>
        split
        next ht =>
          refine swapRel_of_eq (swapEq_bind (swapEq_parseFreeRecordBody o _ hlen hf hfa ?_)
            fun _ _ _ => swapEq_of_fileFree (fileFree_pure _) _ _)
          rw [hpos]
          exact hfree ht
        next =>
          exact swapRel_of_eq (swapEq_bind (swapEq_seekStart a1 _ _ g)
            fun _ _ _ => swapEq_of_fileFree (fileFree_fail _) _ _)

/-- `ReadRecordAt` on the second byte source, when the two byte sources agree on
the record at `offset` except for name hashes. -/
theorem swapRel_ReadRecordAt {a a1 : List UInt8} {g : GGPKFile} {f : OSFile} (o : Int)
    (hlen : a.length = a1.length) (hf : g.File = some f) (hfa : f.data = a)
    (hrec : AgreeRecord a a1 g.Header.Version o) : SwapRel a1 (ReadRecordAt o) g := by
  cases hc : g.recordCache o with
  | some r =>
    have e1 : ReadRecordAt o g = (Res.ok r, g) := by
      unfold ReadRecordAt
      rw [hc]
    have e2 : ReadRecordAt o (swapData a1 g) = (Res.ok r, swapData a1 g) := by
      unfold ReadRecordAt
      rw [show (swapData a1 g).recordCache o = g.recordCache o from rfl, hc]
    unfold SwapRel
    rw [e1, e2]
    exact ⟨rfl, hashEq_refl _⟩
  | none =>
    have e1 : ReadRecordAt o g =
        (do
          let (length, tag) ← readRecordHeaderAndSeek o
          let parsedRecord ← parseByTag o length tag
          cacheStore o parsedRecord
          pure parsedRecord) g := by
      unfold ReadRecordAt
      rw [hc]
    have e2 : ReadRecordAt o (swapData a1 g) =
        (do
          let (length, tag) ← readRecordHeaderAndSeek o
          let parsedRecord ← parseByTag o length tag
          cacheStore o parsedRecord
          pure parsedRecord) (swapData a1 g) := by
      unfold ReadRecordAt
      rw [show (swapData a1 g).recordCache o = g.recordCache o from rfl, hc]
    unfold SwapRel
    rw [e1, e2]
    refine swapRel_bind_eq (swapEq_readRecordHeaderAndSeek o hlen hf hfa
      fun ho => (hrec ho).1) fun hdr g1 h1 => ?_
    obtain ⟨len, tag⟩ := hdr
    obtain ⟨f1, hf1, hd1, hp1, ho, _, _, htag⟩ := readRecordHeaderAndSeek_pos h1 hf
    have hv1 : g1.Header = g.Header :=
      (keeps_of_eq (io_readRecordHeaderAndSeek o) h1).Header
    simp only
    refine swapRel_bind (swapRel_parseByTag o len tag hlen hf1 (hd1.trans hfa) ho hp1 ?_ ?_)
      (fun r => indep_bind_eq (obliv_indep (obliv_cacheStore o r)) fun _ => indep_pure rfl)
      fun r g2 _ => swapRel_of_eq (swapEq_bind (swapEq_of_fileFree (fileFree_cacheStore _ _) _ _)
        fun _ _ _ => swapEq_of_fileFree (fileFree_pure _) _ _)
    · rw [htag, hfa]
      rfl
    · rw [hv1]
      exact hrec

/-! ## The byte source and the header are kept -/

theorem sameSource_refl (g : GGPKFile) : SameSource g g := ⟨rfl, rfl⟩

theorem sameSource_trans (a b c : GGPKFile) (h1 : SameSource a b) (h2 : SameSource b c) :
    SameSource a c :=
  ⟨h2.1.trans h1.1, h2.2.trans h1.2⟩

theorem sameSource_of_resolving {dr : Nat} {w : Option Nat} {g g1 : GGPKFile}
    (h : Resolving dr w g g1) : SameSource g g1 :=
  ⟨h.data, h.Header⟩

theorem sameSource_of_state {α : Type} {m : M α} (h : ∀ gf, (m gf).2 = gf) :
    Keeps SameSource m := by
  intro gf
  rw [h gf]
  exact sameSource_refl gf

theorem sameSource_modifyDir (p : Nat) (f : DirectoryRecord → DirectoryRecord) :
    Keeps SameSource (modifyDir p f) := by
  intro g
  unfold modifyDir
  cases g.dirRecords[p]? with
  | none => exact sameSource_refl g
  | some d => exact ⟨rfl, rfl⟩

theorem sameSource_modifyFile (p : Nat) (f : FileRecord → FileRecord) :
    Keeps SameSource (modifyFile p f) := by
  intro g
  unfold modifyFile
  cases g.fileRecords[p]? with
  | none => exact sameSource_refl g
  | some d => exact ⟨rfl, rfl⟩

theorem sameSource_getDir (p : Nat) : Keeps SameSource (getDir p) := by
  refine sameSource_of_state fun g => ?_
  unfold getDir
  cases g.dirRecords[p]? <;> rfl

theorem sameSource_ReadDirectoryRecordAt (offset : Int) (parent : Option Nat)
    (name : GoString) : Keeps SameSource (ReadDirectoryRecordAt offset parent name) := by
  unfold ReadDirectoryRecordAt
  split
  · exact fun g => sameSource_refl g
  · refine keeps_bind sameSource_trans
      (fun g => sameSource_of_resolving (res_ReadRecordAt 0 none offset g)) fun r => ?_
    cases r with
    | dir p =>
      exact keeps_bind sameSource_trans (sameSource_modifyDir p _) fun _ g => sameSource_refl g
    | ggpk p => exact fun g => sameSource_refl g
    | free p => exact fun g => sameSource_refl g
    | file p => exact fun g => sameSource_refl g

theorem sameSource_GetChildren (q : Nat) : Keeps SameSource (GetChildren q) := by
  unfold GetChildren
  refine keeps_bind sameSource_trans (sameSource_getDir q) fun d => ?_
  split
  · exact sameSource_of_state fun _ => rfl
  · refine keeps_bind sameSource_trans (sameSource_modifyDir q _) fun _ => ?_
    refine keeps_bind sameSource_trans
      (fun g => sameSource_of_resolving (res_resolveEntries q _ 0 g)) fun _ => ?_
    refine keeps_bind sameSource_trans (sameSource_modifyDir q _) fun _ => ?_
    refine keeps_bind sameSource_trans (sameSource_getDir q) fun _ => ?_
    exact sameSource_of_state fun _ => rfl

theorem sameSource_wrapErr {α β : Type} {m : M α} {args : M β}
    (hm : Keeps SameSource m) (ha : Keeps SameSource args) :
    Keeps SameSource (wrapErr m args) := by
  intro gf
  have h1 := hm gf
  unfold wrapErr
  rcases hrun : m gf with ⟨r, g1⟩
  rw [hrun] at h1
  cases r with
  | ok a => exact h1
  | crash => exact h1
  | err e =>
    have h2 := ha g1
    simp only
    rcases hargs : args g1 with ⟨r2, g2⟩
    rw [hargs] at h2
    cases r2 <;> exact sameSource_trans _ _ _ h1 h2

theorem sameSource_FindChildByName (dr : Option Nat) (name : GoString) :
    Keeps SameSource (FindChildByName dr name) := by
  cases dr with
  | none =>
    intro gf
    exact sameSource_refl gf
  | some p =>
    unfold FindChildByName
    refine keeps_bind sameSource_trans
      (sameSource_wrapErr (sameSource_GetChildren p)
        (sameSource_of_state (DirectoryRecord_GetPath_state _)))
      fun children => keeps_bind sameSource_trans
        (sameSource_of_state (scanChildren_state name children)) fun found => ?_
    cases found with
    | some child =>
      intro gf
      exact sameSource_refl gf
    | none =>
      refine keeps_bind sameSource_trans
        (sameSource_of_state (DirectoryRecord_GetPath_state _)) fun _ => ?_
      intro gf
      exact sameSource_refl gf

theorem file_of_data {a : List UInt8} {g g1 : GGPKFile} {f : OSFile}
    (h : g1.File.map (·.data) = g.File.map (·.data)) (hf : g.File = some f)
    (hfa : f.data = a) : ∃ f1, g1.File = some f1 ∧ f1.data = a := by
  rw [hf] at h
  cases h1 : g1.File with
  | none =>
    rw [h1] at h
    cases h
  | some f1 =>
    rw [h1] at h
    simp only [Option.map_some', Option.some.injEq] at h
    exact ⟨f1, rfl, h.trans hfa⟩

theorem getDir_inv {p : Nat} {g g1 : GGPKFile} {d : DirectoryRecord}
    (h : getDir p g = (Res.ok d, g1)) : g1 = g ∧ g.dirRecords[p]? = some d := by
  unfold getDir at h
  cases hd : g.dirRecords[p]? with
  | none =>
    rw [hd] at h
    cases h
  | some d0 =>
    rw [hd] at h
    cases h
    exact ⟨rfl, rfl⟩

/-! ## The lookup on a second byte source -/

theorem swapRel_ReadDirectoryRecordAt {a a1 : List UInt8} {g : GGPKFile} {f : OSFile}
    (o : Int) (parent : Option Nat) (name : GoString)
    (hlen : a.length = a1.length) (hf : g.File = some f) (hfa : f.data = a)
    (hrec : AgreeRecord a a1 g.Header.Version o) :
    SwapRel a1 (ReadDirectoryRecordAt o parent name) g := by
  unfold ReadDirectoryRecordAt
  split
  · exact swapRel_of_eq (swapEq_of_fileFree (fileFree_fail _) _ _)
  · refine swapRel_bind (swapRel_ReadRecordAt o hlen hf hfa hrec) (fun r => ?_)
      fun r g2 _ => swapRel_of_eq (swapEq_of_fileFree ?_ _ _)
    · cases r with
      | dir p =>
        simp only
        refine indep_bind_eq (indep_modifyDir p _ _ fun d d1 hd => ?_) fun _ => indep_pure rfl
        obtain ⟨h1, h2, h3, h4, h5, h6, h7, h8, h9⟩ := eraseNameHash_fields hd
        apply eraseNameHash_of_fields
        simp only [h6]
        exact ⟨h1, trivial, h3, h4, h5, trivial, h7, h8, h9⟩
      | ggpk p => exact indep_fail _
      | free p => exact indep_fail _
      | file p => exact indep_fail _
    · cases r with
      | dir p => exact fileFree_bind (fileFree_modifyDir _ _) fun _ => fileFree_pure _
      | ggpk p => exact fileFree_fail _
      | free p => exact fileFree_fail _
      | file p => exact fileFree_fail _

theorem swapRel_ReadFileRecordAt {a a1 : List UInt8} {g : GGPKFile} {f : OSFile}
    (o : Int) (parent : Option Nat)
    (hlen : a.length = a1.length) (hf : g.File = some f) (hfa : f.data = a)
    (hrec : AgreeRecord a a1 g.Header.Version o) :
    SwapRel a1 (ReadFileRecordAt o parent) g := by
  unfold ReadFileRecordAt
  split
  · exact swapRel_of_eq (swapEq_of_fileFree (fileFree_fail _) _ _)
  · refine swapRel_bind (swapRel_ReadRecordAt o hlen hf hfa hrec) (fun r => ?_)
      fun r g2 _ => swapRel_of_eq (swapEq_of_fileFree ?_ _ _)
    · cases r with
      | file p =>
        exact indep_bind_eq (obliv_indep (obliv_modifyFile p _)) fun _ => indep_pure rfl
      | ggpk p => exact indep_fail _
      | free p => exact indep_fail _
      | dir p => exact indep_fail _
    · cases r with
      | file p => exact fileFree_bind (fileFree_modifyFile _ _) fun _ => fileFree_pure _
      | ggpk p => exact fileFree_fail _
      | free p => exact fileFree_fail _
      | dir p => exact fileFree_fail _

theorem swapRel_resolveEntry {a a1 : List UInt8} {g : GGPKFile} {f : OSFile}
    (dr : Nat) (e : DirectoryEntry)
    (hlen : a.length = a1.length) (hf : g.File = some f) (hfa : f.data = a)
    (hrec : AgreeRecord a a1 g.Header.Version e.Offset) :
    SwapRel a1 (resolveEntry dr e) g := by
  unfold resolveEntry
  refine swapRel_bind_eq (swapEq_readRecordHeaderAndSeek e.Offset hlen hf hfa
    fun ho => (hrec ho).1) fun hdr g1 h1 => ?_
  obtain ⟨len, tag⟩ := hdr
  obtain ⟨f1, hf1, hd1, _, _, _, _, _⟩ := readRecordHeaderAndSeek_pos h1 hf
  have hv1 : g1.Header = g.Header :=
    (keeps_of_eq (io_readRecordHeaderAndSeek e.Offset) h1).Header
  have hrec1 : AgreeRecord a a1 g1.Header.Version e.Offset := by
    rw [hv1]
    exact hrec
  simp only
  split
  · exact swapRel_bind
      (swapRel_ReadDirectoryRecordAt _ _ _ hlen hf1 (hd1.trans hfa) hrec1)
      (fun _ => indep_pure rfl)
      fun _ _ _ => swapRel_of_eq (swapEq_of_fileFree (fileFree_pure _) _ _)
  · split
    · exact swapRel_bind
        (swapRel_ReadFileRecordAt _ _ hlen hf1 (hd1.trans hfa) hrec1)
        (fun _ => indep_pure rfl)
        fun _ _ _ => swapRel_of_eq (swapEq_of_fileFree (fileFree_pure _) _ _)
    · exact swapRel_of_eq (swapEq_bind (swapEq_seekStartIgnored a1 _ g1)
        fun _ _ _ => swapEq_of_fileFree (fileFree_fail _) _ _)

theorem swapRel_resolveEntries {a a1 : List UInt8} (dr : Nat)
    (hlen : a.length = a1.length) :
    ∀ (es : List DirectoryEntry) (i : Nat) (g : GGPKFile) (f : OSFile),
      g.File = some f → f.data = a →
      (∀ e ∈ es, AgreeRecord a a1 g.Header.Version e.Offset) →
      SwapRel a1 (resolveEntries dr i es) g := by
  intro es
  induction es with
  | nil =>
    intro i g f _ _ _
    exact swapRel_of_eq (swapEq_of_fileFree (fileFree_pure _) _ _)
  | cons e rest ih =>
    intro i g f hf hfa hall
    unfold resolveEntries
    refine swapRel_bind
      (swapRel_resolveEntry dr e hlen hf hfa (hall e (List.mem_cons_self _ _)))
      (fun c => indep_bind_eq (indep_setChild dr i c) fun _ =>
        indep_resolveEntries dr rest rest (i + 1) rfl)
      fun c g1 h1 => ?_
    have hs1 := sameSource_of_resolving (keeps_of_eq (res_resolveEntry dr (some dr) e) h1)
    refine swapRel_bind_eq (swapEq_of_fileFree (fileFree_setChild _ _ _) _ _)
      fun _ g2 h2 => ?_
    have hs2 := sameSource_of_resolving (keeps_of_eq (res_setChild dr i c) h2)
    have hs := sameSource_trans _ _ _ hs1 hs2
    obtain ⟨f2, hf2, hfa2⟩ := file_of_data hs.1 hf hfa
    refine ih (i + 1) g2 f2 hf2 hfa2 fun e1 he1 => ?_
    rw [hs.2]
    exact hall e1 (List.mem_cons_of_mem _ he1)

theorem swapRel_GetChildren {a a1 : List UInt8} {g : GGPKFile} {f : OSFile} (dr : Nat)
    (hlen : a.length = a1.length) (hf : g.File = some f) (hfa : f.data = a)
    (hall : ∀ d, g.dirRecords[dr]? = some d →
      ∀ e ∈ d.Entries, AgreeRecord a a1 g.Header.Version e.Offset) :
    SwapRel a1 (GetChildren dr) g := by
  unfold GetChildren
  refine swapRel_bind_eq (swapEq_of_fileFree (fileFree_getDir dr) _ _) fun d g1 h1 => ?_
  obtain ⟨hg1, hd⟩ := getDir_inv h1
  subst hg1
  split
  · exact swapRel_of_eq (swapEq_of_fileFree (fileFree_pure _) _ _)
  · refine swapRel_bind_eq (swapEq_of_fileFree (fileFree_modifyDir _ _) _ _)
      fun _ g2 h2 => ?_
    obtain ⟨d0, hd0, hg2⟩ := modifyDir_ok h2
    subst hg2
    refine swapRel_bind
      (swapRel_resolveEntries dr hlen d.Entries 0 _ f hf hfa (hall d hd))
      (fun _ => ?_)
      fun _ g3 _ => swapRel_of_eq (swapEq_of_fileFree
        (fileFree_bind (fileFree_modifyDir _ _) fun _ =>
          fileFree_bind (fileFree_getDir _) fun _ => fileFree_pure _) _ _)
    refine indep_bind_eq (indep_modifyDir dr _ _ fun r r1 hr => ?_) fun _ => ?_
    · obtain ⟨k1, k2, k3, k4, k5, k6, k7, k8, k9⟩ := eraseNameHash_fields hr
      apply eraseNameHash_of_fields
      exact ⟨k1, k2, k3, k4, k5, k6, k7, k8, rfl⟩
    · refine indep_bind (indep_getDir dr) fun r r1 hr => ?_
      obtain ⟨k1, k2, k3, k4, k5, k6, k7, k8, k9⟩ := eraseNameHash_fields hr
      rw [k8]
      exact indep_pure rfl

theorem swapRel_wrapErr {α β : Type} {a1 : List UInt8} {m : M α} {args : M β}
    {g : GGPKFile} (hm : SwapRel a1 m g) (ha : FileFree args) (hi : Indep Eq args args) :
    SwapRel a1 (wrapErr m args) g := by
  unfold SwapRel at hm ⊢
  obtain ⟨hr, hs⟩ := hm
  unfold wrapErr
  rcases hrun : m g with ⟨r, g2⟩
  rcases hrun1 : m (swapData a1 g) with ⟨r1, s1⟩
  rw [hrun, hrun1] at hr hs
  simp only at hr hs
  subst hr
  cases r1 with
  | ok x => exact ⟨rfl, hs⟩
  | crash => exact ⟨rfl, hs⟩
  | err e =>
    simp only
    have e1 := swapEq_of_fileFree ha a1 g2
    obtain ⟨e3, e4⟩ := indep_apply_eq hi hs
    unfold SwapEq at e1
    rw [e1] at e3 e4
    simp only at e3 e4
    rcases hag : args g2 with ⟨q, g4⟩
    rcases hag1 : args s1 with ⟨q1, g5⟩
    rw [hag] at e3 e4
    rw [hag1] at e3 e4
    simp only at e3 e4
    subst e3
    cases q1 <;> exact ⟨rfl, e4⟩

theorem swapRel_FindChildByName {a a1 : List UInt8} {g : GGPKFile} {f : OSFile}
    (dr : Option Nat) (name : GoString)
    (hlen : a.length = a1.length) (hf : g.File = some f) (hfa : f.data = a)
    (hall : ∀ p d, dr = some p → g.dirRecords[p]? = some d →
      ∀ e ∈ d.Entries, AgreeRecord a a1 g.Header.Version e.Offset) :
    SwapRel a1 (FindChildByName dr name) g := by
  unfold FindChildByName
  cases dr with
  | none => exact swapRel_of_eq (swapEq_of_fileFree (fileFree_fail _) _ _)
  | some p =>
    simp only
    refine swapRel_bind
      (swapRel_wrapErr (swapRel_GetChildren p hlen hf hfa fun d hd => hall p d rfl hd)
        (fileFree_GetPath _) (indep_DirectoryRecord_GetPath _))
      (fun cs => ?_) fun cs g2 _ => swapRel_of_eq (swapEq_of_fileFree ?_ _ _)
    · refine indep_bind_eq (indep_scanChildren name cs) fun found => ?_
      cases found with
      | some c => exact indep_pure rfl
      | none =>
        exact indep_bind_eq (indep_DirectoryRecord_GetPath (some p)) fun _ => indep_fail _
    · refine fileFree_bind (fileFree_scanChildren name cs) fun found => ?_
      cases found with
      | some c => exact fileFree_pure _
      | none => exact fileFree_bind (fileFree_GetPath _) fun _ => fileFree_fail _

theorem agreeEntries_of_stable {a a1 : List UInt8} {v : Nat} {g g1 : GGPKFile}
    (hs : Stable g g1) (h : AgreeEntries a a1 v g1) : AgreeEntries a a1 v g := by
  intro p d hd e he
  obtain ⟨r1, hr1, _, _, hen⟩ := hs.dirRecords p d hd
  exact h p r1 hr1 e (by rw [hen]; exact he)

theorem swapRel_walkParts {a a1 : List UInt8} (v : Nat) (hlen : a.length = a1.length) :
    ∀ (parts : List GoString) (cur : TreeNode) (g : GGPKFile) (f : OSFile),
      g.File = some f → f.data = a → g.Header.Version = v →
      AgreeEntries a a1 v (walkParts cur parts g).2 →
      SwapRel a1 (walkParts cur parts) g := by
  intro parts
  induction parts with
  | nil =>
    intro cur g f _ _ _ _
    exact swapRel_of_eq (swapEq_of_fileFree (fileFree_pure _) _ _)
  | cons part rest ih =>
    intro cur g f hf hfa hv hall
    have hg : AgreeEntries a a1 v g :=
      agreeEntries_of_stable (stable_walkParts (part :: rest) cur g) hall
    unfold walkParts at hall ⊢
    by_cases hp : part = []
    · simp only [hp, if_true] at hall ⊢
      exact ih cur g f hf hfa hv hall
    · simp only [hp, if_false] at hall ⊢
      cases cur with
      | nil => exact swapRel_of_eq (swapEq_of_fileFree (fileFree_fail _) _ _)
      | file p => exact swapRel_of_eq (swapEq_of_fileFree (fileFree_fail _) _ _)
      | dir q =>
        simp only at hall ⊢
        refine swapRel_bind
          (swapRel_wrapErr
            (swapRel_FindChildByName q part hlen hf hfa fun p d _ hd e he => by
              rw [hv]
              exact hg p d hd e he)
            (fileFree_GetPath _) (indep_DirectoryRecord_GetPath _))
          (fun c => indep_walkParts rest c) fun c g2 h => ?_
        have hs : SameSource g g2 :=
          keeps_of_eq (sameSource_wrapErr (sameSource_FindChildByName _ _)
            (sameSource_of_state (DirectoryRecord_GetPath_state _))) h
        obtain ⟨f2, hf2, hfa2⟩ := file_of_data hs.1 hf hfa
        refine ih c g2 f2 hf2 hfa2 (by rw [hs.2]; exact hv) ?_
        rw [bind_apply, h] at hall
        exact hall

theorem swapRel_GetNodeByPath {a a1 : List UInt8} {g : GGPKFile} {f : OSFile}
    (path : GoString)
    (hlen : a.length = a1.length) (hf : g.File = some f) (hfa : f.data = a)
    (hall : AgreeEntries a a1 g.Header.Version (GetNodeByPath path g).2) :
    SwapRel a1 (GetNodeByPath path) g := by
  have h := swapRel_walkParts g.Header.Version hlen (stringsSplit (stringsTrim path))
    (TreeNode.dir g.Root) g f hf hfa rfl (by rw [← GetNodeByPath_eq_walk]; exact hall)
  unfold SwapRel at h ⊢
  rw [GetNodeByPath_eq_walk, GetNodeByPath_eq_walk]
  exact h

theorem obliv_setRoot (r : Nat) : Obliv (setRoot r) := fun _ _ => rfl

theorem swapRel_getState_bind {α : Type} {a1 : List UInt8} {k : GGPKFile → M α}
    {g : GGPKFile} (hk : k (swapData a1 g) = k g) (h : SwapRel a1 (k g) g) :
    SwapRel a1 (getState >>= k) g := by
  unfold SwapRel at h ⊢
  rw [bind_apply, bind_apply]
  show (k (swapData a1 g) (swapData a1 g)).1 = (k g g).1 ∧
    HashEq (swapData a1 (k g g).2) (k (swapData a1 g) (swapData a1 g)).2
  rw [hk]
  exact h

/-- The header that a successful `Open` stores is the record parsed at offset 0; the
byte source is kept. -/
theorem openBody_header {g g0 : GGPKFile} (h : openBody g = (Res.ok (), g0)) :
    ∃ hdr g1 h0, parseGGPKRecordBody 0 g = (Res.ok hdr, g1) ∧
      g1.ggpkRecords[hdr]? = some h0 ∧ g0.Header = h0 ∧
      g0.File.map (·.data) = g.File.map (·.data) := by
  unfold openBody at h
  obtain ⟨header, g1, h1, h⟩ := bind_eq_ok.mp h
  obtain ⟨gx, gy, hg, h⟩ := bind_eq_ok.mp h
  cases hg
  have grow1 := keeps_of_eq (grow_parseGGPKRecordBody 0) h1
  cases hh : g1.ggpkRecords[header]? with
  | none => rw [hh] at h; cases h
  | some hdr =>
    rw [hh] at h
    simp only at h
    obtain ⟨u1, ga, hset, h⟩ := bind_eq_ok.mp h
    obtain ⟨u2, gb, hstore, h⟩ := bind_eq_ok.mp h
    unfold setHeader at hset
    cases hset
    unfold cacheStore at hstore
    cases hstore
    split at h
    · cases h
    · obtain ⟨root, g3, hroot, h⟩ := bind_eq_ok.mp h
      unfold setRoot at h
      cases h
      have hs := keeps_of_eq (sameSource_ReadDirectoryRecordAt _ _ _) hroot
      exact ⟨header, g1, hdr, h1, hh, hs.2, hs.1.trans grow1.data⟩

theorem swapRel_openBody {a a1 : List UInt8} {g : GGPKFile} {f : OSFile}
    (hlen : a.length = a1.length) (hf : g.File = some f) (hfa : f.data = a)
    (hhead : Agree a a1 0 28)
    (hroot : ∀ hdr g1 h0, parseGGPKRecordBody 0 g = (Res.ok hdr, g1) →
      g1.ggpkRecords[hdr]? = some h0 → AgreeRecord a a1 h0.Version h0.RootDirectoryOffset) :
    SwapRel a1 openBody g := by
  unfold openBody
  refine swapRel_bind_eq (swapEq_parseGGPKRecordBody 0 hlen hf hfa fun _ => hhead)
    fun header g1 h1 => ?_
  have grow1 := keeps_of_eq (grow_parseGGPKRecordBody 0) h1
  obtain ⟨f1, hf1, hfa1⟩ := file_of_data grow1.data hf hfa
  refine swapRel_getState_bind rfl ?_
  beta_reduce
  cases hh : g1.ggpkRecords[header]? with
  | none => exact swapRel_of_eq (swapEq_of_fileFree fileFree_crash _ _)
  | some h0 =>
    simp only
    refine swapRel_bind_eq (swapEq_of_fileFree (fileFree_setHeader h0) _ _)
      fun _ g2 h2 => ?_
    unfold setHeader at h2
    cases h2
    refine swapRel_bind_eq (swapEq_of_fileFree (fileFree_cacheStore _ _) _ _)
      fun _ g3 h3 => ?_
    unfold cacheStore at h3
    cases h3
    split
    · exact swapRel_of_eq (swapEq_of_fileFree (fileFree_fail _) _ _)
    · exact swapRel_bind
        (swapRel_ReadDirectoryRecordAt h0.RootDirectoryOffset none [] hlen hf1 hfa1
          (hroot header g1 h0 h1 hh))
        (fun r => obliv_indep (obliv_setRoot r))
        fun r g4 _ => swapRel_of_eq (swapEq_of_fileFree (fileFree_setRoot r) _ _)

end GGPK

